import Mathlib

/-! Edmonds' blossom algorithm (`blossom.cpp`): shallow embedding.

The C++ class `Matching` is embedded as explicit state passing over the record
`Matching` below.  Conventions of the embedding:

* `Vertex` is `int`; it is modelled by `Int`, the sentinel `-1` included.  Arithmetic on
  `int` is modelled without overflow: the only counters are `m_clearToken`, which counts
  the searches, and `m_depth`, which during construction is at most twice the number of
  vertices.
* Every `std::vector` is a `List`; an index outside `[0, size)` is undefined behaviour
  in the source and is the error `Err.range` here.  A failed `assert` is `Err.assertion`.
* Every `while` loop and every recursion of the source takes a `fuel : Nat`; running out
  of it is the error `Err.fuel`.  A result `Except.ok _` therefore means: the source runs
  to completion on this input, without undefined behaviour, and produces this result.
* `Node()` leaves the fields `m_depth`, `m_parent`, `m_blossom` uninitialised.  The values
  they hold when the constructor starts are a parameter `junk` of the embedding, and every
  statement about the constructor holds for every `junk`.
* `m_graph` is a `const&` member: the graph is passed as a separate argument.
-/

namespace Blossom

abbrev Vertex := Int

abbrev Path := List Vertex

/-- Errors of the embedding: exhausted fuel, out-of-range vector index, failed `assert`. -/
inductive Err where
  | fuel
  | range
  | assertion
  deriving DecidableEq

/-- The struct `Graph`: adjacency lists. -/
structure Graph where
  m_adjacencyList : List (List Vertex)
  deriving DecidableEq

/-- The method `Graph::numVertices`. -/
def Graph.numVertices (g : Graph) : Int := g.m_adjacencyList.length

/-- The struct `Matching::Node`. -/
structure Node where
  m_depth : Int
  m_parent : Vertex
  m_blossom : Vertex
  m_clearToken : Int
  deriving DecidableEq

/-- The data members of class `Matching` (without the reference `m_graph`). -/
structure Matching where
  m_clearToken : Int
  m_queue : List Vertex
  m_matchedVertex : List Vertex
  m_tree : List Node
  m_bridges : List (Vertex × Vertex)
  deriving DecidableEq

/-- Read `vec[i]`. -/
def vget {α : Type} (l : List α) (i : Int) : Except Err α :=
  if 0 ≤ i then
    match l.get? i.toNat with
    | some a => .ok a
    | none => .error .range
  else .error .range

/-- Write `vec[i] = a`. -/
def vset {α : Type} (l : List α) (i : Int) (a : α) : Except Err (List α) :=
  if 0 ≤ i ∧ i.toNat < l.length then .ok (l.set i.toNat a) else .error .range

/-- The method `Matching::getMatchedVertex`. -/
def Matching.getMatchedVertex (m : Matching) (v : Vertex) : Except Err Vertex :=
  vget m.m_matchedVertex v

/-- The method `Matching::match`. -/
def Matching.match_ (m : Matching) (v w : Vertex) : Except Err Matching := do
  let mv1 ← vset m.m_matchedVertex v w
  let mv2 ← vset mv1 w v
  return { m with m_matchedVertex := mv2 }

/-- The method `Matching::augment`: the loop `for (i = 0; i < path.size(); i += 2)`
    consumes the path two elements at a time; a path of odd length reads `path[size]`. -/
def Matching.augment : Path → Matching → Except Err Matching
  | [], m => .ok m
  | [_], _ => .error .range
  | a :: b :: rest, m => do
    let m1 ← m.match_ a b
    Matching.augment rest m1

/-- The method `Matching::find`, with its path compression. -/
def Matching.find : Nat → Matching → Int → Except Err (Int × Matching)
  | 0, _, _ => .error .fuel
  | fuel + 1, m, x => do
    let nx ← vget m.m_tree x
    if nx.m_clearToken ≠ m.m_clearToken then
      return (x, m)
    else if x ≠ nx.m_blossom then
      let (r, m1) ← Matching.find fuel m nx.m_blossom
      let n1 ← vget m1.m_tree x
      let t2 ← vset m1.m_tree x { n1 with m_blossom := r }
      let m2 := { m1 with m_tree := t2 }
      let n2 ← vget m2.m_tree x
      return (n2.m_blossom, m2)
    else
      return (nx.m_blossom, m)

/-- The method `Matching::makeUnion`. -/
def Matching.makeUnion (fuel : Nat) (m : Matching) (x y : Int) : Except Err Matching := do
  let (xRoot, m1) ← Matching.find fuel m x
  let (yRoot, m2) ← Matching.find fuel m1 y
  let n ← vget m2.m_tree xRoot
  let t ← vset m2.m_tree xRoot { n with m_blossom := yRoot }
  return { m2 with m_tree := t }

/-- The method `Matching::makeRepresentative`. -/
def Matching.makeRepresentative (fuel : Nat) (m : Matching) (x : Int) : Except Err Matching := do
  let (xRoot, m1) ← Matching.find fuel m x
  let n ← vget m1.m_tree xRoot
  let t1 ← vset m1.m_tree xRoot { n with m_blossom := x }
  let n' ← vget t1 x
  let t2 ← vset t1 x { n' with m_blossom := x }
  return { m1 with m_tree := t2 }

/-- The method `Matching::findPath`; `path` is the vector passed by reference, the result is
    its final content. -/
def Matching.findPath : Nat → Matching → Vertex → Vertex → Path → Except Err Path
  | 0, _, _, _, _ => .error .fuel
  | fuel + 1, m, s, t, path =>
    if s = t then
      .ok (path ++ [s])
    else do
      let ns ← vget m.m_tree s
      if ns.m_depth % 2 = 0 then
        let path1 := path ++ [s]
        let ms ← vget m.m_matchedVertex s
        let path2 := path1 ++ [ms]
        let ms' ← vget m.m_matchedVertex s
        let nms ← vget m.m_tree ms'
        Matching.findPath fuel m nms.m_parent t path2
      else
        let (v, w) ← vget m.m_bridges s
        let path1 := path ++ [s]
        let offset := path1.length
        let ms ← vget m.m_matchedVertex s
        let path2 ← Matching.findPath fuel m v ms path1
        let path3 := path2.take offset ++ (path2.drop offset).reverse
        Matching.findPath fuel m w t path3

/-- The method `Matching::buildAugmentingPath`. -/
def Matching.buildAugmentingPath (fuel : Nat) (m : Matching) (root v w : Vertex) (path : Path) :
    Except Err Path :=
  Matching.findPath fuel m v root (path ++ [w])

/-- The method `Matching::extendTree`. -/
def Matching.extendTree (m : Matching) (v w : Vertex) : Except Err Matching := do
  let u ← vget m.m_matchedVertex w
  let nodeV ← vget m.m_tree v
  let nodeW ← vget m.m_tree w
  let _ ← vget m.m_tree u
  let dW := nodeV.m_depth + 1 + (nodeV.m_depth % 2)
  let t1 ← vset m.m_tree w
    { nodeW with m_depth := dW, m_parent := v, m_clearToken := m.m_clearToken, m_blossom := w }
  let nodeW' ← vget t1 w
  let nodeU ← vget t1 u
  let t2 ← vset t1 u
    { nodeU with m_depth := nodeW'.m_depth + 1, m_parent := w,
                 m_clearToken := m.m_clearToken, m_blossom := u }
  return { m with m_tree := t2, m_queue := m.m_queue ++ [u] }

/-- The method `Matching::findCommonAncestor`. -/
def Matching.findCommonAncestor : Nat → Matching → Vertex → Vertex → Except Err (Vertex × Matching)
  | 0, _, _, _ => .error .fuel
  | fuel + 1, m, v, w =>
    if w ≠ v then do
      let nv ← vget m.m_tree v
      let nw ← vget m.m_tree w
      if nv.m_depth > nw.m_depth then
        Matching.findCommonAncestor fuel m nv.m_parent w
      else
        Matching.findCommonAncestor fuel m v nw.m_parent
    else
      Matching.find (fuel + 1) m v

/-- The loop of `Matching::shrinkPath`, entered with the current value of `u`. -/
def Matching.shrinkPathLoop : Nat → Matching → Vertex → Vertex → Vertex → Vertex →
    Except Err Matching
  | 0, _, _, _, _, _ => .error .fuel
  | fuel + 1, m, b, v, w, u =>
    if u ≠ b then do
      let m1 ← Matching.makeUnion (fuel + 1) m b u
      if u = -1 then
        .error .assertion
      else do
        let mu ← vget m1.m_matchedVertex u
        if mu = -1 then
          .error .assertion
        else do
          let u1 ← vget m1.m_matchedVertex u
          let m2 ← Matching.makeUnion (fuel + 1) m1 b u1
          let m3 ← Matching.makeRepresentative (fuel + 1) m2 b
          let m4 := { m3 with m_queue := m3.m_queue ++ [u1] }
          let br ← vset m4.m_bridges u1 (v, w)
          let m5 := { m4 with m_bridges := br }
          let nu ← vget m5.m_tree u1
          let (u2, m6) ← Matching.find (fuel + 1) m5 nu.m_parent
          Matching.shrinkPathLoop fuel m6 b v w u2
    else
      .ok m

/-- The method `Matching::shrinkPath`. -/
def Matching.shrinkPath (fuel : Nat) (m : Matching) (b v w : Vertex) : Except Err Matching := do
  let (u, m1) ← Matching.find fuel m v
  Matching.shrinkPathLoop fuel m1 b v w u

/-- The method `Matching::shrinkBlossom`. -/
def Matching.shrinkBlossom (fuel : Nat) (m : Matching) (v w : Vertex) : Except Err Matching := do
  let (b, m1) ← Matching.findCommonAncestor fuel m v w
  let m2 ← Matching.shrinkPath fuel m1 b v w
  Matching.shrinkPath fuel m2 b w v

/-- The method `Matching::examineEdge`; returns the result, the vector `path` and the state. -/
def Matching.examineEdge (fuel : Nat) (m : Matching) (root v w : Vertex) (path : Path) :
    Except Err (Bool × Path × Matching) := do
  let (vBar, m1) ← Matching.find fuel m v
  let (wBar, m2) ← Matching.find fuel m1 w
  if vBar ≠ wBar then
    let nwBar ← vget m2.m_tree wBar
    if nwBar.m_clearToken ≠ m2.m_clearToken then
      let mw ← vget m2.m_matchedVertex w
      if mw = -1 then
        let path1 ← Matching.buildAugmentingPath fuel m2 root v w path
        return (true, path1, m2)
      else
        let m3 ← Matching.extendTree m2 v w
        return (false, path, m3)
    else if nwBar.m_depth % 2 = 0 then
      let m3 ← Matching.shrinkBlossom fuel m2 v w
      return (false, path, m3)
    else
      return (false, path, m2)
  else
    return (false, path, m2)

/-- The loop `while (!m_queue.empty()) m_queue.pop();`. -/
def drainQueue : List Vertex → List Vertex
  | [] => []
  | _ :: q => drainQueue q

/-- The loop `for (auto w : m_graph.m_adjacencyList[v])` of `findAugmentingPath`, over the
    remaining neighbours. -/
def Matching.examineEdges (fuel : Nat) (root v : Vertex) :
    List Vertex → Matching → Path → Except Err (Bool × Path × Matching)
  | [], m, path => .ok (false, path, m)
  | w :: ws, m, path => do
    let (found, path1, m1) ← Matching.examineEdge fuel m root v w path
    if found then
      return (true, path1, { m1 with m_queue := drainQueue m1.m_queue })
    else
      Matching.examineEdges fuel root v ws m1 path1

/-- The loop `while (!m_queue.empty())` of `findAugmentingPath`. -/
def Matching.searchLoop (g : Graph) (root : Vertex) :
    Nat → Matching → Path → Except Err (Bool × Path × Matching)
  | 0, _, _ => .error .fuel
  | fuel + 1, m, path =>
    match m.m_queue with
    | [] => .ok (false, path, m)
    | v :: q => do
      let m1 := { m with m_queue := q }
      let adj ← vget g.m_adjacencyList v
      let (found, path1, m2) ← Matching.examineEdges (fuel + 1) root v adj m1 path
      if found then
        return (true, path1, m2)
      else
        Matching.searchLoop g root fuel m2 path1

/-- The method `Matching::findAugmentingPath`. -/
def Matching.findAugmentingPath (fuel : Nat) (g : Graph) (m : Matching) (root : Vertex)
    (path : Path) : Except Err (Bool × Path × Matching) := do
  let m1 := { m with m_clearToken := m.m_clearToken + 1 }
  let n ← vget m1.m_tree root
  let t ← vset m1.m_tree root
    { n with m_depth := 0, m_parent := -1, m_clearToken := m1.m_clearToken, m_blossom := root }
  let m2 := { m1 with m_tree := t, m_queue := m1.m_queue ++ [root] }
  Matching.searchLoop g root fuel m2 path

/-- The inner loop `for (auto w : m_graph.m_adjacencyList[v])` of the greedy pass; the
    Boolean is the variable `found`. -/
def Matching.greedyScan (v : Vertex) : List Vertex → Matching → Except Err (Bool × Matching)
  | [], m => .ok (false, m)
  | w :: ws, m => do
    let mw ← vget m.m_matchedVertex w
    if mw = -1 then
      let m1 ← m.match_ v w
      return (true, m1)
    else
      Matching.greedyScan v ws m

/-- The outer loop `for (Vertex v = 0; v < numVertices; ++v)` of the greedy pass, over the
    remaining vertex ids; the list is `unmatchedVertices`. -/
def Matching.greedyLoop (g : Graph) :
    List Vertex → List Vertex → Matching → Except Err (List Vertex × Matching)
  | [], unmatchedVertices, m => .ok (unmatchedVertices, m)
  | v :: vs, unmatchedVertices, m => do
    let mv ← vget m.m_matchedVertex v
    if mv = -1 then
      let adj ← vget g.m_adjacencyList v
      let (found, m1) ← Matching.greedyScan v adj m
      if !found then
        Matching.greedyLoop g vs (unmatchedVertices ++ [v]) m1
      else
        Matching.greedyLoop g vs unmatchedVertices m1
    else
      Matching.greedyLoop g vs unmatchedVertices m

/-- The loop `for (auto v : unmatchedVertices)` of the constructor. -/
def Matching.mainLoop (fuel : Nat) (g : Graph) :
    List Vertex → Path → Matching → Except Err (Path × Matching)
  | [], path, m => .ok (path, m)
  | v :: vs, path, m => do
    let mv ← vget m.m_matchedVertex v
    if mv = -1 then
      let (found, path1, m1) ← Matching.findAugmentingPath fuel g m v path
      if found then
        let m2 ← Matching.augment path1 m1
        Matching.mainLoop fuel g vs [] m2
      else
        Matching.mainLoop fuel g vs path1 m1
    else
      Matching.mainLoop fuel g vs path m

/-- The member initialisers of the constructor.  `Node()` sets `m_clearToken` only: the other
    fields of the node `i` keep the values `junk i` that the memory happens to hold. -/
def Matching.init (g : Graph) (junk : Nat → Node) : Matching :=
  { m_clearToken := 0
    m_queue := []
    m_matchedVertex := List.replicate g.m_adjacencyList.length (-1)
    m_tree := (List.range g.m_adjacencyList.length).map fun i =>
      { junk i with m_clearToken := 0 }
    m_bridges := List.replicate g.m_adjacencyList.length (0, 0) }

/-- The vertex ids `0, 1, ..., numVertices - 1` in the order the greedy pass visits them. -/
def Graph.vertices (g : Graph) : List Vertex :=
  (List.range g.m_adjacencyList.length).map Int.ofNat

/-- The greedy pass of the constructor: the worklist and the state after it. -/
def Matching.greedy (g : Graph) (junk : Nat → Node) : Except Err (List Vertex × Matching) :=
  Matching.greedyLoop g g.vertices [] (Matching.init g junk)

/-- The constructor `Matching::Matching`. -/
def Matching.construct (fuel : Nat) (g : Graph) (junk : Nat → Node) : Except Err Matching := do
  let (unmatchedVertices, m) ← Matching.greedy g junk
  let (_, m1) ← Matching.mainLoop fuel g unmatchedVertices [] m
  return m1

end Blossom

namespace Blossom

/-! ## Specification vocabulary: graphs, matchings, augmenting paths -/

deriving instance DecidableEq for Except

/-- `InR n x`: the vertex id `x` lies in `[0, n)`. -/
def InR (n : Nat) (x : Int) : Prop := 0 ≤ x ∧ x < (n : Int)

instance (n : Nat) (x : Int) : Decidable (InR n x) := by unfold InR; infer_instance

/-- `g.Adj v w`: `w` occurs in `adjacency[v]`. -/
def Graph.Adj (g : Graph) (v w : Vertex) : Prop :=
  0 ≤ v ∧ w ∈ g.m_adjacencyList.getD v.toNat []

instance (g : Graph) (v w : Vertex) : Decidable (g.Adj v w) := by unfold Graph.Adj; infer_instance

/-- A valid input graph: every adjacency entry is a vertex id, adjacency is symmetric, and
    there is no self-loop. -/
structure Graph.Valid (g : Graph) : Prop where
  inRange : ∀ v w, g.Adj v w → InR g.m_adjacencyList.length w
  symm : ∀ v w, g.Adj v w → g.Adj w v
  noLoop : ∀ v, ¬ g.Adj v v

/-- The partner of `v` as a total function: `m_matchedVertex[v]`, and `-1` outside the vector. -/
def Matching.partner (m : Matching) (v : Vertex) : Vertex :=
  if 0 ≤ v then m.m_matchedVertex.getD v.toNat (-1) else -1

/-- The vertices `v` with `getMatchedVertex(v) = -1`, in increasing order. -/
def Matching.exposed (m : Matching) : List Vertex :=
  ((List.range m.m_matchedVertex.length).map Int.ofNat).filter fun v => m.partner v = -1

/-- The matched pairs `(v, w)`, `v < w`, of the partner map. -/
def Matching.pairs (m : Matching) : List (Vertex × Vertex) :=
  (((List.range m.m_matchedVertex.length).map Int.ofNat).filter
    fun v => v < m.partner v).map fun v => (v, m.partner v)

/-- The number of matched pairs. -/
def Matching.numMatchedPairs (m : Matching) : Nat := m.pairs.length

/-- The partner map is a matching of `g`: partners are vertices, mutual, distinct from the
    vertex itself, and adjacent to it. -/
def Matching.IsMatchingOf (m : Matching) (g : Graph) : Prop :=
  m.m_matchedVertex.length = g.m_adjacencyList.length ∧
  ∀ v, InR g.m_adjacencyList.length v → m.partner v ≠ -1 →
    InR g.m_adjacencyList.length (m.partner v) ∧ m.partner (m.partner v) = v ∧
    m.partner v ≠ v ∧ g.Adj v (m.partner v)

/-- The endpoints of a list of edges. -/
def endpoints (es : List (Vertex × Vertex)) : List Vertex :=
  es.flatMap fun e => [e.1, e.2]

/-- A list of edges of `g` that are pairwise vertex-disjoint. -/
def Graph.IsDisjointEdgeSet (g : Graph) (es : List (Vertex × Vertex)) : Prop :=
  (∀ e ∈ es, InR g.m_adjacencyList.length e.1 ∧ g.Adj e.1 e.2) ∧ (endpoints es).Nodup

instance (g : Graph) (es : List (Vertex × Vertex)) : Decidable (g.IsDisjointEdgeSet es) := by
  unfold Graph.IsDisjointEdgeSet; infer_instance

/-- Consecutive elements of the list are related alternately by `R` and by `S`, starting
    with `R`. -/
def AltChain (R S : Vertex → Vertex → Prop) : List Vertex → Prop
  | a :: b :: rest => R a b ∧ AltChain S R (b :: rest)
  | _ => True

/-- An augmenting path for the partner map `pt` in `g`: a simple path with at least two
    vertices whose two ends are exposed and whose edges are alternately unmatched and
    matched, starting with an unmatched one. -/
structure IsAugPath (g : Graph) (n : Nat) (pt : Vertex → Vertex) (p : Path) : Prop where
  length_pos : 2 ≤ p.length
  nodup : p.Nodup
  inRange : ∀ x ∈ p, InR n x
  head_exposed : ∀ x, p.head? = some x → pt x = -1
  last_exposed : ∀ x, p.getLast? = some x → pt x = -1
  alt : AltChain (fun a b => g.Adj a b ∧ pt a ≠ b) (fun a b => g.Adj a b ∧ pt a = b) p

/-- An augmenting path of the matching stored in `m`. -/
def Matching.IsAugmentingPath (m : Matching) (g : Graph) (p : Path) : Prop :=
  IsAugPath g g.m_adjacencyList.length m.partner p

/-- The 28-vertex graph built in `main`. -/
def sampleGraph : Graph :=
  ⟨[[1], [0, 2], [1, 3, 8], [2, 4], [3, 5, 9], [4, 6], [5, 7], [6, 8], [2, 7, 27], [4, 10, 11],
    [9], [9, 12, 13], [11, 13], [11, 12, 14], [13, 15], [14, 16, 18], [15, 17], [16, 21],
    [15, 19], [18, 20], [19, 21], [17, 20, 22], [21, 23, 26], [22, 24], [23, 25], [24, 26],
    [22, 25, 27], [8, 26]]⟩

/-- The 5-cycle `0-1-2-3-4-0` in one neighbour order. -/
def cycle5 : Graph := ⟨[[1, 4], [0, 2], [1, 3], [2, 4], [3, 0]]⟩

/-- The triangle `0-1, 1-2, 2-0` in one neighbour order. -/
def triangle : Graph := ⟨[[1, 2], [0, 2], [1, 0]]⟩

/-- `SameNeighbours g h`: the same adjacency lists up to the order inside each list. -/
def SameNeighbours (g h : Graph) : Prop :=
  List.Forall₂ List.Perm g.m_adjacencyList h.m_adjacencyList

/-- The matched pairs are mutual and are edges of the graph (a decidable check). -/
def pairsOk (g : Graph) (m : Matching) : Bool :=
  m.pairs.all fun e => decide (g.Adj e.1 e.2 ∧ m.partner e.2 = e.1)

/-- A decidable validity check for concrete graphs. -/
def Graph.validB (g : Graph) : Bool :=
  (List.range g.m_adjacencyList.length).all fun i =>
    (g.m_adjacencyList.getD i []).all fun w =>
      decide (InR g.m_adjacencyList.length w) && decide (g.Adj w (i : Int)) && decide (w ≠ (i : Int))

end Blossom

namespace Blossom

/-! ## Total accessors for the vectors of the state -/

/-- The value `vec[x]`, and `d` outside the vector. -/
def lget {α : Type} (l : List α) (d : α) (x : Int) : α :=
  if 0 ≤ x then l.getD x.toNat d else d

/-- The vector after `vec[x] = a`. -/
def lset {α : Type} (l : List α) (x : Int) (a : α) : List α := l.set x.toNat a

/-- The node `m_tree[x]`. -/
def Matching.nodeAt (m : Matching) (x : Int) : Node := lget m.m_tree ⟨0, 0, 0, 0⟩ x

/-- The field `m_tree[x].m_depth`. -/
def Matching.depth (m : Matching) (x : Int) : Int := (m.nodeAt x).m_depth

/-- The field `m_tree[x].m_parent`. -/
def Matching.parent (m : Matching) (x : Int) : Int := (m.nodeAt x).m_parent

/-- The field `m_tree[x].m_blossom`. -/
def Matching.blossom (m : Matching) (x : Int) : Int := (m.nodeAt x).m_blossom

/-- The field `m_tree[x].m_clearToken`. -/
def Matching.token (m : Matching) (x : Int) : Int := (m.nodeAt x).m_clearToken

/-- The pair `m_bridges[x]`. -/
def Matching.bridge (m : Matching) (x : Int) : Int × Int := lget m.m_bridges (0, 0) x

/-- All three vectors of the state have `n` elements. -/
structure Matching.Sized (m : Matching) (n : Nat) : Prop where
  mv : m.m_matchedVertex.length = n
  tree : m.m_tree.length = n
  br : m.m_bridges.length = n

end Blossom

namespace Blossom

/-! ## Matchings as partner maps -/

/-- `p` is the partner map of a matching of `g` on the vertices `[0, n)`: a partner is a
    vertex, the relation is mutual, and partners are adjacent. -/
structure IsPartnerMap (g : Graph) (n : Nat) (p : Vertex → Vertex) : Prop where
  inR : ∀ v, InR n v → p v ≠ -1 → InR n (p v)
  symm : ∀ v, InR n v → p v ≠ -1 → p (p v) = v
  adj : ∀ v, InR n v → p v ≠ -1 → g.Adj v (p v)

/-- The vertex paired with `x` when the path is cut into the consecutive pairs
    `(path[0], path[1]), (path[2], path[3]), ...`. -/
def pairedIn : Path → Vertex → Option Vertex
  | a :: b :: rest, x => if x = b then some a else if x = a then some b else pairedIn rest x
  | _, _ => none

/-! ## The search state seen through its fields -/

/-- The fields of the state that describe the tree of the search: the token, the per-vertex
    token, depth and parent, and the partner map.  (The union-find pointers `m_blossom`, the
    bridges and the queue are kept apart.) -/
structure View where
  c : Int
  token : Int → Int
  depth : Int → Int
  parent : Int → Int
  partner : Int → Int

/-- The view of a state. -/
def Matching.view (m : Matching) : View :=
  { c := m.m_clearToken
    token := m.token
    depth := m.depth
    parent := m.parent
    partner := m.partner }

/-- `x` belongs to the tree of the current search: it carries the current token. -/
def View.InTree (V : View) (n : Nat) (x : Int) : Prop := InR n x ∧ V.token x = V.c

/-- `x` is an outer vertex for the representative map `ρ`: it is in the tree and its
    representative has even depth. -/
def View.Outer (V : View) (n : Nat) (ρ : Int → Int) (x : Int) : Prop :=
  V.InTree n x ∧ V.depth (ρ x) % 2 = 0

/-- `Anc V n root x t`: `t` is reached from `x` by following parent pointers inside the
    tree (`t = x` included). -/
inductive Anc (V : View) (n : Nat) (root : Int) : Int → Int → Prop
  | refl {x : Int} : V.InTree n x → Anc V n root x x
  | step {x t : Int} : V.InTree n x → x ≠ root → Anc V n root (V.parent x) t → Anc V n root x t

/-- The union-find structure stored in `m_blossom`: `Rep m n x r` holds when following the
    pointers from `x`, as `find` does, ends in `r`. -/
inductive Rep (m : Matching) (n : Nat) : Int → Int → Prop
  | stale {x : Int} : InR n x → m.token x ≠ m.m_clearToken → Rep m n x x
  | root {x : Int} : InR n x → m.token x = m.m_clearToken → m.blossom x = x → Rep m n x x
  | step {x r : Int} : InR n x → m.token x = m.m_clearToken → m.blossom x ≠ x →
      Rep m n (m.blossom x) r → Rep m n x r

/-- The computation of `findPath(s, t)` as a relation: `PathRel V n br Q s t p` holds when
    the recursion appends `p`; `br` are the bridges and `Q` holds of the vertices whose bridge
    is read. -/
inductive PathRel (V : View) (n : Nat) (br : Int → Int × Int) (Q : Int → Prop) :
    Int → Int → List Int → Prop
  | done {s : Int} : PathRel V n br Q s s [s]
  | even {s t y : Int} {p : List Int} : s ≠ t → InR n s → V.depth s % 2 = 0 →
      InR n (V.partner s) → V.parent (V.partner s) = y → PathRel V n br Q y t p →
      PathRel V n br Q s t (s :: V.partner s :: p)
  | odd {s t : Int} {p1 p2 : List Int} : s ≠ t → InR n s → V.depth s % 2 ≠ 0 → Q s →
      PathRel V n br Q (br s).1 (V.partner s) p1 → PathRel V n br Q (br s).2 t p2 →
      PathRel V n br Q s t (s :: (p1.reverse ++ p2))

/-- Matched edge. -/
def View.Mt (V : View) (a b : Int) : Prop := V.partner a = b

/-- Unmatched edge of the graph. -/
def View.Un (V : View) (g : Graph) (a b : Int) : Prop := g.Adj a b ∧ V.partner a ≠ b

/-- The facts about the tree of the current search that do not involve blossoms. -/
structure TreeInv (g : Graph) (n : Nat) (root : Int) (V : View) : Prop where
  pm : IsPartnerMap g n V.partner
  root_in : V.InTree n root
  root_exposed : V.partner root = -1
  root_depth : V.depth root = 0
  depth_nonneg : ∀ x, V.InTree n x → 0 ≤ V.depth x
  mate_in : ∀ x, V.InTree n x → x ≠ root → V.partner x ≠ -1 ∧ V.InTree n (V.partner x)
  even_parent : ∀ x, V.InTree n x → x ≠ root → V.depth x % 2 = 0 →
    V.parent x = V.partner x ∧ V.depth x = V.depth (V.partner x) + 1
  odd_mate : ∀ x, V.InTree n x → V.depth x % 2 = 1 →
    V.parent (V.partner x) = x ∧ V.depth (V.partner x) = V.depth x + 1
  odd_parent : ∀ x, V.InTree n x → V.depth x % 2 = 1 →
    V.InTree n (V.parent x) ∧ V.depth (V.parent x) < V.depth x ∧ g.Adj (V.parent x) x ∧
      V.partner x ≠ V.parent x

/-- The facts about the blossoms: `ρ` maps a vertex to the base of its blossom. -/
structure BlossomInv (n : Nat) (root : Int) (V : View) (ρ : Int → Int) : Prop where
  rho_root : ρ root = root
  rho_fix : ∀ x, ¬ V.InTree n x → ρ x = x
  rho_in : ∀ x, V.InTree n x → V.InTree n (ρ x)
  rho_idem : ∀ x, ρ (ρ x) = ρ x
  base_even : ∀ x, V.InTree n x → ρ x ≠ x → V.depth (ρ x) % 2 = 0
  even_base : ∀ x, V.InTree n x → V.depth x % 2 = 0 → V.depth (ρ x) % 2 = 0
  class_parent : ∀ x, V.InTree n x → ρ x ≠ x → ρ (V.parent x) = ρ x
  class_mate : ∀ x, V.InTree n x → ρ x ≠ x → ρ (V.partner x) = ρ x
  odd_parent_outer : ∀ x, V.InTree n x → V.depth x % 2 = 1 → V.depth (ρ (V.parent x)) % 2 = 0

/-- The queue holds distinct outer vertices. -/
structure QueueInv (n : Nat) (V : View) (ρ : Int → Int) (q : List Int) : Prop where
  outer : ∀ x ∈ q, V.Outer n ρ x
  nodup : q.Nodup

/-- What `findPath(x, t)` produces: a simple alternating path from `x` to `t` that starts with
    a matched edge, has an odd number of vertices, and stays in the blossoms met on the way
    from `x` up to `t`. -/
structure GoodPath (g : Graph) (n : Nat) (root : Int) (V : View) (ρ : Int → Int)
    (x t : Int) (p : List Int) : Prop where
  nodup : p.Nodup
  region : ∀ z ∈ p, V.InTree n z ∧ Anc V n root x (ρ z) ∧ Anc V n root (ρ z) t
  alt : AltChain V.Mt (V.Un g) p
  odd : p.length % 2 = 1

/-- Every outer vertex has its path to every base above it. -/
def PathInv (g : Graph) (n : Nat) (root : Int) (V : View) (ρ : Int → Int)
    (br : Int → Int × Int) : Prop :=
  ∀ x t, V.Outer n ρ x → Anc V n root x t → ρ t = t → V.depth t % 2 = 0 →
    ∃ p, PathRel V n br (fun z => ρ z ≠ z) x t p ∧ GoodPath g n root V ρ x t p

/-- The invariant of the search for the blossom structure `ρ`. -/
structure Core (g : Graph) (n : Nat) (root : Int) (V : View) (ρ : Int → Int)
    (br : Int → Int × Int) (q : List Int) : Prop where
  tree : TreeInv g n root V
  blossom : BlossomInv n root V ρ
  queue : QueueInv n V ρ q
  path : PathInv g n root V ρ br

/-- The edges examined so far: `cur` is the vertex being processed and `rem` its neighbours
    still to examine.  Every other edge at an outer vertex that is not waiting in the queue
    leads into the tree, and never to an outer vertex of a different blossom. -/
structure Explored (g : Graph) (n : Nat) (V : View) (ρ : Int → Int) (q : List Int)
    (cur : Int) (rem : List Int) : Prop where
  e_in : ∀ x y, V.Outer n ρ x → g.Adj x y →
    V.InTree n y ∨ x ∈ q ∨ (x = cur ∧ y ∈ rem)
  e_out : ∀ x y, V.Outer n ρ x → V.Outer n ρ y → g.Adj x y →
    ρ x = ρ y ∨ x ∈ q ∨ y ∈ q ∨ (x = cur ∧ y ∈ rem) ∨ (y = cur ∧ x ∈ rem)

/-- The state agrees with `ρ`: `find(x)` ends in `ρ x`. -/
def UF (m : Matching) (n : Nat) (ρ : Int → Int) : Prop := ∀ x, InR n x → Rep m n x (ρ x)

end Blossom

namespace Blossom

/-! ## The abstract effect of the tree operations -/

/-- The view after `extendTree(v, w)`; the queue gets `partner w` appended. -/
def View.extend (V : View) (v w : Int) : View :=
  { V with
    token := fun x => if x = V.partner w then V.c else if x = w then V.c else V.token x
    depth := fun x =>
      if x = V.partner w then V.depth v + 1 + V.depth v % 2 + 1
      else if x = w then V.depth v + 1 + V.depth v % 2 else V.depth x
    parent := fun x => if x = V.partner w then w else if x = w then v else V.parent x }

/-- The blossoms met when `shrinkPath` walks from the base `u` up to the base `b`: the list
    holds the inner vertices `partner u` absorbed on the way, in the order of the walk. -/
inductive CPath (V : View) (n : Nat) (ρ : Int → Int) (b : Int) : Int → List Int → Prop
  | nil : V.InTree n b → ρ b = b → CPath V n ρ b b []
  | cons {u u' : Int} {L : List Int} : u ≠ b → V.InTree n u → ρ u = u →
      V.InTree n (V.partner u) → V.partner (V.partner u) = u →
      ρ (V.partner u) = V.partner u → V.partner u ≠ b →
      V.depth (V.partner u) < V.depth u →
      InR n (V.parent (V.partner u)) → ρ (V.parent (V.partner u)) = u' →
      V.depth u' < V.depth (V.partner u) →
      CPath V n ρ b u' L → CPath V n ρ b u (V.partner u :: L)

/-- The representative map after `shrinkPath` has absorbed the inner vertices `L` and their
    partners into the blossom of base `b`. -/
def View.shrinkRho (V : View) (ρ : Int → Int) (b : Int) (L : List Int) : Int → Int :=
  fun z => if ρ z = b ∨ ρ z ∈ L ∨ ρ z ∈ L.map V.partner then b else ρ z

/-- The bridges after `shrinkPath(b, v, w)` has absorbed the inner vertices `L`. -/
def shrinkBridge (br : Int → Int × Int) (v w : Int) (L : List Int) : Int → Int × Int :=
  fun z => if z ∈ L then (v, w) else br z

end Blossom

namespace Blossom

/-! ## Relating states -/

/-- The state after `m_tree[x].m_blossom = b`. -/
def Matching.setBlossom (m : Matching) (x b : Int) : Matching :=
  { m with m_tree := lset m.m_tree x { m.nodeAt x with m_blossom := b } }

/-- `m'` differs from `m` at most in the union-find pointers `m_blossom`. -/
structure SameButBlossom (n : Nat) (m m' : Matching) : Prop where
  sized : m'.Sized n
  view : m'.view = m.view
  mv : m'.m_matchedVertex = m.m_matchedVertex
  br : m'.m_bridges = m.m_bridges
  q : m'.m_queue = m.m_queue

/-- `m'` is `m` after path compressions: a pointer is unchanged or points to the
    representative. -/
structure Compressed (n : Nat) (m m' : Matching) : Prop where
  same : SameButBlossom n m m'
  ptr : ∀ y, InR n y → m'.blossom y = m.blossom y ∨
    (m.token y = m.m_clearToken ∧ Rep m n y (m'.blossom y))

/-- The invariant of the search on a state: the vectors have `n` elements, `find` computes
    `ρ`, and the fields satisfy `Core`. -/
structure SInv (g : Graph) (n : Nat) (root : Int) (m : Matching) (ρ : Int → Int) : Prop where
  sized : m.Sized n
  uf : UF m n ρ
  core : Core g n root m.view ρ m.bridge m.m_queue
  tok_le : ∀ x, m.token x ≤ m.m_clearToken

/-- A bound on the work left in the search: the vertices that are not outer yet, and the
    queue, together have at most `K` elements. -/
def Budget (n : Nat) (V : View) (ρ : Int → Int) (q : List Int) (K : Nat) : Prop :=
  ∃ S : Finset Int, (∀ x, InR n x → ¬ V.Outer n ρ x → x ∈ S) ∧ S.card + q.length ≤ K

/-- What `examineEdge(root, v, w)` has found when it returns `true`: an exposed vertex `w`
    outside the tree, next to `v`, and the path `p` from `v` up to the root. -/
structure AugFound (g : Graph) (n : Nat) (root : Int) (V : View) (v w : Int) (p : List Int) :
    Prop where
  w_in : InR n w
  w_exposed : V.partner w = -1
  w_new : ¬ V.InTree n w
  adj : g.Adj v w
  good : ∃ ρ, GoodPath g n root V ρ v root p
  head : p.head? = some v
  last : p.getLast? = some root

/-- The outcome of one call `examineEdge(root, v, w, path)` from the state `m`, when `ws` are
    the neighbours of `v` still to examine afterwards. -/
structure StepOut (g : Graph) (n : Nat) (root : Int) (m : Matching) (v w : Int)
    (ws : List Int) (K : Nat) (path : Path) (r : Bool × Path × Matching) : Prop where
  mv : r.2.2.m_matchedVertex = m.m_matchedVertex
  c : r.2.2.m_clearToken = m.m_clearToken
  sized : r.2.2.Sized n
  tok_le : ∀ x, r.2.2.token x ≤ r.2.2.m_clearToken
  found : r.1 = true → ∃ p, r.2.1 = path ++ w :: p ∧ AugFound g n root m.view v w p
  cont : r.1 = false → r.2.1 = path ∧ ∃ ρ', SInv g n root r.2.2 ρ' ∧
    r.2.2.view.Outer n ρ' v ∧ Explored g n r.2.2.view ρ' r.2.2.m_queue v ws ∧
    Budget n r.2.2.view ρ' r.2.2.m_queue K

/-- The outcome of the loop over the neighbours of `v` in `findAugmentingPath`. -/
structure EdgesOut (g : Graph) (n : Nat) (root : Int) (m : Matching) (v : Int) (K : Nat)
    (path : Path) (r : Bool × Path × Matching) : Prop where
  mv : r.2.2.m_matchedVertex = m.m_matchedVertex
  c : r.2.2.m_clearToken = m.m_clearToken
  sized : r.2.2.Sized n
  tok_le : ∀ x, r.2.2.token x ≤ r.2.2.m_clearToken
  found : r.1 = true → r.2.2.m_queue = [] ∧ ∃ w p, r.2.1 = path ++ w :: p ∧
    IsAugPath g n m.partner (w :: p) ∧ (w :: p).getLast? = some root ∧ w ≠ root
  cont : r.1 = false → r.2.1 = path ∧ ∃ ρ', SInv g n root r.2.2 ρ' ∧
    Explored g n r.2.2.view ρ' r.2.2.m_queue v [] ∧ Budget n r.2.2.view ρ' r.2.2.m_queue K

/-- The outcome of the loop `while (!m_queue.empty())` of `findAugmentingPath`: either an
    augmenting path ending in the root has been appended to `path`, or the search has
    stopped with an empty queue in a state in which every edge at an outer vertex has been
    examined. -/
structure SearchOut (g : Graph) (n : Nat) (root : Int) (m : Matching) (path : Path)
    (r : Bool × Path × Matching) : Prop where
  mv : r.2.2.m_matchedVertex = m.m_matchedVertex
  c : r.2.2.m_clearToken = m.m_clearToken
  sized : r.2.2.Sized n
  tok_le : ∀ x, r.2.2.token x ≤ r.2.2.m_clearToken
  q : r.2.2.m_queue = []
  found : r.1 = true → ∃ w p, r.2.1 = path ++ w :: p ∧
    IsAugPath g n m.partner (w :: p) ∧ (w :: p).getLast? = some root ∧ w ≠ root
  fail : r.1 = false → r.2.1 = path ∧ ∃ ρ', SInv g n root r.2.2 ρ' ∧
    Explored g n r.2.2.view ρ' [] root []

/-- The invariant of the main loop of the constructor between two searches: the vectors
    have `n` elements, the partner map is a matching of the graph, no vertex carries a token
    beyond the current one, and the queue is empty. -/
structure MInv (g : Graph) (n : Nat) (m : Matching) : Prop where
  sized : m.Sized n
  pm : IsPartnerMap g n m.partner
  tok_le : ∀ x, m.token x ≤ m.m_clearToken
  q : m.m_queue = []

/-- The state in which `findAugmentingPath(root, path)` enters its loop. -/
def Matching.startSearch (m : Matching) (root : Int) : Matching :=
  { m with
    m_clearToken := m.m_clearToken + 1
    m_tree := lset m.m_tree root
      { m.nodeAt root with m_depth := 0, m_parent := -1, m_clearToken := m.m_clearToken + 1,
                           m_blossom := root }
    m_queue := m.m_queue ++ [root] }

end Blossom

namespace Blossom

/-! ## The main loop of the constructor -/

/-- The partner map after `augment(path)`: a vertex of the path gets the vertex it is paired
    with, and every other vertex keeps its partner. -/
def flipPath (pt : Vertex → Vertex) (p : Path) : Vertex → Vertex :=
  fun x => (pairedIn p x).getD (pt x)

/-- `Stuck g n pt r`: there is a set of vertices that contains `r`, whose other vertices are
    all matched by `pt`, and that no matching of the graph covers completely. -/
def Stuck (g : Graph) (n : Nat) (pt : Vertex → Vertex) (r : Vertex) : Prop :=
  ∃ T : Vertex → Prop, T r ∧ (∀ x, T x → x ≠ r → pt x ≠ -1) ∧
    ∀ N, IsPartnerMap g n N → ¬ ∀ x, T x → N x ≠ -1

/-- The states at the head of the loop `for (auto v : unmatchedVertices)` of the constructor:
    `MainState g vs path m` holds when the loop can be about to process the vertices `vs`
    with the variable `path` and the state `m`. -/
inductive MainState (g : Graph) : List Vertex → Path → Matching → Prop
  | start {junk : Nat → Node} {wl : List Vertex} {m : Matching} :
      Matching.greedy g junk = .ok (wl, m) → MainState g wl [] m
  | skip {v mv : Vertex} {vs : List Vertex} {path : Path} {m : Matching} :
      MainState g (v :: vs) path m → vget m.m_matchedVertex v = .ok mv → mv ≠ -1 →
      MainState g vs path m
  | found {v : Vertex} {vs : List Vertex} {path path1 : Path} {m m1 m2 : Matching} {k : Nat} :
      MainState g (v :: vs) path m → vget m.m_matchedVertex v = .ok (-1) →
      Matching.findAugmentingPath k g m v path = .ok (true, path1, m1) →
      Matching.augment path1 m1 = .ok m2 → MainState g vs [] m2
  | notFound {v : Vertex} {vs : List Vertex} {path path1 : Path} {m m1 : Matching} {k : Nat} :
      MainState g (v :: vs) path m → vget m.m_matchedVertex v = .ok (-1) →
      Matching.findAugmentingPath k g m v path = .ok (false, path1, m1) →
      MainState g vs path1 m1

/-- The exposed vertices as a finite set. -/
def exposedSet (n : Nat) (pt : Vertex → Vertex) : Finset Int :=
  ((Finset.range n).image Int.ofNat).filter fun v => pt v = -1

/-- The vertices that are the smaller end of a matched pair, as a finite set. -/
def lowSet (n : Nat) (pt : Vertex → Vertex) : Finset Int :=
  ((Finset.range n).image Int.ofNat).filter fun v => v < pt v

/-! ## Comparing two matchings -/

/-- The partner map without the pair `(a, b)`. -/
def removeEdge (N : Vertex → Vertex) (a b : Vertex) : Vertex → Vertex :=
  fun v => if v = a ∨ v = b then -1 else N v

/-- The vertices on which the partner maps `M` and `N` differ. -/
def diffSet (n : Nat) (M N : Vertex → Vertex) : Finset Int :=
  ((Finset.range n).image Int.ofNat).filter fun v => N v ≠ M v

/-- The partner map of a list of edges. -/
def partnerOfEdges : List (Vertex × Vertex) → Vertex → Vertex
  | [], _ => -1
  | e :: es, v => if v = e.1 then e.2 else if v = e.2 then e.1 else partnerOfEdges es v

/-- An edge of `M` that is not an edge of `N`. -/
def MEdge (M N : Vertex → Vertex) (u v : Vertex) : Prop := M u = v ∧ N u ≠ v

/-- The walk that starts at a vertex `a` exposed by `M` and follows edges of `N` and of `M`
    in turn.  `q` holds the vertices after `a` in reverse order: its last element is
    `b = N a` and its head `e` is the vertex reached, by an edge of `M`. -/
structure WalkInv (n : Nat) (M N : Vertex → Vertex) (a b e : Vertex) (q : List Vertex) :
    Prop where
  head : q.head? = some e
  last : q.getLast? = some b
  nodup : q.Nodup
  inR : ∀ v ∈ q, InR n v
  a_not : a ∉ q
  chain : AltChain (MEdge M N) (MEdge N M) q
  even : q.length % 2 = 0
  nclosed : ∀ v, (v ∈ q ∨ v = a) → v ≠ e → (N v ∈ q ∨ N v = a) ∧ N v ≠ e
  mclosed : ∀ v ∈ q, M v ∈ q

/-- Memory that happens to hold zeros. -/
def noJunk : Nat → Node := fun _ => ⟨0, 0, 0, 0⟩

/-- A maximum matching of the sample graph. -/
def sampleMatching : List (Vertex × Vertex) :=
  [(0, 1), (2, 3), (4, 5), (6, 7), (8, 27), (9, 10), (11, 12), (13, 14), (15, 18), (16, 17),
    (19, 20), (21, 22), (23, 24), (25, 26)]

/-- A path on four vertices, `2 - 0 - 1 - 3`, on which the greedy pass matches the middle
    edge and leaves both ends exposed. -/
def pathGraph4 : Graph := ⟨[[1, 2], [0, 3], [0], [1]]⟩

/-- The state of the constructor on `pathGraph4` after the greedy pass. -/
def pathGraph4Start : Matching :=
  { m_clearToken := 0
    m_queue := []
    m_matchedVertex := [1, 0, -1, -1]
    m_tree := [⟨0, 0, 0, 0⟩, ⟨0, 0, 0, 0⟩, ⟨0, 0, 0, 0⟩, ⟨0, 0, 0, 0⟩]
    m_bridges := [(0, 0), (0, 0), (0, 0), (0, 0)] }

/-- The state of the constructor on `pathGraph4` after the search from vertex 2. -/
def pathGraph4Found : Matching :=
  { m_clearToken := 1
    m_queue := []
    m_matchedVertex := [1, 0, -1, -1]
    m_tree := [⟨1, 2, 0, 1⟩, ⟨2, 0, 1, 1⟩, ⟨0, -1, 2, 1⟩, ⟨0, 0, 0, 0⟩]
    m_bridges := [(0, 0), (0, 0), (0, 0), (0, 0)] }

/-- An edge `0 - 1` and an isolated vertex `2`. -/
def isolatedGraph : Graph := ⟨[[1], [0], []]⟩

end Blossom

namespace Blossom

/-! ## The situations of `extendTree` and `shrinkBlossom` -/

/-- The situation in which `examineEdge` calls `extendTree(v, w)`. -/
structure ExtPre (g : Graph) (n : Nat) (root : Int) (V : View) (ρ : Int → Int)
    (br : Int → Int × Int) (q : List Int) (v w : Int) : Prop where
  valid : g.Valid
  core : Core g n root V ρ br q
  outer : V.Outer n ρ v
  adj : g.Adj v w
  w_in : InR n w
  w_new : ¬ V.InTree n w
  w_matched : V.partner w ≠ -1

/-- What the walk knows about each inner vertex `s` it absorbs and about the base
    `partner s` below it. -/
structure CFacts (n : Nat) (root : Int) (V : View) (ρ : Int → Int) (b : Int) (L : List Int)
    (u s : Int) : Prop where
  s_in : V.InTree n s
  s_fix : ρ s = s
  s_odd : V.depth s % 2 = 1
  u_in : V.InTree n (V.partner s)
  u_fix : ρ (V.partner s) = V.partner s
  u_even : V.depth (V.partner s) % 2 = 0
  u_ne : V.partner s ≠ b
  u_mate : V.partner (V.partner s) = s
  u_parent : V.parent (V.partner s) = s
  anc_u : Anc V n root u (V.partner s)
  anc_b : Anc V n root s b
  next : ρ (V.parent s) = b ∨ ρ (V.parent s) ∈ L.map V.partner

/-- The situation of one call of `shrinkPath`: it walks from the base `u` up to the base
    `b` and absorbs the inner vertices `L`. -/
structure SidePre (g : Graph) (n : Nat) (root : Int) (V : View) (ρ : Int → Int) (b u : Int)
    (L : List Int) : Prop where
  tree : TreeInv g n root V
  blossom : BlossomInv n root V ρ
  cp : CPath V n ρ b u L
  u_even : V.depth u % 2 = 0
  b_even : V.depth b % 2 = 0

/-- `ρ2` is obtained from `ρ` by merging blossoms into the one of base `b`. -/
structure Coarse (g : Graph) (n : Nat) (root : Int) (V : View) (ρ ρ2 : Int → Int) (b : Int) :
    Prop where
  tree : TreeInv g n root V
  old : BlossomInv n root V ρ
  new : BlossomInv n root V ρ2
  or_ : ∀ z, ρ2 z = b ∨ ρ2 z = ρ z
  rho_rho : ∀ z, ρ2 (ρ z) = ρ2 z
  b_fix : ρ b = b
  b_even : V.depth b % 2 = 0

/-- The situation in which `examineEdge` calls `shrinkBlossom(v, w)`: `z0` is the lowest common
    ancestor of `v` and `w`, `b` its base, `L` and `L'` are the inner vertices absorbed by the
    two calls of `shrinkPath`. -/
structure ShrinkPre (g : Graph) (n : Nat) (root : Int) (V : View) (ρ : Int → Int)
    (br : Int → Int × Int) (q : List Int) (v w z0 b : Int) (L L' : List Int) : Prop where
  valid : g.Valid
  core : Core g n root V ρ br q
  outer_v : V.Outer n ρ v
  outer_w : V.Outer n ρ w
  adj : g.Adj v w
  ne : ρ v ≠ ρ w
  lca_v : Anc V n root v z0
  lca_w : Anc V n root w z0
  lca_min : ∀ y, Anc V n root v y → Anc V n root w y → Anc V n root z0 y
  hb : ρ z0 = b
  b_even : V.depth b % 2 = 0
  cp1 : CPath V n ρ b (ρ v) L
  cp2 : CPath V n (V.shrinkRho ρ b L) b (V.shrinkRho ρ b L w) L'

end Blossom

namespace Blossom

/-! ## The bootstrap pass as a fold -/

/-- The first neighbour of `v`, in the order of its adjacency list, that is exposed in the
    partner vector `mv`; `none` when `v` itself is matched or has no exposed neighbour. -/
def firstExposed (g : Graph) (mv : List Vertex) (v : Vertex) : Option Vertex :=
  if lget mv (-1) v = -1 then
    (lget g.m_adjacencyList [] v).find? fun w => decide (lget mv (-1) w = -1)
  else none

/-- One visit of the bootstrap pass on the pair (worklist, partner vector): a matched vertex
    is skipped, an exposed vertex is matched with its first exposed neighbour, and an exposed
    vertex without an exposed neighbour is appended to the worklist. -/
def greedyVisit (g : Graph) (s : List Vertex × List Vertex) (v : Vertex) :
    List Vertex × List Vertex :=
  if lget s.2 (-1) v = -1 then
    match firstExposed g s.2 v with
    | some w => (s.1, lset (lset s.2 v w) w v)
    | none => (s.1 ++ [v], s.2)
  else s

/-- The bootstrap pass over the vertices `vs`, as a fold of `greedyVisit`. -/
def greedyPass (g : Graph) (vs : List Vertex) (s : List Vertex × List Vertex) :
    List Vertex × List Vertex :=
  vs.foldl (greedyVisit g) s

/-- Every vertex on the worklist is exposed and all its neighbours are matched. -/
def PushedOk (g : Graph) (s : List Vertex × List Vertex) : Prop :=
  ∀ x ∈ s.1, lget s.2 (-1) x = -1 ∧ ∀ w, g.Adj x w → lget s.2 (-1) w ≠ -1

/-! ## Concrete states on the triangle -/

/-- The state of the constructor on `triangle` after the bootstrap pass: `0` and `1` are
    matched and the worklist is `[2]`. -/
def triangleStart : Matching :=
  { m_clearToken := 0
    m_queue := []
    m_matchedVertex := [1, 0, -1]
    m_tree := [⟨0, 0, 0, 0⟩, ⟨0, 0, 0, 0⟩, ⟨0, 0, 0, 0⟩]
    m_bridges := [(0, 0), (0, 0), (0, 0)] }

/-- The state of the constructor on `triangle` after the search from vertex 2, which
    contracts the triangle and fails. -/
def triangleFailed : Matching :=
  { m_clearToken := 1
    m_queue := []
    m_matchedVertex := [1, 0, -1]
    m_tree := [⟨2, 1, 2, 1⟩, ⟨1, 2, 2, 1⟩, ⟨0, -1, 2, 1⟩]
    m_bridges := [(0, 0), (0, 2), (0, 0)] }

/-- The state of the search from vertex 2 on `triangle` when the root has been taken from
    the queue and its neighbours `1` and `0` are still to examine. -/
def trianglePopped : Matching := { triangleStart.startSearch 2 with m_queue := [] }

/-- The state of the search from vertex 2 on `triangle` after `extendTree(2, 1)`: the
    vertex 2 is being processed and its neighbour 0 is still to examine. -/
def triangleGrown : Matching :=
  { m_clearToken := 1
    m_queue := [0]
    m_matchedVertex := [1, 0, -1]
    m_tree := [⟨2, 1, 0, 1⟩, ⟨1, 2, 1, 1⟩, ⟨0, -1, 2, 1⟩]
    m_bridges := [(0, 0), (0, 0), (0, 0)] }

/-- The state of the search from vertex 2 on `triangle` after `shrinkBlossom(2, 0)`: the
    triangle is one blossom with base 2, and `m_blossom` leads from 0 over 1 to 2. -/
def triangleShrunk : Matching :=
  { m_clearToken := 1
    m_queue := [0, 1]
    m_matchedVertex := [1, 0, -1]
    m_tree := [⟨2, 1, 1, 1⟩, ⟨1, 2, 2, 1⟩, ⟨0, -1, 2, 1⟩]
    m_bridges := [(0, 0), (0, 2), (0, 0)] }

/-! ## The states during a search -/

/-- The states of `findAugmentingPath(root, path)` when it is called by the main loop of the
    constructor.  `SearchState g root cur m path` holds when the search from `root` can be in
    the state `m` with the path variable `path`: at the head of the loop
    `while (!m_queue.empty())` when `cur = none`, and inside the loop over the neighbours of
    the vertex `v` taken from the queue, with the neighbours `ws` still to examine, when
    `cur = some (v, ws)`. -/
inductive SearchState (g : Graph) (root : Vertex) :
    Option (Vertex × List Vertex) → Matching → Path → Prop
  | start {vs : List Vertex} {path : Path} {m : Matching} :
      MainState g (root :: vs) path m → vget m.m_matchedVertex root = .ok (-1) →
      SearchState g root none (m.startSearch root) path
  | pop {m : Matching} {path : Path} {v : Vertex} {q adj : List Vertex} :
      SearchState g root none m path → m.m_queue = v :: q →
      vget g.m_adjacencyList v = .ok adj →
      SearchState g root (some (v, adj)) { m with m_queue := q } path
  | edge {m m1 : Matching} {path path1 : Path} {v w : Vertex} {ws : List Vertex} {k : Nat} :
      SearchState g root (some (v, w :: ws)) m path →
      Matching.examineEdge k m root v w path = .ok (false, path1, m1) →
      SearchState g root (some (v, ws)) m1 path1
  | next {m : Matching} {path : Path} {v : Vertex} :
      SearchState g root (some (v, [])) m path → SearchState g root none m path

/-- The invariant of the states during a search: for some blossom structure `ρ` the state
    satisfies `SInv`, the vertex being processed is outer, the neighbours still to examine
    are its neighbours, and the edges examined so far are accounted for. -/
def SearchInv (g : Graph) (n : Nat) (root : Vertex) (cur : Option (Vertex × List Vertex))
    (m : Matching) : Prop :=
  ∃ ρ, SInv g n root m ρ ∧
    match cur with
    | none => Explored g n m.view ρ m.m_queue root []
    | some (v, ws) =>
      m.view.Outer n ρ v ∧ (∀ w ∈ ws, g.Adj v w) ∧ Explored g n m.view ρ m.m_queue v ws

/-- In the state `m`, `find(x)` returns `r`. -/
def Matching.Finds (m : Matching) (x r : Vertex) : Prop :=
  ∃ k m', Matching.find k m x = .ok (r, m')

/-! ## The union-find structure during a search -/

/-- The union-find structure of the state is well formed: the vectors have `n` elements,
    following the pointers from each vertex ends in a representative, and the representative
    of a vertex with the current stamp carries the current stamp. -/
def UFOk (n : Nat) (m : Matching) : Prop :=
  m.Sized n ∧ ∃ ρ, UF m n ρ ∧ ∀ x, InR n x → m.token x = m.m_clearToken →
    m.token (ρ x) = m.m_clearToken

/-- The states reached from `m0` by the steps of `examineEdge` and `shrinkBlossom`: calls of
    `find`, calls of `makeUnion` and `makeRepresentative` on vertices of the tree, and writes
    to the queue and to the bridges. -/
inductive AfterUF (m0 : Matching) : Matching → Prop
  | refl : AfterUF m0 m0
  | find {m m' : Matching} {x r : Vertex} {k : Nat} :
      AfterUF m0 m → Matching.find k m x = .ok (r, m') → AfterUF m0 m'
  | union {m m' : Matching} {x y : Vertex} {k : Nat} :
      AfterUF m0 m → m.token x = m.m_clearToken → m.token y = m.m_clearToken →
      Matching.makeUnion k m x y = .ok m' → AfterUF m0 m'
  | repr {m m' : Matching} {x : Vertex} {k : Nat} :
      AfterUF m0 m → m.token x = m.m_clearToken →
      Matching.makeRepresentative k m x = .ok m' → AfterUF m0 m'
  | other {m m' : Matching} :
      AfterUF m0 m → m'.m_tree = m.m_tree → m'.m_clearToken = m.m_clearToken →
      m'.m_matchedVertex.length = m.m_matchedVertex.length →
      m'.m_bridges.length = m.m_bridges.length → AfterUF m0 m'

/-- What the search sees of the node of `x`: its depth, parent and blossom when the node
    carries the current stamp, and nothing otherwise. -/
def Matching.seen (m : Matching) (x : Vertex) : Option (Int × Int × Int) :=
  if m.token x = m.m_clearToken then some (m.depth x, m.parent x, m.blossom x) else none

/-- The state in which the depth, the parent and the blossom of every node have been reset
    to zero; the stamps are kept. -/
def Matching.resetNodes (m : Matching) : Matching :=
  { m with m_tree := m.m_tree.map fun nd => ⟨0, 0, 0, nd.m_clearToken⟩ }

/-- The depths stored in the tree are bounded by the size of the tree: for some set `S` of
    vertices of the tree, no vertex of the tree has a depth above `2 * |S|`. -/
def DepthBound (n : Nat) (V : View) : Prop :=
  ∃ S : Finset Int, (∀ x ∈ S, V.InTree n x) ∧ ∀ x, V.InTree n x → V.depth x ≤ 2 * (S.card : Int)

/-! ## Runs with less fuel -/

/-- `FuelLe r r'`: the run `r` has run out of fuel, or it has the result `r'`. -/
def FuelLe {α : Type} (r r' : Except Err α) : Prop := r = .error .fuel ∨ r = r'

end Blossom

namespace Blossom

/-! ## Elementary facts about the error monad and about fuel -/

theorem bind_eq_ok {ε α β : Type} {x : Except ε α} {f : α → Except ε β} {b : β} :
    (x >>= f) = .ok b ↔ ∃ a, x = .ok a ∧ f a = .ok b := by
  cases x with
  | error e => simp [bind, Except.bind]
  | ok a => simp [bind, Except.bind]

theorem pure_eq_ok {ε α : Type} {a b : α} :
    (pure a : Except ε α) = .ok b ↔ a = b := by
  simp [pure, Except.pure]

theorem find_mono {n n' : Nat} {m : Matching} {x : Int} {r : Int × Matching}
    (h : Matching.find n m x = .ok r) (hn : n ≤ n') : Matching.find n' m x = .ok r := by
  induction n generalizing n' m x r with
  | zero => simp [Matching.find] at h
  | succ n ih =>
    obtain ⟨k, rfl⟩ : ∃ k, n' = k + 1 := ⟨n' - 1, by omega⟩
    have hk : n ≤ k := by omega
    simp only [Matching.find, bind_eq_ok] at h ⊢
    obtain ⟨nx, h1, h2⟩ := h
    refine ⟨nx, h1, ?_⟩
    split at h2 <;> rename_i hc
    · rw [if_pos hc]; exact h2
    · rw [if_neg hc]
      split at h2 <;> rename_i hc2
      · rw [if_pos hc2]
        simp only [bind_eq_ok] at h2 ⊢
        obtain ⟨a, h3, h4⟩ := h2
        exact ⟨a, ih h3 hk, h4⟩
      · rw [if_neg hc2]; exact h2

theorem makeUnion_mono {n n' : Nat} {m : Matching} {x y : Int} {r : Matching}
    (h : Matching.makeUnion n m x y = .ok r) (hn : n ≤ n') :
    Matching.makeUnion n' m x y = .ok r := by
  simp only [Matching.makeUnion, bind_eq_ok] at h ⊢
  obtain ⟨a, h1, b, h2, h3⟩ := h
  exact ⟨a, find_mono h1 hn, b, find_mono h2 hn, h3⟩

theorem makeRepresentative_mono {n n' : Nat} {m : Matching} {x : Int} {r : Matching}
    (h : Matching.makeRepresentative n m x = .ok r) (hn : n ≤ n') :
    Matching.makeRepresentative n' m x = .ok r := by
  simp only [Matching.makeRepresentative, bind_eq_ok] at h ⊢
  obtain ⟨a, h1, h3⟩ := h
  exact ⟨a, find_mono h1 hn, h3⟩

theorem findPath_mono {n n' : Nat} {m : Matching} {s t : Vertex} {path r : Path}
    (h : Matching.findPath n m s t path = .ok r) (hn : n ≤ n') :
    Matching.findPath n' m s t path = .ok r := by
  induction n generalizing n' s t path r with
  | zero => simp [Matching.findPath] at h
  | succ n ih =>
    obtain ⟨k, rfl⟩ : ∃ k, n' = k + 1 := ⟨n' - 1, by omega⟩
    have hk : n ≤ k := by omega
    simp only [Matching.findPath] at h ⊢
    split at h <;> rename_i hc
    · rw [if_pos hc]; exact h
    · rw [if_neg hc]
      simp only [bind_eq_ok] at h ⊢
      obtain ⟨ns, h1, h2⟩ := h
      refine ⟨ns, h1, ?_⟩
      split at h2 <;> rename_i hc2
      · rw [if_pos hc2]
        simp only [bind_eq_ok] at h2 ⊢
        obtain ⟨a, h3, b, h4, c, h5, h6⟩ := h2
        exact ⟨a, h3, b, h4, c, h5, ih h6 hk⟩
      · rw [if_neg hc2]
        simp only [bind_eq_ok] at h2 ⊢
        obtain ⟨a, h3, b, h4, c, h5, h6⟩ := h2
        exact ⟨a, h3, b, h4, c, ih h5 hk, ih h6 hk⟩

theorem buildAugmentingPath_mono {n n' : Nat} {m : Matching} {root v w : Vertex} {path r : Path}
    (h : Matching.buildAugmentingPath n m root v w path = .ok r) (hn : n ≤ n') :
    Matching.buildAugmentingPath n' m root v w path = .ok r :=
  findPath_mono h hn

theorem findCommonAncestor_mono {n n' : Nat} {m : Matching} {v w : Vertex}
    {r : Vertex × Matching}
    (h : Matching.findCommonAncestor n m v w = .ok r) (hn : n ≤ n') :
    Matching.findCommonAncestor n' m v w = .ok r := by
  induction n generalizing n' v w r with
  | zero => simp [Matching.findCommonAncestor] at h
  | succ n ih =>
    obtain ⟨k, rfl⟩ : ∃ k, n' = k + 1 := ⟨n' - 1, by omega⟩
    have hk : n ≤ k := by omega
    have hk1 : n + 1 ≤ k + 1 := by omega
    simp only [Matching.findCommonAncestor] at h ⊢
    split at h <;> rename_i hc
    · rw [if_pos hc]
      simp only [bind_eq_ok] at h ⊢
      obtain ⟨a, h1, b, h2, h3⟩ := h
      refine ⟨a, h1, b, h2, ?_⟩
      split at h3 <;> rename_i hc2
      · rw [if_pos hc2]; exact ih h3 hk
      · rw [if_neg hc2]; exact ih h3 hk
    · rw [if_neg hc]; exact find_mono h hk1

theorem shrinkPathLoop_mono {n n' : Nat} {m : Matching} {b v w u : Vertex} {r : Matching}
    (h : Matching.shrinkPathLoop n m b v w u = .ok r) (hn : n ≤ n') :
    Matching.shrinkPathLoop n' m b v w u = .ok r := by
  induction n generalizing n' m u r with
  | zero => simp [Matching.shrinkPathLoop] at h
  | succ n ih =>
    obtain ⟨k, rfl⟩ : ∃ k, n' = k + 1 := ⟨n' - 1, by omega⟩
    have hk : n ≤ k := by omega
    have hk1 : n + 1 ≤ k + 1 := by omega
    simp only [Matching.shrinkPathLoop] at h ⊢
    split at h <;> rename_i hc
    · rw [if_pos hc]
      simp only [bind_eq_ok] at h ⊢
      obtain ⟨m1, h1, h⟩ := h
      refine ⟨m1, makeUnion_mono h1 hk1, ?_⟩
      split at h <;> rename_i hc2
      · exact absurd h (by simp)
      · rw [if_neg hc2]
        simp only [bind_eq_ok] at h ⊢
        obtain ⟨mu, h3, h⟩ := h
        refine ⟨mu, h3, ?_⟩
        split at h <;> rename_i hc3
        · exact absurd h (by simp)
        · rw [if_neg hc3]
          simp only [bind_eq_ok] at h ⊢
          obtain ⟨u1, h5, m2, h6, m3, h7, br, h8, nu, h9, d, h10, h11⟩ := h
          exact ⟨u1, h5, m2, makeUnion_mono h6 hk1, m3, makeRepresentative_mono h7 hk1, br, h8,
            nu, h9, d, find_mono h10 hk1, ih h11 hk⟩
    · rw [if_neg hc]; exact h

theorem shrinkPath_mono {n n' : Nat} {m : Matching} {b v w : Vertex} {r : Matching}
    (h : Matching.shrinkPath n m b v w = .ok r) (hn : n ≤ n') :
    Matching.shrinkPath n' m b v w = .ok r := by
  simp only [Matching.shrinkPath, bind_eq_ok] at h ⊢
  obtain ⟨a, h1, h2⟩ := h
  exact ⟨a, find_mono h1 hn, shrinkPathLoop_mono h2 hn⟩

theorem shrinkBlossom_mono {n n' : Nat} {m : Matching} {v w : Vertex} {r : Matching}
    (h : Matching.shrinkBlossom n m v w = .ok r) (hn : n ≤ n') :
    Matching.shrinkBlossom n' m v w = .ok r := by
  simp only [Matching.shrinkBlossom, bind_eq_ok] at h ⊢
  obtain ⟨a, h1, b, h2, h3⟩ := h
  exact ⟨a, findCommonAncestor_mono h1 hn, b, shrinkPath_mono h2 hn, shrinkPath_mono h3 hn⟩

theorem examineEdge_mono {n n' : Nat} {m : Matching} {root v w : Vertex} {path : Path}
    {r : Bool × Path × Matching}
    (h : Matching.examineEdge n m root v w path = .ok r) (hn : n ≤ n') :
    Matching.examineEdge n' m root v w path = .ok r := by
  simp only [Matching.examineEdge, bind_eq_ok] at h ⊢
  obtain ⟨a, h1, b, h2, h3⟩ := h
  refine ⟨a, find_mono h1 hn, b, find_mono h2 hn, ?_⟩
  split at h3 <;> rename_i hc
  · rw [if_pos hc]
    simp only [bind_eq_ok] at h3 ⊢
    obtain ⟨c, h4, h5⟩ := h3
    refine ⟨c, h4, ?_⟩
    split at h5 <;> rename_i hc2
    · rw [if_pos hc2]
      simp only [bind_eq_ok] at h5 ⊢
      obtain ⟨d, h6, h7⟩ := h5
      refine ⟨d, h6, ?_⟩
      split at h7 <;> rename_i hc3
      · rw [if_pos hc3]
        simp only [bind_eq_ok] at h7 ⊢
        obtain ⟨e, h8, h9⟩ := h7
        exact ⟨e, buildAugmentingPath_mono h8 hn, h9⟩
      · rw [if_neg hc3]; exact h7
    · rw [if_neg hc2]
      split at h5 <;> rename_i hc3
      · rw [if_pos hc3]
        simp only [bind_eq_ok] at h5 ⊢
        obtain ⟨d, h6, h7⟩ := h5
        exact ⟨d, shrinkBlossom_mono h6 hn, h7⟩
      · rw [if_neg hc3]; exact h5
  · rw [if_neg hc]; exact h3

theorem examineEdges_mono {n n' : Nat} {root v : Vertex} {ws : List Vertex} {m : Matching}
    {path : Path} {r : Bool × Path × Matching}
    (h : Matching.examineEdges n root v ws m path = .ok r) (hn : n ≤ n') :
    Matching.examineEdges n' root v ws m path = .ok r := by
  induction ws generalizing m path r with
  | nil => simpa [Matching.examineEdges] using h
  | cons w ws ih =>
    simp only [Matching.examineEdges, bind_eq_ok] at h ⊢
    obtain ⟨a, h1, h2⟩ := h
    refine ⟨a, examineEdge_mono h1 hn, ?_⟩
    split at h2 <;> rename_i hc
    · rw [if_pos hc]; exact h2
    · rw [if_neg hc]; exact ih h2

theorem searchLoop_mono {g : Graph} {root : Vertex} {n n' : Nat} {m : Matching}
    {path : Path} {r : Bool × Path × Matching}
    (h : Matching.searchLoop g root n m path = .ok r) (hn : n ≤ n') :
    Matching.searchLoop g root n' m path = .ok r := by
  induction n generalizing n' m path r with
  | zero => simp [Matching.searchLoop] at h
  | succ n ih =>
    obtain ⟨k, rfl⟩ : ∃ k, n' = k + 1 := ⟨n' - 1, by omega⟩
    have hk : n ≤ k := by omega
    have hk1 : n + 1 ≤ k + 1 := by omega
    simp only [Matching.searchLoop] at h ⊢
    split at h
    · exact h
    · simp only [bind_eq_ok] at h ⊢
      obtain ⟨adj, h1, a, h2, h3⟩ := h
      refine ⟨adj, h1, a, examineEdges_mono h2 hk1, ?_⟩
      split at h3 <;> rename_i hc
      · rw [if_pos hc]; exact h3
      · rw [if_neg hc]; exact ih h3 hk

theorem findAugmentingPath_mono {n n' : Nat} {g : Graph} {m : Matching} {root : Vertex}
    {path : Path} {r : Bool × Path × Matching}
    (h : Matching.findAugmentingPath n g m root path = .ok r) (hn : n ≤ n') :
    Matching.findAugmentingPath n' g m root path = .ok r := by
  simp only [Matching.findAugmentingPath, bind_eq_ok] at h ⊢
  obtain ⟨a, h1, b, h2, h3⟩ := h
  exact ⟨a, h1, b, h2, searchLoop_mono h3 hn⟩

theorem mainLoop_mono {n n' : Nat} {g : Graph} {vs : List Vertex} {path : Path} {m : Matching}
    {r : Path × Matching}
    (h : Matching.mainLoop n g vs path m = .ok r) (hn : n ≤ n') :
    Matching.mainLoop n' g vs path m = .ok r := by
  induction vs generalizing path m r with
  | nil => simpa [Matching.mainLoop] using h
  | cons v vs ih =>
    simp only [Matching.mainLoop, bind_eq_ok] at h ⊢
    obtain ⟨mv, h1, h2⟩ := h
    refine ⟨mv, h1, ?_⟩
    split at h2 <;> rename_i hc
    · rw [if_pos hc]
      simp only [bind_eq_ok] at h2 ⊢
      obtain ⟨a, h3, h4⟩ := h2
      refine ⟨a, findAugmentingPath_mono h3 hn, ?_⟩
      split at h4 <;> rename_i hc2
      · rw [if_pos hc2]
        simp only [bind_eq_ok] at h4 ⊢
        obtain ⟨m2, h5, h6⟩ := h4
        exact ⟨m2, h5, ih h6⟩
      · rw [if_neg hc2]; exact ih h4
    · rw [if_neg hc]; exact ih h2

/-- More fuel never changes a result of the constructor. -/
theorem construct_mono {n n' : Nat} {g : Graph} {junk : Nat → Node} {r : Matching}
    (h : Matching.construct n g junk = .ok r) (hn : n ≤ n') :
    Matching.construct n' g junk = .ok r := by
  simp only [Matching.construct, bind_eq_ok] at h ⊢
  obtain ⟨a, h1, b, h2, h3⟩ := h
  exact ⟨a, h1, b, mainLoop_mono h2 hn, h3⟩

end Blossom

namespace Blossom

/-! ## The concrete graphs: triangle, 5-cycle, the sample graph of `main` -/

theorem perm_pair_cases {a b : Vertex} {l : List Vertex} (h : l.Perm [a, b]) :
    l = [a, b] ∨ l = [b, a] := by
  have hl := h.length_eq
  match l, hl with
  | [x, y], _ =>
    have hx : x ∈ [a, b] := h.subset (by simp)
    have hy : y ∈ [a, b] := h.subset (by simp)
    have hnd : ([x, y] : List Vertex).Nodup ↔ ([a, b] : List Vertex).Nodup := h.nodup_iff
    simp only [List.mem_cons, List.mem_singleton, List.not_mem_nil, or_false] at hx hy
    by_cases hab : a = b
    · subst hab; simp_all
    · have : x ≠ y := by
        have h2 : ([a, b] : List Vertex).Nodup := by simp [hab]
        have h3 := hnd.mpr h2
        simpa using h3
      rcases hx with rfl | rfl <;> rcases hy with rfl | rfl <;> simp_all

theorem sameNeighbours_triangle {g : Graph} (h : SameNeighbours g triangle) :
    ∃ l0 l1 l2, g = ⟨[l0, l1, l2]⟩ ∧ (l0 = [1, 2] ∨ l0 = [2, 1]) ∧ (l1 = [0, 2] ∨ l1 = [2, 0]) ∧
      (l2 = [1, 0] ∨ l2 = [0, 1]) := by
  obtain ⟨adj⟩ := g
  simp only [SameNeighbours, triangle] at h
  rcases List.forall₂_cons_right_iff.mp h with ⟨l0, r0, h0, hr0, rfl⟩
  rcases List.forall₂_cons_right_iff.mp hr0 with ⟨l1, r1, h1, hr1, rfl⟩
  rcases List.forall₂_cons_right_iff.mp hr1 with ⟨l2, r2, h2, hr2, rfl⟩
  cases List.forall₂_nil_right_iff.mp hr2
  exact ⟨l0, l1, l2, rfl, perm_pair_cases h0, perm_pair_cases h1, perm_pair_cases h2⟩

theorem sameNeighbours_cycle5 {g : Graph} (h : SameNeighbours g cycle5) :
    ∃ l0 l1 l2 l3 l4, g = ⟨[l0, l1, l2, l3, l4]⟩ ∧ (l0 = [1, 4] ∨ l0 = [4, 1]) ∧
      (l1 = [0, 2] ∨ l1 = [2, 0]) ∧ (l2 = [1, 3] ∨ l2 = [3, 1]) ∧ (l3 = [2, 4] ∨ l3 = [4, 2]) ∧
      (l4 = [3, 0] ∨ l4 = [0, 3]) := by
  obtain ⟨adj⟩ := g
  simp only [SameNeighbours, cycle5] at h
  rcases List.forall₂_cons_right_iff.mp h with ⟨l0, r0, h0, hr0, rfl⟩
  rcases List.forall₂_cons_right_iff.mp hr0 with ⟨l1, r1, h1, hr1, rfl⟩
  rcases List.forall₂_cons_right_iff.mp hr1 with ⟨l2, r2, h2, hr2, rfl⟩
  rcases List.forall₂_cons_right_iff.mp hr2 with ⟨l3, r3, h3, hr3, rfl⟩
  rcases List.forall₂_cons_right_iff.mp hr3 with ⟨l4, r4, h4, hr4, rfl⟩
  cases List.forall₂_nil_right_iff.mp hr4
  exact ⟨l0, l1, l2, l3, l4, rfl, perm_pair_cases h0, perm_pair_cases h1, perm_pair_cases h2,
    perm_pair_cases h3, perm_pair_cases h4⟩

theorem endpoints_length (es : List (Vertex × Vertex)) : (endpoints es).length = 2 * es.length := by
  induction es with
  | nil => rfl
  | cons e es ih => simp [endpoints, List.flatMap_cons] at ih ⊢; omega

theorem nodup_inR_length_le {n : Nat} {l : List Vertex} (hnd : l.Nodup)
    (hr : ∀ x ∈ l, InR n x) : l.length ≤ n := by
  have h1 : (l.map Int.toNat).Nodup := by
    refine (List.nodup_map_iff_inj_on hnd).mpr ?_
    intro x hx y hy hxy
    have h1 := (hr x hx).1
    have h2 := (hr y hy).1
    rw [← Int.toNat_of_nonneg h1, ← Int.toNat_of_nonneg h2, hxy]
  have h2 : (l.map Int.toNat).toFinset ⊆ Finset.range n := by
    intro a ha
    simp only [List.mem_toFinset, List.mem_map] at ha
    obtain ⟨x, hx, rfl⟩ := ha
    have := hr x hx
    unfold InR at this
    simp only [Finset.mem_range]; omega
  have h3 := Finset.card_le_card h2
  rw [List.toFinset_card_of_nodup h1] at h3
  simpa using h3

/-- A set of pairwise vertex-disjoint edges of a valid graph has at most `N / 2` edges. -/
theorem disjointEdgeSet_le {g : Graph} (hv : g.Valid) {es : List (Vertex × Vertex)}
    (h : g.IsDisjointEdgeSet es) : 2 * es.length ≤ g.m_adjacencyList.length := by
  rw [← endpoints_length]
  refine nodup_inR_length_le h.2 ?_
  intro x hx
  simp only [endpoints, List.mem_flatMap, List.mem_cons, List.mem_singleton, List.not_mem_nil,
    or_false] at hx
  obtain ⟨e, he, rfl | rfl⟩ := hx
  · exact (h.1 e he).1
  · exact hv.inRange _ _ (h.1 e he).2

theorem adj_iff_mem {g : Graph} {v w : Vertex} :
    g.Adj v w ↔ ∃ i : Nat, v = i ∧ ∃ l, g.m_adjacencyList.get? i = some l ∧ w ∈ l := by
  unfold Graph.Adj
  constructor
  · rintro ⟨h0, hw⟩
    refine ⟨v.toNat, (Int.toNat_of_nonneg h0).symm, ?_⟩
    rw [List.getD_eq_getElem?_getD] at hw
    cases hl : g.m_adjacencyList[v.toNat]? with
    | none => simp [hl] at hw
    | some l => exact ⟨l, by simpa using hl, by simpa [hl] using hw⟩
  · rintro ⟨i, rfl, l, hl, hw⟩
    refine ⟨Int.ofNat_nonneg i, ?_⟩
    rw [List.getD_eq_getElem?_getD]
    have : g.m_adjacencyList[i]? = some l := by simpa using hl
    simpa [this] using hw

theorem Graph.valid_of_validB {g : Graph} (h : g.validB = true) : g.Valid := by
  have key : ∀ v w, g.Adj v w → InR g.m_adjacencyList.length w ∧ g.Adj w v ∧ w ≠ v := by
    intro v w hvw
    obtain ⟨i, rfl, l, hl, hw⟩ := adj_iff_mem.mp hvw
    have hi : i < g.m_adjacencyList.length := by
      have := List.get?_eq_some.mp hl
      exact this.1
    simp only [Graph.validB, List.all_eq_true, List.mem_range, Bool.and_eq_true,
      decide_eq_true_eq] at h
    have hl' : g.m_adjacencyList.getD i [] = l := by
      rw [List.getD_eq_getElem?_getD]
      have : g.m_adjacencyList[i]? = some l := by simpa using hl
      simp [this]
    have := h i hi w (by rw [hl']; exact hw)
    exact ⟨this.1.1, this.1.2, this.2⟩
  exact ⟨fun v w h => (key v w h).1, fun v w h => (key v w h).2.1,
    fun v h => (key v v h).2.2 rfl⟩

theorem sampleGraph_valid : sampleGraph.Valid := Graph.valid_of_validB (by decide!)

end Blossom

namespace Blossom

/-! ## Reading and writing vectors -/

theorem inR_toNat {n : Nat} {x : Int} (h : InR n x) : x.toNat < n := by
  unfold InR at h; omega

theorem vget_of_inR {α : Type} {l : List α} {x : Int} (d : α) (h : InR l.length x) :
    vget l x = .ok (lget l d x) := by
  have h1 := h.1
  have h2 : x.toNat < l.length := inR_toNat h
  simp only [vget, lget, if_pos h1]
  rw [List.get?_eq_get h2, List.getD_eq_getElem?_getD, List.getElem?_eq_getElem h2]
  simp

theorem vget_eq_ok {α : Type} {l : List α} {x : Int} {a : α} (d : α) :
    vget l x = .ok a ↔ InR l.length x ∧ lget l d x = a := by
  constructor
  · intro h
    unfold vget at h
    split at h
    · rename_i h0
      split at h
      · rename_i b hb
        have hlt : x.toNat < l.length := (List.get?_eq_some.mp hb).1
        have hin : InR l.length x := ⟨h0, by omega⟩
        refine ⟨hin, ?_⟩
        have := vget_of_inR d hin
        unfold vget at this
        rw [if_pos h0, hb] at this
        cases h; cases this; rfl
      · cases h
    · cases h
  · rintro ⟨h, rfl⟩
    exact vget_of_inR d h

theorem vset_of_inR {α : Type} {l : List α} {x : Int} (a : α) (h : InR l.length x) :
    vset l x a = .ok (lset l x a) := by
  have h1 := h.1
  have h2 : x.toNat < l.length := inR_toNat h
  simp [vset, lset, h1, h2]

theorem vset_eq_ok {α : Type} {l l' : List α} {x : Int} {a : α} :
    vset l x a = .ok l' ↔ InR l.length x ∧ l' = lset l x a := by
  constructor
  · intro h
    unfold vset at h
    split at h
    · rename_i hc
      refine ⟨⟨hc.1, by omega⟩, ?_⟩
      cases h; rfl
    · cases h
  · rintro ⟨h, rfl⟩
    exact vset_of_inR a h

@[simp] theorem length_lset {α : Type} (l : List α) (x : Int) (a : α) :
    (lset l x a).length = l.length := by
  simp [lset]

theorem lget_lset {α : Type} {l : List α} {x : Int} (d a : α) (h : InR l.length x) (y : Int) :
    lget (lset l x a) d y = if y = x then a else lget l d y := by
  have h1 := h.1
  have h2 : x.toNat < l.length := inR_toNat h
  unfold lget lset
  by_cases hy : 0 ≤ y
  · rw [if_pos hy, if_pos hy]
    by_cases hyx : y = x
    · subst hyx
      rw [if_pos rfl, List.getD_eq_getElem?_getD, List.getElem?_set_self h2]
      rfl
    · rw [if_neg hyx, List.getD_eq_getElem?_getD, List.getD_eq_getElem?_getD,
        List.getElem?_set_ne (by omega)]
  · rw [if_neg hy, if_neg hy, if_neg (by omega)]

theorem lget_lset_self {α : Type} {l : List α} {x : Int} (d a : α) (h : InR l.length x) :
    lget (lset l x a) d x = a := by
  rw [lget_lset d a h, if_pos rfl]

theorem lget_lset_ne {α : Type} {l : List α} {x y : Int} (d a : α) (h : InR l.length x)
    (hy : y ≠ x) : lget (lset l x a) d y = lget l d y := by
  rw [lget_lset d a h, if_neg hy]

theorem lget_replicate {α : Type} (n : Nat) (a d : α) (h : a = d) (x : Int) :
    lget (List.replicate n a) d x = d := by
  subst h
  unfold lget
  split
  · rw [List.getD_eq_getElem?_getD]
    by_cases hx : x.toNat < n
    · simp [List.getElem?_replicate, hx]
    · simp [List.getElem?_replicate, hx]
  · rfl

theorem partner_eq_lget (m : Matching) (v : Vertex) :
    m.partner v = lget m.m_matchedVertex (-1) v := rfl

theorem getMatchedVertex_eq_ok {m : Matching} {v w : Vertex} :
    m.getMatchedVertex v = .ok w ↔ InR m.m_matchedVertex.length v ∧ m.partner v = w :=
  vget_eq_ok (-1)

/-- The effect of `match(v, w)` on the partner map. -/
theorem match_spec {m : Matching} {n : Nat} (hs : m.Sized n) {v w : Vertex}
    (hv : InR n v) (hw : InR n w) :
    ∃ m', m.match_ v w = .ok m' ∧ m'.Sized n ∧
      m'.m_clearToken = m.m_clearToken ∧ m'.m_queue = m.m_queue ∧ m'.m_tree = m.m_tree ∧
      m'.m_bridges = m.m_bridges ∧
      ∀ x, m'.partner x = if x = w then v else if x = v then w else m.partner x := by
  have hv' : InR m.m_matchedVertex.length v := by rw [hs.mv]; exact hv
  have hw' : InR (lset m.m_matchedVertex v w).length w := by rw [length_lset, hs.mv]; exact hw
  refine ⟨{ m with m_matchedVertex := lset (lset m.m_matchedVertex v w) w v }, ?_, ?_, rfl, rfl,
    rfl, rfl, ?_⟩
  · simp only [Matching.match_, bind_eq_ok]
    exact ⟨_, vset_of_inR w hv', _, vset_of_inR v hw', rfl⟩
  · exact ⟨by simp [hs.mv], hs.tree, hs.br⟩
  · intro x
    simp only [partner_eq_lget]
    rw [lget_lset (-1) v hw', lget_lset (-1) w hv']

theorem match_eq_ok {m m' : Matching} {n : Nat} (hs : m.Sized n) {v w : Vertex}
    (h : m.match_ v w = .ok m') : InR n v ∧ InR n w := by
  simp only [Matching.match_, bind_eq_ok] at h
  obtain ⟨mv1, h1, mv2, h2, _⟩ := h
  have a := (vset_eq_ok.mp h1)
  have b := (vset_eq_ok.mp h2)
  rw [hs.mv] at a
  rw [a.2, length_lset, hs.mv] at b
  exact ⟨a.1, b.1⟩

end Blossom

namespace Blossom

/-! ## The alternating tree: ancestors and depths -/

section
variable {g : Graph} {n : Nat} {root : Int} {V : View} {ρ : Int → Int}

theorem Anc.left (h : Anc V n root x t) : V.InTree n x := by
  cases h <;> assumption

theorem Anc.right (h : Anc V n root x t) : V.InTree n t := by
  induction h with
  | refl h => exact h
  | step _ _ _ ih => exact ih

theorem Anc.trans (h1 : Anc V n root x y) (h2 : Anc V n root y z) : Anc V n root x z := by
  induction h1 with
  | refl _ => exact h2
  | step hx hr _ ih => exact Anc.step hx hr (ih h2)

theorem Anc.step_inv (h : Anc V n root x t) (hne : x ≠ t) :
    x ≠ root ∧ Anc V n root (V.parent x) t := by
  cases h with
  | refl _ => exact absurd rfl hne
  | step _ hr h' => exact ⟨hr, h'⟩

theorem Anc.linear (h1 : Anc V n root x a) (h2 : Anc V n root x b) :
    Anc V n root a b ∨ Anc V n root b a := by
  induction h1 with
  | refl _ => exact Or.inl h2
  | step hx hr h' ih =>
    cases h2 with
    | refl _ => exact Or.inr (Anc.step hx hr h')
    | step _ _ h2' => exact ih h2'

theorem TreeInv.parity (_ht : TreeInv g n root V) (x : Int) :
    V.depth x % 2 = 0 ∨ V.depth x % 2 = 1 := by omega

theorem TreeInv.odd_ne_root (ht : TreeInv g n root V) {x : Int} (hd : V.depth x % 2 = 1) :
    x ≠ root := by
  rintro rfl
  rw [ht.root_depth] at hd
  omega

theorem TreeInv.parent_in (ht : TreeInv g n root V) {x : Int} (hx : V.InTree n x)
    (hr : x ≠ root) : V.InTree n (V.parent x) ∧ V.depth (V.parent x) < V.depth x := by
  rcases ht.parity x with h | h
  · have h1 := ht.even_parent x hx hr h
    have h2 := ht.mate_in x hx hr
    rw [h1.1]
    exact ⟨h2.2, by omega⟩
  · have := ht.odd_parent x hx h
    exact ⟨this.1, this.2.1⟩

theorem TreeInv.depth_pos (ht : TreeInv g n root V) {x : Int} (hx : V.InTree n x)
    (hr : x ≠ root) : 0 < V.depth x := by
  have h1 := ht.parent_in hx hr
  have h2 := ht.depth_nonneg _ h1.1
  omega

theorem TreeInv.anc_depth_le (ht : TreeInv g n root V) (h : Anc V n root x t) :
    V.depth t ≤ V.depth x := by
  induction h with
  | refl _ => exact le_refl _
  | step hx hr _ ih =>
    have := (ht.parent_in hx hr).2
    omega

theorem TreeInv.anc_depth_eq (ht : TreeInv g n root V) (h : Anc V n root x t)
    (hd : V.depth x ≤ V.depth t) : x = t := by
  cases h with
  | refl _ => rfl
  | step hx hr h' =>
    have h1 := (ht.parent_in hx hr).2
    have h2 := ht.anc_depth_le h'
    omega

theorem TreeInv.anc_antisymm (ht : TreeInv g n root V) (h1 : Anc V n root a b)
    (h2 : Anc V n root b a) : a = b :=
  ht.anc_depth_eq h1 (ht.anc_depth_le h2)

theorem TreeInv.anc_root (ht : TreeInv g n root V) {x : Int} (hx : V.InTree n x) :
    Anc V n root x root := by
  have key : ∀ k : Nat, ∀ x, V.InTree n x → V.depth x ≤ k → Anc V n root x root := by
    intro k
    induction k with
    | zero =>
      intro x hx hk
      by_cases hr : x = root
      · subst hr; exact Anc.refl hx
      · have := ht.depth_pos hx hr
        omega
    | succ k ih =>
      intro x hx hk
      by_cases hr : x = root
      · subst hr; exact Anc.refl hx
      · have h1 := ht.parent_in hx hr
        exact Anc.step hx hr (ih _ h1.1 (by omega))
  exact key (V.depth x).toNat x hx (by have := ht.depth_nonneg x hx; omega)

theorem TreeInv.anc_of_root (_ht : TreeInv g n root V) (h : Anc V n root root t) : t = root := by
  cases h with
  | refl _ => rfl
  | step _ hr _ => exact absurd rfl hr

theorem BlossomInv.anc_base (ht : TreeInv g n root V) (hb : BlossomInv n root V ρ) {x : Int}
    (hx : V.InTree n x) : Anc V n root x (ρ x) := by
  have key : ∀ k : Nat, ∀ x, V.InTree n x → V.depth x ≤ k → Anc V n root x (ρ x) := by
    intro k
    induction k with
    | zero =>
      intro x hx hk
      by_cases hr : x = root
      · subst hr; rw [hb.rho_root]; exact Anc.refl hx
      · have := ht.depth_pos hx hr
        omega
    | succ k ih =>
      intro x hx hk
      by_cases hfix : ρ x = x
      · rw [hfix]; exact Anc.refl hx
      · have hr : x ≠ root := by
          rintro rfl
          exact hfix hb.rho_root
        have h1 := ht.parent_in hx hr
        have h2 := ih _ h1.1 (by omega)
        rw [hb.class_parent x hx hfix] at h2
        exact Anc.step hx hr h2
  exact key (V.depth x).toNat x hx (by have := ht.depth_nonneg x hx; omega)

theorem BlossomInv.base_le (ht : TreeInv g n root V) (hb : BlossomInv n root V ρ) {x : Int}
    (hx : V.InTree n x) : V.depth (ρ x) ≤ V.depth x :=
  ht.anc_depth_le (hb.anc_base ht hx)

/-- A vertex on the tree path from `x` to the base of `x` lies in the blossom of `x`. -/
theorem BlossomInv.between (ht : TreeInv g n root V) (hb : BlossomInv n root V ρ)
    (h1 : Anc V n root x y) (h2 : Anc V n root y (ρ x)) : ρ y = ρ x := by
  induction h1 with
  | refl _ => rfl
  | @step x0 y0 hx hr h' ih =>
    by_cases hfix : ρ x0 = x0
    · rw [hfix] at h2
      have := ht.anc_antisymm h2 (Anc.step hx hr h')
      rw [this]
    · have hc := hb.class_parent x0 hx hfix
      rw [← hc] at h2 ⊢
      exact ih h2

/-- A base above `x` is at or above the base of `x`. -/
theorem BlossomInv.base_anc (ht : TreeInv g n root V) (hb : BlossomInv n root V ρ)
    (h : Anc V n root x t) (hfix : ρ t = t) : Anc V n root (ρ x) t := by
  rcases h.linear (hb.anc_base ht h.left) with h1 | h1
  · have := hb.between ht h h1
    rw [← this, hfix]
    exact Anc.refl h.right
  · exact h1

theorem BlossomInv.inner_fix (hb : BlossomInv n root V ρ) {x : Int} (hx : V.InTree n x)
    (hd : V.depth (ρ x) % 2 = 1) : ρ x = x := by
  by_contra hne
  have := hb.base_even x hx hne
  omega

/-- The partner of an inner vertex is a base. -/
theorem BlossomInv.inner_mate_base (ht : TreeInv g n root V) (hb : BlossomInv n root V ρ)
    {x : Int} (hx : V.InTree n x) (hd : V.depth x % 2 = 1) (hfix : ρ x = x) :
    ρ (V.partner x) = V.partner x := by
  by_contra hne
  have hr := ht.odd_ne_root hd
  have hm := ht.mate_in x hx hr
  have h1 := hb.class_mate _ hm.2 hne
  have hx' : InR n x := hx.1
  rw [ht.pm.symm x hx' hm.1, hfix] at h1
  have h2 := hb.even_base _ hm.2 (by have := (ht.odd_mate x hx hd).2; omega)
  rw [← h1] at h2
  omega

/-- The partner of a base other than the root is an inner vertex outside every blossom. -/
theorem BlossomInv.base_mate_inner (ht : TreeInv g n root V) (hb : BlossomInv n root V ρ)
    {t : Int} (ht' : V.InTree n t) (hd : V.depth t % 2 = 0) (hfix : ρ t = t) (hr : t ≠ root) :
    ρ (V.partner t) = V.partner t ∧ V.depth (V.partner t) % 2 = 1 := by
  have hm := ht.mate_in t ht' hr
  have he := ht.even_parent t ht' hr hd
  have hodd : V.depth (V.partner t) % 2 = 1 := by omega
  refine ⟨?_, hodd⟩
  by_contra hne
  have h1 := hb.class_mate _ hm.2 hne
  rw [ht.pm.symm t ht'.1 hm.1, hfix] at h1
  have h2 := hb.base_le ht hm.2
  rw [← h1] at h2
  omega

theorem BlossomInv.rho_inR (hb : BlossomInv n root V ρ) {x : Int} (hx : InR n x) :
    InR n (ρ x) := by
  by_cases h : V.InTree n x
  · exact (hb.rho_in x h).1
  · rw [hb.rho_fix x h]; exact hx

theorem BlossomInv.inTree_of_rho (hb : BlossomInv n root V ρ) {x : Int}
    (h : V.InTree n (ρ x)) : V.InTree n x := by
  by_contra hx
  rw [hb.rho_fix x hx] at h
  exact hx h

theorem TreeInv.depth_zero (ht : TreeInv g n root V) {x : Int} (hx : V.InTree n x)
    (hd : V.depth x = 0) : x = root := by
  by_contra hr
  have := ht.depth_pos hx hr
  omega

end

end Blossom

namespace Blossom

section
variable {g : Graph} {n : Nat} {root : Int} {V : View} {ρ : Int → Int}

/-- The last vertex before `z` on the tree path from `v` up to `z`. -/
theorem Anc.child (h : Anc V n root v z) (hne : v ≠ z) :
    ∃ y, Anc V n root v y ∧ V.InTree n y ∧ y ≠ root ∧ V.parent y = z := by
  induction h with
  | refl _ => exact absurd rfl hne
  | @step x t hx hr h' ih =>
    by_cases hp : V.parent x = t
    · exact ⟨x, Anc.refl hx, hx, hr, hp⟩
    · obtain ⟨y, h1, h2, h3, h4⟩ := ih hp
      exact ⟨y, Anc.step hx hr h1, h2, h3, h4⟩

/-- The only child of an inner vertex that is in no blossom is its partner. -/
theorem BlossomInv.inner_child (ht : TreeInv g n root V) (hb : BlossomInv n root V ρ)
    {z y : Int} (hzfix : ρ z = z) (hzd : V.depth z % 2 = 1)
    (hy : V.InTree n y) (hyr : y ≠ root) (hp : V.parent y = z) : y = V.partner z := by
  rcases ht.parity y with hd | hd
  · have he := ht.even_parent y hy hyr hd
    have hm := ht.mate_in y hy hyr
    rw [← hp, he.1]
    exact (ht.pm.symm y hy.1 hm.1).symm
  · have := hb.odd_parent_outer y hy hd
    rw [hp, hzfix] at this
    omega

/-- The base of the lowest common ancestor of two outer vertices of different blossoms has
    even depth. -/
theorem BlossomInv.lca_even (ht : TreeInv g n root V) (hb : BlossomInv n root V ρ)
    {v w z0 : Int} (hv : V.Outer n ρ v) (hw : V.Outer n ρ w)
    (lca_v : Anc V n root v z0) (lca_w : Anc V n root w z0)
    (lca_min : ∀ y, Anc V n root v y → Anc V n root w y → Anc V n root z0 y) :
    V.depth (ρ z0) % 2 = 0 := by
  by_contra hodd
  have hodd' : V.depth (ρ z0) % 2 = 1 := by omega
  have hz := lca_v.right
  have hfix := hb.inner_fix hz hodd'
  rw [hfix] at hodd'
  have hvz : v ≠ z0 := by
    rintro rfl
    have := hv.2
    rw [hfix] at this; omega
  have hwz : w ≠ z0 := by
    rintro rfl
    have := hw.2
    rw [hfix] at this; omega
  obtain ⟨y1, a1, t1, r1, p1⟩ := lca_v.child hvz
  obtain ⟨y2, a2, t2, r2, p2⟩ := lca_w.child hwz
  have e1 := hb.inner_child ht hfix hodd' t1 r1 p1
  have e2 := hb.inner_child ht hfix hodd' t2 r2 p2
  rw [e1] at a1
  rw [e2] at a2
  have h1 := ht.anc_depth_le (lca_min _ a1 a2)
  have h2 := (ht.odd_mate z0 hz hodd').2
  omega

end

end Blossom

namespace Blossom

/-! ## Alternating chains and the relation `PathRel` -/

section
variable {n : Nat} {V V' : View} {br br' : Int → Int × Int} {Q Q' : Int → Prop}

theorem PathRel.ne_nil (h : PathRel V n br Q s t p) : p ≠ [] := by
  cases h <;> simp

theorem PathRel.head (h : PathRel V n br Q s t p) : p.head? = some s := by
  cases h <;> simp

theorem PathRel.exists_cons (h : PathRel V n br Q s t p) : ∃ p', p = s :: p' := by
  cases h <;> simp

theorem PathRel.getLast (h : PathRel V n br Q s t p) : p.getLast? = some t := by
  induction h with
  | done => simp
  | even _ _ _ _ _ hp ih =>
    obtain ⟨p', rfl⟩ := hp.exists_cons
    simpa [List.getLast?_cons_cons] using ih
  | odd _ _ _ _ _ hp2 _ ih2 =>
    obtain ⟨p', rfl⟩ := hp2.exists_cons
    rw [List.getLast?_cons, List.getLast?_append, ih2]
    simp

/-- The relation `PathRel` only depends on the fields of the vertices on the path. -/
theorem PathRel.rel_congr (h : PathRel V n br Q s t p)
    (hd : ∀ z ∈ p, V'.depth z = V.depth z ∧ V'.parent z = V.parent z)
    (hp : ∀ z, V'.partner z = V.partner z)
    (hb : ∀ z ∈ p, Q z → br' z = br z)
    (hq : ∀ z ∈ p, Q z → Q' z) : PathRel V' n br' Q' s t p := by
  induction h with
  | done => exact PathRel.done
  | @even s0 t0 y0 p0 hne hs hdep hms hpar _ ih =>
    have e1 := hd s0 (by simp)
    have e2 := hd (V.partner s0) (by simp)
    have := @PathRel.even V' n br' Q' s0 t0 y0 p0 hne hs (by rw [e1.1]; exact hdep)
      (by rw [hp]; exact hms) (by rw [hp, e2.2]; exact hpar)
      (ih (fun z hz => hd z (by simp [hz])) (fun z hz => hb z (by simp [hz]))
        (fun z hz => hq z (by simp [hz])))
    rw [hp] at this
    exact this
  | @odd s0 t0 p1 p2 hne hs hdep hQ _ _ ih1 ih2 =>
    have e1 := hd s0 (by simp)
    have e3 := hb s0 (by simp) hQ
    have := @PathRel.odd V' n br' Q' s0 t0 p1 p2 hne hs
      (by rw [e1.1]; exact hdep) (hq s0 (by simp) hQ)
      (by
        rw [e3, hp]
        exact ih1 (fun z hz => hd z (by simp [hz])) (fun z hz => hb z (by simp [hz]))
          (fun z hz => hq z (by simp [hz])))
      (by
        rw [e3]
        exact ih2 (fun z hz => hd z (by simp [hz])) (fun z hz => hb z (by simp [hz]))
          (fun z hz => hq z (by simp [hz])))
    exact this

end

section
variable {R S : Int → Int → Prop}

theorem altChain_cons_cons {a b : Int} {l : List Int} :
    AltChain R S (a :: b :: l) ↔ R a b ∧ AltChain S R (b :: l) := by
  simp [AltChain]

theorem altChain_singleton (a : Int) : AltChain R S [a] := by
  simp [AltChain]

theorem altChain_nil : AltChain R S [] := by
  simp [AltChain]

/-- Appending to a chain with an odd number of vertices. -/
theorem altChain_append_odd : ∀ (p q : List Int) (a b : Int) (R S : Int → Int → Prop),
    p.length % 2 = 1 → p.getLast? = some a → q.head? = some b →
    AltChain R S p → R a b → AltChain S R q → AltChain R S (p ++ q)
  | [], _, _, _, _, _, h, _, _, _, _, _ => by simp at h
  | [x], q, a, b, R, S, _, hl, hh, _, hr, hq => by
    simp only [List.getLast?_singleton, Option.some.injEq] at hl
    subst hl
    cases q with
    | nil => simp at hh
    | cons y q =>
      simp only [List.head?_cons, Option.some.injEq] at hh
      subst hh
      exact altChain_cons_cons.mpr ⟨hr, hq⟩
  | x :: y :: p, q, a, b, R, S, hlen, hl, hh, hp, hr, hq => by
    have h1 := altChain_cons_cons.mp hp
    cases p with
    | nil => simp at hlen
    | cons z p =>
      have h2 := altChain_cons_cons.mp h1.2
      have ih := altChain_append_odd (z :: p) q a b R S (by simp at hlen ⊢; omega)
        (by simpa [List.getLast?_cons_cons] using hl) hh h2.2 hr hq
      simp only [List.cons_append]
      exact altChain_cons_cons.mpr ⟨h1.1, altChain_cons_cons.mpr ⟨h2.1, ih⟩⟩

/-- Reversing a chain with an odd number of vertices swaps the two relations. -/
theorem altChain_reverse : ∀ (p : List Int) (R S : Int → Int → Prop),
    p.length % 2 = 1 → (∀ x ∈ p, ∀ y ∈ p, R x y → R y x) → (∀ x ∈ p, ∀ y ∈ p, S x y → S y x) →
    AltChain R S p → AltChain S R (p.reverse)
  | [], _, _, h, _, _, _ => by simp at h
  | [x], _, _, _, _, _, _ => by simp [AltChain]
  | x :: y :: p, R, S, hlen, hR, hS, hp => by
    have h1 := altChain_cons_cons.mp hp
    cases p with
    | nil => simp at hlen
    | cons z p =>
      have h2 := altChain_cons_cons.mp h1.2
      have ih := altChain_reverse (z :: p) R S (by simp at hlen ⊢; omega)
        (fun a ha c hc => hR a (by simp [ha]) c (by simp [hc]))
        (fun a ha c hc => hS a (by simp [ha]) c (by simp [hc])) h2.2
      have e : (x :: y :: z :: p).reverse = (z :: p).reverse ++ [y, x] := by simp
      rw [e]
      have hlast : ((z :: p).reverse).getLast? = some z := by simp
      refine altChain_append_odd _ _ z y S R (by simp at hlen ⊢; omega) hlast (by simp) ih
        (hS _ (by simp) _ (by simp) h2.1) ?_
      exact altChain_cons_cons.mpr ⟨hR _ (by simp) _ (by simp) h1.1, altChain_singleton _⟩

end

end Blossom

namespace Blossom

/-! ## `extendTree` preserves the invariant -/

section
variable {g : Graph} {n : Nat} {root : Int} {V : View} {ρ : Int → Int}
  {br : Int → Int × Int} {q : List Int} {v w : Int}

theorem ExtPre.u_in (h : ExtPre g n root V ρ br q v w) : InR n (V.partner w) :=
  h.core.tree.pm.inR w h.w_in h.w_matched

theorem ExtPre.u_mate (h : ExtPre g n root V ρ br q v w) : V.partner (V.partner w) = w :=
  h.core.tree.pm.symm w h.w_in h.w_matched

theorem ExtPre.u_ne_w (h : ExtPre g n root V ρ br q v w) : V.partner w ≠ w := by
  intro e
  have := h.core.tree.pm.adj w h.w_in h.w_matched
  rw [e] at this
  exact h.valid.noLoop w this

theorem ExtPre.u_new (h : ExtPre g n root V ρ br q v w) : ¬ V.InTree n (V.partner w) := by
  intro hT
  have hr : V.partner w ≠ root := by
    intro e
    have h1 := h.u_mate
    rw [e, h.core.tree.root_exposed] at h1
    have := h.w_in.1
    omega
  have := (h.core.tree.mate_in _ hT hr).2
  rw [h.u_mate] at this
  exact h.w_new this

theorem ExtPre.old_ne (h : ExtPre g n root V ρ br q v w) {x : Int} (hx : V.InTree n x) :
    x ≠ V.partner w ∧ x ≠ w :=
  ⟨fun e => h.u_new (e ▸ hx), fun e => h.w_new (e ▸ hx)⟩

theorem ExtPre.old_fields (h : ExtPre g n root V ρ br q v w) {x : Int} (hx : V.InTree n x) :
    (V.extend v w).depth x = V.depth x ∧ (V.extend v w).parent x = V.parent x ∧
      (V.extend v w).token x = V.token x := by
  have := h.old_ne hx
  simp [View.extend, this.1, this.2]

theorem ExtPre.inTree_iff (h : ExtPre g n root V ρ br q v w) (x : Int) :
    (V.extend v w).InTree n x ↔ V.InTree n x ∨ x = V.partner w ∨ x = w := by
  unfold View.InTree
  by_cases h1 : x = V.partner w
  · subst h1
    simp [View.extend, h.u_in]
  · by_cases h2 : x = w
    · subst h2
      simp [View.extend, h1, h.w_in]
    · simp [View.extend, h1, h2]

theorem ExtPre.inTree_old (h : ExtPre g n root V ρ br q v w) {x : Int} (hx : V.InTree n x) :
    (V.extend v w).InTree n x := (h.inTree_iff x).mpr (Or.inl hx)

theorem ExtPre.depth_w (h : ExtPre g n root V ρ br q v w) :
    (V.extend v w).depth w = V.depth v + 1 + V.depth v % 2 := by
  have := h.u_ne_w
  simp [View.extend, Ne.symm this]

theorem ExtPre.depth_u (_h : ExtPre g n root V ρ br q v w) :
    (V.extend v w).depth (V.partner w) = V.depth v + 1 + V.depth v % 2 + 1 := by
  simp [View.extend]

theorem ExtPre.parent_w (h : ExtPre g n root V ρ br q v w) : (V.extend v w).parent w = v := by
  have := h.u_ne_w
  simp [View.extend, Ne.symm this]

theorem ExtPre.parent_u (_h : ExtPre g n root V ρ br q v w) :
    (V.extend v w).parent (V.partner w) = w := by
  simp [View.extend]

theorem ExtPre.rho_u (h : ExtPre g n root V ρ br q v w) : ρ (V.partner w) = V.partner w :=
  h.core.blossom.rho_fix _ h.u_new

theorem ExtPre.rho_w (h : ExtPre g n root V ρ br q v w) : ρ w = w :=
  h.core.blossom.rho_fix _ h.w_new

theorem ExtPre.tree (h : ExtPre g n root V ρ br q v w) : TreeInv g n root (V.extend v w) := by
  have ht := h.core.tree
  have hvT := h.outer.1
  have hdv := ht.depth_nonneg v hvT
  have hu := h.u_in
  have huw := h.u_ne_w
  have hmu := h.u_mate
  have hold := fun {x} hx => h.old_fields (x := x) hx
  have hdw := h.depth_w
  have hdu := h.depth_u
  have hpw := h.parent_w
  have hpu := h.parent_u
  have hpart : (V.extend v w).partner = V.partner := rfl
  refine ⟨ht.pm, h.inTree_old ht.root_in, ht.root_exposed, ?_, ?_, ?_, ?_, ?_, ?_⟩
  · rw [(hold ht.root_in).1]; exact ht.root_depth
  · intro x hx
    rcases (h.inTree_iff x).mp hx with hx | rfl | rfl
    · rw [(hold hx).1]; exact ht.depth_nonneg x hx
    · rw [hdu]; omega
    · rw [hdw]; omega
  · intro x hx hr
    rw [hpart]
    rcases (h.inTree_iff x).mp hx with hx | rfl | rfl
    · have := ht.mate_in x hx hr
      exact ⟨this.1, h.inTree_old this.2⟩
    · rw [hmu]
      exact ⟨by have := h.w_in.1; omega, (h.inTree_iff _).mpr (Or.inr (Or.inr rfl))⟩
    · exact ⟨h.w_matched, (h.inTree_iff _).mpr (Or.inr (Or.inl rfl))⟩
  · intro x hx hr hd
    rw [hpart]
    rcases (h.inTree_iff x).mp hx with hx | rfl | rfl
    · have hm := ht.mate_in x hx hr
      rw [(hold hx).1] at hd ⊢
      rw [(hold hx).2.1, (hold hm.2).1]
      exact ht.even_parent x hx hr hd
    · rw [hmu, hpu, hdu, hdw]
      exact ⟨rfl, rfl⟩
    · rw [hdw] at hd; omega
  · intro x hx hd
    rw [hpart]
    rcases (h.inTree_iff x).mp hx with hx | rfl | rfl
    · rw [(hold hx).1] at hd ⊢
      have hm := ht.mate_in x hx (ht.odd_ne_root hd)
      rw [(hold hm.2).1, (hold hm.2).2.1]
      exact ht.odd_mate x hx hd
    · rw [hdu] at hd; omega
    · rw [hpu, hdu, hdw]
      exact ⟨rfl, rfl⟩
  · intro x hx hd
    rw [hpart]
    rcases (h.inTree_iff x).mp hx with hx | rfl | rfl
    · rw [(hold hx).1] at hd ⊢
      have := ht.odd_parent x hx hd
      rw [(hold hx).2.1, (hold this.1).1]
      exact ⟨h.inTree_old this.1, this.2.1, this.2.2.1, this.2.2.2⟩
    · rw [hdu] at hd; omega
    · rw [hpw, hdw, (hold hvT).1]
      refine ⟨h.inTree_old hvT, by omega, h.adj, ?_⟩
      exact fun e => (h.old_ne hvT).1 e.symm

theorem ExtPre.blossom (h : ExtPre g n root V ρ br q v w) : BlossomInv n root (V.extend v w) ρ := by
  have hb := h.core.blossom
  have hold := fun {x} hx => h.old_fields (x := x) hx
  have hdw := h.depth_w
  have hdu := h.depth_u
  have hdv := h.core.tree.depth_nonneg v h.outer.1
  refine ⟨hb.rho_root, ?_, ?_, hb.rho_idem, ?_, ?_, ?_, ?_, ?_⟩
  · intro x hx
    exact hb.rho_fix x (fun hx' => hx (h.inTree_old hx'))
  · intro x hx
    rcases (h.inTree_iff x).mp hx with hx' | rfl | rfl
    · exact h.inTree_old (hb.rho_in x hx')
    · rw [h.rho_u]; exact hx
    · rw [h.rho_w]; exact hx
  · intro x hx hne
    rcases (h.inTree_iff x).mp hx with hx' | rfl | rfl
    · rw [(hold (hb.rho_in x hx')).1]; exact hb.base_even x hx' hne
    · exact absurd h.rho_u hne
    · exact absurd h.rho_w hne
  · intro x hx hd
    rcases (h.inTree_iff x).mp hx with hx' | rfl | rfl
    · rw [(hold (hb.rho_in x hx')).1]
      rw [(hold hx').1] at hd
      exact hb.even_base x hx' hd
    · rw [h.rho_u]; exact hd
    · rw [h.rho_w]; exact hd
  · intro x hx hne
    rcases (h.inTree_iff x).mp hx with hx' | rfl | rfl
    · rw [(hold hx').2.1]; exact hb.class_parent x hx' hne
    · exact absurd h.rho_u hne
    · exact absurd h.rho_w hne
  · intro x hx hne
    rcases (h.inTree_iff x).mp hx with hx' | rfl | rfl
    · exact hb.class_mate x hx' hne
    · exact absurd h.rho_u hne
    · exact absurd h.rho_w hne
  · intro x hx hd
    rcases (h.inTree_iff x).mp hx with hx' | rfl | rfl
    · rw [(hold hx').1] at hd
      have hp := (h.core.tree.odd_parent x hx' hd).1
      rw [(hold hx').2.1, (hold (hb.rho_in _ hp)).1]
      exact hb.odd_parent_outer x hx' hd
    · rw [hdu] at hd; omega
    · rw [h.parent_w, (hold (hb.rho_in _ h.outer.1)).1]
      exact h.outer.2

theorem ExtPre.outer_iff (h : ExtPre g n root V ρ br q v w) (x : Int) :
    (V.extend v w).Outer n ρ x ↔ V.Outer n ρ x ∨ x = V.partner w := by
  have hdv := h.core.tree.depth_nonneg v h.outer.1
  unfold View.Outer
  constructor
  · rintro ⟨hx, hd⟩
    rcases (h.inTree_iff x).mp hx with hx' | rfl | rfl
    · left
      rw [(h.old_fields (h.core.blossom.rho_in x hx')).1] at hd
      exact ⟨hx', hd⟩
    · right; rfl
    · rw [h.rho_w, h.depth_w] at hd; omega
  · rintro (⟨hx, hd⟩ | rfl)
    · refine ⟨h.inTree_old hx, ?_⟩
      rw [(h.old_fields (h.core.blossom.rho_in x hx)).1]
      exact hd
    · refine ⟨(h.inTree_iff _).mpr (Or.inr (Or.inl rfl)), ?_⟩
      rw [h.rho_u, h.depth_u]; omega

theorem ExtPre.ext_queue (h : ExtPre g n root V ρ br q v w) :
    QueueInv n (V.extend v w) ρ (q ++ [V.partner w]) := by
  have hq := h.core.queue
  constructor
  · intro x hx'
    have : x ∈ q ∨ x = V.partner w := by
      simpa using hx'
    rcases this with h1 | rfl
    · exact (h.outer_iff x).mpr (Or.inl (hq.outer x h1))
    · exact (h.outer_iff _).mpr (Or.inr rfl)
  · have : V.partner w ∉ q := fun hmem => h.u_new (hq.outer _ hmem).1
    exact List.Nodup.append hq.nodup (List.nodup_singleton _) (by simpa using this)

theorem ExtPre.anc_old (h : ExtPre g n root V ρ br q v w) (ha : Anc V n root x t) :
    Anc (V.extend v w) n root x t := by
  induction ha with
  | refl hx => exact Anc.refl (h.inTree_old hx)
  | step hx hr _ ih =>
    refine Anc.step (h.inTree_old hx) hr ?_
    rw [(h.old_fields hx).2.1]
    exact ih

theorem ExtPre.anc_new (h : ExtPre g n root V ρ br q v w) (ha : Anc (V.extend v w) n root x t)
    (hx : V.InTree n x) : Anc V n root x t := by
  induction ha with
  | refl _ => exact Anc.refl hx
  | step _ hr _ ih =>
    have hp := h.core.tree.parent_in hx hr
    rw [(h.old_fields hx).2.1] at ih
    exact Anc.step hx hr (ih hp.1)

end

end Blossom

namespace Blossom

section
variable {g : Graph} {n : Nat} {root : Int} {V : View} {ρ : Int → Int}
  {br : Int → Int × Int} {q : List Int} {v w : Int}

theorem ExtPre.pathRel_old (h : ExtPre g n root V ρ br q v w) {Q : Int → Prop}
    (hp : PathRel V n br Q x t p) (hr : ∀ z ∈ p, V.InTree n z) :
    PathRel (V.extend v w) n br Q x t p :=
  hp.rel_congr (fun z hz => ⟨(h.old_fields (hr z hz)).1, (h.old_fields (hr z hz)).2.1⟩)
    (fun _ => rfl) (fun _ _ _ => rfl) (fun _ _ hq => hq)

theorem ExtPre.goodPath_old (h : ExtPre g n root V ρ br q v w)
    (hg : GoodPath g n root V ρ x t p) : GoodPath g n root (V.extend v w) ρ x t p :=
  ⟨hg.nodup, fun z hz => ⟨h.inTree_old (hg.region z hz).1, h.anc_old (hg.region z hz).2.1,
    h.anc_old (hg.region z hz).2.2⟩, hg.alt, hg.odd⟩

theorem ExtPre.ext_path (h : ExtPre g n root V ρ br q v w) :
    PathInv g n root (V.extend v w) ρ br := by
  intro x t hxo hanc hfix hdt
  have ht := h.core.tree
  have hvT := h.outer.1
  have hdv := ht.depth_nonneg v hvT
  rcases (h.outer_iff x).mp hxo with hold | rfl
  · have ha := h.anc_new hanc hold.1
    have hdt' : V.depth t % 2 = 0 := by rw [← (h.old_fields ha.right).1]; exact hdt
    obtain ⟨p, hp, hg⟩ := h.core.path x t hold ha hfix hdt'
    exact ⟨p, h.pathRel_old hp (fun z hz => (hg.region z hz).1), h.goodPath_old hg⟩
  · by_cases htu : V.partner w = t
    · subst htu
      refine ⟨[V.partner w], PathRel.done, ?_⟩
      refine ⟨List.nodup_singleton _, ?_, altChain_singleton _, rfl⟩
      intro z hz
      simp only [List.mem_singleton] at hz
      subst hz
      rw [h.rho_u]
      exact ⟨hanc.left, hanc, hanc⟩
    · have h1 := hanc.step_inv htu
      rw [h.parent_u] at h1
      have htw : w ≠ t := by
        rintro rfl
        rw [h.depth_w] at hdt; omega
      have h2 := h1.2.step_inv htw
      rw [h.parent_w] at h2
      have ha := h.anc_new h2.2 hvT
      have hdt' : V.depth t % 2 = 0 := by rw [← (h.old_fields ha.right).1]; exact hdt
      obtain ⟨p, hp, hg⟩ := h.core.path v t h.outer ha hfix hdt'
      have hp' := h.pathRel_old hp (fun z hz => (hg.region z hz).1)
      have hg' := h.goodPath_old hg
      have hu_notin : V.partner w ∉ p := fun hm => h.u_new (hg.region _ hm).1
      have hw_notin : w ∉ p := fun hm => h.w_new (hg.region _ hm).1
      have hTu : (V.extend v w).InTree n (V.partner w) := hanc.left
      have hTw : (V.extend v w).InTree n w := h1.2.left
      have hanc_uw : Anc (V.extend v w) n root (V.partner w) w :=
        Anc.step hTu h1.1 (by rw [h.parent_u]; exact Anc.refl hTw)
      have hanc_uv : Anc (V.extend v w) n root (V.partner w) v :=
        hanc_uw.trans (Anc.step hTw h2.1 (by rw [h.parent_w]; exact Anc.refl h2.2.left))
      refine ⟨V.partner w :: w :: p, ?_, ?_⟩
      · have := @PathRel.even (V.extend v w) n br (fun z => ρ z ≠ z) (V.partner w)
          t v p htu h.u_in (by rw [h.depth_u]; omega)
          (by show InR n (V.partner (V.partner w)); rw [h.u_mate]; exact h.w_in)
          (by show (V.extend v w).parent (V.partner (V.partner w)) = v
              rw [h.u_mate]; exact h.parent_w) hp'
        have e : (V.extend v w).partner (V.partner w) = w := h.u_mate
        rw [e] at this
        exact this
      · refine ⟨?_, ?_, ?_, ?_⟩
        · refine List.nodup_cons.mpr ⟨?_, List.nodup_cons.mpr ⟨hw_notin, hg.nodup⟩⟩
          simp only [List.mem_cons, not_or]
          exact ⟨h.u_ne_w, hu_notin⟩
        · intro z hz
          simp only [List.mem_cons] at hz
          rcases hz with rfl | rfl | hz
          · rw [h.rho_u]; exact ⟨hTu, Anc.refl hTu, hanc⟩
          · rw [h.rho_w]; exact ⟨hTw, hanc_uw, h1.2⟩
          · have := hg'.region z hz
            exact ⟨this.1, hanc_uv.trans this.2.1, this.2.2⟩
        · obtain ⟨p', rfl⟩ := hp.exists_cons
          refine altChain_cons_cons.mpr ⟨h.u_mate, altChain_cons_cons.mpr ⟨?_, hg.alt⟩⟩
          refine ⟨h.valid.symm _ _ h.adj, ?_⟩
          exact fun e => (h.old_ne hvT).1 e.symm
        · have := hg.odd
          simp only [List.length_cons]
          omega

theorem ExtPre.ext_core (h : ExtPre g n root V ρ br q v w) :
    Core g n root (V.extend v w) ρ br (q ++ [V.partner w]) :=
  ⟨h.tree, h.blossom, h.ext_queue, h.ext_path⟩

theorem ExtPre.ext_explored (h : ExtPre g n root V ρ br q v w) {cur : Int} {rem : List Int}
    (he : Explored g n V ρ q cur rem) :
    Explored g n (V.extend v w) ρ (q ++ [V.partner w]) cur rem := by
  constructor
  · intro x y hx hxy
    rcases (h.outer_iff x).mp hx with hx' | rfl
    · rcases he.e_in x y hx' hxy with h1 | h1 | h1
      · exact Or.inl (h.inTree_old h1)
      · exact Or.inr (Or.inl (by simp [h1]))
      · exact Or.inr (Or.inr h1)
    · exact Or.inr (Or.inl (by simp))
  · intro x y hx hy hxy
    rcases (h.outer_iff x).mp hx with hx' | rfl
    · rcases (h.outer_iff y).mp hy with hy' | rfl
      · rcases he.e_out x y hx' hy' hxy with h1 | h1 | h1 | h1 | h1
        · exact Or.inl h1
        · exact Or.inr (Or.inl (by simp [h1]))
        · exact Or.inr (Or.inr (Or.inl (by simp [h1])))
        · exact Or.inr (Or.inr (Or.inr (Or.inl h1)))
        · exact Or.inr (Or.inr (Or.inr (Or.inr h1)))
      · exact Or.inr (Or.inr (Or.inl (by simp)))
    · exact Or.inr (Or.inl (by simp))

end

end Blossom

namespace Blossom

/-! ## The walk of `shrinkPath` through the blossoms -/

section
variable {g : Graph} {n : Nat} {root : Int} {V : View} {ρ : Int → Int} {b : Int}

theorem CPath.depth_lt (h : CPath V n ρ b u L) : ∀ s ∈ L, V.depth s < V.depth u := by
  induction h with
  | nil _ _ => intro s hs; simp at hs
  | cons _ _ _ _ _ _ _ hd _ _ hd' _ ih =>
    intro s hs
    simp only [List.mem_cons] at hs
    rcases hs with rfl | hs
    · exact hd
    · have := ih s hs; omega

theorem CPath.nodup (h : CPath V n ρ b u L) : L.Nodup := by
  induction h with
  | nil _ _ => exact List.nodup_nil
  | cons _ _ _ _ _ _ _ _ _ _ hd' hc ih =>
    refine List.nodup_cons.mpr ⟨?_, ih⟩
    intro hmem
    have := hc.depth_lt _ hmem
    omega

theorem CPath.base (h : CPath V n ρ b u L) : V.InTree n b ∧ ρ b = b := by
  induction h with
  | nil h1 h2 => exact ⟨h1, h2⟩
  | cons _ _ _ _ _ _ _ _ _ _ _ _ ih => exact ih

theorem CPath.start (h : CPath V n ρ b u L) : V.InTree n u ∧ ρ u = u := by
  cases h with
  | nil h1 h2 => exact ⟨h1, h2⟩
  | cons _ h1 h2 _ _ _ _ _ _ _ _ _ => exact ⟨h1, h2⟩

/-- The walk from a base `u` up to a base `b` above it exists. -/
theorem CPath.exists (ht : TreeInv g n root V) (hb : BlossomInv n root V ρ)
    (hbb : ρ b = b) (hbd : V.depth b % 2 = 0) :
    ∀ (k : Nat) (u : Int), V.depth u ≤ k → V.InTree n u → ρ u = u → V.depth u % 2 = 0 →
      Anc V n root u b → ∃ L, CPath V n ρ b u L := by
  intro k
  induction k with
  | zero =>
    intro u hk hu _ _ hanc
    have hur : u = root := ht.depth_zero hu (by have := ht.depth_nonneg u hu; omega)
    subst hur
    have := ht.anc_of_root hanc
    subst this
    exact ⟨[], CPath.nil hu hbb⟩
  | succ k ih =>
    intro u hk hu hfix hd hanc
    by_cases hub : u = b
    · subst hub; exact ⟨[], CPath.nil hu hbb⟩
    · have h1 := hanc.step_inv hub
      have hm := ht.mate_in u hu h1.1
      have he := ht.even_parent u hu h1.1 hd
      have hs := hb.base_mate_inner ht hu hd hfix h1.1
      have hsb : V.partner u ≠ b := by
        intro e
        rw [e] at hs; omega
      have hop := ht.odd_parent _ hm.2 hs.2
      have hpo := hb.odd_parent_outer _ hm.2 hs.2
      have h2 : Anc V n root (V.parent (V.partner u)) b := by
        have := h1.2
        rw [he.1] at this
        exact (this.step_inv hsb).2
      have h3 := hb.base_anc ht h2 hbb
      have h4 := hb.base_le ht hop.1
      obtain ⟨L, hL⟩ := ih (ρ (V.parent (V.partner u))) (by omega) (hb.rho_in _ hop.1)
        (hb.rho_idem _) hpo h3
      exact ⟨V.partner u :: L, CPath.cons hub hu hfix hm.2 (ht.pm.symm u hu.1 hm.1) hs.1 hsb
        (by omega) hop.1.1 rfl (by omega) hL⟩

theorem CPath.step_facts (ht : TreeInv g n root V) (hu : V.InTree n u)
    (hm : V.InTree n (V.partner u)) (hud : V.depth u % 2 = 0) :
    u ≠ root ∧ V.partner (V.partner u) = u ∧ V.parent u = V.partner u ∧
      V.depth (V.partner u) % 2 = 1 := by
  have hne : V.partner u ≠ -1 := by have := hm.1.1; omega
  have hr : u ≠ root := by
    rintro rfl
    exact hne ht.root_exposed
  have he := ht.even_parent u hu hr hud
  exact ⟨hr, ht.pm.symm u hu.1 hne, he.1, by omega⟩

theorem CPath.anc (ht : TreeInv g n root V) (hb : BlossomInv n root V ρ)
    (h : CPath V n ρ b u L) (hud : V.depth u % 2 = 0) : Anc V n root u b := by
  induction h with
  | nil h1 _ => exact Anc.refl h1
  | @cons u u' L hub hu hfix hm _ hsfix hsb hd hp hr hd' _ ih =>
    have sf := CPath.step_facts ht hu hm hud
    have hop := ht.odd_parent _ hm sf.2.2.2
    have hpo := hb.odd_parent_outer _ hm sf.2.2.2
    rw [hr] at hpo
    have h1 := hb.anc_base ht hop.1
    rw [hr] at h1
    have h2 : Anc V n root (V.partner u) b :=
      Anc.step hm (ht.odd_ne_root sf.2.2.2) (h1.trans (ih hpo))
    refine Anc.step hu sf.1 ?_
    rw [sf.2.2.1]
    exact h2

theorem CPath.walk_facts (ht : TreeInv g n root V) (hb : BlossomInv n root V ρ)
    (h : CPath V n ρ b u L) (hud : V.depth u % 2 = 0) :
    ∀ s ∈ L, CFacts n root V ρ b L u s := by
  induction h with
  | nil _ _ => intro s hs; simp at hs
  | @cons u u' L hub hu hfix hm _ hsfix hsb hd hp hr hd' hc ih =>
    have sf := CPath.step_facts ht hu hm hud
    have hop := ht.odd_parent _ hm sf.2.2.2
    have hpo := hb.odd_parent_outer _ hm sf.2.2.2
    rw [hr] at hpo
    have h1 := hb.anc_base ht hop.1
    rw [hr] at h1
    have hsr := ht.odd_ne_root sf.2.2.2
    have h2 : Anc V n root (V.partner u) b := Anc.step hm hsr (h1.trans (hc.anc ht hb hpo))
    have h3 : Anc V n root u u' := by
      refine Anc.step hu sf.1 ?_
      rw [sf.2.2.1]
      exact Anc.step hm hsr h1
    intro s hs
    simp only [List.mem_cons] at hs
    rcases hs with rfl | hs
    · refine ⟨hm, hsfix, sf.2.2.2, ?_, ?_, ?_, ?_, ?_, ?_, ?_, h2, ?_⟩
      · rw [sf.2.1]; exact hu
      · rw [sf.2.1]; exact hfix
      · rw [sf.2.1]; exact hud
      · rw [sf.2.1]; exact hub
      · rw [sf.2.1]
      · rw [sf.2.1]; exact sf.2.2.1
      · rw [sf.2.1]; exact Anc.refl hu
      · rw [hr]
        cases hc with
        | nil _ _ => exact Or.inl rfl
        | cons _ hu' _ hm' _ _ _ _ _ _ _ _ =>
          right
          have sf' := CPath.step_facts ht hu' hm' hpo
          simp only [List.map_cons, List.mem_cons]
          exact Or.inr (Or.inl sf'.2.1.symm)
    · have := ih hpo s hs
      refine ⟨this.s_in, this.s_fix, this.s_odd, this.u_in, this.u_fix, this.u_even, this.u_ne,
        this.u_mate, this.u_parent, h3.trans this.anc_u, this.anc_b, ?_⟩
      rcases this.next with h4 | h4
      · exact Or.inl h4
      · exact Or.inr (by simp only [List.map_cons, List.mem_cons]; exact Or.inr h4)

end

end Blossom

namespace Blossom

/-! ## One call of `shrinkPath`: the blossom structure, the queue, the explored edges -/

section
variable {g : Graph} {n : Nat} {root : Int} {V : View} {ρ : Int → Int} {b u : Int}
  {L : List Int}

theorem shrinkRho_cases (V : View) (ρ : Int → Int) (b : Int) (L : List Int) (z : Int) :
    (V.shrinkRho ρ b L z = b ∧ (ρ z = b ∨ ρ z ∈ L ∨ ρ z ∈ L.map V.partner)) ∨
    (V.shrinkRho ρ b L z = ρ z ∧ ρ z ≠ b ∧ ρ z ∉ L ∧ ρ z ∉ L.map V.partner) := by
  unfold View.shrinkRho
  by_cases h : ρ z = b ∨ ρ z ∈ L ∨ ρ z ∈ L.map V.partner
  · left; rw [if_pos h]; exact ⟨rfl, h⟩
  · right; rw [if_neg h]
    simp only [not_or] at h
    exact ⟨rfl, h.1, h.2.1, h.2.2⟩

theorem shrinkRho_congr (V : View) {ρ : Int → Int} (b : Int) (L : List Int) {y z : Int}
    (h : ρ y = ρ z) : V.shrinkRho ρ b L y = V.shrinkRho ρ b L z := by
  unfold View.shrinkRho; rw [h]

theorem shrinkRho_or (V : View) (ρ : Int → Int) (b : Int) (L : List Int) (z : Int) :
    V.shrinkRho ρ b L z = b ∨ V.shrinkRho ρ b L z = ρ z := by
  rcases shrinkRho_cases V ρ b L z with h | h
  · exact Or.inl h.1
  · exact Or.inr h.1

theorem SidePre.facts (h : SidePre g n root V ρ b u L) : ∀ s ∈ L, CFacts n root V ρ b L u s :=
  h.cp.walk_facts h.tree h.blossom h.u_even

theorem SidePre.rho_rho (h : SidePre g n root V ρ b u L) (z : Int) :
    V.shrinkRho ρ b L (ρ z) = V.shrinkRho ρ b L z :=
  shrinkRho_congr V b L (h.blossom.rho_idem z)

theorem SidePre.rho_b (h : SidePre g n root V ρ b u L) : V.shrinkRho ρ b L b = b := by
  unfold View.shrinkRho
  rw [if_pos (Or.inl h.cp.base.2)]

theorem SidePre.rho_s (h : SidePre g n root V ρ b u L) {s : Int} (hs : s ∈ L) :
    V.shrinkRho ρ b L s = b := by
  unfold View.shrinkRho
  rw [if_pos (Or.inr (Or.inl (by rw [(h.facts s hs).s_fix]; exact hs)))]

theorem SidePre.rho_m (h : SidePre g n root V ρ b u L) {s : Int} (hs : s ∈ L) :
    V.shrinkRho ρ b L (V.partner s) = b := by
  unfold View.shrinkRho
  rw [if_pos (Or.inr (Or.inr (by
    rw [(h.facts s hs).u_fix]; exact List.mem_map_of_mem _ hs)))]

theorem SidePre.side_rho_u (h : SidePre g n root V ρ b u L) : V.shrinkRho ρ b L u = b := by
  have hc := h.cp
  cases hc with
  | nil _ _ => exact h.rho_b
  | cons _ hu _ hm _ _ _ _ _ _ _ _ =>
    have sf := CPath.step_facts h.tree hu hm h.u_even
    have := h.rho_m (s := V.partner u) (by simp)
    rw [sf.2.1] at this
    exact this

theorem SidePre.rho_next (h : SidePre g n root V ρ b u L) {s : Int} (hs : s ∈ L) :
    V.shrinkRho ρ b L (V.parent s) = b := by
  unfold View.shrinkRho
  rcases (h.facts s hs).next with h1 | h1
  · rw [if_pos (Or.inl h1)]
  · rw [if_pos (Or.inr (Or.inr h1))]

theorem SidePre.merged_fix (_h : SidePre g n root V ρ b u L) {x : Int}
    (hfix : ρ x = x) (hne : V.shrinkRho ρ b L x ≠ x) :
    x ∈ L ∨ ∃ s ∈ L, x = V.partner s := by
  rcases shrinkRho_cases V ρ b L x with ⟨h1, h2⟩ | ⟨h1, _⟩
  · rw [hfix] at h2
    rcases h2 with h2 | h2 | h2
    · rw [h1, h2] at hne; exact absurd rfl hne
    · exact Or.inl h2
    · right
      obtain ⟨s, hs, e⟩ := List.mem_map.mp h2
      exact ⟨s, hs, e.symm⟩
  · rw [h1, hfix] at hne; exact absurd rfl hne

theorem SidePre.blossom' (h : SidePre g n root V ρ b u L) :
    BlossomInv n root V (V.shrinkRho ρ b L) := by
  have hb := h.blossom
  have ht := h.tree
  have hbase := h.cp.base
  refine ⟨?_, ?_, ?_, ?_, ?_, ?_, ?_, ?_, ?_⟩
  · rcases shrinkRho_cases V ρ b L root with ⟨h1, h2⟩ | ⟨h1, _⟩
    · rw [hb.rho_root] at h2
      rcases h2 with h2 | h2 | h2
      · rw [h1, h2]
      · have := (h.facts _ h2).s_odd
        rw [ht.root_depth] at this; omega
      · obtain ⟨s, hs, e⟩ := List.mem_map.mp h2
        have f := h.facts s hs
        have := f.u_mate
        rw [e, ht.root_exposed] at this
        have := f.s_in.1.1
        omega
    · rw [h1]; exact hb.rho_root
  · intro x hx
    have hfix := hb.rho_fix x hx
    by_contra hne
    rcases h.merged_fix hfix hne with h1 | ⟨s, hs, rfl⟩
    · exact hx (h.facts x h1).s_in
    · exact hx (h.facts s hs).u_in
  · intro x hx
    rcases shrinkRho_or V ρ b L x with h1 | h1
    · rw [h1]; exact hbase.1
    · rw [h1]; exact hb.rho_in x hx
  · intro x
    rcases shrinkRho_or V ρ b L x with h1 | h1
    · rw [h1]; exact h.rho_b
    · rw [h1, h.rho_rho, h1]
  · intro x hx hne
    rcases shrinkRho_or V ρ b L x with h1 | h1
    · rw [h1]; exact h.b_even
    · rw [h1] at hne ⊢; exact hb.base_even x hx hne
  · intro x hx hd
    rcases shrinkRho_or V ρ b L x with h1 | h1
    · rw [h1]; exact h.b_even
    · rw [h1]; exact hb.even_base x hx hd
  · intro x hx hne
    by_cases hfix : ρ x = x
    · rcases h.merged_fix hfix hne with h1 | ⟨s, hs, rfl⟩
      · rw [h.rho_next h1, h.rho_s h1]
      · rw [(h.facts s hs).u_parent, h.rho_s hs, h.rho_m hs]
    · exact shrinkRho_congr V b L (hb.class_parent x hx hfix)
  · intro x hx hne
    by_cases hfix : ρ x = x
    · rcases h.merged_fix hfix hne with h1 | ⟨s, hs, rfl⟩
      · rw [h.rho_m h1, h.rho_s h1]
      · rw [(h.facts s hs).u_mate, h.rho_s hs, h.rho_m hs]
    · exact shrinkRho_congr V b L (hb.class_mate x hx hfix)
  · intro x hx hd
    rcases shrinkRho_or V ρ b L (V.parent x) with h1 | h1
    · rw [h1]; exact h.b_even
    · rw [h1]; exact hb.odd_parent_outer x hx hd

theorem SidePre.side_outer_iff (h : SidePre g n root V ρ b u L) (x : Int) :
    V.Outer n (V.shrinkRho ρ b L) x ↔ V.Outer n ρ x ∨ x ∈ L := by
  unfold View.Outer
  constructor
  · rintro ⟨hx, hd⟩
    rcases shrinkRho_cases V ρ b L x with ⟨h1, h2⟩ | ⟨h1, _⟩
    · rcases h2 with h2 | h2 | h2
      · left; rw [h2]; exact ⟨hx, h.b_even⟩
      · by_cases hfix : ρ x = x
        · right; rw [hfix] at h2; exact h2
        · have := h.blossom.base_even x hx hfix
          have := (h.facts _ h2).s_odd
          omega
      · left
        obtain ⟨s, hs, e⟩ := List.mem_map.mp h2
        rw [← e]
        exact ⟨hx, (h.facts s hs).u_even⟩
    · left; rw [h1] at hd; exact ⟨hx, hd⟩
  · rintro (⟨hx, hd⟩ | hx)
    · refine ⟨hx, ?_⟩
      rcases shrinkRho_or V ρ b L x with h1 | h1
      · rw [h1]; exact h.b_even
      · rw [h1]; exact hd
    · exact ⟨(h.facts x hx).s_in, by rw [h.rho_s hx]; exact h.b_even⟩

theorem SidePre.not_outer (h : SidePre g n root V ρ b u L) {s : Int} (hs : s ∈ L) :
    ¬ V.Outer n ρ s := by
  rintro ⟨_, hd⟩
  have f := h.facts s hs
  rw [f.s_fix] at hd
  have := f.s_odd
  omega

theorem SidePre.side_queue (h : SidePre g n root V ρ b u L) {q : List Int}
    (hq : QueueInv n V ρ q) : QueueInv n V (V.shrinkRho ρ b L) (q ++ L) := by
  constructor
  · intro x hx
    rcases List.mem_append.mp hx with h1 | h1
    · exact (h.side_outer_iff x).mpr (Or.inl (hq.outer x h1))
    · exact (h.side_outer_iff x).mpr (Or.inr h1)
  · refine List.Nodup.append hq.nodup h.cp.nodup ?_
    intro x hx1 hx2
    exact h.not_outer hx2 (hq.outer x hx1)

theorem SidePre.side_explored (h : SidePre g n root V ρ b u L) {q : List Int} {cur : Int}
    {rem : List Int} (he : Explored g n V ρ q cur rem) :
    Explored g n V (V.shrinkRho ρ b L) (q ++ L) cur rem := by
  constructor
  · intro x y hx hxy
    rcases (h.side_outer_iff x).mp hx with hx' | hx'
    · rcases he.e_in x y hx' hxy with h1 | h1 | h1
      · exact Or.inl h1
      · exact Or.inr (Or.inl (List.mem_append_left _ h1))
      · exact Or.inr (Or.inr h1)
    · exact Or.inr (Or.inl (List.mem_append_right _ hx'))
  · intro x y hx hy hxy
    rcases (h.side_outer_iff x).mp hx with hx' | hx'
    · rcases (h.side_outer_iff y).mp hy with hy' | hy'
      · rcases he.e_out x y hx' hy' hxy with h1 | h1 | h1 | h1 | h1
        · exact Or.inl (shrinkRho_congr V b L h1)
        · exact Or.inr (Or.inl (List.mem_append_left _ h1))
        · exact Or.inr (Or.inr (Or.inl (List.mem_append_left _ h1)))
        · exact Or.inr (Or.inr (Or.inr (Or.inl h1)))
        · exact Or.inr (Or.inr (Or.inr (Or.inr h1)))
      · exact Or.inr (Or.inr (Or.inl (List.mem_append_right _ hy')))
    · exact Or.inr (Or.inl (List.mem_append_right _ hx'))

end

end Blossom

namespace Blossom

/-! ## Paths through a freshly shrunk blossom -/

section
variable {g : Graph} {n : Nat} {root : Int} {V : View} {ρ ρ2 : Int → Int} {b : Int}
  {br br2 : Int → Int × Int}

theorem Coarse.base_old (hc : Coarse g n root V ρ ρ2 b) {t : Int} (h : ρ2 t = t) : ρ t = t := by
  rcases hc.or_ t with h1 | h1
  · rw [h] at h1; rw [h1]; exact hc.b_fix
  · rw [← h1]; exact h

theorem Coarse.q_mono (hc : Coarse g n root V ρ ρ2 b) {z : Int} (h : ρ z ≠ z) : ρ2 z ≠ z :=
  fun e => h (hc.base_old e)

theorem Coarse.outer_old (hc : Coarse g n root V ρ ρ2 b) {x : Int} (h : V.Outer n ρ x) :
    V.Outer n ρ2 x := by
  refine ⟨h.1, ?_⟩
  rcases hc.or_ x with h1 | h1
  · rw [h1]; exact hc.b_even
  · rw [h1]; exact h.2

theorem Coarse.region_up (hc : Coarse g n root V ρ ρ2 b) {x t z : Int} (hz : V.InTree n z)
    (h1 : Anc V n root x (ρ z)) (h2 : Anc V n root (ρ z) t) (ht : ρ2 t = t) :
    Anc V n root x (ρ2 z) ∧ Anc V n root (ρ2 z) t := by
  have he := hc.old.rho_in z hz
  rw [← hc.rho_rho z]
  exact ⟨h1.trans (hc.new.anc_base hc.tree he), hc.new.base_anc hc.tree h2 ht⟩

theorem Coarse.coarse_pathRel_old (hc : Coarse g n root V ρ ρ2 b)
    (hbr : ∀ z, ρ z ≠ z → br2 z = br z)
    (hp : PathRel V n br (fun z => ρ z ≠ z) x t p) :
    PathRel V n br2 (fun z => ρ2 z ≠ z) x t p :=
  hp.rel_congr (fun _ _ => ⟨rfl, rfl⟩) (fun _ => rfl) (fun z _ hq => hbr z hq)
    (fun _ _ hq => hc.q_mono hq)

theorem Coarse.coarse_goodPath_old (hc : Coarse g n root V ρ ρ2 b)
    (hg : GoodPath g n root V ρ x t p) (ht : ρ2 t = t) : GoodPath g n root V ρ2 x t p :=
  ⟨hg.nodup, fun z hz => ⟨(hg.region z hz).1,
    hc.region_up (hg.region z hz).1 (hg.region z hz).2.1 (hg.region z hz).2.2 ht⟩,
    hg.alt, hg.odd⟩

/-- An outer vertex of the old structure keeps its paths. -/
theorem Coarse.old_path (hc : Coarse g n root V ρ ρ2 b) (hp : PathInv g n root V ρ br)
    (hbr : ∀ z, ρ z ≠ z → br2 z = br z) {x t : Int} (hx : V.Outer n ρ x)
    (hxt : Anc V n root x t) (ht2 : ρ2 t = t) (htd : V.depth t % 2 = 0) :
    ∃ p, PathRel V n br2 (fun z => ρ2 z ≠ z) x t p ∧ GoodPath g n root V ρ2 x t p := by
  obtain ⟨p, h1, h2⟩ := hp x t hx hxt (hc.base_old ht2) htd
  exact ⟨p, hc.coarse_pathRel_old hbr h1, hc.coarse_goodPath_old h2 ht2⟩

theorem TreeInv.mt_symm (ht : TreeInv g n root V) {x y : Int} (hx : V.InTree n x)
    (hy : V.InTree n y) (h : V.Mt x y) : V.Mt y x := by
  unfold View.Mt at *
  have : V.partner x ≠ -1 := by rw [h]; have := hy.1.1; omega
  rw [← h]
  exact ht.pm.symm x hx.1 this

theorem TreeInv.un_symm (ht : TreeInv g n root V) (hv : g.Valid) {x y : Int}
    (hx : V.InTree n x) (hy : V.InTree n y) (h : V.Un g x y) : V.Un g y x := by
  refine ⟨hv.symm _ _ h.1, ?_⟩
  intro e
  have : V.partner y ≠ -1 := by rw [e]; have := hx.1.1; omega
  have := ht.pm.symm y hy.1 this
  rw [e] at this
  exact h.2 this

end

end Blossom

namespace Blossom

section
variable {g : Graph} {n : Nat} {root : Int} {V : View} {ρ ρ2 : Int → Int} {b : Int}
  {br br2 : Int → Int × Int}

/-- The path of an inner vertex `x` that has just been absorbed into the blossom of base `b`
    through the edge `(a, c)`: down to `a` inside the old blossoms, across the edge, and up
    from `c`. -/
theorem Coarse.bridge_path (hc : Coarse g n root V ρ ρ2 b) (hv : g.Valid)
    (hp : PathInv g n root V ρ br) (hbr : ∀ z, ρ z ≠ z → br2 z = br z)
    {x a c z0 : Int}
    (hx : V.InTree n x) (hxfix : ρ x = x) (hxodd : V.depth x % 2 = 1) (hx2 : ρ2 x = b)
    (hufix : ρ (V.partner x) = V.partner x)
    (ha : V.Outer n ρ a) (hau : Anc V n root a (V.partner x))
    (hco : V.Outer n ρ c) (ha2 : ρ2 a = b) (hc2 : ρ2 c = b)
    (lca_c : Anc V n root c z0)
    (lca_min : ∀ y, Anc V n root a y → Anc V n root c y → Anc V n root z0 y)
    (hz0 : ρ z0 = b) (hbrx : br2 x = (a, c)) (hun : V.Un g a c)
    {t : Int} (hxt : Anc V n root x t) (ht2 : ρ2 t = t) (htd : V.depth t % 2 = 0) :
    ∃ p, PathRel V n br2 (fun z => ρ2 z ≠ z) x t p ∧ GoodPath g n root V ρ2 x t p := by
  have ht := hc.tree
  have hxr := ht.odd_ne_root hxodd
  have hm := ht.mate_in x hx hxr
  have hom := ht.odd_mate x hx hxodd
  have hu_even : V.depth (V.partner x) % 2 = 0 := by omega
  have hux : Anc V n root (V.partner x) x := by
    refine Anc.step hm.2 ?_ (by rw [hom.1]; exact Anc.refl hx)
    intro e
    have := ht.root_depth
    rw [← e] at this
    have := ht.depth_nonneg x hx
    omega
  have hxb : Anc V n root x b := by
    have := hc.new.anc_base ht hx
    rwa [hx2] at this
  have hbt : Anc V n root b t := by
    have := hc.new.base_anc ht hxt ht2
    rwa [hx2] at this
  have hcb : Anc V n root c b := by
    have := hc.new.anc_base ht hco.1
    rwa [hc2] at this
  have hct := hcb.trans hbt
  have htfix := hc.base_old ht2
  have hxt_ne : x ≠ t := by
    rintro rfl; omega
  obtain ⟨p1, hp1, hg1⟩ := hp a (V.partner x) ha hau hufix hu_even
  obtain ⟨p2, hp2, hg2⟩ := hp c t hco hct htfix htd
  have hp1' := hc.coarse_pathRel_old hbr hp1
  have hp2' := hc.coarse_pathRel_old hbr hp2
  -- disjointness
  have hz0u : ∀ e, Anc V n root a e → Anc V n root c e → Anc V n root e (V.partner x) → False := by
    intro e h1 h2 h3
    have h4 := (lca_min e h1 h2).trans h3
    have h5 : Anc V n root (V.partner x) (ρ z0) := by rw [hz0]; exact hux.trans hxb
    have h6 := hc.old.between ht h4 h5
    rw [hufix, hz0] at h6
    have h7 := ht.anc_antisymm hxb (by rw [← h6]; exact hux)
    rw [← h7] at h6
    rw [h6] at hu_even
    omega
  have hx1 : x ∉ p1 := by
    intro hmem
    have := (hg1.region x hmem).2.2
    rw [hxfix] at this
    have := ht.anc_antisymm this hux
    rw [← this] at hu_even
    omega
  have hx2' : x ∉ p2 := by
    intro hmem
    have h1 := (hg2.region x hmem).2.1
    rw [hxfix] at h1
    have h2 := lca_min x (hau.trans hux) h1
    have h3 : Anc V n root x (ρ z0) := by rw [hz0]; exact hxb
    have h4 := hc.old.between ht h2 h3
    rw [hxfix, hz0] at h4
    have := hc.b_even
    rw [← h4] at this
    omega
  have hdisj : ∀ z, z ∈ p1 → z ∈ p2 → False := by
    intro z h1 h2
    have r1 := hg1.region z h1
    have r2 := hg2.region z h2
    exact hz0u (ρ z) r1.2.1 r2.2.1 r1.2.2
  obtain ⟨q1, rfl⟩ := hp1.exists_cons
  obtain ⟨q2, rfl⟩ := hp2.exists_cons
  have hlast1 : (a :: q1).getLast? = some (V.partner x) := hp1.getLast
  refine ⟨x :: ((a :: q1).reverse ++ (c :: q2)), ?_, ?_, ?_, ?_, ?_⟩
  · have := @PathRel.odd V n br2 (fun z => ρ2 z ≠ z) x t
      (a :: q1) (c :: q2) hxt_ne hx.1 (by omega)
      (by show ρ2 x ≠ x
          rw [hx2]; rintro rfl
          have := hc.b_even; omega)
      (by rw [hbrx]; exact hp1') (by rw [hbrx]; exact hp2')
    exact this
  · refine List.nodup_cons.mpr ⟨?_, ?_⟩
    · intro hmem
      rcases List.mem_append.mp hmem with h1 | h1
      · exact hx1 (List.mem_reverse.mp h1)
      · exact hx2' h1
    · refine List.Nodup.append (List.nodup_reverse.mpr hg1.nodup) hg2.nodup ?_
      intro z h1 h2
      exact hdisj z (List.mem_reverse.mp h1) h2
  · intro z hz
    simp only [List.mem_cons, List.mem_append, List.mem_reverse] at hz
    have hin1 : ∀ z, z ∈ a :: q1 → V.InTree n z ∧ Anc V n root x (ρ2 z) ∧
        Anc V n root (ρ2 z) t := by
      intro z hz
      have r := hg1.region z hz
      have h1 : Anc V n root (ρ z) (ρ2 a) := by rw [ha2]; exact r.2.2.trans (hux.trans hxb)
      have h2 := hc.new.between ht r.2.1 h1
      rw [hc.rho_rho, ha2] at h2
      rw [h2]
      exact ⟨r.1, hxb, hbt⟩
    have hin2 : ∀ z, z ∈ c :: q2 → V.InTree n z ∧ Anc V n root x (ρ2 z) ∧
        Anc V n root (ρ2 z) t := by
      intro z hz
      have r := hg2.region z hz
      refine ⟨r.1, ?_⟩
      rcases hc.or_ (ρ z) with h1 | h1
      · rw [hc.rho_rho] at h1
        rw [h1]; exact ⟨hxb, hbt⟩
      · rw [hc.rho_rho, hc.old.rho_idem] at h1
        rcases r.2.1.linear hcb with h2 | h2
        · have h3 : Anc V n root (ρ z) (ρ2 c) := by rw [hc2]; exact h2
          have h4 := hc.new.between ht r.2.1 h3
          rw [hc.rho_rho, hc2] at h4
          rw [h4]; exact ⟨hxb, hbt⟩
        · rw [h1]; exact ⟨hxb.trans h2, r.2.2⟩
    rcases hz with rfl | ((rfl | hz) | (rfl | hz))
    · rw [hx2]; exact ⟨hx, hxb, hbt⟩
    · exact hin1 _ (by simp)
    · exact hin1 _ (by simp [hz])
    · exact hin2 _ (by simp)
    · exact hin2 _ (by simp [hz])
  · have hrev : AltChain (V.Un g) V.Mt (a :: q1).reverse := by
      refine altChain_reverse _ _ _ hg1.odd ?_ ?_ hg1.alt
      · intro y hy y' hy' h
        exact ht.mt_symm (hg1.region y hy).1 (hg1.region y' hy').1 h
      · intro y hy y' hy' h
        exact ht.un_symm hv (hg1.region y hy).1 (hg1.region y' hy').1 h
    have happ : AltChain (V.Un g) V.Mt ((a :: q1).reverse ++ (c :: q2)) := by
      refine altChain_append_odd _ _ a c _ _ (by rw [List.length_reverse]; exact hg1.odd) ?_
        (by simp) hrev hun hg2.alt
      simp
    obtain ⟨y, l, hyl⟩ : ∃ y l, (a :: q1).reverse ++ (c :: q2) = y :: l := by
      cases h : (a :: q1).reverse ++ (c :: q2) with
      | nil => simp at h
      | cons y l => exact ⟨y, l, rfl⟩
    have hy : y = V.partner x := by
      have h1 : ((a :: q1).reverse ++ (c :: q2)).head? = some (V.partner x) := by
        rw [List.head?_append, List.head?_reverse, hlast1]
        rfl
      rw [hyl] at h1
      simpa using h1
    rw [hyl] at happ ⊢
    exact altChain_cons_cons.mpr ⟨hy.symm ▸ rfl, happ⟩
  · have h1 := hg1.odd
    have h2 := hg2.odd
    simp only [List.length_cons, List.length_append, List.length_reverse] at h1 h2 ⊢
    omega

end

end Blossom

namespace Blossom

/-! ## `shrinkBlossom` preserves the invariant -/

section
variable {g : Graph} {n : Nat} {root : Int} {V : View} {ρ : Int → Int}
  {br : Int → Int × Int} {q : List Int} {v w z0 b : Int} {L L' : List Int}

theorem ShrinkPre.side1 (h : ShrinkPre g n root V ρ br q v w z0 b L L') :
    SidePre g n root V ρ b (ρ v) L :=
  ⟨h.core.tree, h.core.blossom, h.cp1, h.outer_v.2, h.b_even⟩

theorem ShrinkPre.side2 (h : ShrinkPre g n root V ρ br q v w z0 b L L') :
    SidePre g n root V (V.shrinkRho ρ b L) b (V.shrinkRho ρ b L w) L' :=
  ⟨h.core.tree, h.side1.blossom', h.cp2,
    ((h.side1.side_outer_iff w).mpr (Or.inl h.outer_w)).2, h.b_even⟩

theorem ShrinkPre.coarse1 (h : ShrinkPre g n root V ρ br q v w z0 b L L') :
    Coarse g n root V ρ (V.shrinkRho ρ b L) b :=
  ⟨h.core.tree, h.core.blossom, h.side1.blossom', shrinkRho_or V ρ b L, h.side1.rho_rho,
    h.cp1.base.2, h.b_even⟩

theorem ShrinkPre.coarse2 (h : ShrinkPre g n root V ρ br q v w z0 b L L') :
    Coarse g n root V ρ (V.shrinkRho (V.shrinkRho ρ b L) b L') b := by
  refine ⟨h.core.tree, h.core.blossom, h.side2.blossom', ?_, ?_, h.cp1.base.2, h.b_even⟩
  · intro z
    rcases shrinkRho_or V (V.shrinkRho ρ b L) b L' z with h1 | h1
    · exact Or.inl h1
    · rw [h1]; exact shrinkRho_or V ρ b L z
  · intro z
    exact shrinkRho_congr V b L' (h.side1.rho_rho z)

theorem ShrinkPre.rho2_of_rho1 (_h : ShrinkPre g n root V ρ br q v w z0 b L L') {z : Int}
    (hz : V.shrinkRho ρ b L z = b) : V.shrinkRho (V.shrinkRho ρ b L) b L' z = b := by
  show (if _ then _ else _) = b
  rw [if_pos (Or.inl hz)]

theorem ShrinkPre.rho2_v (h : ShrinkPre g n root V ρ br q v w z0 b L L') :
    V.shrinkRho (V.shrinkRho ρ b L) b L' v = b := by
  apply h.rho2_of_rho1
  rw [← h.side1.rho_rho]
  exact h.side1.side_rho_u

theorem ShrinkPre.rho2_w (h : ShrinkPre g n root V ρ br q v w z0 b L L') :
    V.shrinkRho (V.shrinkRho ρ b L) b L' w = b := by
  rw [← h.side2.rho_rho]
  exact h.side2.side_rho_u

theorem ShrinkPre.un (h : ShrinkPre g n root V ρ br q v w z0 b L L') : V.Un g v w := by
  refine ⟨h.adj, ?_⟩
  intro e
  have ht := h.core.tree
  have hb := h.core.blossom
  have hwin := h.outer_w.1
  have hvr : v ≠ root := by
    rintro rfl
    rw [ht.root_exposed] at e
    have := hwin.1.1
    omega
  by_cases hfix : ρ v = v
  · have := hb.base_mate_inner ht h.outer_v.1 (by have := h.outer_v.2; rwa [hfix] at this) hfix hvr
    rw [e] at this
    have h2 := h.outer_w.2
    rw [this.1] at h2
    omega
  · have := hb.class_mate v h.outer_v.1 hfix
    rw [e] at this
    exact h.ne this.symm

theorem ShrinkPre.not_mem_both (h : ShrinkPre g n root V ρ br q v w z0 b L L') {x : Int}
    (h1 : x ∈ L) (h2 : x ∈ L') : False := by
  have f1 := h.side1.facts x h1
  have f2 := h.side2.facts x h2
  have := f2.s_fix
  rw [h.side1.rho_s h1] at this
  have h3 := h.b_even
  rw [this] at h3
  have := f1.s_odd
  omega

theorem ShrinkPre.shrink_path (h : ShrinkPre g n root V ρ br q v w z0 b L L') :
    PathInv g n root V (V.shrinkRho (V.shrinkRho ρ b L) b L')
      (shrinkBridge (shrinkBridge br v w L) w v L') := by
  have ht := h.core.tree
  have c1 := h.coarse1
  have c2 := h.coarse2
  have hbr : ∀ z, ρ z ≠ z → shrinkBridge (shrinkBridge br v w L) w v L' z = br z := by
    intro z hz
    unfold shrinkBridge
    have n1 : z ∉ L' := fun hm => hz (c1.base_old (h.side2.facts z hm).s_fix)
    have n2 : z ∉ L := fun hm => hz (h.side1.facts z hm).s_fix
    rw [if_neg n1, if_neg n2]
  intro x t hxo hxt ht2 htd
  rcases (h.side2.side_outer_iff x).mp hxo with hx1 | hx'
  · rcases (h.side1.side_outer_iff x).mp hx1 with hx0 | hxL
    · exact c2.old_path h.core.path hbr hx0 hxt ht2 htd
    · have f := h.side1.facts x hxL
      refine c2.bridge_path h.valid h.core.path hbr f.s_in f.s_fix f.s_odd
        (h.rho2_of_rho1 (h.side1.rho_s hxL)) f.u_fix h.outer_v
        ((h.core.blossom.anc_base ht h.outer_v.1).trans f.anc_u) h.outer_w h.rho2_v h.rho2_w
        h.lca_w h.lca_min h.hb ?_ h.un hxt ht2 htd
      unfold shrinkBridge
      rw [if_neg (fun hm => h.not_mem_both hxL hm), if_pos hxL]
  · have f := h.side2.facts x hx'
    have hwin := h.outer_w.1
    refine c2.bridge_path h.valid h.core.path hbr f.s_in (c1.base_old f.s_fix) f.s_odd
      (h.side2.rho_s hx') (c1.base_old f.u_fix) h.outer_w
      ((h.side1.blossom'.anc_base ht hwin).trans f.anc_u) h.outer_v h.rho2_w h.rho2_v
      h.lca_v (fun y h1 h2 => h.lca_min y h2 h1) h.hb ?_
      (ht.un_symm h.valid h.outer_v.1 hwin h.un) hxt ht2 htd
    unfold shrinkBridge
    rw [if_pos hx']

/-- `shrinkBlossom` preserves the invariant of the search. -/
theorem ShrinkPre.shrink_core (h : ShrinkPre g n root V ρ br q v w z0 b L L') :
    Core g n root V (V.shrinkRho (V.shrinkRho ρ b L) b L')
      (shrinkBridge (shrinkBridge br v w L) w v L') (q ++ L ++ L') :=
  ⟨h.core.tree, h.side2.blossom', h.side2.side_queue (h.side1.side_queue h.core.queue), h.shrink_path⟩

theorem ShrinkPre.shrink_explored (h : ShrinkPre g n root V ρ br q v w z0 b L L') {cur : Int}
    {rem : List Int} (he : Explored g n V ρ q cur rem) :
    Explored g n V (V.shrinkRho (V.shrinkRho ρ b L) b L') (q ++ L ++ L') cur rem :=
  h.side2.side_explored (h.side1.side_explored he)

end

end Blossom

namespace Blossom

section
variable {g : Graph} {n : Nat} {root : Int} {V : View} {ρ : Int → Int}
  {br : Int → Int × Int} {q : List Int}

theorem ExtPre.ext_budget {v w : Int} (h : ExtPre g n root V ρ br q v w) {K : Nat}
    (hB : Budget n V ρ q K) : Budget n (V.extend v w) ρ (q ++ [V.partner w]) K := by
  obtain ⟨S, h1, h2⟩ := hB
  have hu : V.partner w ∈ S := h1 _ h.u_in (fun ho => h.u_new ho.1)
  refine ⟨S.erase (V.partner w), ?_, ?_⟩
  · intro x hx hno
    have hno' : ¬ V.Outer n ρ x := fun ho => hno ((h.outer_iff x).mpr (Or.inl ho))
    have hne : x ≠ V.partner w := fun e => hno ((h.outer_iff x).mpr (Or.inr e))
    exact Finset.mem_erase.mpr ⟨hne, h1 x hx hno'⟩
  · rw [Finset.card_erase_of_mem hu, List.length_append, List.length_singleton]
    have : 0 < S.card := Finset.card_pos.mpr ⟨_, hu⟩
    omega

theorem SidePre.side_budget {b u : Int} {L : List Int} (h : SidePre g n root V ρ b u L) {K : Nat}
    (hB : Budget n V ρ q K) : Budget n V (V.shrinkRho ρ b L) (q ++ L) K := by
  obtain ⟨S, h1, h2⟩ := hB
  have hsub : L.toFinset ⊆ S := by
    intro x hx
    have hx' := List.mem_toFinset.mp hx
    exact h1 x (h.facts x hx').s_in.1 (h.not_outer hx')
  refine ⟨S \ L.toFinset, ?_, ?_⟩
  · intro x hx hno
    have hno' : ¬ V.Outer n ρ x := fun ho => hno ((h.side_outer_iff x).mpr (Or.inl ho))
    have hne : x ∉ L := fun e => hno ((h.side_outer_iff x).mpr (Or.inr e))
    exact Finset.mem_sdiff.mpr ⟨h1 x hx hno', fun hm => hne (List.mem_toFinset.mp hm)⟩
  · rw [Finset.card_sdiff hsub, List.toFinset_card_of_nodup h.cp.nodup, List.length_append]
    have := Finset.card_le_card hsub
    rw [List.toFinset_card_of_nodup h.cp.nodup] at this
    omega

theorem ShrinkPre.shrink_budget {v w z0 b : Int} {L L' : List Int}
    (h : ShrinkPre g n root V ρ br q v w z0 b L L') {K : Nat} (hB : Budget n V ρ q K) :
    Budget n V (V.shrinkRho (V.shrinkRho ρ b L) b L') (q ++ L ++ L') K :=
  h.side2.side_budget (h.side1.side_budget hB)

end

end Blossom

namespace Blossom

/-! ## The union-find structure: `find`, `makeUnion`, `makeRepresentative` -/

section
variable {n : Nat} {m m' : Matching}

theorem nodeAt_setBlossom (hs : m.Sized n) {x : Int} (hx : InR n x) (b y : Int) :
    (m.setBlossom x b).nodeAt y =
      if y = x then { m.nodeAt x with m_blossom := b } else m.nodeAt y := by
  unfold Matching.setBlossom Matching.nodeAt
  exact lget_lset _ _ (by rw [hs.tree]; exact hx) y

theorem setBlossom_blossom (hs : m.Sized n) {x : Int} (hx : InR n x) (b y : Int) :
    (m.setBlossom x b).blossom y = if y = x then b else m.blossom y := by
  unfold Matching.blossom
  rw [nodeAt_setBlossom hs hx]
  split <;> rfl

theorem setBlossom_same (hs : m.Sized n) {x : Int} (hx : InR n x) (b : Int) :
    SameButBlossom n m (m.setBlossom x b) := by
  refine ⟨⟨hs.mv, ?_, hs.br⟩, ?_, rfl, rfl, rfl⟩
  · show (lset _ _ _).length = n
    rw [length_lset]; exact hs.tree
  · have key : ∀ y, (m.setBlossom x b).nodeAt y =
        if y = x then { m.nodeAt x with m_blossom := b } else m.nodeAt y :=
      nodeAt_setBlossom hs hx b
    unfold Matching.view
    have e1 : (m.setBlossom x b).token = m.token := by
      funext y; unfold Matching.token; rw [key]; split
      · rename_i h; subst h; rfl
      · rfl
    have e2 : (m.setBlossom x b).depth = m.depth := by
      funext y; unfold Matching.depth; rw [key]; split
      · rename_i h; subst h; rfl
      · rfl
    have e3 : (m.setBlossom x b).parent = m.parent := by
      funext y; unfold Matching.parent; rw [key]; split
      · rename_i h; subst h; rfl
      · rfl
    rw [e1, e2, e3]
    rfl

theorem SameButBlossom.same_refl (hs : m.Sized n) : SameButBlossom n m m :=
  ⟨hs, rfl, rfl, rfl, rfl⟩

theorem SameButBlossom.same_trans {m'' : Matching} (h1 : SameButBlossom n m m')
    (h2 : SameButBlossom n m' m'') : SameButBlossom n m m'' :=
  ⟨h2.sized, h2.view.trans h1.view, h2.mv.trans h1.mv, h2.br.trans h1.br, h2.q.trans h1.q⟩

theorem SameButBlossom.token (h : SameButBlossom n m m') (x : Int) : m'.token x = m.token x := by
  have := congrArg View.token h.view
  exact congrFun this x

theorem SameButBlossom.c (h : SameButBlossom n m m') : m'.m_clearToken = m.m_clearToken :=
  congrArg View.c h.view

theorem SameButBlossom.bridge (h : SameButBlossom n m m') : m'.bridge = m.bridge := by
  funext x; unfold Matching.bridge; rw [h.br]

theorem SameButBlossom.partner (h : SameButBlossom n m m') : m'.partner = m.partner := by
  funext x; unfold Matching.partner; rw [h.mv]

theorem Rep.inR_left (h : Rep m n x r) : InR n x := by
  cases h <;> assumption

theorem Rep.inR_right (h : Rep m n x r) : InR n r := by
  induction h with
  | stale h _ => exact h
  | root h _ _ => exact h
  | step _ _ _ _ ih => exact ih

theorem Rep.end_ (h : Rep m n x r) : Rep m n r r := by
  induction h with
  | stale h1 h2 => exact Rep.stale h1 h2
  | root h1 h2 h3 => exact Rep.root h1 h2 h3
  | step _ _ _ _ ih => exact ih

theorem Rep.fix_cases (h : Rep m n r r) : m.token r ≠ m.m_clearToken ∨ m.blossom r = r := by
  have key : ∀ x r, Rep m n x r → m.token r ≠ m.m_clearToken ∨ m.blossom r = r := by
    intro x r h
    induction h with
    | stale _ h2 => exact Or.inl h2
    | root _ _ h3 => exact Or.inr h3
    | step _ _ _ _ ih => exact ih
  exact key r r h

theorem Rep.det (h1 : Rep m n x r) (h2 : Rep m n x r') : r = r' := by
  induction h1 with
  | stale _ ht =>
    cases h2 with
    | stale _ _ => rfl
    | root _ ht' _ => exact absurd ht' ht
    | step _ ht' _ _ => exact absurd ht' ht
  | root _ ht hb =>
    cases h2 with
    | stale _ ht' => exact absurd ht ht'
    | root _ _ _ => rfl
    | step _ _ hb' _ => exact absurd hb hb'
  | step _ ht hb _ ih =>
    cases h2 with
    | stale _ ht' => exact absurd ht ht'
    | root _ _ hb' => exact absurd hb' hb
    | step _ _ _ h' => exact ih h'

theorem Rep.ne_of_step {x r : Int} (ht : m.token x = m.m_clearToken) (hb : m.blossom x ≠ x)
    (h : Rep m n (m.blossom x) r) : r ≠ x := by
  rintro rfl
  rcases h.end_.fix_cases with h1 | h1
  · exact h1 ht
  · exact hb h1

theorem Compressed.compressed_refl (hs : m.Sized n) : Compressed n m m :=
  ⟨SameButBlossom.same_refl hs, fun _ _ => Or.inl rfl⟩

theorem Compressed.rep_fix (hc : Compressed n m m') (h : Rep m n r r) : Rep m' n r r := by
  have hr := h.inR_left
  rcases h.fix_cases with h1 | h1
  · exact Rep.stale hr (by rw [hc.same.token, hc.same.c]; exact h1)
  · by_cases ht : m.token r = m.m_clearToken
    · refine Rep.root hr (by rw [hc.same.token, hc.same.c]; exact ht) ?_
      rcases hc.ptr r hr with h2 | h2
      · rw [h2]; exact h1
      · exact (h.det h2.2).symm
    · exact Rep.stale hr (by rw [hc.same.token, hc.same.c]; exact ht)

theorem Compressed.rep (hc : Compressed n m m') (h : Rep m n x r) : Rep m' n x r := by
  induction h with
  | stale h1 h2 => exact hc.rep_fix (Rep.stale h1 h2)
  | root h1 h2 h3 => exact hc.rep_fix (Rep.root h1 h2 h3)
  | @step x r h1 h2 h3 h4 ih =>
    have ht' : m'.token x = m'.m_clearToken := by rw [hc.same.token, hc.same.c]; exact h2
    have hne := Rep.ne_of_step h2 h3 h4
    rcases hc.ptr x h1 with h5 | h5
    · refine Rep.step h1 ht' (by rw [h5]; exact h3) ?_
      rw [h5]; exact ih
    · have e : m'.blossom x = r := (h5.2.det (Rep.step h1 h2 h3 h4))
      refine Rep.step h1 ht' (by rw [e]; exact hne) ?_
      rw [e]
      exact hc.rep_fix h4.end_

theorem Compressed.uf (hc : Compressed n m m') {ρ : Int → Int} (h : UF m n ρ) : UF m' n ρ :=
  fun x hx => hc.rep (h x hx)

theorem UF.idem {ρ : Int → Int} (h : UF m n ρ) {x : Int} (hx : InR n x) : ρ (ρ x) = ρ x := by
  have h1 := h x hx
  exact (h _ h1.inR_right).det h1.end_

theorem UF.inR {ρ : Int → Int} (h : UF m n ρ) {x : Int} (hx : InR n x) : InR n (ρ x) :=
  (h x hx).inR_right

/-- `find(x)` returns the representative and only compresses paths. -/
theorem find_spec (hs : m.Sized n) (h : Rep m n x r) :
    ∃ k m', Matching.find k m x = .ok (r, m') ∧ Compressed n m m' := by
  induction h with
  | @stale x hx ht =>
    refine ⟨1, m, ?_, Compressed.compressed_refl hs⟩
    have hx' : InR m.m_tree.length x := by rw [hs.tree]; exact hx
    simp only [Matching.find, bind_eq_ok]
    refine ⟨_, vget_of_inR ⟨0, 0, 0, 0⟩ hx', ?_⟩
    have : (lget m.m_tree ⟨0, 0, 0, 0⟩ x).m_clearToken ≠ m.m_clearToken := ht
    rw [if_pos this]
    rfl
  | @root x hx ht hb =>
    refine ⟨1, m, ?_, Compressed.compressed_refl hs⟩
    have hx' : InR m.m_tree.length x := by rw [hs.tree]; exact hx
    simp only [Matching.find, bind_eq_ok]
    refine ⟨_, vget_of_inR ⟨0, 0, 0, 0⟩ hx', ?_⟩
    have h1 : ¬ (lget m.m_tree ⟨0, 0, 0, 0⟩ x).m_clearToken ≠ m.m_clearToken :=
      fun hne => hne ht
    have h2 : (lget m.m_tree ⟨0, 0, 0, 0⟩ x).m_blossom = x := hb
    rw [if_neg h1, if_neg (by rw [h2]; exact fun hne => hne rfl), h2]
    rfl
  | @step x r hx ht hb hrep ih =>
    obtain ⟨k, m1, hk, hc⟩ := ih
    have hs1 := hc.same.sized
    have hx' : InR m.m_tree.length x := by rw [hs.tree]; exact hx
    have hx1 : InR m1.m_tree.length x := by rw [hs1.tree]; exact hx
    refine ⟨k + 1, m1.setBlossom x r, ?_, ?_⟩
    · simp only [Matching.find, bind_eq_ok]
      refine ⟨_, vget_of_inR ⟨0, 0, 0, 0⟩ hx', ?_⟩
      have h1 : ¬ (lget m.m_tree ⟨0, 0, 0, 0⟩ x).m_clearToken ≠ m.m_clearToken :=
        fun hne => hne ht
      have h2 : x ≠ (lget m.m_tree ⟨0, 0, 0, 0⟩ x).m_blossom := fun e => hb e.symm
      rw [if_neg h1, if_pos h2]
      simp only [bind_eq_ok]
      refine ⟨(r, m1), hk, _, vget_of_inR ⟨0, 0, 0, 0⟩ hx1, _, vset_of_inR _ hx1, ?_⟩
      refine ⟨_, vget_of_inR ⟨0, 0, 0, 0⟩ (by rw [length_lset]; exact hx1), ?_⟩
      rw [lget_lset_self _ _ hx1]
      rfl
    · refine ⟨hc.same.same_trans (setBlossom_same hs1 hx r), ?_⟩
      intro y hy
      rw [setBlossom_blossom hs1 hx]
      by_cases hyx : y = x
      · subst hyx
        rw [if_pos rfl]
        exact Or.inr ⟨ht, Rep.step hx ht hb hrep⟩
      · rw [if_neg hyx]
        exact hc.ptr y hy

/-- `find` on a state that agrees with `ρ`. -/
theorem find_uf {ρ : Int → Int} (hs : m.Sized n) (hu : UF m n ρ) {x : Int} (hx : InR n x) :
    ∃ k m', Matching.find k m x = .ok (ρ x, m') ∧ SameButBlossom n m m' ∧ UF m' n ρ := by
  obtain ⟨k, m', h1, h2⟩ := find_spec hs (hu x hx)
  exact ⟨k, m', h1, h2.same, h2.uf hu⟩

end

end Blossom

namespace Blossom

section
variable {n : Nat} {m : Matching}

theorem rep_fix_of_same {m' : Matching} (h : SameButBlossom n m m') {b : Int}
    (hb : Rep m n b b) (hbl : m'.blossom b = m.blossom b) : Rep m' n b b := by
  have hr := hb.inR_left
  by_cases ht : m.token b = m.m_clearToken
  · rcases hb.fix_cases with h1 | h1
    · exact absurd ht h1
    · exact Rep.root hr (by rw [h.token, h.c]; exact ht) (by rw [hbl]; exact h1)
  · exact Rep.stale hr (by rw [h.token, h.c]; exact ht)

/-- Linking the root `a` below the root `b`. -/
theorem rep_link (hs : m.Sized n) {a b : Int} (ha : InR n a)
    (hat : m.token a = m.m_clearToken) (hab : m.blossom a = a) (hb : Rep m n b b) :
    ∀ z r, Rep m n z r → Rep (m.setBlossom a b) n z (if r = a then b else r) := by
  have same := setBlossom_same hs ha b
  have hbl := setBlossom_blossom hs ha b
  have tok : ∀ y, (m.setBlossom a b).token y = (m.setBlossom a b).m_clearToken ↔
      m.token y = m.m_clearToken := by
    intro y; rw [same.token, same.c]
  intro z r h
  induction h with
  | @stale z hz ht =>
    have hza : z ≠ a := by rintro rfl; exact ht hat
    rw [if_neg hza]
    exact Rep.stale hz (fun e => ht ((tok z).mp e))
  | @root z hz ht hbz =>
    by_cases hza : z = a
    · subst hza
      rw [if_pos rfl]
      by_cases hba : b = z
      · subst hba
        exact Rep.root hz ((tok _).mpr ht) (by rw [hbl, if_pos rfl])
      · refine Rep.step hz ((tok _).mpr ht) (by rw [hbl, if_pos rfl]; exact hba) ?_
        rw [hbl, if_pos rfl]
        exact rep_fix_of_same same hb (by rw [hbl, if_neg hba])
    · rw [if_neg hza]
      exact Rep.root hz ((tok _).mpr ht) (by rw [hbl, if_neg hza]; exact hbz)
  | @step z r hz ht hbz _ ih =>
    have hza : z ≠ a := by rintro rfl; exact hbz hab
    refine Rep.step hz ((tok _).mpr ht) (by rw [hbl, if_neg hza]; exact hbz) ?_
    rw [hbl, if_neg hza]
    exact ih

/-- Making `x` the root of its class, whose root was `a`. -/
theorem rep_reroot (hs : m.Sized n) {a x : Int} (ha : InR n a) (hx : InR n x)
    (hat : m.token a = m.m_clearToken) (hab : m.blossom a = a)
    (hxt : m.token x = m.m_clearToken) (hxa : Rep m n x a) :
    ∀ z r, Rep m n z r →
      Rep ((m.setBlossom a x).setBlossom x x) n z (if r = a then x else r) := by
  have same1 := setBlossom_same hs ha x
  have same2 := setBlossom_same same1.sized hx x
  have same := same1.same_trans same2
  have hbl : ∀ y, ((m.setBlossom a x).setBlossom x x).blossom y =
      if y = x then x else if y = a then x else m.blossom y := by
    intro y
    rw [setBlossom_blossom same1.sized hx, setBlossom_blossom hs ha]
  have tok : ∀ y, ((m.setBlossom a x).setBlossom x x).token y =
      ((m.setBlossom a x).setBlossom x x).m_clearToken ↔ m.token y = m.m_clearToken := by
    intro y; rw [same.token, same.c]
  have hxx : Rep ((m.setBlossom a x).setBlossom x x) n x x :=
    Rep.root hx ((tok x).mpr hxt) (by rw [hbl, if_pos rfl])
  intro z r h
  induction h with
  | @stale z hz ht =>
    have hza : z ≠ a := by rintro rfl; exact ht hat
    rw [if_neg hza]
    exact Rep.stale hz (fun e => ht ((tok z).mp e))
  | @root z hz ht hbz =>
    by_cases hza : z = a
    · subst hza
      rw [if_pos rfl]
      by_cases hzx : z = x
      · subst hzx; exact hxx
      · refine Rep.step hz ((tok _).mpr ht) ?_ ?_
        · rw [hbl, if_neg hzx, if_pos rfl]; exact fun e => hzx e.symm
        · rw [hbl, if_neg hzx, if_pos rfl]; exact hxx
    · rw [if_neg hza]
      have hzx : z ≠ x := by
        rintro rfl
        exact hza (hxa.det (Rep.root hz ht hbz)).symm
      exact Rep.root hz ((tok _).mpr ht) (by rw [hbl, if_neg hzx, if_neg hza]; exact hbz)
  | @step z r hz ht hbz hrep ih =>
    have hza : z ≠ a := by rintro rfl; exact hbz hab
    by_cases hzx : z = x
    · subst hzx
      have : r = a := (Rep.step hz ht hbz hrep).det hxa
      rw [if_pos this]
      exact hxx
    · refine Rep.step hz ((tok _).mpr ht) ?_ ?_
      · rw [hbl, if_neg hzx, if_neg hza]; exact hbz
      · rw [hbl, if_neg hzx, if_neg hza]; exact ih

theorem UF.root_ptr {ρ : Int → Int} (hu : UF m n ρ) {x : Int} (hx : InR n x)
    (ht : m.token (ρ x) = m.m_clearToken) : m.blossom (ρ x) = ρ x := by
  rcases (hu x hx).end_.fix_cases with h | h
  · exact absurd ht h
  · exact h

/-- The effect of `makeUnion(x, y)`: the class of `x` is merged into the class of `y`. -/
theorem makeUnion_spec {ρ : Int → Int} (hs : m.Sized n) (hu : UF m n ρ) {x y : Int}
    (hx : InR n x) (hy : InR n y) (hxt : m.token (ρ x) = m.m_clearToken) :
    ∃ k m', Matching.makeUnion k m x y = .ok m' ∧ SameButBlossom n m m' ∧
      UF m' n (fun z => if ρ z = ρ x then ρ y else ρ z) := by
  obtain ⟨k1, m1, hf1, hs1, hu1⟩ := find_uf hs hu hx
  obtain ⟨k2, m2, hf2, hs2, hu2⟩ := find_uf hs1.sized hu1 hy
  have hs12 := hs1.same_trans hs2
  have ha : InR n (ρ x) := hu.inR hx
  have ha' : InR m2.m_tree.length (ρ x) := by rw [hs12.sized.tree]; exact ha
  have hat : m2.token (ρ x) = m2.m_clearToken := by rw [hs12.token, hs12.c]; exact hxt
  refine ⟨max k1 k2, m2.setBlossom (ρ x) (ρ y), ?_, hs12.same_trans (setBlossom_same hs12.sized ha _), ?_⟩
  · simp only [Matching.makeUnion, bind_eq_ok]
    refine ⟨_, find_mono hf1 (le_max_left _ _), _, find_mono hf2 (le_max_right _ _), _,
      vget_of_inR (⟨0, 0, 0, 0⟩ : Node) ha', _, vset_of_inR _ ha', ?_⟩
    rfl
  · intro z hz
    exact rep_link hs12.sized ha hat (hu2.root_ptr hx hat) (hu2 y hy).end_ z (ρ z) (hu2 z hz)

/-- The effect of `makeRepresentative(x)`: `x` becomes the representative of its class. -/
theorem makeRepresentative_spec {ρ : Int → Int} (hs : m.Sized n) (hu : UF m n ρ) {x : Int}
    (hx : InR n x) (hxt : m.token x = m.m_clearToken)
    (hat : m.token (ρ x) = m.m_clearToken) :
    ∃ k m', Matching.makeRepresentative k m x = .ok m' ∧ SameButBlossom n m m' ∧
      UF m' n (fun z => if ρ z = ρ x then x else ρ z) := by
  obtain ⟨k1, m1, hf1, hs1, hu1⟩ := find_uf hs hu hx
  have ha : InR n (ρ x) := hu.inR hx
  have ha' : InR m1.m_tree.length (ρ x) := by rw [hs1.sized.tree]; exact ha
  have hat1 : m1.token (ρ x) = m1.m_clearToken := by rw [hs1.token, hs1.c]; exact hat
  have hxt1 : m1.token x = m1.m_clearToken := by rw [hs1.token, hs1.c]; exact hxt
  have same1 := setBlossom_same hs1.sized ha x
  have hx' : InR (lset m1.m_tree (ρ x) { m1.nodeAt (ρ x) with m_blossom := x }).length x := by
    rw [length_lset, hs1.sized.tree]; exact hx
  refine ⟨k1, (m1.setBlossom (ρ x) x).setBlossom x x, ?_,
    hs1.same_trans (same1.same_trans (setBlossom_same same1.sized hx _)), ?_⟩
  · simp only [Matching.makeRepresentative, bind_eq_ok]
    refine ⟨_, hf1, _, vget_of_inR (⟨0, 0, 0, 0⟩ : Node) ha', _, vset_of_inR _ ha', _,
      vget_of_inR (⟨0, 0, 0, 0⟩ : Node) hx', _, vset_of_inR _ hx', ?_⟩
    rfl
  · intro z hz
    exact rep_reroot hs1.sized ha hx hat1 (hu1.root_ptr hx hat1) hxt1 (hu1 x hx) z (ρ z)
      (hu1 z hz)

end

end Blossom

namespace Blossom

section
variable {n : Nat} {m : Matching}

/-- The effect of `extendTree(v, w)` on the state. -/
theorem extendTree_spec {ρ : Int → Int} (hs : m.Sized n) (hu : UF m n ρ) {v w : Int}
    (hv : InR n v) (hw : InR n w) (hmw : InR n (m.partner w))
    (hwT : m.token w ≠ m.m_clearToken) (huT : m.token (m.partner w) ≠ m.m_clearToken)
    (huw : m.partner w ≠ w) :
    ∃ m', m.extendTree v w = .ok m' ∧ m'.Sized n ∧ m'.view = m.view.extend v w ∧
      m'.bridge = m.bridge ∧ m'.m_queue = m.m_queue ++ [m.partner w] ∧
      m'.m_matchedVertex = m.m_matchedVertex ∧ UF m' n ρ := by
  have hv' : InR m.m_tree.length v := by rw [hs.tree]; exact hv
  have hw' : InR m.m_tree.length w := by rw [hs.tree]; exact hw
  have hu' : InR m.m_tree.length (m.partner w) := by rw [hs.tree]; exact hmw
  have hwm : InR m.m_matchedVertex.length w := by rw [hs.mv]; exact hw
  let dW := m.depth v + 1 + m.depth v % 2
  let nW : Node := { m.nodeAt w with m_depth := dW, m_parent := v,
                                     m_clearToken := m.m_clearToken, m_blossom := w }
  let t1 := lset m.m_tree w nW
  have ht1 : t1.length = m.m_tree.length := length_lset _ _ _
  have hw1 : InR t1.length w := by rw [ht1]; exact hw'
  have hu1 : InR t1.length (m.partner w) := by rw [ht1]; exact hu'
  let nU : Node := { lget t1 ⟨0, 0, 0, 0⟩ (m.partner w) with
    m_depth := (lget t1 ⟨0, 0, 0, 0⟩ w).m_depth + 1, m_parent := w,
    m_clearToken := m.m_clearToken, m_blossom := m.partner w }
  let m' : Matching := { m with m_tree := lset t1 (m.partner w) nU,
                                m_queue := m.m_queue ++ [m.partner w] }
  have hnode : ∀ y, m'.nodeAt y =
      if y = m.partner w then ⟨dW + 1, w, m.partner w, m.m_clearToken⟩
      else if y = w then ⟨dW, v, w, m.m_clearToken⟩ else m.nodeAt y := by
    intro y
    show lget (lset t1 (m.partner w) nU) _ y = _
    rw [lget_lset _ _ hu1]
    by_cases h1 : y = m.partner w
    · rw [if_pos h1, if_pos h1]
      show Node.mk _ _ _ _ = _
      have : (lget t1 ⟨0, 0, 0, 0⟩ w).m_depth = dW := by
        show (lget (lset m.m_tree w nW) _ w).m_depth = dW
        rw [lget_lset_self _ _ hw']
      rw [this]
    · rw [if_neg h1, if_neg h1]
      show lget (lset m.m_tree w nW) _ y = _
      rw [lget_lset _ _ hw']
      by_cases h2 : y = w
      · rw [if_pos h2, if_pos h2]
      · rw [if_neg h2, if_neg h2]; rfl
  have hsz : m'.Sized n := ⟨hs.mv, by
    show (lset t1 _ _).length = n
    rw [length_lset, ht1]; exact hs.tree, hs.br⟩
  refine ⟨m', ?_, hsz, ?_, rfl, rfl, rfl, ?_⟩
  · simp only [Matching.extendTree, bind_eq_ok]
    refine ⟨_, vget_of_inR (-1) hwm, _, vget_of_inR (⟨0, 0, 0, 0⟩ : Node) hv', _,
      vget_of_inR (⟨0, 0, 0, 0⟩ : Node) hw', _, vget_of_inR (⟨0, 0, 0, 0⟩ : Node) hu', _,
      vset_of_inR _ hw', _, vget_of_inR (⟨0, 0, 0, 0⟩ : Node) hw1, _,
      vget_of_inR (⟨0, 0, 0, 0⟩ : Node) hu1, _, vset_of_inR _ hu1, ?_⟩
    rfl
  · unfold Matching.view View.extend
    have e1 : m'.token = fun x => if x = m.partner w then m.m_clearToken
        else if x = w then m.m_clearToken else m.token x := by
      funext y; unfold Matching.token; rw [hnode]
      split
      · rfl
      · split <;> rfl
    have e2 : m'.depth = fun x => if x = m.partner w then m.depth v + 1 + m.depth v % 2 + 1
        else if x = w then m.depth v + 1 + m.depth v % 2 else m.depth x := by
      funext y; unfold Matching.depth; rw [hnode]
      split
      · rfl
      · split <;> rfl
    have e3 : m'.parent = fun x => if x = m.partner w then w
        else if x = w then v else m.parent x := by
      funext y; unfold Matching.parent; rw [hnode]
      split
      · rfl
      · split <;> rfl
    rw [e1, e2, e3]
    rfl
  · have hbl : ∀ y, m'.blossom y =
        if y = m.partner w then m.partner w else if y = w then w else m.blossom y := by
      intro y; unfold Matching.blossom; rw [hnode]
      split
      · rfl
      · split <;> rfl
    have htk : ∀ y, m'.token y =
        if y = m.partner w then m.m_clearToken else if y = w then m.m_clearToken
        else m.token y := by
      intro y; unfold Matching.token; rw [hnode]
      split
      · rfl
      · split <;> rfl
    have hc : m'.m_clearToken = m.m_clearToken := rfl
    have key : ∀ z r, Rep m n z r → Rep m' n z r := by
      intro z r h
      induction h with
      | @stale z hz ht =>
        by_cases h1 : z = m.partner w
        · exact Rep.root hz (by rw [htk, if_pos h1, hc]) (by rw [hbl, if_pos h1, h1])
        · by_cases h2 : z = w
          · exact Rep.root hz (by rw [htk, if_neg h1, if_pos h2, hc])
              (by rw [hbl, if_neg h1, if_pos h2, h2])
          · exact Rep.stale hz (by rw [htk, if_neg h1, if_neg h2, hc]; exact ht)
      | @root z hz ht hb =>
        have h1 : z ≠ m.partner w := by rintro rfl; exact huT ht
        have h2 : z ≠ w := by rintro rfl; exact hwT ht
        exact Rep.root hz (by rw [htk, if_neg h1, if_neg h2, hc]; exact ht)
          (by rw [hbl, if_neg h1, if_neg h2]; exact hb)
      | @step z r hz ht hb _ ih =>
        have h1 : z ≠ m.partner w := by rintro rfl; exact huT ht
        have h2 : z ≠ w := by rintro rfl; exact hwT ht
        refine Rep.step hz (by rw [htk, if_neg h1, if_neg h2, hc]; exact ht)
          (by rw [hbl, if_neg h1, if_neg h2]; exact hb) ?_
        rw [hbl, if_neg h1, if_neg h2]
        exact ih
    intro z hz
    exact key z (ρ z) (hu z hz)

end

end Blossom

namespace Blossom

section
variable {n : Nat} {m : Matching}

/-- `findPath(s, t)` appends the path described by `PathRel`. -/
theorem findPath_of_pathRel {Q : Int → Prop} (hs : m.Sized n)
    (h : PathRel m.view n m.bridge Q s t p) :
    ∃ k, ∀ path, Matching.findPath k m s t path = .ok (path ++ p) := by
  induction h with
  | @done s =>
    refine ⟨1, fun path => ?_⟩
    simp [Matching.findPath]
  | @even s t y p hne hsr hdep hms hpar _ ih =>
    obtain ⟨k, hk⟩ := ih
    refine ⟨k + 1, fun path => ?_⟩
    have hs' : InR m.m_tree.length s := by rw [hs.tree]; exact hsr
    have hsm : InR m.m_matchedVertex.length s := by rw [hs.mv]; exact hsr
    have hms' : InR m.m_tree.length (m.partner s) := by rw [hs.tree]; exact hms
    simp only [Matching.findPath, if_neg hne, bind_eq_ok]
    refine ⟨_, vget_of_inR (⟨0, 0, 0, 0⟩ : Node) hs', ?_⟩
    have hd : (lget m.m_tree (⟨0, 0, 0, 0⟩ : Node) s).m_depth % 2 = 0 := hdep
    rw [if_pos hd]
    simp only [bind_eq_ok]
    refine ⟨_, vget_of_inR (-1) hsm, _, vget_of_inR (-1) hsm, _,
      vget_of_inR (⟨0, 0, 0, 0⟩ : Node) hms', ?_⟩
    have hp : (lget m.m_tree (⟨0, 0, 0, 0⟩ : Node) (lget m.m_matchedVertex (-1) s)).m_parent = y :=
      hpar
    rw [hp, hk]
    have e : lget m.m_matchedVertex (-1) s = m.view.partner s := rfl
    simp [e]
  | @odd s t p1 p2 hne hsr hdep _ _ _ ih1 ih2 =>
    obtain ⟨k1, hk1⟩ := ih1
    obtain ⟨k2, hk2⟩ := ih2
    refine ⟨max k1 k2 + 1, fun path => ?_⟩
    have hs' : InR m.m_tree.length s := by rw [hs.tree]; exact hsr
    have hsm : InR m.m_matchedVertex.length s := by rw [hs.mv]; exact hsr
    have hsb : InR m.m_bridges.length s := by rw [hs.br]; exact hsr
    simp only [Matching.findPath, if_neg hne, bind_eq_ok]
    refine ⟨_, vget_of_inR (⟨0, 0, 0, 0⟩ : Node) hs', ?_⟩
    have hd : ¬ (lget m.m_tree (⟨0, 0, 0, 0⟩ : Node) s).m_depth % 2 = 0 := hdep
    rw [if_neg hd]
    simp only [bind_eq_ok]
    refine ⟨_, vget_of_inR ((0 : Int), (0 : Int)) hsb, _, vget_of_inR (-1) hsm, _,
      findPath_mono (hk1 _) (le_max_left _ _), ?_⟩
    have e : List.take (path ++ [s]).length (path ++ [s] ++ p1) ++
        (List.drop (path ++ [s]).length (path ++ [s] ++ p1)).reverse
        = path ++ [s] ++ p1.reverse := by
      rw [List.take_left', List.drop_left'] <;> rfl
    rw [e]
    have := findPath_mono (hk2 (path ++ [s] ++ p1.reverse)) (le_max_right k1 k2)
    refine Eq.trans this ?_
    simp

end

end Blossom

namespace Blossom

section
variable {g : Graph} {n : Nat} {root : Int} {m : Matching} {ρ : Int → Int}

/-- `findCommonAncestor(v, w)` terminates inside the tree and returns the base of the lowest
    common ancestor of `v` and `w`. -/
theorem findCommonAncestor_spec (hs : m.Sized n) (hu : UF m n ρ)
    (ht : TreeInv g n root m.view) :
    ∀ (K : Nat) (v w : Int), m.view.InTree n v → m.view.InTree n w →
      m.view.depth v + m.view.depth w ≤ K →
      ∃ k m' z0, Matching.findCommonAncestor k m v w = .ok (ρ z0, m') ∧
        SameButBlossom n m m' ∧ UF m' n ρ ∧
        Anc m.view n root v z0 ∧ Anc m.view n root w z0 ∧
        ∀ y, Anc m.view n root v y → Anc m.view n root w y → Anc m.view n root z0 y := by
  have base : ∀ v, m.view.InTree n v →
      ∃ k m' z0, Matching.findCommonAncestor k m v v = .ok (ρ z0, m') ∧
        SameButBlossom n m m' ∧ UF m' n ρ ∧
        Anc m.view n root v z0 ∧ Anc m.view n root v z0 ∧
        ∀ y, Anc m.view n root v y → Anc m.view n root v y → Anc m.view n root z0 y := by
    intro v hv
    obtain ⟨k, m', h1, h2, h3⟩ := find_uf hs hu hv.1
    refine ⟨k + 1, m', v, ?_, h2, h3, Anc.refl hv, Anc.refl hv, fun y h _ => h⟩
    simp only [Matching.findCommonAncestor, ne_eq, not_true_eq_false, if_false]
    exact find_mono h1 (Nat.le_succ k)
  intro K
  induction K with
  | zero =>
    intro v w hv hw hK
    have h1 := ht.depth_nonneg v hv
    have h2 := ht.depth_nonneg w hw
    have e1 : v = root := ht.depth_zero hv (by omega)
    have e2 : w = root := ht.depth_zero hw (by omega)
    subst e1; subst e2
    exact base _ hv
  | succ K ih =>
    intro v w hv hw hK
    by_cases hvw : w = v
    · subst hvw; exact base _ hv
    · have hv' : InR m.m_tree.length v := by rw [hs.tree]; exact hv.1
      have hw' : InR m.m_tree.length w := by rw [hs.tree]; exact hw.1
      have h1 := ht.depth_nonneg v hv
      have h2 := ht.depth_nonneg w hw
      by_cases hd : m.view.depth v > m.view.depth w
      · have hvr : v ≠ root := by
          rintro rfl
          rw [ht.root_depth] at hd; omega
        have hp := ht.parent_in hv hvr
        obtain ⟨k, m', z0, e, s1, s2, a1, a2, a3⟩ := ih (m.view.parent v) w hp.1 hw (by omega)
        refine ⟨k + 1, m', z0, ?_, s1, s2, Anc.step hv hvr a1, a2, ?_⟩
        · simp only [Matching.findCommonAncestor, ne_eq, hvw, not_false_eq_true, if_true,
            bind_eq_ok]
          refine ⟨_, vget_of_inR (⟨0, 0, 0, 0⟩ : Node) hv', _,
            vget_of_inR (⟨0, 0, 0, 0⟩ : Node) hw', ?_⟩
          have hd' : (lget m.m_tree (⟨0, 0, 0, 0⟩ : Node) v).m_depth >
              (lget m.m_tree (⟨0, 0, 0, 0⟩ : Node) w).m_depth := hd
          rw [if_pos hd']
          exact e
        · intro y b1 b2
          have hyv : v ≠ y := by
            rintro rfl
            have := ht.anc_depth_le b2
            omega
          exact a3 y (b1.step_inv hyv).2 b2
      · have hwr : w ≠ root := by
          rintro rfl
          rw [ht.root_depth] at hd
          exact hvw (ht.depth_zero hv (by omega)).symm
        have hp := ht.parent_in hw hwr
        obtain ⟨k, m', z0, e, s1, s2, a1, a2, a3⟩ := ih v (m.view.parent w) hv hp.1 (by omega)
        refine ⟨k + 1, m', z0, ?_, s1, s2, a1, Anc.step hw hwr a2, ?_⟩
        · simp only [Matching.findCommonAncestor, ne_eq, hvw, not_false_eq_true, if_true,
            bind_eq_ok]
          refine ⟨_, vget_of_inR (⟨0, 0, 0, 0⟩ : Node) hv', _,
            vget_of_inR (⟨0, 0, 0, 0⟩ : Node) hw', ?_⟩
          have hd' : ¬ (lget m.m_tree (⟨0, 0, 0, 0⟩ : Node) v).m_depth >
              (lget m.m_tree (⟨0, 0, 0, 0⟩ : Node) w).m_depth := hd
          rw [if_neg hd']
          exact e
        · intro y b1 b2
          have hyw : w ≠ y := by
            rintro rfl
            have := ht.anc_depth_eq b1 (by omega)
            exact hvw this.symm
          exact a3 y b1 (b2.step_inv hyw).2

end

end Blossom

namespace Blossom

section
variable {n : Nat}

theorem cpath_merge {V : View} {ρ ρc : Int → Int} {b a1 a2 : Int} (D : Int)
    (hρc : ∀ z, ρc z = if ρ z = b ∨ ρ z = a1 ∨ ρ z = a2 then b else ρ z)
    (h1 : D ≤ V.depth a1) (h2 : D ≤ V.depth a2) (h : CPath V n ρ b u L) :
    V.depth u < D → CPath V n ρc b u L := by
  induction h with
  | nil hb hbf =>
    intro _
    refine CPath.nil hb ?_
    rw [hρc, if_pos (Or.inl hbf)]
  | @cons u u' L hub hu hfix hm hmm hsfix hsb hd hp hr hd' _ ih =>
    intro hD
    have keep : ∀ z, ρ z ≠ b → V.depth (ρ z) < D → ρc z = ρ z := by
      intro z hz hdz
      rw [hρc, if_neg]
      rintro (h | h | h)
      · exact hz h
      · rw [h] at hdz; omega
      · rw [h] at hdz; omega
    refine CPath.cons hub hu ?_ hm hmm ?_ hsb hd hp ?_ hd' (ih (by omega))
    · rw [keep u (by rw [hfix]; exact hub) (by rw [hfix]; exact hD)]; exact hfix
    · rw [keep _ (by rw [hsfix]; exact hsb) (by rw [hsfix]; omega)]; exact hsfix
    · by_cases hu'b : u' = b
      · rw [hρc, if_pos (Or.inl (hr.trans hu'b)), hu'b]
      · rw [keep _ (by rw [hr]; exact hu'b) (by rw [hr]; omega)]; exact hr

theorem UF.congr {m : Matching} {ρ ρ' : Int → Int} (h : UF m n ρ)
    (e : ∀ x, InR n x → ρ' x = ρ x) : UF m n ρ' := by
  intro x hx
  rw [e x hx]
  exact h x hx

theorem Rep.of_tree_eq {m m' : Matching} (ht : m'.m_tree = m.m_tree)
    (hc : m'.m_clearToken = m.m_clearToken) (h : Rep m n x r) : Rep m' n x r := by
  have tok : ∀ y, m'.token y = m.token y := by
    intro y; unfold Matching.token Matching.nodeAt; rw [ht]
  have bl : ∀ y, m'.blossom y = m.blossom y := by
    intro y; unfold Matching.blossom Matching.nodeAt; rw [ht]
  induction h with
  | stale h1 h2 => exact Rep.stale h1 (by rw [tok, hc]; exact h2)
  | root h1 h2 h3 => exact Rep.root h1 (by rw [tok, hc]; exact h2) (by rw [bl]; exact h3)
  | step h1 h2 h3 _ ih =>
    exact Rep.step h1 (by rw [tok, hc]; exact h2) (by rw [bl]; exact h3) (by rw [bl]; exact ih)

/-- The three union-find operations of one round of `shrinkPath`: the classes of `u` and
    of `s` are merged into the class of `b`, whose representative stays `b`. -/
theorem shrink_step_uf {m : Matching} {ρ : Int → Int} (hs : m.Sized n) (hu : UF m n ρ)
    {b u s : Int}
    (hb : InR n b) (hbt : m.token b = m.m_clearToken) (hbf : ρ b = b)
    (huI : InR n u) (hut : m.token u = m.m_clearToken) (huf : ρ u = u)
    (hsI : InR n s) (hst : m.token s = m.m_clearToken) (hsf : ρ s = s) (hsb : s ≠ b) :
    ∃ k m1 m2 m3, Matching.makeUnion k m b u = .ok m1 ∧ Matching.makeUnion k m1 b s = .ok m2 ∧
      Matching.makeRepresentative k m2 b = .ok m3 ∧ SameButBlossom n m m1 ∧
      SameButBlossom n m m3 ∧
      UF m3 n (fun z => if ρ z = b ∨ ρ z = u ∨ ρ z = s then b else ρ z) := by
  obtain ⟨k1, m1, e1, s1, u1⟩ := makeUnion_spec hs hu hb huI (by rw [hbf]; exact hbt)
  have u1' : UF m1 n (fun z => if ρ z = b then u else ρ z) :=
    u1.congr (fun x _ => by simp only [hbf, huf])
  obtain ⟨k2, m2, e2, s2, u2⟩ := makeUnion_spec s1.sized u1' hb hsI (by
    simp only [hbf, if_true]
    rw [s1.token, s1.c]; exact hut)
  have s12 := s1.same_trans s2
  have u2' : UF m2 n (fun z => if ρ z = b ∨ ρ z = u then s else ρ z) := by
    refine u2.congr (fun x _ => ?_)
    simp only [hbf, hsf, if_true, if_neg hsb]
    by_cases h1 : ρ x = b
    · simp [h1]
    · by_cases h2 : ρ x = u
      · simp [h1, h2]
      · simp [h1, h2]
  obtain ⟨k3, m3, e3, s3, u3⟩ := makeRepresentative_spec s12.sized u2' hb
    (by rw [s12.token, s12.c]; exact hbt) (by
      simp only [hbf, true_or, if_true]
      rw [s12.token, s12.c]; exact hst)
  refine ⟨max k1 (max k2 k3), m1, m2, m3, makeUnion_mono e1 (le_max_left _ _),
    makeUnion_mono e2 (le_trans (le_max_left _ _) (le_max_right _ _)),
    makeRepresentative_mono e3 (le_trans (le_max_right _ _) (le_max_right _ _)),
    s1, s12.same_trans s3, ?_⟩
  refine u3.congr ?_
  intro x _
  simp only [hbf, true_or, if_true]
  by_cases h1 : ρ x = b
  · simp [h1]
  · by_cases h2 : ρ x = u
    · simp [h1, h2]
    · by_cases h3 : ρ x = s
      · simp [h1, h2, h3]
      · simp [h1, h2, h3]

theorem UF.uf_of_tree_eq {m m' : Matching} {ρ : Int → Int} (ht : m'.m_tree = m.m_tree)
    (hc : m'.m_clearToken = m.m_clearToken) (h : UF m n ρ) : UF m' n ρ :=
  fun x hx => (h x hx).of_tree_eq ht hc

/-- The loop of `shrinkPath`, started at the base `u`: it walks up to `b`, merges the
    blossoms on the way into the one of `b`, records the bridge `(v, w)` for the inner
    vertices `L` it absorbs and appends them to the queue. -/
theorem shrinkPathLoop_spec (v w b : Int) :
    ∀ (L : List Int) (m : Matching) (ρ : Int → Int) (u : Int), m.Sized n → UF m n ρ →
      CPath m.view n ρ b u L →
      ∃ k m', Matching.shrinkPathLoop k m b v w u = .ok m' ∧ m'.Sized n ∧ m'.view = m.view ∧
        m'.m_matchedVertex = m.m_matchedVertex ∧ UF m' n (m.view.shrinkRho ρ b L) ∧
        m'.bridge = shrinkBridge m.bridge v w L ∧ m'.m_queue = m.m_queue ++ L := by
  intro L
  induction L with
  | nil =>
    intro m ρ u hs hu hcp
    cases hcp with
    | nil hb hbf =>
      refine ⟨1, m, ?_, hs, rfl, rfl, ?_, ?_, by simp⟩
      · simp [Matching.shrinkPathLoop]
      · refine hu.congr (fun x _ => ?_)
        unfold View.shrinkRho
        by_cases h : ρ x = b
        · simp [h]
        · simp [h]
      · funext z; simp [shrinkBridge]
  | cons s L0 ih =>
    intro m ρ u hs hu hcp
    cases hcp with
    | @cons _ u' _ hub huT hfix hm hmm hsfix hsb hd hp hr hd' hc' =>
      have hbase := hc'.base
      have huI : InR n u := huT.1
      have hsI : InR n (m.partner u) := hm.1
      obtain ⟨k1, m1, m2, m3, e1, e2, e3, s1, s3, u3⟩ :=
        shrink_step_uf hs hu hbase.1.1 hbase.1.2 hbase.2 huI huT.2 hfix hsI hm.2 hsfix hsb
      -- the state after the queue and bridge updates
      let m5 : Matching := { m3 with m_queue := m3.m_queue ++ [m.partner u],
                                     m_bridges := lset m3.m_bridges (m.partner u) (v, w) }
      have hs5 : m5.Sized n := ⟨s3.sized.mv, s3.sized.tree, by
        show (lset _ _ _).length = n
        rw [length_lset]; exact s3.sized.br⟩
      have u5 : UF m5 n (fun z => if ρ z = b ∨ ρ z = u ∨ ρ z = m.partner u then b else ρ z) :=
        UF.uf_of_tree_eq (m := m3) rfl rfl u3
      have hpI : InR n (m.parent (m.partner u)) := hp
      obtain ⟨k4, m6, e4, s6, u6⟩ := find_uf hs5 u5 hpI
      have hv5 : m5.view = m.view := s3.view
      have hv6 : m6.view = m.view := s6.view.trans hv5
      have hfind : (if ρ (m.parent (m.partner u)) = b ∨ ρ (m.parent (m.partner u)) = u ∨
          ρ (m.parent (m.partner u)) = m.partner u then b else ρ (m.parent (m.partner u))) = u' := by
        have hr' : ρ (m.parent (m.partner u)) = u' := hr
        simp only [hr']
        by_cases h1 : u' = b
        · simp [h1]
        · have h2 : u' ≠ u := by rintro rfl; omega
          have h3 : u' ≠ m.partner u := by
            intro e; rw [e] at hd'
            exact absurd hd' (lt_irrefl _)
          simp [h1, h2, h3]
      rw [hfind] at e4
      have hcp6 : CPath m6.view n
          (fun z => if ρ z = b ∨ ρ z = u ∨ ρ z = m.partner u then b else ρ z) b u' L0 := by
        rw [hv6]
        exact cpath_merge (m.view.depth (m.view.partner u)) (fun _ => rfl) (le_of_lt hd)
          (le_refl _) hc' hd'
      obtain ⟨k5, m', e5, hs', hv', hmv', hu', hbr', hq'⟩ := ih m6 _ u' s6.sized u6 hcp6
      let K := max (max k1 k4) k5
      have hK1 : k1 ≤ K + 1 := le_trans (le_trans (le_max_left _ _) (le_max_left _ _))
        (Nat.le_succ _)
      have hK4 : k4 ≤ K + 1 := le_trans (le_trans (le_max_right _ _) (le_max_left _ _))
        (Nat.le_succ _)
      have hK5 : k5 ≤ K := le_max_right _ _
      have hum : InR m1.m_matchedVertex.length u := by rw [s1.sized.mv]; exact huI
      have hsb3 : InR m3.m_bridges.length (m.partner u) := by rw [s3.sized.br]; exact hsI
      have hst5 : InR m5.m_tree.length (m.partner u) := by rw [hs5.tree]; exact hsI
      have hp1 : lget m1.m_matchedVertex (-1) u = m.partner u := by
        rw [s1.mv]; rfl
      have hne1 : ¬ u = -1 := by have := huI.1; omega
      have hne2 : ¬ m.partner u = -1 := by
        intro e; have := hsI.1; rw [e] at this; exact absurd this (by decide)
      refine ⟨K + 1, m', ?_, hs', hv'.trans hv6, ?_, ?_, ?_, ?_⟩
      · simp only [Matching.shrinkPathLoop, ne_eq, hub, not_false_eq_true, if_true, bind_eq_ok]
        refine ⟨m1, makeUnion_mono e1 hK1, ?_⟩
        rw [if_neg hne1]
        simp only [bind_eq_ok]
        refine ⟨_, vget_of_inR (-1) hum, ?_⟩
        rw [hp1, if_neg hne2]
        simp only [bind_eq_ok]
        refine ⟨_, vget_of_inR (-1) hum, ?_⟩
        rw [hp1]
        refine ⟨m2, makeUnion_mono e2 hK1, m3, makeRepresentative_mono e3 hK1, _,
          vset_of_inR _ hsb3, _, vget_of_inR (⟨0, 0, 0, 0⟩ : Node) hst5, (u', m6), ?_, ?_⟩
        · have : (lget m5.m_tree (⟨0, 0, 0, 0⟩ : Node) (m.partner u)).m_parent =
              m.parent (m.partner u) := by
            have := congrArg View.parent hv5
            exact congrFun this (m.partner u)
          rw [this]
          exact find_mono e4 hK4
        · exact shrinkPathLoop_mono e5 hK5
      · rw [hmv', s6.mv]; exact s3.mv
      · refine hu'.congr (fun x _ => ?_)
        rw [hv6]
        unfold View.shrinkRho
        have hms : m.view.partner (m.view.partner u) = u := hmm
        have hpu : m.partner u = m.view.partner u := rfl
        simp only [List.mem_cons, List.map_cons, hms, hpu]
        by_cases h1 : ρ x = b
        · simp [h1]
        · by_cases h2 : ρ x = u
          · simp [h2]
          · by_cases h3 : ρ x = m.view.partner u
            · simp [h3]
            · simp [h1, h2, h3]
      · rw [hbr', s6.bridge]
        funext z
        have h5 : m5.bridge z = if z = m.partner u then (v, w) else m.bridge z := by
          show lget (lset m3.m_bridges _ _) _ z = _
          rw [lget_lset _ _ hsb3]
          have : lget m3.m_bridges (0, 0) z = m.bridge z := by
            have := s3.bridge
            exact congrFun this z
          rw [this]
        unfold shrinkBridge
        rw [h5]
        have hpu : m.partner u = m.view.partner u := rfl
        simp only [List.mem_cons, hpu]
        by_cases h1 : z ∈ L0
        · simp [h1]
        · by_cases h2 : z = m.view.partner u
          · simp [h2]
          · simp [h1, h2]
      · rw [hq', s6.q]
        show (m3.m_queue ++ [m.partner u]) ++ L0 = _
        rw [s3.q]
        simp
        rfl

end

end Blossom

namespace Blossom

section
variable {g : Graph} {n : Nat} {root : Int} {m : Matching} {ρ : Int → Int}

theorem SInv.of_same {m' : Matching} (h : SInv g n root m ρ) (hs : SameButBlossom n m m')
    (hu : UF m' n ρ) : SInv g n root m' ρ := by
  refine ⟨hs.sized, hu, ?_, ?_⟩
  · rw [hs.view, hs.bridge, hs.q]; exact h.core
  · intro x; rw [hs.token, hs.c]; exact h.tok_le x

/-- The effect of `shrinkPath(b, v, w)`. -/
theorem shrinkPath_spec (hs : m.Sized n) (hu : UF m n ρ) {b v : Int} (w : Int) {L : List Int}
    (hv : InR n v) (hcp : CPath m.view n ρ b (ρ v) L) :
    ∃ k m', Matching.shrinkPath k m b v w = .ok m' ∧ m'.Sized n ∧ m'.view = m.view ∧
      m'.m_matchedVertex = m.m_matchedVertex ∧ UF m' n (m.view.shrinkRho ρ b L) ∧
      m'.bridge = shrinkBridge m.bridge v w L ∧ m'.m_queue = m.m_queue ++ L := by
  obtain ⟨k1, m1, e1, s1, u1⟩ := find_uf hs hu hv
  have hcp1 : CPath m1.view n ρ b (ρ v) L := by rw [s1.view]; exact hcp
  obtain ⟨k2, m', e2, hs', hv', hmv', hu', hbr', hq'⟩ :=
    shrinkPathLoop_spec v w b L m1 ρ (ρ v) s1.sized u1 hcp1
  refine ⟨max k1 k2, m', ?_, hs', hv'.trans s1.view, hmv'.trans s1.mv, ?_, ?_, ?_⟩
  · simp only [Matching.shrinkPath, bind_eq_ok]
    exact ⟨_, find_mono e1 (le_max_left _ _), shrinkPathLoop_mono e2 (le_max_right _ _)⟩
  · rw [← s1.view]; exact hu'
  · rw [hbr', s1.bridge]
  · rw [hq', s1.q]

/-- The effect of `shrinkBlossom(v, w)` in the situation in which `examineEdge` calls it. -/
theorem shrinkBlossom_spec (hv : g.Valid) (inv : SInv g n root m ρ) {v w : Int}
    (hvo : m.view.Outer n ρ v) (hwo : m.view.Outer n ρ w) (hadj : g.Adj v w)
    (hne : ρ v ≠ ρ w) :
    ∃ k m' z0 L L', Matching.shrinkBlossom k m v w = .ok m' ∧
      ShrinkPre g n root m.view ρ m.bridge m.m_queue v w z0 (ρ z0) L L' ∧
      m'.Sized n ∧ m'.view = m.view ∧ m'.m_matchedVertex = m.m_matchedVertex ∧
      UF m' n (m.view.shrinkRho (m.view.shrinkRho ρ (ρ z0) L) (ρ z0) L') ∧
      m'.bridge = shrinkBridge (shrinkBridge m.bridge v w L) w v L' ∧
      m'.m_queue = m.m_queue ++ L ++ L' := by
  have ht := inv.core.tree
  have hb := inv.core.blossom
  have hd0 := ht.depth_nonneg
  obtain ⟨k1, m1, z0, e1, s1, u1, a1, a2, a3⟩ := findCommonAncestor_spec inv.sized inv.uf ht
    (m.view.depth v + m.view.depth w).toNat v w hvo.1 hwo.1 (by
      have := hd0 v hvo.1; have := hd0 w hwo.1; omega)
  have hz0 := a1.right
  have hbT := hb.rho_in z0 hz0
  have hbfix := hb.rho_idem z0
  have hbeven := hb.lca_even ht hvo hwo a1 a2 a3
  have hvb : Anc m.view n root (ρ v) (ρ z0) :=
    hb.base_anc ht (a1.trans (hb.anc_base ht hz0)) hbfix
  obtain ⟨L, hL⟩ := CPath.exists ht hb hbfix hbeven (m.view.depth (ρ v)).toNat (ρ v)
    (by have := hd0 _ (hb.rho_in v hvo.1); omega) (hb.rho_in v hvo.1) (hb.rho_idem v) hvo.2 hvb
  have side1 : SidePre g n root m.view ρ (ρ z0) (ρ v) L := ⟨ht, hb, hL, hvo.2, hbeven⟩
  have hb1 := side1.blossom'
  have hwo1 := (side1.side_outer_iff w).mpr (Or.inl hwo)
  have hwb : Anc m.view n root (m.view.shrinkRho ρ (ρ z0) L w) (ρ z0) :=
    hb1.base_anc ht (a2.trans (hb.anc_base ht hz0)) side1.rho_b
  obtain ⟨L', hL'⟩ := CPath.exists ht hb1 side1.rho_b hbeven
    (m.view.depth (m.view.shrinkRho ρ (ρ z0) L w)).toNat (m.view.shrinkRho ρ (ρ z0) L w)
    (by have := hd0 _ (hb1.rho_in w hwo.1); omega) (hb1.rho_in w hwo.1) (hb1.rho_idem w)
    hwo1.2 hwb
  have pre : ShrinkPre g n root m.view ρ m.bridge m.m_queue v w z0 (ρ z0) L L' :=
    ⟨hv, inv.core, hvo, hwo, hadj, hne, a1, a2, a3, rfl, hbeven, hL, hL'⟩
  have hL1 : CPath m1.view n ρ (ρ z0) (ρ v) L := by rw [s1.view]; exact hL
  obtain ⟨k2, m2, e2, hs2, hv2, hmv2, hu2, hbr2, hq2⟩ :=
    shrinkPath_spec s1.sized u1 w hvo.1.1 hL1
  have hv2' : m2.view = m.view := hv2.trans s1.view
  have hL2 : CPath m2.view n (m1.view.shrinkRho ρ (ρ z0) L) (ρ z0)
      (m1.view.shrinkRho ρ (ρ z0) L w) L' := by rw [hv2', s1.view]; exact hL'
  obtain ⟨k3, m3, e3, hs3, hv3, hmv3, hu3, hbr3, hq3⟩ :=
    shrinkPath_spec hs2 hu2 v hwo.1.1 hL2
  refine ⟨max k1 (max k2 k3), m3, z0, L, L', ?_, pre, hs3, hv3.trans hv2',
    hmv3.trans (hmv2.trans s1.mv), ?_, ?_, ?_⟩
  · simp only [Matching.shrinkBlossom, bind_eq_ok]
    exact ⟨_, findCommonAncestor_mono e1 (le_max_left _ _), _,
      shrinkPath_mono e2 (le_trans (le_max_left _ _) (le_max_right _ _)),
      shrinkPath_mono e3 (le_trans (le_max_right _ _) (le_max_right _ _))⟩
  · rw [hv2', s1.view] at hu3; exact hu3
  · rw [hbr3, hbr2, s1.bridge]
  · rw [hq3, hq2, s1.q]

end

end Blossom

namespace Blossom

section
variable {g : Graph} {n : Nat} {root : Int} {m : Matching} {ρ : Int → Int}

theorem Explored.drop {V : View} {q : List Int} {v w : Int} {ws : List Int}
    (h : Explored g n V ρ q v (w :: ws)) (hw : V.InTree n w)
    (hvw : V.Outer n ρ v → V.Outer n ρ w → ρ v = ρ w) : Explored g n V ρ q v ws := by
  constructor
  · intro x y hx hxy
    rcases h.e_in x y hx hxy with h1 | h1 | ⟨h1, h2⟩
    · exact Or.inl h1
    · exact Or.inr (Or.inl h1)
    · rcases List.mem_cons.mp h2 with rfl | h3
      · exact Or.inl hw
      · exact Or.inr (Or.inr ⟨h1, h3⟩)
  · intro x y hx hy hxy
    rcases h.e_out x y hx hy hxy with h1 | h1 | h1 | ⟨h1, h2⟩ | ⟨h1, h2⟩
    · exact Or.inl h1
    · exact Or.inr (Or.inl h1)
    · exact Or.inr (Or.inr (Or.inl h1))
    · rcases List.mem_cons.mp h2 with rfl | h3
      · subst h1; exact Or.inl (hvw hx hy)
      · exact Or.inr (Or.inr (Or.inr (Or.inl ⟨h1, h3⟩)))
    · rcases List.mem_cons.mp h2 with rfl | h3
      · subst h1; exact Or.inl (hvw hy hx).symm
      · exact Or.inr (Or.inr (Or.inr (Or.inr ⟨h1, h3⟩)))

theorem examineEdge_unfold {k : Nat} {root v w : Int} {path : Path} {a b : Int}
    {m1 m2 : Matching} (h1 : Matching.find k m v = .ok (a, m1))
    (h2 : Matching.find k m1 w = .ok (b, m2)) :
    Matching.examineEdge k m root v w path =
      if a ≠ b then do
        let nwBar ← vget m2.m_tree b
        if nwBar.m_clearToken ≠ m2.m_clearToken then do
          let mw ← vget m2.m_matchedVertex w
          if mw = -1 then do
            let path1 ← Matching.buildAugmentingPath k m2 root v w path
            pure (true, path1, m2)
          else do
            let m3 ← Matching.extendTree m2 v w
            pure (false, path, m3)
        else if nwBar.m_depth % 2 = 0 then do
          let m3 ← Matching.shrinkBlossom k m2 v w
          pure (false, path, m3)
        else
          pure (false, path, m2)
      else
        pure (false, path, m2) := by
  simp only [Matching.examineEdge, h1, h2, bind, Except.bind]

theorem SameButBlossom.view_c {m' : Matching} (h : SameButBlossom n m m') :
    m'.m_clearToken = m.m_clearToken := h.c

theorem token_le_of_view {m m' : Matching} (hv : m'.view = m.view)
    (h : ∀ x, m.token x ≤ m.m_clearToken) : ∀ x, m'.token x ≤ m'.m_clearToken := by
  intro x
  have e1 : m'.token x = m.token x := congrFun (congrArg View.token hv) x
  have e2 : m'.m_clearToken = m.m_clearToken := congrArg View.c hv
  rw [e1, e2]; exact h x

/-- One call of `examineEdge` from a state that satisfies the invariant of the search. -/
theorem examineEdge_spec (hv : g.Valid) (hn : g.m_adjacencyList.length = n)
    (inv : SInv g n root m ρ) {v w : Int}
    {ws : List Int} {K : Nat} (hvo : m.view.Outer n ρ v) (hadj : g.Adj v w)
    (exp : Explored g n m.view ρ m.m_queue v (w :: ws))
    (bud : Budget n m.view ρ m.m_queue K) (path : Path) :
    ∃ k r, Matching.examineEdge k m root v w path = .ok r ∧
      StepOut g n root m v w ws K path r := by
  have hwI : InR n w := hn ▸ hv.inRange v w hadj
  obtain ⟨k1, m1, e1, s1, u1⟩ := find_uf inv.sized inv.uf hvo.1.1
  obtain ⟨k2, m2, e2, s2, u2⟩ := find_uf s1.sized u1 hwI
  have s12 := s1.same_trans s2
  have inv2 := inv.of_same s12 u2
  have hb := inv.core.blossom
  have ht := inv.core.tree
  have hvo2 : m2.view.Outer n ρ v := by rw [s12.view]; exact hvo
  have exp2 : Explored g n m2.view ρ m2.m_queue v (w :: ws) := by
    rw [s12.view, s12.q]; exact exp
  have bud2 : Budget n m2.view ρ m2.m_queue K := by rw [s12.view, s12.q]; exact bud
  have hrwI : InR m2.m_tree.length (ρ w) := by
    rw [s12.sized.tree]; exact hb.rho_inR hwI
  have hwm : InR m2.m_matchedVertex.length w := by rw [s12.sized.mv]; exact hwI
  have unf : ∀ k, k1 ≤ k → k2 ≤ k → Matching.examineEdge k m root v w path = _ :=
    fun k h1 h2 => @examineEdge_unfold m k root v w path _ _ _ _ (find_mono e1 h1)
      (find_mono e2 h2)
  have tok2 : (lget m2.m_tree (⟨0, 0, 0, 0⟩ : Node) (ρ w)).m_clearToken = m.token (ρ w) :=
    s12.token (ρ w)
  have dep2 : (lget m2.m_tree (⟨0, 0, 0, 0⟩ : Node) (ρ w)).m_depth = m.depth (ρ w) :=
    congrFun (congrArg View.depth s12.view) (ρ w)
  have par2 : lget m2.m_matchedVertex (-1) w = m.partner w := by rw [s12.mv]; rfl
  by_cases hne : ρ v = ρ w
  · refine ⟨max k1 k2, (false, path, m2), ?_, ?_⟩
    · rw [unf _ (le_max_left _ _) (le_max_right _ _), if_neg (by simpa using hne)]; rfl
    · refine ⟨s12.mv, s12.c, s12.sized, inv2.tok_le, (fun h => absurd h (by simp)), fun _ => ⟨rfl, ρ, inv2,
        hvo2, exp2.drop ?_ (fun _ _ => hne), bud2⟩⟩
      have : m.view.InTree n (ρ w) := by rw [← hne]; exact hb.rho_in v hvo.1
      rw [s12.view]
      exact hb.inTree_of_rho this
  · by_cases htok : m.token (ρ w) = m.m_clearToken
    · have hwT : m.view.InTree n w := hb.inTree_of_rho ⟨hb.rho_inR hwI, htok⟩
      have hwT2 : m2.view.InTree n w := by rw [s12.view]; exact hwT
      by_cases hdep : m.depth (ρ w) % 2 = 0
      · have hwo2 : m2.view.Outer n ρ w := by rw [s12.view]; exact ⟨hwT, hdep⟩
        obtain ⟨k3, m3, z0, L, L', e3, pre, hs3, hv3, hmv3, hu3, hbr3, hq3⟩ :=
          shrinkBlossom_spec hv inv2 hvo2 hwo2 hadj hne
        refine ⟨max (max k1 k2) k3, (false, path, m3), ?_, ?_⟩
        · rw [unf _ (le_trans (le_max_left _ _) (le_max_left _ _))
            (le_trans (le_max_right _ _) (le_max_left _ _)), if_pos hne]
          simp only [bind_eq_ok]
          refine ⟨_, vget_of_inR (⟨0, 0, 0, 0⟩ : Node) hrwI, ?_⟩
          rw [tok2, s12.c, if_neg (not_not.mpr htok), dep2, if_pos hdep]
          simp only [bind_eq_ok]
          exact ⟨_, shrinkBlossom_mono e3 (le_max_right _ _), rfl⟩
        · have hc3 : m3.m_clearToken = m2.m_clearToken := congrArg View.c hv3
          refine ⟨hmv3.trans s12.mv, hc3.trans s12.c, hs3, token_le_of_view hv3 inv2.tok_le,
            (fun h => absurd h (by simp)), fun _ => ⟨rfl, _, ⟨hs3, hu3, ?_, token_le_of_view hv3 inv2.tok_le⟩,
            ?_, ?_, ?_⟩⟩
          · show Core g n root m3.view _ m3.bridge m3.m_queue
            rw [hv3, hbr3, hq3]; exact pre.shrink_core
          · show m3.view.Outer n _ v
            rw [hv3]; exact pre.coarse2.outer_old hvo2
          · show Explored g n m3.view _ m3.m_queue v ws
            rw [hv3, hq3]
            refine (pre.shrink_explored exp2).drop hwT2 (fun _ _ => ?_)
            rw [pre.rho2_v, pre.rho2_w]
          · show Budget n m3.view _ m3.m_queue K
            rw [hv3, hq3]; exact pre.shrink_budget bud2
      · refine ⟨max k1 k2, (false, path, m2), ?_, ?_⟩
        · rw [unf _ (le_max_left _ _) (le_max_right _ _), if_pos hne]
          simp only [bind_eq_ok]
          refine ⟨_, vget_of_inR (⟨0, 0, 0, 0⟩ : Node) hrwI, ?_⟩
          rw [tok2, s12.c, if_neg (not_not.mpr htok), dep2, if_neg hdep]
          rfl
        · refine ⟨s12.mv, s12.c, s12.sized, inv2.tok_le, (fun h => absurd h (by simp)), fun _ => ⟨rfl, ρ,
            inv2, hvo2, exp2.drop hwT2 (fun _ hw => ?_), bud2⟩⟩
          rw [s12.view] at hw
          exact absurd hw.2 hdep
    · have hwN : ¬ m.view.InTree n w := fun hT => htok (hb.rho_in w hT).2
      have hwN2 : ¬ m2.view.InTree n w := by rw [s12.view]; exact hwN
      by_cases hmw : m.partner w = -1
      · obtain ⟨p, hp, hg⟩ := inv2.core.path v root hvo2 (by
          rw [s12.view]; exact ht.anc_root hvo.1) hb.rho_root (by
          rw [s12.view, ht.root_depth]; rfl)
        obtain ⟨k3, hk3⟩ := findPath_of_pathRel inv2.sized hp
        refine ⟨max (max k1 k2) k3, (true, path ++ [w] ++ p, m2), ?_, ?_⟩
        · rw [unf _ (le_trans (le_max_left _ _) (le_max_left _ _))
            (le_trans (le_max_right _ _) (le_max_left _ _)), if_pos hne]
          simp only [bind_eq_ok]
          refine ⟨_, vget_of_inR (⟨0, 0, 0, 0⟩ : Node) hrwI, ?_⟩
          rw [tok2, s12.c, if_pos htok]
          simp only [bind_eq_ok]
          refine ⟨_, vget_of_inR (-1) hwm, ?_⟩
          rw [par2, if_pos hmw]
          simp only [bind_eq_ok]
          exact ⟨_, findPath_mono (hk3 _) (le_max_right _ _), rfl⟩
        · refine ⟨s12.mv, s12.c, s12.sized, inv2.tok_le, fun _ => ⟨p, by simp, ?_⟩,
            (fun h => absurd h (by simp))⟩
          rw [s12.view] at hg
          exact ⟨hwI, hmw, hwN, hadj, ⟨ρ, hg⟩, hp.head, hp.getLast⟩
      · have pre : ExtPre g n root m2.view ρ m2.bridge m2.m_queue v w :=
          ⟨hv, inv2.core, hvo2, hadj, hwI, hwN2, by
            show m2.partner w ≠ -1
            rw [s12.partner]; exact hmw⟩
        have huN := pre.u_new
        obtain ⟨m3, e3, hs3, hv3, hbr3, hq3, hmv3, hu3⟩ :=
          extendTree_spec (v := v) inv2.sized u2 hvo.1.1 hwI pre.u_in
            (fun e => hwN2 ⟨hwI, e⟩) (fun e => huN ⟨pre.u_in, e⟩) pre.u_ne_w
        refine ⟨max k1 k2, (false, path, m3), ?_, ?_⟩
        · rw [unf _ (le_max_left _ _) (le_max_right _ _), if_pos hne]
          simp only [bind_eq_ok]
          refine ⟨_, vget_of_inR (⟨0, 0, 0, 0⟩ : Node) hrwI, ?_⟩
          rw [tok2, s12.c, if_pos htok]
          simp only [bind_eq_ok]
          refine ⟨_, vget_of_inR (-1) hwm, ?_⟩
          rw [par2, if_neg hmw]
          simp only [bind_eq_ok]
          exact ⟨_, e3, rfl⟩
        · have hc3 : m3.m_clearToken = m2.m_clearToken := congrArg View.c hv3
          have htl : ∀ x, m3.token x ≤ m3.m_clearToken := by
            intro x
            have e : m3.token x = (m2.view.extend v w).token x :=
              congrFun (congrArg View.token hv3) x
            rw [e, hc3]
            show (if x = m2.view.partner w then m2.view.c else
              if x = w then m2.view.c else m2.view.token x) ≤ _
            split
            · exact le_refl _
            · split
              · exact le_refl _
              · exact inv2.tok_le x
          refine ⟨hmv3.trans s12.mv, hc3.trans s12.c, hs3, htl,
            (fun h => absurd h (by simp)), fun _ => ⟨rfl, ρ, ⟨hs3, hu3, ?_, htl⟩, ?_, ?_, ?_⟩⟩
          · show Core g n root m3.view ρ m3.bridge m3.m_queue
            rw [hv3, hbr3, hq3]; exact pre.ext_core
          · show m3.view.Outer n ρ v
            rw [hv3]; exact (pre.outer_iff v).mpr (Or.inl hvo2)
          · show Explored g n m3.view ρ m3.m_queue v ws
            rw [hv3, hq3]
            refine (pre.ext_explored exp2).drop ((pre.inTree_iff w).mpr (Or.inr (Or.inr rfl)))
              (fun _ hw => ?_)
            rcases (pre.outer_iff w).mp hw with h1 | h1
            · exact absurd h1.1 hwN2
            · exact absurd h1.symm pre.u_ne_w
          · show Budget n m3.view ρ m3.m_queue K
            rw [hv3, hq3]; exact pre.ext_budget bud2

end

end Blossom

namespace Blossom

section
variable {g : Graph} {n : Nat} {root : Int}

theorem AltChain.imp {R S R' S' : Int → Int → Prop} :
    ∀ (p : List Int), (∀ a ∈ p, ∀ b ∈ p, R a b → R' a b) → (∀ a ∈ p, ∀ b ∈ p, S a b → S' a b) →
      AltChain R S p → AltChain R' S' p
  | [], _, _, _ => altChain_nil
  | [_], _, _, _ => altChain_singleton _
  | a :: b :: l, hR, hS, h => by
    have h1 := altChain_cons_cons.mp h
    refine altChain_cons_cons.mpr ⟨hR a (by simp) b (by simp) h1.1, ?_⟩
    exact AltChain.imp (b :: l) (fun x hx y hy => hS x (by simp [hx]) y (by simp [hy]))
      (fun x hx y hy => hR x (by simp [hx]) y (by simp [hy])) h1.2

/-- What `examineEdge` has found is an augmenting path of the current matching that ends
    in the root. -/
theorem AugFound.isAugPath {V : View} {v w : Int} {p : List Int} (hv : g.Valid)
    (ht : TreeInv g n root V) (h : AugFound g n root V v w p) :
    IsAugPath g n V.partner (w :: p) ∧ (w :: p).getLast? = some root ∧ w ≠ root := by
  obtain ⟨ρ, hg⟩ := h.good
  obtain ⟨p', rfl⟩ : ∃ p', p = v :: p' := by
    cases p with
    | nil => have := h.head; simp at this
    | cons a p' =>
      have := h.head
      simp only [List.head?_cons, Option.some.injEq] at this
      exact ⟨p', by rw [this]⟩
  have hin : ∀ x ∈ v :: p', V.InTree n x := fun x hx => (hg.region x hx).1
  have hlast : (w :: v :: p').getLast? = some root := by
    rw [List.getLast?_cons_cons]; exact h.last
  have hwr : w ≠ root := fun e => h.w_new (e ▸ ht.root_in)
  refine ⟨⟨?_, ?_, ?_, ?_, ?_, ?_⟩, hlast, hwr⟩
  · simp
  · exact List.nodup_cons.mpr ⟨fun hm => h.w_new (hin w hm), hg.nodup⟩
  · intro x hx
    rcases List.mem_cons.mp hx with rfl | hx
    · exact h.w_in
    · exact (hin x hx).1
  · intro x hx
    simp only [List.head?_cons, Option.some.injEq] at hx
    rw [← hx]; exact h.w_exposed
  · intro x hx
    rw [hlast] at hx
    simp only [Option.some.injEq] at hx
    rw [← hx]; exact ht.root_exposed
  · refine altChain_cons_cons.mpr ⟨⟨hv.symm _ _ h.adj, ?_⟩, ?_⟩
    · rw [h.w_exposed]
      intro e
      have := (hin v (by simp)).1.1
      rw [← e] at this
      exact absurd this (by decide)
    · refine AltChain.imp _ ?_ ?_ hg.alt
      · intro a ha b hb hab
        have hab' : V.partner a = b := hab
        have hne : V.partner a ≠ -1 := by
          rw [hab']; have := (hin b hb).1.1; omega
        have := ht.pm.adj a (hin a ha).1 hne
        rw [hab'] at this
        exact ⟨this, hab'⟩
      · intro a _ b _ hab
        exact hab

end

end Blossom

namespace Blossom

section
variable {g : Graph} {n : Nat} {root : Int}

theorem drainQueue_eq (q : List Vertex) : drainQueue q = [] := by
  induction q with
  | nil => rfl
  | cons _ _ ih => simpa [drainQueue] using ih

theorem partner_of_mv {m m' : Matching} (h : m'.m_matchedVertex = m.m_matchedVertex) :
    m'.partner = m.partner := by
  funext x; unfold Matching.partner; rw [h]

/-- The loop over the neighbours of the vertex `v` taken from the queue. -/
theorem examineEdges_spec (hv : g.Valid) (hn : g.m_adjacencyList.length = n) {v : Int}
    {K : Nat} :
    ∀ (ws : List Int) (m : Matching) (ρ : Int → Int) (path : Path), SInv g n root m ρ →
      m.view.Outer n ρ v → (∀ w ∈ ws, g.Adj v w) → Explored g n m.view ρ m.m_queue v ws →
      Budget n m.view ρ m.m_queue K →
      ∃ k r, Matching.examineEdges k root v ws m path = .ok r ∧
        EdgesOut g n root m v K path r := by
  intro ws
  induction ws with
  | nil =>
    intro m ρ path inv _ _ exp bud
    refine ⟨0, (false, path, m), rfl, ⟨rfl, rfl, inv.sized, inv.tok_le,
      (fun h => absurd h (by simp)), fun _ => ⟨rfl, ρ, inv, exp, bud⟩⟩⟩
  | cons w ws ih =>
    intro m ρ path inv hvo hadj exp bud
    obtain ⟨k1, r1, e1, out⟩ := examineEdge_spec hv hn inv hvo (hadj w (by simp)) exp bud path
    obtain ⟨found, path1, m1⟩ := r1
    cases found with
    | true =>
      obtain ⟨p, hp, ha⟩ := out.found rfl
      have aug := ha.isAugPath hv inv.core.tree
      refine ⟨k1, (true, path1, { m1 with m_queue := drainQueue m1.m_queue }), ?_, ?_⟩
      · simp only [Matching.examineEdges, bind_eq_ok]
        exact ⟨_, e1, rfl⟩
      · refine ⟨out.mv, out.c, ⟨out.sized.mv, out.sized.tree, out.sized.br⟩, out.tok_le,
          fun _ => ⟨drainQueue_eq _, w, p, hp, aug⟩, (fun h => absurd h (by simp))⟩
    | false =>
      obtain ⟨hp, ρ', inv', hvo', exp', bud'⟩ := out.cont rfl
      have hp' : path1 = path := hp
      subst hp'
      obtain ⟨k2, r2, e2, out2⟩ := ih m1 ρ' path1 inv' hvo'
        (fun x hx => hadj x (by simp [hx])) exp' bud'
      refine ⟨max k1 k2, r2, ?_, ?_⟩
      · simp only [Matching.examineEdges, bind_eq_ok]
        refine ⟨_, examineEdge_mono e1 (le_max_left _ _), ?_⟩
        exact examineEdges_mono e2 (le_max_right _ _)
      · have hpart : m1.partner = m.partner := partner_of_mv out.mv
        refine ⟨out2.mv.trans out.mv, out2.c.trans out.c, out2.sized, out2.tok_le, ?_, out2.cont⟩
        intro h
        have := out2.found h
        rw [hpart] at this
        exact this

end

end Blossom

namespace Blossom

section
variable {g : Graph} {n : Nat} {root : Int}

theorem Explored.cur_irrel {V : View} {ρ : Int → Int} {q : List Int} {c c' : Int}
    (h : Explored g n V ρ q c []) : Explored g n V ρ q c' [] := by
  constructor
  · intro x y hx hxy
    rcases h.e_in x y hx hxy with h1 | h1 | ⟨_, h2⟩
    · exact Or.inl h1
    · exact Or.inr (Or.inl h1)
    · simp at h2
  · intro x y hx hy hxy
    rcases h.e_out x y hx hy hxy with h1 | h1 | h1 | ⟨_, h2⟩ | ⟨_, h2⟩
    · exact Or.inl h1
    · exact Or.inr (Or.inl h1)
    · exact Or.inr (Or.inr (Or.inl h1))
    · simp at h2
    · simp at h2

theorem Explored.explored_pop {V : View} {ρ : Int → Int} {q : List Int} {v c : Int} {adj : List Int}
    (hv : g.Valid) (h : Explored g n V ρ (v :: q) c []) (hadj : ∀ y, g.Adj v y → y ∈ adj) :
    Explored g n V ρ q v adj := by
  constructor
  · intro x y hx hxy
    rcases h.e_in x y hx hxy with h1 | h1 | ⟨_, h2⟩
    · exact Or.inl h1
    · rcases List.mem_cons.mp h1 with rfl | h3
      · exact Or.inr (Or.inr ⟨rfl, hadj y hxy⟩)
      · exact Or.inr (Or.inl h3)
    · simp at h2
  · intro x y hx hy hxy
    rcases h.e_out x y hx hy hxy with h1 | h1 | h1 | ⟨_, h2⟩ | ⟨_, h2⟩
    · exact Or.inl h1
    · rcases List.mem_cons.mp h1 with rfl | h3
      · exact Or.inr (Or.inr (Or.inr (Or.inl ⟨rfl, hadj y hxy⟩)))
      · exact Or.inr (Or.inl h3)
    · rcases List.mem_cons.mp h1 with rfl | h3
      · exact Or.inr (Or.inr (Or.inr (Or.inr ⟨rfl, hadj x (hv.symm _ _ hxy)⟩)))
      · exact Or.inr (Or.inr (Or.inl h3))
    · simp at h2
    · simp at h2

theorem Budget.budget_pop {V : View} {ρ : Int → Int} {q : List Int} {v : Int} {K : Nat}
    (h : Budget n V ρ (v :: q) K) : 1 ≤ K ∧ Budget n V ρ q (K - 1) := by
  obtain ⟨S, h1, h2⟩ := h
  simp only [List.length_cons] at h2
  exact ⟨by omega, S, h1, by omega⟩

theorem SInv.sinv_pop {m : Matching} {ρ : Int → Int} {v : Int} {q : List Int}
    (inv : SInv g n root m ρ) (hq : m.m_queue = v :: q) :
    SInv g n root { m with m_queue := q } ρ ∧ m.view.Outer n ρ v := by
  have hc := inv.core
  rw [hq] at hc
  refine ⟨⟨⟨inv.sized.mv, inv.sized.tree, inv.sized.br⟩, UF.uf_of_tree_eq (m := m) rfl rfl inv.uf,
    ⟨hc.tree, hc.blossom, ⟨fun x hx => hc.queue.outer x (by simp [hx]),
      (List.nodup_cons.mp hc.queue.nodup).2⟩, hc.path⟩, inv.tok_le⟩, ?_⟩
  exact hc.queue.outer v (by simp)

/-- The loop `while (!m_queue.empty())` of `findAugmentingPath` terminates, with an
    augmenting path or with every edge at an outer vertex examined. -/
theorem searchLoop_spec (hv : g.Valid) (hn : g.m_adjacencyList.length = n) :
    ∀ (K : Nat) (m : Matching) (ρ : Int → Int) (path : Path), SInv g n root m ρ →
      Explored g n m.view ρ m.m_queue root [] → Budget n m.view ρ m.m_queue K →
      ∃ k r, Matching.searchLoop g root k m path = .ok r ∧ SearchOut g n root m path r := by
  have empty : ∀ (m : Matching) (ρ : Int → Int) (path : Path), SInv g n root m ρ →
      Explored g n m.view ρ m.m_queue root [] → m.m_queue = [] →
      ∃ k r, Matching.searchLoop g root k m path = .ok r ∧ SearchOut g n root m path r := by
    intro m ρ path inv exp hq
    refine ⟨1, (false, path, m), ?_, ⟨rfl, rfl, inv.sized, inv.tok_le, hq,
      (fun h => absurd h (by simp)), fun _ => ⟨rfl, ρ, inv, ?_⟩⟩⟩
    · simp only [Matching.searchLoop, hq]
    · rw [hq] at exp; exact exp
  intro K
  induction K with
  | zero =>
    intro m ρ path inv exp bud
    obtain ⟨S, _, h2⟩ := bud
    exact empty m ρ path inv exp (List.length_eq_zero.mp (by omega))
  | succ K ih =>
    intro m ρ path inv exp bud
    cases hq : m.m_queue with
    | nil => exact empty m ρ path inv exp hq
    | cons v q =>
      obtain ⟨inv1, hvo⟩ := inv.sinv_pop hq
      rw [hq] at exp bud
      have hvI : InR g.m_adjacencyList.length v := by rw [hn]; exact hvo.1.1
      have hadj : ∀ y, g.Adj v y ↔ y ∈ lget g.m_adjacencyList [] v := by
        intro y
        unfold Graph.Adj lget
        rw [if_pos hvI.1]
        exact ⟨fun h => h.2, fun h => ⟨hvI.1, h⟩⟩
      have exp1 := exp.explored_pop hv (fun y hy => (hadj y).mp hy)
      have bud1 := bud.budget_pop.2
      simp only [Nat.add_sub_cancel] at bud1
      obtain ⟨k1, r1, e1, out⟩ := @examineEdges_spec g n root hv hn _ _
        (lget g.m_adjacencyList [] v) { m with m_queue := q } ρ path inv1 hvo
        (fun w hw => (hadj w).mpr hw) exp1 bud1
      obtain ⟨found, path1, m2⟩ := r1
      cases found with
      | true =>
        refine ⟨k1 + 1, (true, path1, m2), ?_, ?_⟩
        · simp only [Matching.searchLoop, hq, bind_eq_ok]
          exact ⟨_, vget_of_inR [] hvI, _, examineEdges_mono e1 (Nat.le_succ _), rfl⟩
        · have := out.found rfl
          exact ⟨out.mv, out.c, out.sized, out.tok_le, this.1, fun _ => this.2,
            (fun h => absurd h (by simp))⟩
      | false =>
        obtain ⟨hp, ρ', inv', exp', bud'⟩ := out.cont rfl
        have hp' : path1 = path := hp
        subst hp'
        obtain ⟨k2, r2, e2, out2⟩ := ih m2 ρ' path1 inv' exp'.cur_irrel bud'
        refine ⟨max k1 k2 + 1, r2, ?_, ?_⟩
        · simp only [Matching.searchLoop, hq, bind_eq_ok]
          refine ⟨_, vget_of_inR [] hvI, _,
            examineEdges_mono e1 (le_trans (le_max_left _ _) (Nat.le_succ _)), ?_⟩
          exact searchLoop_mono e2 (le_max_right _ _)
        · have hpart : m2.partner = m.partner := partner_of_mv out.mv
          refine ⟨out2.mv.trans out.mv, out2.c.trans out.c, out2.sized, out2.tok_le, out2.q, ?_,
            out2.fail⟩
          intro h
          have := out2.found h
          rw [hpart] at this
          exact this

end

end Blossom

namespace Blossom

section
variable {g : Graph} {n : Nat} {root : Int} {m : Matching}

theorem startSearch_node (hs : m.Sized n) (hr : InR n root) (x : Int) :
    (m.startSearch root).nodeAt x =
      if x = root then ⟨0, -1, root, m.m_clearToken + 1⟩ else m.nodeAt x := by
  show lget (lset m.m_tree root _) _ x = _
  rw [lget_lset _ _ (by rw [hs.tree]; exact hr)]
  rfl

theorem startSearch_sinv (inv : MInv g n m) (hr : InR n root) (hexp : m.partner root = -1) :
    SInv g n root (m.startSearch root) id ∧
      Explored g n (m.startSearch root).view id (m.startSearch root).m_queue root [] ∧
      Budget n (m.startSearch root).view id (m.startSearch root).m_queue (n + 1) := by
  have hnode := startSearch_node inv.sized hr
  have hc : (m.startSearch root).m_clearToken = m.m_clearToken + 1 := rfl
  have htok : ∀ x, (m.startSearch root).token x =
      if x = root then m.m_clearToken + 1 else m.token x := by
    intro x; unfold Matching.token; rw [hnode]; split <;> rfl
  have hdep : (m.startSearch root).depth root = 0 := by
    unfold Matching.depth; rw [hnode, if_pos rfl]
  have hbl : (m.startSearch root).blossom root = root := by
    unfold Matching.blossom; rw [hnode, if_pos rfl]
  have hq : (m.startSearch root).m_queue = [root] := by
    show m.m_queue ++ [root] = [root]
    rw [inv.q]; rfl
  have hT : ∀ x, (m.startSearch root).view.InTree n x ↔ x = root := by
    intro x
    constructor
    · rintro ⟨_, h2⟩
      by_contra hne
      have h3 : (m.startSearch root).token x = m.m_clearToken + 1 := h2
      rw [htok, if_neg hne] at h3
      have := inv.tok_le x
      omega
    · intro e
      rw [e]
      exact ⟨hr, by show (m.startSearch root).token root = _; rw [htok, if_pos rfl]; rfl⟩
  have hTr := (hT root).mpr rfl
  have hout : ∀ x, (m.startSearch root).view.Outer n id x ↔ x = root := by
    intro x
    constructor
    · intro h; exact (hT x).mp h.1
    · intro e
      rw [e]
      exact ⟨hTr, by show (m.startSearch root).depth (id root) % 2 = 0; rw [id, hdep]; rfl⟩
  have hodd : ∀ x, (m.startSearch root).view.InTree n x →
      ¬ (m.startSearch root).view.depth x % 2 = 1 := by
    intro x hx hd
    have e := (hT x).mp hx
    rw [e] at hd
    have : (m.startSearch root).depth root % 2 = 1 := hd
    rw [hdep] at this
    omega
  have tree : TreeInv g n root (m.startSearch root).view := by
    refine ⟨inv.pm, hTr, hexp, hdep, ?_, ?_, ?_, ?_, ?_⟩
    · intro x hx
      rw [(hT x).mp hx]
      show 0 ≤ (m.startSearch root).depth root
      rw [hdep]
    · intro x hx hne; exact absurd ((hT x).mp hx) hne
    · intro x hx hne; exact absurd ((hT x).mp hx) hne
    · intro x hx hd; exact absurd hd (hodd x hx)
    · intro x hx hd; exact absurd hd (hodd x hx)
  have blossom : BlossomInv n root (m.startSearch root).view id := by
    refine ⟨rfl, fun _ _ => rfl, fun _ hx => hx, fun _ => rfl, fun _ _ h => absurd rfl h,
      fun _ _ h => h, fun _ _ h => absurd rfl h, fun _ _ h => absurd rfl h, ?_⟩
    intro x hx hd; exact absurd hd (hodd x hx)
  refine ⟨⟨⟨inv.sized.mv, ?_, inv.sized.br⟩, ?_, ⟨tree, blossom, ?_, ?_⟩, ?_⟩, ?_, ?_⟩
  · show (lset _ _ _).length = n
    rw [length_lset]; exact inv.sized.tree
  · intro x hx
    by_cases hxr : x = root
    · subst hxr
      exact Rep.root hx (by rw [htok, if_pos rfl, hc]) hbl
    · refine Rep.stale hx ?_
      rw [htok, if_neg hxr, hc]
      have := inv.tok_le x
      omega
  · rw [hq]
    exact ⟨fun x hx => (hout x).mpr (by simpa using hx), List.nodup_singleton _⟩
  · intro x t hx hxt _ _
    have e1 := (hout x).mp hx
    rw [e1] at hxt ⊢
    have e2 := tree.anc_of_root hxt
    rw [e2]
    exact ⟨[root], PathRel.done, List.nodup_singleton _, fun z hz => by
      simp only [List.mem_singleton] at hz
      rw [hz]
      exact ⟨hTr, Anc.refl hTr, Anc.refl hTr⟩, altChain_singleton _, rfl⟩
  · intro x
    rw [htok, hc]
    split
    · exact le_refl _
    · have := inv.tok_le x; omega
  · rw [hq]
    constructor
    · intro x y hx _
      exact Or.inr (Or.inl (by simpa using (hout x).mp hx))
    · intro x y hx _ _
      exact Or.inr (Or.inl (by simpa using (hout x).mp hx))
  · rw [hq]
    refine ⟨(Finset.range n).image Int.ofNat, ?_, ?_⟩
    · intro x hx _
      refine Finset.mem_image.mpr ⟨x.toNat, Finset.mem_range.mpr (inR_toNat hx), ?_⟩
      exact Int.toNat_of_nonneg hx.1
    · have := Finset.card_image_le (s := Finset.range n) (f := Int.ofNat)
      rw [Finset.card_range] at this
      simp only [List.length_singleton]
      omega

/-- `findAugmentingPath(root, path)` terminates from every state between two searches, for
    every exposed `root`: it returns `true` with an augmenting path ending in `root` appended
    to `path`, or `false` with `path` unchanged.  The matching is unchanged, the token has
    advanced by one and the queue is empty. -/
theorem findAugmentingPath_spec (hv : g.Valid) (hn : g.m_adjacencyList.length = n)
    (inv : MInv g n m) (hr : InR n root) (hexp : m.partner root = -1) (path : Path) :
    ∃ k r, Matching.findAugmentingPath k g m root path = .ok r ∧
      SearchOut g n root (m.startSearch root) path r := by
  obtain ⟨sinv, exp, bud⟩ := startSearch_sinv inv hr hexp
  obtain ⟨k, r, e, out⟩ := searchLoop_spec hv hn (n + 1) (m.startSearch root) id path sinv exp bud
  refine ⟨k, r, ?_, out⟩
  have hr' : InR m.m_tree.length root := by rw [inv.sized.tree]; exact hr
  simp only [Matching.findAugmentingPath, bind_eq_ok]
  exact ⟨_, vget_of_inR (⟨0, 0, 0, 0⟩ : Node) hr', _, vset_of_inR _ hr', e⟩

end

end Blossom

namespace Blossom

/-! ## A search that fails leaves a tree that no matching covers -/

/-- A finite set that carries an involution without fixed points has an even number of
    elements. -/
theorem card_even_of_involution (s : Finset Int) (f : Int → Int) (h1 : ∀ x ∈ s, f x ∈ s)
    (h2 : ∀ x ∈ s, f x ≠ x) (h3 : ∀ x ∈ s, f (f x) = x) : s.card % 2 = 0 := by
  have h : ∑ x ∈ s, (1 : ZMod 2) = 0 :=
    Finset.sum_involution (fun a _ => f a) (fun _ _ => by decide) (fun a ha _ => h2 a ha)
      (fun a ha => h1 a ha) (fun a ha => h3 a ha)
  rw [Finset.sum_const, nsmul_eq_mul, mul_one] at h
  have := (ZMod.natCast_zmod_eq_zero_iff_dvd s.card 2).mp h
  omega

section
variable {g : Graph} {n : Nat} {root : Int} {V : View} {ρ : Int → Int}

/-- The vertices `[0, n)` as a finite set. -/
theorem mem_vertexSet {n : Nat} {x : Int} :
    x ∈ (Finset.range n).image Int.ofNat ↔ InR n x := by
  constructor
  · intro h
    obtain ⟨k, hk, rfl⟩ := Finset.mem_image.mp h
    have := Finset.mem_range.mp hk
    exact ⟨Int.ofNat_nonneg k, by simpa using this⟩
  · intro h
    refine Finset.mem_image.mpr ⟨x.toNat, Finset.mem_range.mpr ?_, Int.toNat_of_nonneg h.1⟩
    unfold InR at h; omega

/-- In a blossom, the partner of a vertex other than the base lies in the blossom and is not
    the base. -/
theorem BlossomInv.mate_in_class (ht : TreeInv g n root V) (hb : BlossomInv n root V ρ)
    {x : Int} (hx : V.InTree n x) (hne : ρ x ≠ x) :
    V.InTree n (V.partner x) ∧ ρ (V.partner x) = ρ x ∧ V.partner x ≠ ρ x ∧
      V.partner (V.partner x) = x := by
  have hxr : x ≠ root := fun e => hne (by rw [e]; exact hb.rho_root)
  have hm := ht.mate_in x hx hxr
  have hs := ht.pm.symm x hx.1 hm.1
  refine ⟨hm.2, hb.class_mate x hx hne, ?_, hs⟩
  intro e
  have hbin := hb.rho_in x hx
  have hbe := hb.base_even x hx hne
  rw [e] at hs
  by_cases hbr : ρ x = root
  · rw [hbr, ht.root_exposed] at hs
    have := hx.1.1
    rw [← hs] at this
    exact absurd this (by decide)
  · have := (hb.base_mate_inner ht hbin hbe (hb.rho_idem x) hbr).1
    rw [hs] at this
    exact hne this

/-- When the search from `root` has stopped with an empty queue, no matching of the graph
    covers every vertex of the tree. -/
theorem hungarian (hv : g.Valid) (ht : TreeInv g n root V)
    (hb : BlossomInv n root V ρ) (he : Explored g n V ρ [] root [])
    (N : Int → Int) (hN : IsPartnerMap g n N) : ¬ ∀ x, V.InTree n x → N x ≠ -1 := by
  classical
  intro hcov
  have hneg : ∀ {x : Int}, InR n x → x ≠ -1 := by
    intro x hx e
    have := hx.1
    rw [e] at this
    exact absurd this (by decide)
  let U : Finset Int := (Finset.range n).image Int.ofNat
  let T : Finset Int := U.filter (fun x => V.InTree n x)
  let B : Finset Int := T.filter (fun x => ρ x = x ∧ V.depth x % 2 = 0)
  let I : Finset Int := T.filter (fun x => V.depth (ρ x) % 2 = 1)
  have memT : ∀ x, x ∈ T ↔ V.InTree n x := by
    intro x
    simp only [T, U, Finset.mem_filter, mem_vertexSet]
    exact ⟨fun h => h.2, fun h => ⟨h.1, h⟩⟩
  have memB : ∀ x, x ∈ B ↔ V.InTree n x ∧ ρ x = x ∧ V.depth x % 2 = 0 := by
    intro x
    simp only [B, Finset.mem_filter, memT]
  have memI : ∀ x, x ∈ I ↔ V.InTree n x ∧ V.depth (ρ x) % 2 = 1 := by
    intro x
    simp only [I, Finset.mem_filter, memT]
  -- the inner vertices are matched to the bases other than the root
  have hrootB : root ∈ B := (memB root).mpr ⟨ht.root_in, hb.rho_root, by rw [ht.root_depth]; rfl⟩
  have h1 : I.card ≤ (B.erase root).card := by
    refine Finset.card_le_card_of_injOn V.partner ?_ ?_
    · intro x hx
      obtain ⟨hxT, hxd⟩ := (memI x).mp hx
      have hfix := hb.inner_fix hxT hxd
      rw [hfix] at hxd
      have hxr := ht.odd_ne_root hxd
      have hm := ht.mate_in x hxT hxr
      have hmb := hb.inner_mate_base ht hxT hxd hfix
      have hmd := (ht.odd_mate x hxT hxd).2
      refine Finset.mem_erase.mpr ⟨?_, (memB _).mpr ⟨hm.2, hmb, by omega⟩⟩
      intro e
      have hs := ht.pm.symm x hxT.1 hm.1
      rw [e, ht.root_exposed] at hs
      exact hneg hxT.1 hs.symm
    · intro x hx y hy hxy
      have hx' := (memI x).mp (Finset.mem_coe.mp hx)
      have hy' := (memI y).mp (Finset.mem_coe.mp hy)
      have fx := hb.inner_fix hx'.1 hx'.2
      have fy := hb.inner_fix hy'.1 hy'.2
      have dx := hx'.2; rw [fx] at dx
      have dy := hy'.2; rw [fy] at dy
      have sx := ht.pm.symm x hx'.1.1 (ht.mate_in x hx'.1 (ht.odd_ne_root dx)).1
      have sy := ht.pm.symm y hy'.1.1 (ht.mate_in y hy'.1 (ht.odd_ne_root dy)).1
      have hxy' : V.partner x = V.partner y := hxy
      rw [← sx, hxy', sy]
  have h2 : (B.erase root).card + 1 = B.card := Finset.card_erase_add_one hrootB
  -- every blossom has a vertex matched by `N` to an inner vertex
  have h3 : B.card ≤ I.card := by
    refine Finset.card_le_card_of_surjOn (fun y => ρ (N y)) ?_
    intro b hbB
    obtain ⟨hbT, hbfix, hbd⟩ := (memB b).mp (Finset.mem_coe.mp hbB)
    let C : Finset Int := T.filter (fun x => ρ x = b)
    have memC : ∀ x, x ∈ C ↔ V.InTree n x ∧ ρ x = b := by
      intro x
      simp only [C, Finset.mem_filter, memT]
    have hbC : b ∈ C := (memC b).mpr ⟨hbT, hbfix⟩
    -- the blossom has an odd number of vertices
    have hodd : (C.erase b).card % 2 = 0 := by
      refine card_even_of_involution _ V.partner ?_ ?_ ?_
      · intro x hx
        obtain ⟨hxb, hxC⟩ := Finset.mem_erase.mp hx
        obtain ⟨hxT, hxr⟩ := (memC x).mp hxC
        have hne : ρ x ≠ x := by rw [hxr]; exact fun e => hxb e.symm
        obtain ⟨m1, m2, m3, _⟩ := hb.mate_in_class ht hxT hne
        rw [hxr] at m2 m3
        exact Finset.mem_erase.mpr ⟨m3, (memC _).mpr ⟨m1, m2⟩⟩
      · intro x hx
        obtain ⟨hxb, hxC⟩ := Finset.mem_erase.mp hx
        obtain ⟨hxT, hxr⟩ := (memC x).mp hxC
        have hxroot : x ≠ root := by
          intro e
          rw [e, hb.rho_root] at hxr
          exact hxb (by rw [e, hxr])
        have hm := ht.mate_in x hxT hxroot
        intro e
        have := ht.pm.adj x hxT.1 hm.1
        rw [e] at this
        exact hv.noLoop x this
      · intro x hx
        obtain ⟨hxb, hxC⟩ := Finset.mem_erase.mp hx
        obtain ⟨hxT, hxr⟩ := (memC x).mp hxC
        have hne : ρ x ≠ x := by rw [hxr]; exact fun e => hxb e.symm
        exact (hb.mate_in_class ht hxT hne).2.2.2
    have hcard : (C.erase b).card + 1 = C.card := Finset.card_erase_add_one hbC
    by_contra hno
    have hall : ∀ x ∈ C, N x ∈ C ∧ N x ≠ x ∧ N (N x) = x := by
      intro x hxC
      obtain ⟨hxT, hxr⟩ := (memC x).mp hxC
      have hNx := hcov x hxT
      have hadj := hN.adj x hxT.1 hNx
      have hsym := hN.symm x hxT.1 hNx
      have hout : V.Outer n ρ x := ⟨hxT, by rw [hxr]; exact hbd⟩
      have hNT : V.InTree n (N x) := by
        rcases he.e_in x (N x) hout hadj with h | h | h
        · exact h
        · simp at h
        · simp at h
      have hNd : V.depth (ρ (N x)) % 2 = 0 := by
        rcases ht.parity (ρ (N x)) with h | h
        · exact h
        · exfalso
          apply hno
          refine ⟨N x, Finset.mem_coe.mpr ((memI _).mpr ⟨hNT, h⟩), ?_⟩
          show ρ (N (N x)) = b
          rw [hsym, hxr]
      have hNC : ρ (N x) = b := by
        rcases he.e_out x (N x) hout ⟨hNT, hNd⟩ hadj with h | h | h | h | h
        · rw [← h, hxr]
        · simp at h
        · simp at h
        · simp at h
        · simp at h
      refine ⟨(memC _).mpr ⟨hNT, hNC⟩, ?_, hsym⟩
      intro e
      rw [e] at hadj
      exact hv.noLoop x hadj
    have heven := card_even_of_involution C N (fun x hx => (hall x hx).1)
      (fun x hx => (hall x hx).2.1) (fun x hx => (hall x hx).2.2)
    omega
  omega

end

end Blossom

namespace Blossom

/-! ## Flipping the matching along an augmenting path -/

theorem pairedIn_cons_cons (a b : Vertex) (rest : Path) (x : Vertex) :
    pairedIn (a :: b :: rest) x =
      if x = b then some a else if x = a then some b else pairedIn rest x := rfl

theorem pairedIn_none : ∀ (p : Path) (x : Vertex), x ∉ p → pairedIn p x = none
  | [], _, _ => rfl
  | [_], _, _ => rfl
  | a :: b :: rest, x, h => by
    have h1 : x ≠ a := fun e => h (by simp [e])
    have h2 : x ≠ b := fun e => h (by simp [e])
    have h3 : x ∉ rest := fun e => h (by simp [e])
    rw [pairedIn_cons_cons, if_neg h2, if_neg h1]
    exact pairedIn_none rest x h3

theorem pairedIn_mem : ∀ (p : Path) (x y : Vertex), pairedIn p x = some y → x ∈ p ∧ y ∈ p
  | [], _, _, h => by cases h
  | [_], _, _, h => by cases h
  | a :: b :: rest, x, y, h => by
    rw [pairedIn_cons_cons] at h
    split at h
    · rename_i hb
      cases h
      exact ⟨by simp [hb], by simp⟩
    · split at h
      · rename_i ha
        cases h
        exact ⟨by simp [ha], by simp⟩
      · have := pairedIn_mem rest x y h
        exact ⟨by simp [this.1], by simp [this.2]⟩

theorem pairedIn_symm : ∀ (p : Path), p.Nodup → ∀ x y, pairedIn p x = some y →
    pairedIn p y = some x
  | [], _, _, _, h => by cases h
  | [_], _, _, _, h => by cases h
  | a :: b :: rest, hnd, x, y, h => by
    have hab : a ≠ b := by
      intro e
      rw [e] at hnd
      simp at hnd
    have ha : a ∉ rest := by
      intro e
      have := (List.nodup_cons.mp hnd).1
      exact this (by simp [e])
    have hb : b ∉ rest := by
      intro e
      have := (List.nodup_cons.mp (List.nodup_cons.mp hnd).2).1
      exact this e
    have hrest : rest.Nodup := (List.nodup_cons.mp (List.nodup_cons.mp hnd).2).2
    rw [pairedIn_cons_cons] at h ⊢
    split at h
    · rename_i hxb
      cases h
      rw [if_neg hab, if_pos rfl, hxb]
    · split at h
      · rename_i hxa
        cases h
        rw [if_pos rfl, hxa]
      · have hm := pairedIn_mem rest x y h
        have hyb : y ≠ b := fun e => hb (e ▸ hm.2)
        have hya : y ≠ a := fun e => ha (e ▸ hm.2)
        rw [if_neg hyb, if_neg hya]
        exact pairedIn_symm rest hrest x y h

theorem pairedIn_of_mem : ∀ (p : Path), p.length % 2 = 0 → ∀ x ∈ p, ∃ y, pairedIn p x = some y
  | [], _, _, h => by simp at h
  | [_], h, _, _ => by simp at h
  | a :: b :: rest, hlen, x, hx => by
    rw [pairedIn_cons_cons]
    by_cases hxb : x = b
    · exact ⟨a, by rw [if_pos hxb]⟩
    · by_cases hxa : x = a
      · exact ⟨b, by rw [if_neg hxb, if_pos hxa]⟩
      · rw [if_neg hxb, if_neg hxa]
        refine pairedIn_of_mem rest (by simp at hlen ⊢; omega) x ?_
        simpa [hxa, hxb] using hx

theorem altChain_tail2 {R S : Int → Int → Prop} {a b : Int} {rest : List Int}
    (h : AltChain R S (a :: b :: rest)) : AltChain R S rest := by
  cases rest with
  | nil => exact altChain_nil
  | cons c r => exact (altChain_cons_cons.mp (altChain_cons_cons.mp h).2).2

theorem pairedIn_rel {R S : Int → Int → Prop} : ∀ (p : Path), AltChain R S p →
    ∀ x y, pairedIn p x = some y → R x y ∨ R y x
  | [], _, _, _, h => by cases h
  | [_], _, _, _, h => by cases h
  | a :: b :: rest, hc, x, y, h => by
    have hab := (altChain_cons_cons.mp hc).1
    rw [pairedIn_cons_cons] at h
    split at h
    · rename_i hxb
      cases h
      rw [hxb]; exact Or.inr hab
    · split at h
      · rename_i hxa
        cases h
        rw [hxa]; exact Or.inl hab
      · exact pairedIn_rel rest (altChain_tail2 hc) x y h

/-- The effect of `augment(path)` on the state, for a path of distinct vertices of even
    length: the partner map is flipped along the path and nothing else changes. -/
theorem augment_spec {n : Nat} : ∀ (p : Path) (m : Matching), m.Sized n → p.Nodup →
    p.length % 2 = 0 → (∀ x ∈ p, InR n x) →
    ∃ m', Matching.augment p m = .ok m' ∧ m'.Sized n ∧
      m'.m_clearToken = m.m_clearToken ∧ m'.m_queue = m.m_queue ∧ m'.m_tree = m.m_tree ∧
      m'.m_bridges = m.m_bridges ∧ ∀ x, m'.partner x = flipPath m.partner p x
  | [], m, hs, _, _, _ => ⟨m, rfl, hs, rfl, rfl, rfl, rfl, fun _ => rfl⟩
  | [_], _, _, _, h, _ => by simp at h
  | a :: b :: rest, m, hs, hnd, hlen, hin => by
    have hab : a ≠ b := by
      intro e
      rw [e] at hnd
      simp at hnd
    have ha : a ∉ rest := by
      intro e
      have := (List.nodup_cons.mp hnd).1
      exact this (by simp [e])
    have hb : b ∉ rest := by
      intro e
      have := (List.nodup_cons.mp (List.nodup_cons.mp hnd).2).1
      exact this e
    have hrest : rest.Nodup := (List.nodup_cons.mp (List.nodup_cons.mp hnd).2).2
    obtain ⟨m1, e1, s1, c1, q1, t1, b1, p1⟩ :=
      match_spec hs (hin a (by simp)) (hin b (by simp))
    obtain ⟨m2, e2, s2, c2, q2, t2, b2, p2⟩ :=
      augment_spec rest m1 s1 hrest (by simp at hlen ⊢; omega)
        (fun x hx => hin x (by simp [hx]))
    refine ⟨m2, ?_, s2, c2.trans c1, q2.trans q1, t2.trans t1, b2.trans b1, ?_⟩
    · simp only [Matching.augment, bind_eq_ok]
      exact ⟨m1, e1, e2⟩
    · intro x
      rw [p2 x]
      unfold flipPath
      rw [pairedIn_cons_cons, p1 x]
      by_cases hxb : x = b
      · rw [if_pos hxb, if_pos hxb, hxb, pairedIn_none rest b hb]
        rfl
      · rw [if_neg hxb, if_neg hxb]
        by_cases hxa : x = a
        · rw [if_pos hxa, if_pos hxa, hxa, pairedIn_none rest a ha]
          rfl
        · rw [if_neg hxa, if_neg hxa]

section
variable {g : Graph} {n : Nat} {pt : Vertex → Vertex}

theorem inR_ne_neg {n : Nat} {x : Int} (h : InR n x) : x ≠ -1 := by
  intro e
  have := h.1
  rw [e] at this
  exact absurd this (by decide)

/-- In a chain that starts with a matched edge, every vertex has its partner in the chain,
    except the last one when the number of vertices is odd. -/
theorem altChain_mate_mem (hpm : IsPartnerMap g n pt) {R : Int → Int → Prop} :
    ∀ (l : List Int), (∀ x ∈ l, InR n x) → AltChain (fun a b => g.Adj a b ∧ pt a = b) R l →
      ∀ y ∈ l, pt y ∈ l ∨ (l.getLast? = some y ∧ l.length % 2 = 1)
  | [], _, _, _, h => by simp at h
  | [a], _, _, y, hy => by
    simp only [List.mem_singleton] at hy
    exact Or.inr ⟨by simp [hy], rfl⟩
  | a :: b :: rest, hin, hc, y, hy => by
    have hab := (altChain_cons_cons.mp hc).1
    have hpa : pt a = b := hab.2
    have hbin := hin b (by simp)
    have hpb : pt b = a := by
      have := hpm.symm a (hin a (by simp)) (by rw [hpa]; exact inR_ne_neg hbin)
      rw [hpa] at this
      exact this
    rcases List.mem_cons.mp hy with e | hy
    · exact Or.inl (by rw [e, hpa]; simp)
    · rcases List.mem_cons.mp hy with e | hy
      · exact Or.inl (by rw [e, hpb]; simp)
      · rcases altChain_mate_mem hpm rest (fun x hx => hin x (by simp [hx]))
          (altChain_tail2 hc) y hy with h | h
        · exact Or.inl (by simp [h])
        · refine Or.inr ⟨?_, by simp at h ⊢; omega⟩
          cases rest with
          | nil => simp at hy
          | cons c r =>
            rw [List.getLast?_cons_cons, List.getLast?_cons_cons]
            exact h.1

/-- The facts about an augmenting path that the flip uses: the number of vertices is even,
    the two ends are distinct, and every other vertex of the path is matched to a vertex of
    the path. -/
theorem IsAugPath.shape (hpm : IsPartnerMap g n pt) {p : Path} (hp : IsAugPath g n pt p) :
    p.length % 2 = 0 ∧ ∃ a b, p.head? = some a ∧ p.getLast? = some b ∧ a ≠ b ∧
      pt a = -1 ∧ pt b = -1 ∧ a ∈ p ∧ b ∈ p ∧
      ∀ y ∈ p, y ≠ a → y ≠ b → pt y ≠ -1 ∧ pt y ∈ p := by
  obtain ⟨a, l, rfl⟩ : ∃ a l, p = a :: l := by
    cases p with
    | nil => have := hp.length_pos; simp at this
    | cons a l => exact ⟨a, l, rfl⟩
  obtain ⟨c, l', rfl⟩ : ∃ c l', l = c :: l' := by
    cases l with
    | nil => have := hp.length_pos; simp at this
    | cons c l' => exact ⟨c, l', rfl⟩
  have hlast : (a :: c :: l').getLast? = some ((c :: l').getLast (by simp)) := by
    rw [List.getLast?_cons_cons, List.getLast?_eq_getLast]
  have hbmem : (c :: l').getLast (by simp) ∈ c :: l' := List.getLast_mem _
  have hchain := (altChain_cons_cons.mp hp.alt).2
  have hin : ∀ x ∈ c :: l', InR n x := fun x hx => hp.inRange x (by simp [hx])
  have hmate := altChain_mate_mem hpm (c :: l') hin hchain
  have hbexp := hp.last_exposed _ hlast
  have haexp := hp.head_exposed a rfl
  have hlen : (c :: l').length % 2 = 1 := by
    rcases hmate _ hbmem with h | h
    · exfalso
      have h1 := hin _ h
      rw [hbexp] at h1
      exact inR_ne_neg h1 rfl
    · exact h.2
  refine ⟨by simp at hlen ⊢; omega, a, _, rfl, hlast, ?_, haexp, hbexp, by simp,
    List.mem_cons_of_mem _ hbmem, ?_⟩
  · intro e
    have := (List.nodup_cons.mp hp.nodup).1
    rw [e] at this
    exact this hbmem
  · intro y hy hya hyb
    rcases List.mem_cons.mp hy with e | hy
    · exact absurd e hya
    · rcases hmate y hy with h | h
      · exact ⟨inR_ne_neg (hin _ h), List.mem_cons_of_mem _ h⟩
      · exfalso
        rw [List.getLast?_eq_getLast _ (by simp)] at h
        exact hyb (Option.some.inj h.1).symm

/-- Flipping a matching along an augmenting path gives a matching again. -/
theorem flipPath_partnerMap (hv : g.Valid) (hpm : IsPartnerMap g n pt) {p : Path}
    (hp : IsAugPath g n pt p) : IsPartnerMap g n (flipPath pt p) := by
  obtain ⟨hlen, a, b, ha, hb, hab, hae, hbe, ham, hbm, hint⟩ := hp.shape hpm
  have key : ∀ v, v ∈ p → ∃ y, pairedIn p v = some y ∧ y ∈ p ∧ pairedIn p y = some v ∧
      g.Adj v y := by
    intro v hvp
    obtain ⟨y, hy⟩ := pairedIn_of_mem p hlen v hvp
    refine ⟨y, hy, (pairedIn_mem p v y hy).2, pairedIn_symm p hp.nodup v y hy, ?_⟩
    rcases pairedIn_rel p hp.alt v y hy with h | h
    · exact h.1
    · exact hv.symm _ _ h.1
  have off : ∀ v, InR n v → v ∉ p → pt v ≠ -1 → pt v ∉ p := by
    intro v hvin hvp hne hmem
    have hs := hpm.symm v hvin hne
    by_cases h1 : pt v = a
    · rw [h1, hae] at hs
      exact inR_ne_neg hvin hs.symm
    · by_cases h2 : pt v = b
      · rw [h2, hbe] at hs
        exact inR_ne_neg hvin hs.symm
      · have := (hint (pt v) hmem h1 h2).2
        rw [hs] at this
        exact hvp this
  constructor
  · intro v hvin hne
    by_cases hvp : v ∈ p
    · obtain ⟨y, hy, hyp, _, _⟩ := key v hvp
      have : flipPath pt p v = y := by unfold flipPath; rw [hy]; rfl
      rw [this]
      exact hp.inRange y hyp
    · have : flipPath pt p v = pt v := by unfold flipPath; rw [pairedIn_none p v hvp]; rfl
      rw [this] at hne ⊢
      exact hpm.inR v hvin hne
  · intro v hvin hne
    by_cases hvp : v ∈ p
    · obtain ⟨y, hy, hyp, hyv, _⟩ := key v hvp
      have e1 : flipPath pt p v = y := by unfold flipPath; rw [hy]; rfl
      have e2 : flipPath pt p y = v := by unfold flipPath; rw [hyv]; rfl
      rw [e1, e2]
    · have e1 : flipPath pt p v = pt v := by unfold flipPath; rw [pairedIn_none p v hvp]; rfl
      rw [e1] at hne
      have hm := off v hvin hvp hne
      have e2 : flipPath pt p (pt v) = pt (pt v) := by
        unfold flipPath; rw [pairedIn_none p _ hm]; rfl
      rw [e1, e2]
      exact hpm.symm v hvin hne
  · intro v hvin hne
    by_cases hvp : v ∈ p
    · obtain ⟨y, hy, hyp, _, hadj⟩ := key v hvp
      have e1 : flipPath pt p v = y := by unfold flipPath; rw [hy]; rfl
      rw [e1]
      exact hadj
    · have e1 : flipPath pt p v = pt v := by unfold flipPath; rw [pairedIn_none p v hvp]; rfl
      rw [e1] at hne ⊢
      exact hpm.adj v hvin hne

/-- After the flip every vertex of the path is matched, and a vertex off the path keeps its
    partner. -/
theorem flipPath_on (hpm : IsPartnerMap g n pt) {p : Path} (hp : IsAugPath g n pt p)
    {v : Vertex} (hvp : v ∈ p) : flipPath pt p v ≠ -1 ∧ flipPath pt p v ∈ p := by
  obtain ⟨y, hy⟩ := pairedIn_of_mem p (hp.shape hpm).1 v hvp
  have hyp := (pairedIn_mem p v y hy).2
  have : flipPath pt p v = y := by unfold flipPath; rw [hy]; rfl
  rw [this]
  exact ⟨inR_ne_neg (hp.inRange y hyp), hyp⟩

theorem flipPath_off {p : Path} {v : Vertex} (hvp : v ∉ p) : flipPath pt p v = pt v := by
  unfold flipPath; rw [pairedIn_none p v hvp]; rfl

/-- The flip does not expose a vertex. -/
theorem flipPath_covered (hpm : IsPartnerMap g n pt) {p : Path} (hp : IsAugPath g n pt p)
    {v : Vertex} (h : pt v ≠ -1) : flipPath pt p v ≠ -1 := by
  by_cases hvp : v ∈ p
  · exact (flipPath_on hpm hp hvp).1
  · rw [flipPath_off hvp]; exact h

end

end Blossom

namespace Blossom

/-! ## Counting matched pairs and exposed vertices -/

theorem vertexList_nodup (n : Nat) : ((List.range n).map Int.ofNat).Nodup :=
  (List.nodup_range n).map Int.ofNat_injective

theorem vertexList_toFinset (n : Nat) :
    ((List.range n).map Int.ofNat).toFinset = (Finset.range n).image Int.ofNat := by
  ext x
  simp

theorem card_vertexSet (n : Nat) : ((Finset.range n).image Int.ofNat).card = n := by
  rw [Finset.card_image_of_injective _ Int.ofNat_injective, Finset.card_range]

theorem exposed_length {m : Matching} {n : Nat} (hs : m.m_matchedVertex.length = n) :
    m.exposed.length = (exposedSet n m.partner).card := by
  unfold Matching.exposed exposedSet
  rw [hs, ← vertexList_toFinset, ← List.toFinset_card_of_nodup ((vertexList_nodup n).filter _)]
  congr 1
  ext x
  simp

theorem numMatchedPairs_eq {m : Matching} {n : Nat} (hs : m.m_matchedVertex.length = n) :
    m.numMatchedPairs = (lowSet n m.partner).card := by
  unfold Matching.numMatchedPairs Matching.pairs lowSet
  rw [List.length_map, hs, ← vertexList_toFinset,
    ← List.toFinset_card_of_nodup ((vertexList_nodup n).filter _)]
  congr 1
  ext x
  simp

theorem mem_exposedSet {n : Nat} {pt : Vertex → Vertex} {x : Int} :
    x ∈ exposedSet n pt ↔ InR n x ∧ pt x = -1 := by
  unfold exposedSet
  rw [Finset.mem_filter, mem_vertexSet]

theorem mem_lowSet {n : Nat} {pt : Vertex → Vertex} {x : Int} :
    x ∈ lowSet n pt ↔ InR n x ∧ x < pt x := by
  unfold lowSet
  rw [Finset.mem_filter, mem_vertexSet]

section
variable {g : Graph} {n : Nat} {pt : Vertex → Vertex}

/-- Every vertex is exposed or belongs to exactly one matched pair. -/
theorem card_exposed_add_pairs (hv : g.Valid) (hpm : IsPartnerMap g n pt) :
    (exposedSet n pt).card + 2 * (lowSet n pt).card = n := by
  classical
  let U : Finset Int := (Finset.range n).image Int.ofNat
  let M : Finset Int := U.filter fun v => ¬ pt v = -1
  let H : Finset Int := M.filter fun v => ¬ v < pt v
  have hU : (exposedSet n pt).card + M.card = n := by
    have := Finset.filter_card_add_filter_neg_card_eq_card (s := U) (fun v => pt v = -1)
    rw [card_vertexSet] at this
    exact this
  have hM : (M.filter fun v => v < pt v).card + H.card = M.card :=
    Finset.filter_card_add_filter_neg_card_eq_card (s := M) (fun v => v < pt v)
  have memM : ∀ x, x ∈ M ↔ InR n x ∧ pt x ≠ -1 := by
    intro x
    simp only [M, U, Finset.mem_filter, mem_vertexSet]
  have hL : (M.filter fun v => v < pt v) = lowSet n pt := by
    ext x
    rw [Finset.mem_filter, memM, mem_lowSet]
    constructor
    · intro h; exact ⟨h.1.1, h.2⟩
    · intro h
      refine ⟨⟨h.1, ?_⟩, h.2⟩
      intro e
      have h1 := h.1.1
      have h2 := h.2
      rw [e] at h2
      omega
  have memH : ∀ x, x ∈ H ↔ InR n x ∧ pt x ≠ -1 ∧ ¬ x < pt x := by
    intro x
    simp only [H, Finset.mem_filter, memM, and_assoc]
  have hne : ∀ x, InR n x → pt x ≠ -1 → pt x ≠ x := by
    intro x hx h e
    have := hpm.adj x hx h
    rw [e] at this
    exact hv.noLoop x this
  have hLH : (lowSet n pt).card = H.card := by
    refine Finset.card_nbij' pt pt ?_ ?_ ?_ ?_
    · intro x hx
      obtain ⟨hx1, hx2⟩ := mem_lowSet.mp hx
      have hx3 : pt x ≠ -1 := by
        intro e
        have := hx1.1
        rw [e] at hx2
        omega
      have hs := hpm.symm x hx1 hx3
      refine (memH _).mpr ⟨hpm.inR x hx1 hx3, ?_, ?_⟩
      · rw [hs]; exact inR_ne_neg hx1
      · rw [hs]; omega
    · intro x hx
      obtain ⟨hx1, hx3, hx2⟩ := (memH x).mp hx
      have hs := hpm.symm x hx1 hx3
      refine mem_lowSet.mpr ⟨hpm.inR x hx1 hx3, ?_⟩
      rw [hs]
      exact lt_of_le_of_ne (not_lt.mp hx2) (hne x hx1 hx3)
    · intro x hx
      obtain ⟨hx1, hx2⟩ := mem_lowSet.mp hx
      refine hpm.symm x hx1 ?_
      intro e
      have := hx1.1
      rw [e] at hx2
      omega
    · intro x hx
      obtain ⟨hx1, hx3, _⟩ := (memH x).mp hx
      exact hpm.symm x hx1 hx3
  rw [hL] at hM
  omega

/-- The flip along an augmenting path takes the two ends of the path out of the set of
    exposed vertices and changes nothing else in it. -/
theorem exposedSet_flip (hpm : IsPartnerMap g n pt) {p : Path} (hp : IsAugPath g n pt p) :
    (exposedSet n (flipPath pt p)).card + 2 = (exposedSet n pt).card := by
  classical
  obtain ⟨_, a, b, _, _, hab, hae, hbe, ham, hbm, hint⟩ := hp.shape hpm
  have hset : exposedSet n (flipPath pt p) = ((exposedSet n pt).erase a).erase b := by
    ext x
    rw [Finset.mem_erase, Finset.mem_erase, mem_exposedSet, mem_exposedSet]
    constructor
    · rintro ⟨hx, hf⟩
      have hxp : x ∉ p := fun h => (flipPath_on hpm hp h).1 hf
      rw [flipPath_off hxp] at hf
      exact ⟨fun e => hxp (e ▸ hbm), fun e => hxp (e ▸ ham), hx, hf⟩
    · rintro ⟨hxb, hxa, hx, hf⟩
      refine ⟨hx, ?_⟩
      have hxp : x ∉ p := fun h => (hint x h hxa hxb).1 hf
      rw [flipPath_off hxp]
      exact hf
  have ha : a ∈ exposedSet n pt := mem_exposedSet.mpr ⟨hp.inRange a ham, hae⟩
  have hb : b ∈ (exposedSet n pt).erase a :=
    Finset.mem_erase.mpr ⟨fun e => hab e.symm, mem_exposedSet.mpr ⟨hp.inRange b hbm, hbe⟩⟩
  rw [hset]
  have h1 := Finset.card_erase_add_one hb
  have h2 := Finset.card_erase_add_one ha
  omega

end

end Blossom

namespace Blossom

/-! ## The greedy pass -/

section
variable {g : Graph} {n : Nat}

theorem token_eq_of_tree {m m' : Matching} (h : m'.m_tree = m.m_tree) (x : Int) :
    m'.token x = m.token x := by
  unfold Matching.token Matching.nodeAt; rw [h]

theorem lget_prop {α : Type} (P : α → Prop) (l : List α) (d : α) (hd : P d)
    (hl : ∀ a ∈ l, P a) (x : Int) : P (lget l d x) := by
  unfold lget
  split
  · rw [List.getD_eq_getElem?_getD]
    cases h : l[x.toNat]? with
    | none => exact hd
    | some a =>
      obtain ⟨hlt, e⟩ := List.getElem?_eq_some.mp h
      exact hl a (e ▸ List.getElem_mem hlt)
  · exact hd

/-- The state built by the member initialisers satisfies the invariant of the main loop,
    whatever the uninitialised fields hold. -/
theorem init_minv (g : Graph) (junk : Nat → Node) :
    MInv g g.m_adjacencyList.length (Matching.init g junk) := by
  have hp : ∀ x, (Matching.init g junk).partner x = -1 := by
    intro x
    rw [partner_eq_lget]
    exact lget_replicate _ _ _ rfl x
  refine ⟨⟨by simp [Matching.init], by simp [Matching.init], by simp [Matching.init]⟩,
    ⟨?_, ?_, ?_⟩, ?_, rfl⟩
  · intro v _ h; exact absurd (hp v) h
  · intro v _ h; exact absurd (hp v) h
  · intro v _ h; exact absurd (hp v) h
  · intro x
    show ((Matching.init g junk).nodeAt x).m_clearToken ≤ 0
    have : ((Matching.init g junk).nodeAt x).m_clearToken = 0 := by
      refine lget_prop (fun nd : Node => nd.m_clearToken = 0) _ _ rfl ?_ x
      intro a ha
      simp only [Matching.init, List.mem_map] at ha
      obtain ⟨i, _, rfl⟩ := ha
      rfl
    rw [this]

/-- Matching two exposed adjacent vertices keeps the partner map a matching. -/
theorem match_partnerMap (hv : g.Valid) {pt : Vertex → Vertex} (hpm : IsPartnerMap g n pt)
    {v w : Vertex} (hvin : InR n v) (hwin : InR n w) (hve : pt v = -1) (hwe : pt w = -1)
    (hadj : g.Adj v w) :
    IsPartnerMap g n (fun x => if x = w then v else if x = v then w else pt x) := by
  have hvw : v ≠ w := fun e => hv.noLoop v (by rw [← e] at hadj; exact hadj)
  have off : ∀ x, InR n x → pt x ≠ -1 → pt x ≠ w ∧ pt x ≠ v := by
    intro x hx hne
    have hs := hpm.symm x hx hne
    constructor
    · intro e
      rw [e, hwe] at hs
      exact inR_ne_neg hx hs.symm
    · intro e
      rw [e, hve] at hs
      exact inR_ne_neg hx hs.symm
  constructor
  · intro x hx hne
    show InR n (if x = w then v else if x = v then w else pt x)
    by_cases h1 : x = w
    · rw [if_pos h1]; exact hvin
    · by_cases h2 : x = v
      · rw [if_neg h1, if_pos h2]; exact hwin
      · simp only [if_neg h1, if_neg h2] at hne ⊢
        exact hpm.inR x hx hne
  · intro x hx hne
    by_cases h1 : x = w
    · simp only [if_pos h1, if_neg hvw, if_true]
      exact h1.symm
    · by_cases h2 : x = v
      · simp only [if_neg h1, if_pos h2, if_true]
        exact h2.symm
      · simp only [if_neg h1, if_neg h2] at hne ⊢
        have := off x hx hne
        rw [if_neg this.1, if_neg this.2]
        exact hpm.symm x hx hne
  · intro x hx hne
    show g.Adj x (if x = w then v else if x = v then w else pt x)
    by_cases h1 : x = w
    · rw [if_pos h1, h1]; exact hv.symm _ _ hadj
    · by_cases h2 : x = v
      · rw [if_neg h1, if_pos h2, h2]; exact hadj
      · simp only [if_neg h1, if_neg h2] at hne ⊢
        exact hpm.adj x hx hne

/-- The inner loop of the greedy pass, started at an exposed vertex `v` with a list of its
    neighbours. -/
theorem greedyScan_spec (hv : g.Valid) (hn : g.m_adjacencyList.length = n) {m : Matching}
    (inv : MInv g n m) {v : Vertex} (hvin : InR n v) (hexp : m.partner v = -1) :
    ∀ ws : List Vertex, (∀ w ∈ ws, g.Adj v w) →
      ∃ r, Matching.greedyScan v ws m = .ok r ∧ MInv g n r.2 ∧
        (∀ x, m.partner x ≠ -1 → r.2.partner x ≠ -1) ∧
        (r.1 = true → r.2.partner v ≠ -1) ∧ (r.1 = false → r.2 = m)
  | [], _ => ⟨(false, m), rfl, inv, fun _ h => h, (fun h => absurd h (by simp)), fun _ => rfl⟩
  | w :: ws, hws => by
    have hadj := hws w (by simp)
    have hwin : InR n w := by rw [← hn]; exact hv.inRange v w hadj
    have hget : vget m.m_matchedVertex w = .ok (m.partner w) :=
      vget_of_inR (-1) (by rw [inv.sized.mv]; exact hwin)
    by_cases hw : m.partner w = -1
    · obtain ⟨m1, e1, s1, c1, q1, t1, _, p1⟩ := match_spec inv.sized hvin hwin
      have hpm := match_partnerMap hv inv.pm hvin hwin hexp hw hadj
      have hfun : m1.partner = fun x => if x = w then v else if x = v then w else m.partner x :=
        funext p1
      refine ⟨(true, m1), ?_, ⟨s1, by rw [hfun]; exact hpm, ?_, by rw [q1]; exact inv.q⟩,
        ?_, ?_, (fun h => absurd h (by simp))⟩
      · simp only [Matching.greedyScan, bind_eq_ok]
        exact ⟨_, hget, by rw [if_pos hw]; simp only [bind_eq_ok]; exact ⟨m1, e1, rfl⟩⟩
      · intro x
        rw [token_eq_of_tree t1, c1]
        exact inv.tok_le x
      · intro x hx
        rw [p1 x]
        split
        · exact inR_ne_neg hvin
        · split
          · exact inR_ne_neg hwin
          · exact hx
      · intro _
        have hvw : v ≠ w := fun e => hv.noLoop v (by rw [← e] at hadj; exact hadj)
        show m1.partner v ≠ -1
        rw [p1 v, if_neg hvw, if_pos rfl]
        exact inR_ne_neg hwin
    · obtain ⟨r, e, h⟩ := greedyScan_spec hv hn inv hvin hexp ws
        (fun x hx => hws x (by simp [hx]))
      refine ⟨r, ?_, h⟩
      simp only [Matching.greedyScan, bind_eq_ok]
      exact ⟨_, hget, by rw [if_neg hw]; exact e⟩

theorem adj_of_mem_lget (g : Graph) {v w : Vertex} (hv : 0 ≤ v)
    (h : w ∈ lget g.m_adjacencyList [] v) : g.Adj v w := by
  unfold lget at h
  rw [if_pos hv] at h
  exact ⟨hv, h⟩

/-- The outer loop of the greedy pass: every vertex that is still exposed at the end has
    been put on the worklist. -/
theorem greedyLoop_spec (hv : g.Valid) (hn : g.m_adjacencyList.length = n) :
    ∀ (vs um : List Vertex) (m : Matching), MInv g n m → (∀ v ∈ vs, InR n v) →
      ∃ r, Matching.greedyLoop g vs um m = .ok r ∧ MInv g n r.2 ∧
        (∀ x, m.partner x ≠ -1 → r.2.partner x ≠ -1) ∧
        (∀ x ∈ um, x ∈ r.1) ∧ (∀ x ∈ vs, r.2.partner x = -1 → x ∈ r.1) ∧
        (∀ x ∈ r.1, x ∈ um ∨ x ∈ vs)
  | [], um, m, inv, _ =>
    ⟨(um, m), rfl, inv, fun _ h => h, fun _ h => h, fun _ h => by simp at h,
      fun _ h => Or.inl h⟩
  | v :: vs, um, m, inv, hin => by
    have hvin := hin v (by simp)
    have hvs : ∀ x ∈ vs, InR n x := fun x hx => hin x (by simp [hx])
    have hget : vget m.m_matchedVertex v = .ok (m.partner v) :=
      vget_of_inR (-1) (by rw [inv.sized.mv]; exact hvin)
    by_cases hexp : m.partner v = -1
    · have hadj : vget g.m_adjacencyList v = .ok (lget g.m_adjacencyList [] v) :=
        vget_of_inR [] (by rw [hn]; exact hvin)
      obtain ⟨r1, e1, inv1, cov1, ht, hf⟩ := greedyScan_spec hv hn inv hvin hexp
        (lget g.m_adjacencyList [] v) (fun w hw => adj_of_mem_lget g hvin.1 hw)
      by_cases hfound : r1.1 = true
      · obtain ⟨r, e, inv2, cov2, hum, hrest, hsub⟩ := greedyLoop_spec hv hn vs um r1.2 inv1 hvs
        refine ⟨r, ?_, inv2, fun x hx => cov2 x (cov1 x hx), hum, ?_, ?_⟩
        · simp only [Matching.greedyLoop, bind_eq_ok]
          refine ⟨_, hget, ?_⟩
          rw [if_pos hexp]
          simp only [bind_eq_ok]
          refine ⟨_, hadj, r1, e1, ?_⟩
          simp only [hfound, Bool.not_true, Bool.false_eq_true, if_false]
          exact e
        · intro x hx hxe
          rcases List.mem_cons.mp hx with e' | hx
          · exact absurd hxe (by rw [e']; exact cov2 v (ht hfound))
          · exact hrest x hx hxe
        · intro x hx
          rcases hsub x hx with h | h
          · exact Or.inl h
          · exact Or.inr (by simp [h])
      · have hfalse : r1.1 = false := by
          cases h : r1.1
          · rfl
          · exact absurd h hfound
        obtain ⟨r, e, inv2, cov2, hum, hrest, hsub⟩ :=
          greedyLoop_spec hv hn vs (um ++ [v]) r1.2 inv1 hvs
        refine ⟨r, ?_, inv2, fun x hx => cov2 x (cov1 x hx), ?_, ?_, ?_⟩
        · simp only [Matching.greedyLoop, bind_eq_ok]
          refine ⟨_, hget, ?_⟩
          rw [if_pos hexp]
          simp only [bind_eq_ok]
          refine ⟨_, hadj, r1, e1, ?_⟩
          simp only [hfalse, Bool.not_false, if_true]
          exact e
        · intro x hx
          exact hum x (by simp [hx])
        · intro x hx hxe
          rcases List.mem_cons.mp hx with e' | hx
          · rw [e']; exact hum v (by simp)
          · exact hrest x hx hxe
        · intro x hx
          rcases hsub x hx with h | h
          · rcases List.mem_append.mp h with h | h
            · exact Or.inl h
            · exact Or.inr (by simp at h; simp [h])
          · exact Or.inr (by simp [h])
    · obtain ⟨r, e, inv2, cov2, hum, hrest, hsub⟩ := greedyLoop_spec hv hn vs um m inv hvs
      refine ⟨r, ?_, inv2, cov2, hum, ?_, ?_⟩
      · simp only [Matching.greedyLoop, bind_eq_ok]
        refine ⟨_, hget, ?_⟩
        rw [if_neg hexp]
        exact e
      · intro x hx hxe
        rcases List.mem_cons.mp hx with e' | hx
        · exact absurd hxe (by rw [e']; exact cov2 v hexp)
        · exact hrest x hx hxe
      · intro x hx
        rcases hsub x hx with h | h
        · exact Or.inl h
        · exact Or.inr (by simp [h])

theorem mem_vertices {g : Graph} {x : Vertex} :
    x ∈ g.vertices ↔ InR g.m_adjacencyList.length x := by
  unfold Graph.vertices
  rw [← List.mem_toFinset, vertexList_toFinset, mem_vertexSet]

/-- The greedy pass succeeds; its state satisfies the invariant of the main loop, and the
    worklist holds vertex ids, among them every vertex the pass has left exposed. -/
theorem greedy_spec (hv : g.Valid) (hn : g.m_adjacencyList.length = n) (junk : Nat → Node) :
    ∃ wl m, Matching.greedy g junk = .ok (wl, m) ∧ MInv g n m ∧
      (∀ x, InR n x → m.partner x = -1 → x ∈ wl) ∧ (∀ x ∈ wl, InR n x) := by
  have hin : ∀ x ∈ g.vertices, InR n x := fun x hx => by rw [← hn]; exact mem_vertices.mp hx
  obtain ⟨r, e, inv, _, _, hrest, hsub⟩ :=
    greedyLoop_spec hv hn g.vertices [] (Matching.init g junk)
      (by rw [← hn]; exact init_minv g junk) hin
  refine ⟨r.1, r.2, e, inv, ?_, ?_⟩
  · intro x hx hxe
    exact hrest x (mem_vertices.mpr (by rw [hn]; exact hx)) hxe
  · intro x hx
    rcases hsub x hx with h | h
    · simp at h
    · exact hin x h

/-- The greedy pass does not look at the tree: with another tree it computes the same
    worklist and the same matching. -/
theorem greedyScan_tree (t : List Node) (v : Vertex) : ∀ (ws : List Vertex) (m : Matching)
    (r : Bool × Matching), Matching.greedyScan v ws m = .ok r →
      Matching.greedyScan v ws { m with m_tree := t } = .ok (r.1, { r.2 with m_tree := t })
  | [], m, r, h => by
    simp only [Matching.greedyScan] at h ⊢
    cases h
    rfl
  | w :: ws, m, r, h => by
    simp only [Matching.greedyScan, bind_eq_ok] at h ⊢
    obtain ⟨mw, h1, h2⟩ := h
    refine ⟨mw, h1, ?_⟩
    split at h2 <;> rename_i hc
    · rw [if_pos hc]
      simp only [bind_eq_ok, Matching.match_] at h2 ⊢
      obtain ⟨m1, ⟨mv1, e1, mv2, e2, e3⟩, e4⟩ := h2
      refine ⟨_, ⟨mv1, e1, mv2, e2, rfl⟩, ?_⟩
      cases e3
      cases e4
      rfl
    · rw [if_neg hc]
      exact greedyScan_tree t v ws m r h2

theorem greedyLoop_tree (t : List Node) : ∀ (vs um : List Vertex) (m : Matching)
    (r : List Vertex × Matching), Matching.greedyLoop g vs um m = .ok r →
      Matching.greedyLoop g vs um { m with m_tree := t } = .ok (r.1, { r.2 with m_tree := t })
  | [], um, m, r, h => by
    simp only [Matching.greedyLoop] at h ⊢
    cases h
    rfl
  | v :: vs, um, m, r, h => by
    simp only [Matching.greedyLoop, bind_eq_ok] at h ⊢
    obtain ⟨mv, h1, h2⟩ := h
    refine ⟨mv, h1, ?_⟩
    split at h2 <;> rename_i hc
    · rw [if_pos hc]
      simp only [bind_eq_ok] at h2 ⊢
      obtain ⟨adj, e1, r1, e2, e3⟩ := h2
      refine ⟨adj, e1, _, greedyScan_tree t v adj m r1 e2, ?_⟩
      split at e3 <;> rename_i hf
      · rw [if_pos hf]
        exact greedyLoop_tree t vs _ r1.2 r e3
      · rw [if_neg hf]
        exact greedyLoop_tree t vs _ r1.2 r e3
    · rw [if_neg hc]
      exact greedyLoop_tree t vs um m r h2

end

end Blossom

namespace Blossom

/-! ## The main loop of the constructor -/

section
variable {g : Graph} {n : Nat}

theorem startSearch_partner (m : Matching) (root : Int) :
    (m.startSearch root).partner = m.partner := rfl

/-- Every successful run of `findAugmentingPath` from a state between two searches has the
    outcome described by `SearchOut`, whatever the fuel. -/
theorem search_out (hv : g.Valid) (hn : g.m_adjacencyList.length = n) {m : Matching}
    (inv : MInv g n m) {root : Vertex} (hr : InR n root) (hexp : m.partner root = -1)
    {k : Nat} {path : Path} {r : Bool × Path × Matching}
    (h : Matching.findAugmentingPath k g m root path = .ok r) :
    SearchOut g n root (m.startSearch root) path r := by
  obtain ⟨k', r', e, out⟩ := findAugmentingPath_spec hv hn inv hr hexp path
  have e1 := findAugmentingPath_mono h (le_max_left k k')
  have e2 := findAugmentingPath_mono e (le_max_right k k')
  rw [e1] at e2
  cases e2
  exact out

/-- The coverage of a matching can only grow a stuck set. -/
theorem Stuck.mono {pt pt' : Vertex → Vertex} {r : Vertex} (h : Stuck g n pt r)
    (hc : ∀ x, pt x ≠ -1 → pt' x ≠ -1) : Stuck g n pt' r := by
  obtain ⟨T, h1, h2, h3⟩ := h
  exact ⟨T, h1, fun x hx hne => hc x (h2 x hx hne), h3⟩

/-- After a search that fails, the state satisfies the invariant of the main loop again, the
    matching is the same, and the root is stuck. -/
theorem search_fail (hv : g.Valid) {m : Matching} {root : Vertex} {path : Path}
    {r : Bool × Path × Matching} (out : SearchOut g n root (m.startSearch root) path r)
    (inv : MInv g n m) (hf : r.1 = false) :
    r.2.1 = path ∧ MInv g n r.2.2 ∧ r.2.2.partner = m.partner ∧ Stuck g n m.partner root := by
  obtain ⟨hpath, ρ, sinv, exp⟩ := out.fail hf
  have hp : r.2.2.partner = m.partner := partner_of_mv out.mv
  refine ⟨hpath, ⟨out.sized, by rw [hp]; exact inv.pm, out.tok_le, out.q⟩, hp, ?_⟩
  refine ⟨fun x => r.2.2.view.InTree n x, sinv.core.tree.root_in, ?_, ?_⟩
  · intro x hx hne
    have := (sinv.core.tree.mate_in x hx hne).1
    have e : r.2.2.view.partner x = m.partner x := congrFun hp x
    rw [e] at this
    exact this
  · intro N hN
    exact hungarian hv sinv.core.tree sinv.core.blossom exp N hN

/-- After a search that succeeds, `augment(path)` succeeds: the path found is an augmenting
    path of the matching that ends in the root, the new partner map is the old one flipped
    along the path, and the state satisfies the invariant of the main loop again. -/
theorem search_found (hv : g.Valid) {m : Matching} {root : Vertex}
    {r : Bool × Path × Matching} (out : SearchOut g n root (m.startSearch root) [] r)
    (inv : MInv g n m) (ht : r.1 = true) :
    IsAugPath g n m.partner r.2.1 ∧ r.2.1.getLast? = some root ∧
      (∃ w p, r.2.1 = w :: p ∧ w ≠ root) ∧
      ∃ m2, Matching.augment r.2.1 r.2.2 = .ok m2 ∧ MInv g n m2 ∧
        m2.partner = flipPath m.partner r.2.1 := by
  obtain ⟨w, p, hpath, haug, hlast, hw⟩ := out.found ht
  rw [List.nil_append] at hpath
  rw [startSearch_partner] at haug
  rw [hpath]
  have hp : r.2.2.partner = m.partner := partner_of_mv out.mv
  obtain ⟨m2, e2, s2, c2, q2, t2, _, p2⟩ :=
    augment_spec (w :: p) r.2.2 out.sized haug.nodup (haug.shape inv.pm).1 haug.inRange
  have hfun : m2.partner = flipPath m.partner (w :: p) := by
    funext x
    rw [p2 x, hp]
  refine ⟨haug, hlast, ⟨w, p, rfl, hw⟩, m2, e2, ⟨s2, ?_, ?_, by rw [q2]; exact out.q⟩, hfun⟩
  · rw [hfun]
    exact flipPath_partnerMap hv inv.pm haug
  · intro x
    rw [token_eq_of_tree t2, c2]
    exact out.tok_le x

/-- The main loop terminates from every state that satisfies its invariant.  It never
    exposes a matched vertex, and every vertex of the worklist that is exposed at the end is
    stuck. -/
theorem mainLoop_spec (hv : g.Valid) (hn : g.m_adjacencyList.length = n) :
    ∀ (wl : List Vertex) (m : Matching), MInv g n m → (∀ v ∈ wl, InR n v) →
      ∃ k r, Matching.mainLoop k g wl [] m = .ok r ∧ r.1 = [] ∧ MInv g n r.2 ∧
        (∀ x, m.partner x ≠ -1 → r.2.partner x ≠ -1) ∧
        (∀ v ∈ wl, r.2.partner v = -1 → Stuck g n r.2.partner v)
  | [], m, inv, _ => ⟨0, ([], m), rfl, rfl, inv, fun _ h => h, fun _ h => by simp at h⟩
  | v :: vs, m, inv, hin => by
    have hvin := hin v (by simp)
    have hvs : ∀ x ∈ vs, InR n x := fun x hx => hin x (by simp [hx])
    have hget : vget m.m_matchedVertex v = .ok (m.partner v) :=
      vget_of_inR (-1) (by rw [inv.sized.mv]; exact hvin)
    by_cases hexp : m.partner v = -1
    · obtain ⟨k1, r1, e1, out⟩ := findAugmentingPath_spec hv hn inv hvin hexp []
      by_cases hfound : r1.1 = true
      · obtain ⟨haug, hlast, _, m2, ea, inv2, hp2⟩ := search_found hv out inv hfound
        obtain ⟨k2, r, e2, hnil, inv3, cov, hst⟩ := mainLoop_spec hv hn vs m2 inv2 hvs
        have hvcov : m2.partner v ≠ -1 := by
          rw [hp2]
          exact (flipPath_on inv.pm haug (List.mem_of_mem_getLast? hlast)).1
        refine ⟨max k1 k2, r, ?_, hnil, inv3, ?_, ?_⟩
        · simp only [Matching.mainLoop, bind_eq_ok]
          refine ⟨_, hget, ?_⟩
          rw [if_pos hexp]
          simp only [bind_eq_ok]
          refine ⟨r1, findAugmentingPath_mono e1 (le_max_left _ _), ?_⟩
          simp only [hfound, if_true, bind_eq_ok]
          exact ⟨m2, ea, mainLoop_mono e2 (le_max_right _ _)⟩
        · intro x hx
          refine cov x ?_
          rw [hp2]
          exact flipPath_covered inv.pm haug hx
        · intro x hx hxe
          rcases List.mem_cons.mp hx with e' | hx
          · exact absurd hxe (by rw [e']; exact cov v hvcov)
          · exact hst x hx hxe
      · have hfalse : r1.1 = false := by
          cases h : r1.1
          · rfl
          · exact absurd h hfound
        obtain ⟨hpath, inv2, hp2, hstuck⟩ := search_fail hv out inv hfalse
        obtain ⟨k2, r, e2, hnil, inv3, cov, hst⟩ := mainLoop_spec hv hn vs r1.2.2 inv2 hvs
        rw [hp2] at cov
        refine ⟨max k1 k2, r, ?_, hnil, inv3, cov, ?_⟩
        · simp only [Matching.mainLoop, bind_eq_ok]
          refine ⟨_, hget, ?_⟩
          rw [if_pos hexp]
          simp only [bind_eq_ok]
          refine ⟨r1, findAugmentingPath_mono e1 (le_max_left _ _), ?_⟩
          simp only [hfalse, Bool.false_eq_true, if_false]
          rw [hpath]
          exact mainLoop_mono e2 (le_max_right _ _)
        · intro x hx hxe
          rcases List.mem_cons.mp hx with e' | hx
          · rw [e']; exact hstuck.mono cov
          · exact hst x hx hxe
    · obtain ⟨k2, r, e2, hnil, inv3, cov, hst⟩ := mainLoop_spec hv hn vs m inv hvs
      refine ⟨k2, r, ?_, hnil, inv3, cov, ?_⟩
      · simp only [Matching.mainLoop, bind_eq_ok]
        refine ⟨_, hget, ?_⟩
        rw [if_neg hexp]
        exact e2
      · intro x hx hxe
        rcases List.mem_cons.mp hx with e' | hx
        · exact absurd hxe (by rw [e']; exact cov v hexp)
        · exact hst x hx hxe

/-- The constructor terminates on every valid graph; the final partner map is a matching of
    the graph, and every exposed vertex is stuck. -/
theorem construct_spec (hv : g.Valid) (hn : g.m_adjacencyList.length = n)
    (junk : Nat → Node) :
    ∃ k m, Matching.construct k g junk = .ok m ∧ MInv g n m ∧
      ∀ x, InR n x → m.partner x = -1 → Stuck g n m.partner x := by
  obtain ⟨wl, m0, e0, inv0, hwl, hin⟩ := greedy_spec hv hn junk
  obtain ⟨k, r, e, _, inv, cov, hst⟩ := mainLoop_spec hv hn wl m0 inv0 hin
  refine ⟨k, r.2, ?_, inv, ?_⟩
  · simp only [Matching.construct, bind_eq_ok]
    exact ⟨_, e0, r, e, rfl⟩
  · intro x hx hxe
    refine hst x (hwl x hx ?_) hxe
    by_contra hne
    exact cov x hne hxe

/-- The result of the constructor does not depend on the fuel. -/
theorem construct_unique {junk : Nat → Node} {k k' : Nat} {m m' : Matching}
    (h : Matching.construct k g junk = .ok m) (h' : Matching.construct k' g junk = .ok m') :
    m' = m := by
  have e1 := construct_mono h (le_max_left k k')
  have e2 := construct_mono h' (le_max_right k k')
  rw [e1] at e2
  cases e2
  rfl

/-- A matching all of whose exposed vertices are stuck has no augmenting path. -/
theorem no_augPath_of_stuck (hv : g.Valid) {pt : Vertex → Vertex} (hpm : IsPartnerMap g n pt)
    (hst : ∀ x, InR n x → pt x = -1 → Stuck g n pt x) (p : Path) : ¬ IsAugPath g n pt p := by
  intro hp
  obtain ⟨_, a, b, _, _, _, hae, _, ham, _, _⟩ := hp.shape hpm
  obtain ⟨T, _, h2, h3⟩ := hst a (hp.inRange a ham) hae
  refine h3 (flipPath pt p) (flipPath_partnerMap hv hpm hp) ?_
  intro x hx
  by_cases hxa : x = a
  · rw [hxa]
    exact (flipPath_on hpm hp ham).1
  · exact flipPath_covered hpm hp (h2 x hx hxa)

/-- Every state at the head of the main loop satisfies the invariant of the loop, with an
    empty `path` and a worklist of vertex ids. -/
theorem MainState.inv (hv : g.Valid) (hn : g.m_adjacencyList.length = n) {wl : List Vertex}
    {path : Path} {m : Matching} (h : MainState g wl path m) :
    MInv g n m ∧ path = [] ∧ ∀ v ∈ wl, InR n v := by
  induction h with
  | @start junk wl m hg =>
    obtain ⟨wl', m', e, inv, _, hin⟩ := greedy_spec hv hn junk
    rw [hg] at e
    cases e
    exact ⟨inv, rfl, hin⟩
  | @skip v mv vs path m _ _ _ ih =>
    exact ⟨ih.1, ih.2.1, fun x hx => ih.2.2 x (by simp [hx])⟩
  | @found v vs path path1 m m1 m2 k _ hget hs ha ih =>
    obtain ⟨inv, hnil, hin⟩ := ih
    have hvin := hin v (by simp)
    have hexp : m.partner v = -1 := ((getMatchedVertex_eq_ok).mp hget).2
    rw [hnil] at hs
    have out := search_out hv hn inv hvin hexp hs
    obtain ⟨_, _, _, m2', ea, inv2, _⟩ := search_found hv out inv rfl
    have : m2' = m2 := by
      have e : Matching.augment path1 m1 = .ok m2' := ea
      rw [ha] at e
      cases e
      rfl
    rw [← this]
    exact ⟨inv2, rfl, fun x hx => hin x (by simp [hx])⟩
  | @notFound v vs path path1 m m1 k _ hget hs ih =>
    obtain ⟨inv, hnil, hin⟩ := ih
    have hvin := hin v (by simp)
    have hexp : m.partner v = -1 := ((getMatchedVertex_eq_ok).mp hget).2
    have out := search_out hv hn inv hvin hexp hs
    obtain ⟨hpath, inv2, _, _⟩ := search_fail hv out inv rfl
    have hp : path1 = path := hpath
    exact ⟨inv2, by rw [hp, hnil], fun x hx => hin x (by simp [hx])⟩

end

end Blossom

namespace Blossom

/-! ## A matching without augmenting path is maximum -/

section
variable {g : Graph} {n : Nat} {M N : Vertex → Vertex}

theorem IsPartnerMap.ne_self (hv : g.Valid) (hN : IsPartnerMap g n N) {v : Vertex}
    (hin : InR n v) (hne : N v ≠ -1) : N v ≠ v := by
  intro e
  have := hN.adj v hin hne
  rw [e] at this
  exact hv.noLoop v this

theorem IsPartnerMap.eq_symm (hN : IsPartnerMap g n N) {u v : Vertex} (hu : InR n u)
    (hv' : InR n v) (h : N u = v) : N v = u := by
  have := hN.symm u hu (by rw [h]; exact inR_ne_neg hv')
  rw [h] at this
  exact this

theorem mem_diffSet {x : Int} : x ∈ diffSet n M N ↔ InR n x ∧ N x ≠ M x := by
  unfold diffSet
  rw [Finset.mem_filter, mem_vertexSet]

/-- Taking a pair out of a matching leaves a matching. -/
theorem removeEdge_partnerMap (hN : IsPartnerMap g n N) {a b : Vertex} (ha : InR n a)
    (hb : InR n b) (hab : N a = b) : IsPartnerMap g n (removeEdge N a b) := by
  have hba : N b = a := hN.eq_symm ha hb hab
  have key : ∀ v, removeEdge N a b v ≠ -1 → v ≠ a ∧ v ≠ b ∧ removeEdge N a b v = N v := by
    intro v h
    unfold removeEdge at h ⊢
    by_cases hc : v = a ∨ v = b
    · rw [if_pos hc] at h; exact absurd rfl h
    · rw [if_neg hc]
      exact ⟨fun e => hc (Or.inl e), fun e => hc (Or.inr e), rfl⟩
  constructor
  · intro v hin h
    obtain ⟨_, _, e⟩ := key v h
    rw [e] at h ⊢
    exact hN.inR v hin h
  · intro v hin h
    obtain ⟨h1, h2, e⟩ := key v h
    rw [e] at h ⊢
    have hs := hN.symm v hin h
    have hc : ¬ (N v = a ∨ N v = b) := by
      rintro (e1 | e1)
      · rw [e1, hab] at hs; exact h2 hs.symm
      · rw [e1, hba] at hs; exact h1 hs.symm
    unfold removeEdge
    rw [if_neg hc]
    exact hs
  · intro v hin h
    obtain ⟨_, _, e⟩ := key v h
    rw [e] at h ⊢
    exact hN.adj v hin h

/-- Taking a pair out of a matching exposes its two vertices. -/
theorem exposedSet_removeEdge (hv : g.Valid) (hN : IsPartnerMap g n N) {a b : Vertex}
    (ha : InR n a) (hb : InR n b) (hab : N a = b) :
    (exposedSet n (removeEdge N a b)).card = (exposedSet n N).card + 2 := by
  classical
  have hba : N b = a := hN.eq_symm ha hb hab
  have hne : a ≠ b := by
    intro e
    have := hN.ne_self hv ha (by rw [hab]; exact inR_ne_neg hb)
    rw [hab] at this
    exact this e.symm
  have hset : exposedSet n (removeEdge N a b) = insert a (insert b (exposedSet n N)) := by
    ext x
    rw [Finset.mem_insert, Finset.mem_insert, mem_exposedSet, mem_exposedSet]
    unfold removeEdge
    constructor
    · rintro ⟨hx, h⟩
      by_cases hc : x = a ∨ x = b
      · rcases hc with e | e
        · exact Or.inl e
        · exact Or.inr (Or.inl e)
      · rw [if_neg hc] at h
        exact Or.inr (Or.inr ⟨hx, h⟩)
    · rintro (e | e | ⟨hx, h⟩)
      · rw [e]; exact ⟨ha, by rw [if_pos (Or.inl rfl)]⟩
      · rw [e]; exact ⟨hb, by rw [if_pos (Or.inr rfl)]⟩
      · refine ⟨hx, ?_⟩
        split
        · rfl
        · exact h
  have h1 : b ∉ exposedSet n N := by
    intro h
    have := (mem_exposedSet.mp h).2
    rw [hba] at this
    exact inR_ne_neg ha this
  have h2 : a ∉ insert b (exposedSet n N) := by
    intro h
    rcases Finset.mem_insert.mp h with e | h
    · exact hne e
    · have := (mem_exposedSet.mp h).2
      rw [hab] at this
      exact inR_ne_neg hb this
  rw [hset, Finset.card_insert_of_not_mem h2, Finset.card_insert_of_not_mem h1]

/-- The walk starts: `a` is exposed by `M`, `b = N a`, and `u = M b`. -/
theorem WalkInv.first (hv : g.Valid) (hM : IsPartnerMap g n M) (hN : IsPartnerMap g n N)
    {a b : Vertex} (ha : InR n a) (hb : InR n b) (hMa : M a = -1) (hab : N a = b)
    (hMb : M b ≠ -1) : WalkInv n M N a b (M b) [M b, b] := by
  have hba : N b = a := hN.eq_symm ha hb hab
  have hu : InR n (M b) := hM.inR b hb hMb
  have hub : M (M b) = b := hM.symm b hb hMb
  have hne1 : M b ≠ b := hM.ne_self hv hb hMb
  have hne2 : a ≠ b := by
    intro e
    rw [e] at hMa
    exact hMb hMa
  have hne3 : a ≠ M b := by
    intro e
    rw [← e, hMa] at hub
    exact inR_ne_neg hb hub.symm
  refine ⟨rfl, rfl, ?_, ?_, ?_, ?_, by simp, ?_, ?_⟩
  · simp [hne1]
  · intro v hv'
    simp only [List.mem_cons, List.mem_singleton, List.not_mem_nil, or_false] at hv'
    rcases hv' with e | e
    · rw [e]; exact hu
    · rw [e]; exact hb
  · simp only [List.mem_cons, List.mem_singleton, List.not_mem_nil, or_false, not_or]
    exact ⟨hne3, hne2⟩
  · refine altChain_cons_cons.mpr ⟨⟨hub, ?_⟩, altChain_singleton _⟩
    intro e
    have := hN.eq_symm hu hb e
    rw [hba] at this
    exact hne3 this
  · intro v hv' hvu
    simp only [List.mem_cons, List.mem_singleton, List.not_mem_nil, or_false] at hv'
    rcases hv' with (e | e) | e
    · exact absurd e hvu
    · rw [e, hba]; exact ⟨Or.inr rfl, hne3⟩
    · rw [e, hab]; exact ⟨Or.inl (by simp), fun e' => hne1 e'.symm⟩
  · intro v hv'
    simp only [List.mem_cons, List.mem_singleton, List.not_mem_nil, or_false] at hv'
    rcases hv' with e | e
    · rw [e, hub]; simp
    · rw [e]; simp

/-- The head of the walk is a vertex. -/
theorem WalkInv.e_mem {a b e : Vertex} {q : List Vertex} (h : WalkInv n M N a b e q) :
    e ∈ q := by
  cases q with
  | nil => have := h.head; simp at this
  | cons x l =>
    have := h.head
    simp only [List.head?_cons, Option.some.injEq] at this
    rw [this]; simp

theorem WalkInv.b_mem {a b e : Vertex} {q : List Vertex} (h : WalkInv n M N a b e q) :
    b ∈ q := List.mem_of_mem_getLast? h.last

/-- The next vertex `w = N e` of the walk is new. -/
theorem WalkInv.next_new (hv : g.Valid) (hN : IsPartnerMap g n N) {a b e : Vertex}
    {q : List Vertex} (h : WalkInv n M N a b e q) (hNe : N e ≠ -1) :
    InR n (N e) ∧ N e ∉ q ∧ N e ≠ a ∧ N (N e) = e := by
  have he := h.inR e h.e_mem
  have hw := hN.inR e he hNe
  have hs := hN.symm e he hNe
  have hne : N e ≠ e := hN.ne_self hv he hNe
  have key : ¬ (N e ∈ q ∨ N e = a) := by
    intro hc
    have := (h.nclosed (N e) hc hne).2
    exact this hs
  exact ⟨hw, fun hc => key (Or.inl hc), fun hc => key (Or.inr hc), hs⟩

/-- The walk has reached a vertex that `M` exposes: an augmenting path of `M`. -/
theorem WalkInv.found (hv : g.Valid) (hM : IsPartnerMap g n M) (hN : IsPartnerMap g n N)
    {a b e : Vertex} {q : List Vertex} (h : WalkInv n M N a b e q) (ha : InR n a)
    (hMa : M a = -1) (hab : N a = b) (hNe : N e ≠ -1) (hMw : M (N e) = -1) :
    IsAugPath g n M ((N e :: q) ++ [a]) := by
  obtain ⟨hw, hwq, hwa, hs⟩ := h.next_new hv hN hNe
  have hb := h.inR b h.b_mem
  have hba : N b = a := hN.eq_symm ha hb hab
  have he := h.inR e h.e_mem
  obtain ⟨q0, rfl⟩ : ∃ q0, q = e :: q0 := by
    cases q with
    | nil => have := h.head; simp at this
    | cons x l =>
      have := h.head
      simp only [List.head?_cons, Option.some.injEq] at this
      exact ⟨l, by rw [this]⟩
  have hin : ∀ x ∈ (N e :: e :: q0) ++ [a], InR n x := by
    intro x hx
    rcases List.mem_append.mp hx with hx | hx
    · rcases List.mem_cons.mp hx with e1 | hx
      · rw [e1]; exact hw
      · exact h.inR x hx
    · simp only [List.mem_singleton] at hx
      rw [hx]; exact ha
  have hch : AltChain (MEdge N M) (MEdge M N) ((N e :: e :: q0) ++ [a]) := by
    refine altChain_append_odd _ _ b a _ _ ?_ ?_ rfl ?_ ?_ (altChain_singleton _)
    · have := h.even
      simp only [List.length_cons] at this ⊢
      omega
    · rw [List.getLast?_cons_cons]; exact h.last
    · refine altChain_cons_cons.mpr ⟨⟨hs, ?_⟩, h.chain⟩
      rw [hMw]
      exact fun e1 => inR_ne_neg he e1.symm
    · refine ⟨hba, ?_⟩
      intro e1
      have := hM.eq_symm hb ha e1
      rw [hMa] at this
      exact inR_ne_neg hb this.symm
  refine ⟨by simp, ?_, hin, ?_, ?_, ?_⟩
  · refine List.Nodup.append (List.nodup_cons.mpr ⟨hwq, h.nodup⟩) (List.nodup_singleton a) ?_
    intro x hx hxa
    simp only [List.mem_singleton] at hxa
    rcases List.mem_cons.mp hx with e1 | hx
    · exact hwa (by rw [← e1, hxa])
    · exact h.a_not (by rw [← hxa]; exact hx)
  · intro x hx
    simp only [List.cons_append, List.head?_cons, Option.some.injEq] at hx
    rw [← hx]; exact hMw
  · intro x hx
    rw [List.getLast?_append] at hx
    have hx' : some a = some x := hx
    rw [← Option.some.inj hx']; exact hMa
  · refine AltChain.imp _ ?_ ?_ hch
    · intro x hx y hy hxy
      have hxN : N x ≠ -1 := by rw [hxy.1]; exact inR_ne_neg (hin y hy)
      have := hN.adj x (hin x hx) hxN
      rw [hxy.1] at this
      exact ⟨this, hxy.2⟩
    · intro x hx y hy hxy
      have hxM : M x ≠ -1 := by rw [hxy.1]; exact inR_ne_neg (hin y hy)
      have := hM.adj x (hin x hx) hxM
      rw [hxy.1] at this
      exact ⟨this, hxy.1⟩

/-- The walk goes on by two vertices. -/
theorem WalkInv.step (hv : g.Valid) (hM : IsPartnerMap g n M) (hN : IsPartnerMap g n N)
    {a b e : Vertex} {q : List Vertex} (h : WalkInv n M N a b e q)
    (hMa : M a = -1) (hNe : N e ≠ -1) (hMw : M (N e) ≠ -1) :
    WalkInv n M N a b (M (N e)) (M (N e) :: N e :: q) := by
  obtain ⟨hw, hwq, hwa, hs⟩ := h.next_new hv hN hNe
  have he := h.inR e h.e_mem
  have hu := hM.inR (N e) hw hMw
  have hus := hM.symm (N e) hw hMw
  have huw : M (N e) ≠ N e := hM.ne_self hv hw hMw
  have huq : M (N e) ∉ q := by
    intro hc
    have := h.mclosed _ hc
    rw [hus] at this
    exact hwq this
  have hua : M (N e) ≠ a := by
    intro e1
    rw [e1, hMa] at hus
    exact inR_ne_neg hw hus.symm
  have hue : M (N e) ≠ e := fun e1 => huq (by rw [e1]; exact h.e_mem)
  obtain ⟨q0, hq0⟩ : ∃ q0, q = e :: q0 := by
    cases q with
    | nil => have := h.head; simp at this
    | cons x l =>
      have := h.head
      simp only [List.head?_cons, Option.some.injEq] at this
      exact ⟨l, by rw [this]⟩
  refine ⟨rfl, ?_, ?_, ?_, ?_, ?_, ?_, ?_, ?_⟩
  · rw [hq0, List.getLast?_cons_cons, List.getLast?_cons_cons, ← hq0]
    exact h.last
  · refine List.nodup_cons.mpr ⟨?_, List.nodup_cons.mpr ⟨hwq, h.nodup⟩⟩
    intro hc
    rcases List.mem_cons.mp hc with e1 | hc
    · exact huw e1
    · exact huq hc
  · intro v hv'
    rcases List.mem_cons.mp hv' with e1 | hv'
    · rw [e1]; exact hu
    · rcases List.mem_cons.mp hv' with e1 | hv'
      · rw [e1]; exact hw
      · exact h.inR v hv'
  · intro hc
    rcases List.mem_cons.mp hc with e1 | hc
    · exact hua e1.symm
    · rcases List.mem_cons.mp hc with e1 | hc
      · exact hwa e1.symm
      · exact h.a_not hc
  · refine altChain_cons_cons.mpr ⟨⟨hus, ?_⟩, ?_⟩
    · intro e1
      have := hN.eq_symm hu hw e1
      rw [hs] at this
      exact hue this.symm
    · rw [hq0]
      refine altChain_cons_cons.mpr ⟨⟨hs, fun e1 => hue e1⟩, ?_⟩
      rw [← hq0]
      exact h.chain
  · have := h.even
    simp only [List.length_cons]
    omega
  · intro v hv' hvu
    have hmem : ∀ x, x ∈ q → x ∈ M (N e) :: N e :: q := fun x hx => by simp [hx]
    rcases hv' with hv' | hv'
    · rcases List.mem_cons.mp hv' with e1 | hv'
      · exact absurd e1 hvu
      · rcases List.mem_cons.mp hv' with e1 | hv'
        · rw [e1, hs]
          exact ⟨Or.inl (hmem e h.e_mem), fun e2 => hue e2.symm⟩
        · by_cases hve : v = e
          · rw [hve]
            exact ⟨Or.inl (by simp), fun e2 => huw e2.symm⟩
          · obtain ⟨h1, _⟩ := h.nclosed v (Or.inl hv') hve
            rcases h1 with h1 | h1
            · exact ⟨Or.inl (hmem _ h1), fun e2 => huq (by rw [← e2]; exact h1)⟩
            · exact ⟨Or.inr h1, fun e2 => hua (by rw [← e2]; exact h1)⟩
    · have hve : v ≠ e := fun e1 => h.a_not (by rw [← hv', e1]; exact h.e_mem)
      obtain ⟨h1, _⟩ := h.nclosed v (Or.inr hv') hve
      rcases h1 with h1 | h1
      · exact ⟨Or.inl (hmem _ h1), fun e2 => huq (by rw [← e2]; exact h1)⟩
      · exact ⟨Or.inr h1, fun e2 => hua (by rw [← e2]; exact h1)⟩
  · intro v hv'
    rcases List.mem_cons.mp hv' with e1 | hv'
    · rw [e1, hus]; simp
    · rcases List.mem_cons.mp hv' with e1 | hv'
      · rw [e1]; simp
      · have := h.mclosed v hv'
        simp [this]

/-- The walk ends: with an augmenting path of `M`, or at a vertex that `N` exposes. -/
theorem WalkInv.run (hv : g.Valid) (hM : IsPartnerMap g n M) (hN : IsPartnerMap g n N)
    {a b : Vertex} (ha : InR n a) (hMa : M a = -1) (hab : N a = b) :
    ∀ (k : Nat) (e : Vertex) (q : List Vertex), WalkInv n M N a b e q → n ≤ q.length + k →
      (∃ p, IsAugPath g n M p) ∨ ∃ e' q', WalkInv n M N a b e' q' ∧ N e' = -1
  | 0, e, q, h, hk => by
    exfalso
    have h1 : (a :: q).Nodup := List.nodup_cons.mpr ⟨h.a_not, h.nodup⟩
    have h2 := nodup_inR_length_le h1 (fun x hx => by
      rcases List.mem_cons.mp hx with e1 | hx
      · rw [e1]; exact ha
      · exact h.inR x hx)
    simp only [List.length_cons] at h2
    omega
  | k + 1, e, q, h, hk => by
    by_cases hNe : N e = -1
    · exact Or.inr ⟨e, q, h, hNe⟩
    · by_cases hMw : M (N e) = -1
      · exact Or.inl ⟨_, h.found hv hM hN ha hMa hab hNe hMw⟩
      · refine WalkInv.run hv hM hN ha hMa hab k _ _ (h.step hv hM hN hMa hNe hMw) ?_
        simp only [List.length_cons]
        omega

/-- A walk that ends at a vertex exposed by `N` turns `N` into a matching of the same size
    that differs from `M` on fewer vertices. -/
theorem WalkInv.dead_end (hv : g.Valid) (hM : IsPartnerMap g n M) (hN : IsPartnerMap g n N)
    {a b e : Vertex} {q : List Vertex} (h : WalkInv n M N a b e q) (ha : InR n a)
    (hMa : M a = -1) (hab : N a = b) (hNe : N e = -1) :
    ∃ N', IsPartnerMap g n N' ∧ (exposedSet n N').card = (exposedSet n N).card ∧
      (diffSet n M N').card < (diffSet n M N).card := by
  have hb := h.inR b h.b_mem
  have hba : N b = a := hN.eq_symm ha hb hab
  have hN0 := removeEdge_partnerMap hN ha hb hab
  have hq2 : 2 ≤ q.length := by
    have := h.even
    have := List.length_pos_of_mem h.e_mem
    omega
  have haug : IsAugPath g n (removeEdge N a b) q := by
    refine ⟨hq2, h.nodup, h.inR, ?_, ?_, ?_⟩
    · intro x hx
      rw [h.head] at hx
      simp only [Option.some.injEq] at hx
      rw [← hx]
      unfold removeEdge
      split
      · rfl
      · exact hNe
    · intro x hx
      rw [h.last] at hx
      simp only [Option.some.injEq] at hx
      rw [← hx]
      unfold removeEdge
      rw [if_pos (Or.inr rfl)]
    · refine AltChain.imp _ ?_ ?_ h.chain
      · intro x hx y hy hxy
        have hxM : M x ≠ -1 := by rw [hxy.1]; exact inR_ne_neg (h.inR y hy)
        have hadj := hM.adj x (h.inR x hx) hxM
        rw [hxy.1] at hadj
        refine ⟨hadj, ?_⟩
        unfold removeEdge
        split
        · exact fun e1 => inR_ne_neg (h.inR y hy) e1.symm
        · exact hxy.2
      · intro x hx y hy hxy
        have hxN : N x ≠ -1 := by rw [hxy.1]; exact inR_ne_neg (h.inR y hy)
        have hadj := hN.adj x (h.inR x hx) hxN
        rw [hxy.1] at hadj
        refine ⟨hadj, ?_⟩
        have hc : ¬ (x = a ∨ x = b) := by
          rintro (e1 | e1)
          · exact h.a_not (by rw [← e1]; exact hx)
          · have := hxy.1
            rw [e1, hba] at this
            exact h.a_not (by rw [this]; exact hy)
        unfold removeEdge
        rw [if_neg hc]
        exact hxy.1
  refine ⟨flipPath (removeEdge N a b) q, flipPath_partnerMap hv hN0 haug, ?_, ?_⟩
  · have h1 := exposedSet_flip hN0 haug
    have h2 := exposedSet_removeEdge hv hN ha hb hab
    omega
  · have hagree : ∀ v, v ∈ q → flipPath (removeEdge N a b) q v = M v := by
      intro v hvq
      obtain ⟨y, hy⟩ := pairedIn_of_mem q h.even v hvq
      have hyq := (pairedIn_mem q v y hy).2
      have : flipPath (removeEdge N a b) q v = y := by unfold flipPath; rw [hy]; rfl
      rw [this]
      rcases pairedIn_rel q h.chain v y hy with h1 | h1
      · exact h1.1.symm
      · exact (hM.eq_symm (h.inR y hyq) (h.inR v hvq) h1.1).symm
    refine Finset.card_lt_card (Finset.ssubset_iff_of_subset ?_ |>.mpr ⟨a, ?_, ?_⟩)
    · intro v hvd
      obtain ⟨hvin, hne⟩ := mem_diffSet.mp hvd
      refine mem_diffSet.mpr ⟨hvin, ?_⟩
      by_cases hvq : v ∈ q
      · exact absurd (hagree v hvq) hne
      · rw [flipPath_off hvq] at hne
        unfold removeEdge at hne
        by_cases hc : v = a ∨ v = b
        · rcases hc with e1 | e1
          · rw [if_pos (Or.inl e1), e1, hMa] at hne
            exact absurd rfl hne
          · exact absurd (by rw [e1]; exact h.b_mem) hvq
        · rw [if_neg hc] at hne
          exact hne
    · refine mem_diffSet.mpr ⟨ha, ?_⟩
      rw [hab, hMa]
      exact inR_ne_neg hb
    · intro hc
      have := (mem_diffSet.mp hc).2
      rw [flipPath_off h.a_not] at this
      unfold removeEdge at this
      rw [if_pos (Or.inl rfl), hMa] at this
      exact this rfl

/-- A matching without augmenting path leaves no more vertices exposed than any other
    matching of the graph. -/
theorem exposed_le_of_no_augPath (hv : g.Valid) (hM : IsPartnerMap g n M)
    (hno : ∀ p, ¬ IsAugPath g n M p) :
    ∀ (d : Nat) (N : Vertex → Vertex), IsPartnerMap g n N → (diffSet n M N).card ≤ d →
      (exposedSet n M).card ≤ (exposedSet n N).card
  | d, N, hN, hd => by
    by_cases hex : ∃ a, InR n a ∧ M a = -1 ∧ N a ≠ -1
    · obtain ⟨a, ha, hMa, hNa⟩ := hex
      have hb : InR n (N a) := hN.inR a ha hNa
      have hab : a ≠ N a := fun e => hN.ne_self hv ha hNa e.symm
      by_cases hMb : M (N a) = -1
      · exfalso
        refine hno [a, N a] ⟨by simp, ?_, ?_, ?_, ?_, ?_⟩
        · simp [hab]
        · intro x hx
          simp only [List.mem_cons, List.mem_singleton, List.not_mem_nil, or_false] at hx
          rcases hx with e | e
          · rw [e]; exact ha
          · rw [e]; exact hb
        · intro x hx
          simp only [List.head?_cons, Option.some.injEq] at hx
          rw [← hx]; exact hMa
        · intro x hx
          simp only [List.getLast?_cons_cons, List.getLast?_singleton, Option.some.injEq] at hx
          rw [← hx]; exact hMb
        · refine altChain_cons_cons.mpr ⟨⟨hN.adj a ha hNa, ?_⟩, altChain_singleton _⟩
          rw [hMa]
          exact fun e => inR_ne_neg hb e.symm
      · have hw := WalkInv.first hv hM hN ha hb hMa rfl hMb
        rcases WalkInv.run hv hM hN ha hMa rfl n _ _ hw (by omega) with ⟨p, hp⟩ | ⟨e, q, hq, hNe⟩
        · exact absurd hp (hno p)
        · obtain ⟨N', hN', hexp, hlt⟩ := hq.dead_end hv hM hN ha hMa rfl hNe
          cases d with
          | zero => omega
          | succ d =>
            have := exposed_le_of_no_augPath hv hM hno d N' hN' (by omega)
            omega
    · refine Finset.card_le_card ?_
      intro x hx
      obtain ⟨hxin, hxe⟩ := mem_exposedSet.mp hx
      refine mem_exposedSet.mpr ⟨hxin, ?_⟩
      by_contra hne
      exact hex ⟨x, hxin, hxe, hne⟩
termination_by d => d

/-- The partner map of a list of pairwise disjoint edges is a matching of the graph with
    as many pairs as the list has edges. -/
theorem partnerOfEdges_spec (hv : g.Valid) (hn : g.m_adjacencyList.length = n) :
    ∀ es : List (Vertex × Vertex), g.IsDisjointEdgeSet es →
      IsPartnerMap g n (partnerOfEdges es) ∧
      (exposedSet n (partnerOfEdges es)).card + 2 * es.length = n ∧
      ∀ v, partnerOfEdges es v ≠ -1 → v ∈ endpoints es
  | [], _ => by
    refine ⟨⟨fun v _ h => absurd rfl h, fun v _ h => absurd rfl h, fun v _ h => absurd rfl h⟩,
      ?_, fun v h => absurd rfl h⟩
    have : exposedSet n (partnerOfEdges []) = (Finset.range n).image Int.ofNat := by
      ext x
      rw [mem_exposedSet, mem_vertexSet]
      exact ⟨fun h => h.1, fun h => ⟨h, rfl⟩⟩
    rw [this, card_vertexSet]
    rfl
  | e :: es, h => by
    classical
    have hend : endpoints (e :: es) = e.1 :: e.2 :: endpoints es := by
      simp [endpoints]
    have hnd := h.2
    rw [hend] at hnd
    have h1 : e.1 ∉ endpoints es := fun hc => (List.nodup_cons.mp hnd).1 (by simp [hc])
    have h2 : e.2 ∉ endpoints es := (List.nodup_cons.mp (List.nodup_cons.mp hnd).2).1
    have h12 : e.1 ≠ e.2 := fun hc => (List.nodup_cons.mp hnd).1 (by simp [hc])
    have hes : g.IsDisjointEdgeSet es :=
      ⟨fun x hx => h.1 x (by simp [hx]), (List.nodup_cons.mp (List.nodup_cons.mp hnd).2).2⟩
    obtain ⟨ih1, ih2, ih3⟩ := partnerOfEdges_spec hv hn es hes
    obtain ⟨he1, hadj⟩ := h.1 e (by simp)
    rw [hn] at he1
    have he2 : InR n e.2 := by rw [← hn]; exact hv.inRange _ _ hadj
    have hx1 : partnerOfEdges es e.1 = -1 := by
      by_contra hc; exact h1 (ih3 _ hc)
    have hx2 : partnerOfEdges es e.2 = -1 := by
      by_contra hc; exact h2 (ih3 _ hc)
    have hfun : partnerOfEdges (e :: es) =
        fun x => if x = e.1 then e.2 else if x = e.2 then e.1 else partnerOfEdges es x := rfl
    refine ⟨?_, ?_, ?_⟩
    · rw [hfun]
      exact match_partnerMap hv ih1 he2 he1 hx2 hx1 (hv.symm _ _ hadj)
    · have hset : exposedSet n (partnerOfEdges (e :: es)) =
          ((exposedSet n (partnerOfEdges es)).erase e.1).erase e.2 := by
        ext x
        rw [Finset.mem_erase, Finset.mem_erase, mem_exposedSet, mem_exposedSet, hfun]
        constructor
        · rintro ⟨hx, hp⟩
          by_cases c1 : x = e.1
          · simp only [if_pos c1] at hp
            exact absurd hp (inR_ne_neg he2)
          · by_cases c2 : x = e.2
            · simp only [if_neg c1, if_pos c2] at hp
              exact absurd hp (inR_ne_neg he1)
            · simp only [if_neg c1, if_neg c2] at hp
              exact ⟨c2, c1, hx, hp⟩
        · rintro ⟨c2, c1, hx, hp⟩
          refine ⟨hx, ?_⟩
          simp only [if_neg c1, if_neg c2]
          exact hp
      have m1 : e.1 ∈ exposedSet n (partnerOfEdges es) := mem_exposedSet.mpr ⟨he1, hx1⟩
      have m2 : e.2 ∈ (exposedSet n (partnerOfEdges es)).erase e.1 :=
        Finset.mem_erase.mpr ⟨fun c => h12 c.symm, mem_exposedSet.mpr ⟨he2, hx2⟩⟩
      have c1 := Finset.card_erase_add_one m1
      have c2 := Finset.card_erase_add_one m2
      rw [hset]
      simp only [List.length_cons]
      omega
    · intro v hvne
      rw [hend]
      rw [hfun] at hvne
      by_cases c1 : v = e.1
      · simp [c1]
      · by_cases c2 : v = e.2
        · simp [c2]
        · simp only [if_neg c1, if_neg c2] at hvne
          simp [ih3 v hvne]

/-- A matching without augmenting path is maximum: no list of pairwise disjoint edges of
    the graph is longer than its list of pairs. -/
theorem maximum_of_no_augPath (hv : g.Valid) (hn : g.m_adjacencyList.length = n)
    {m : Matching} (hs : m.m_matchedVertex.length = n) (hM : IsPartnerMap g n m.partner)
    (hno : ∀ p, ¬ IsAugPath g n m.partner p) (es : List (Vertex × Vertex))
    (hes : g.IsDisjointEdgeSet es) : es.length ≤ m.numMatchedPairs := by
  obtain ⟨hN, hcard, _⟩ := partnerOfEdges_spec hv hn es hes
  have h1 := exposed_le_of_no_augPath hv hM hno _ _ hN (le_refl _)
  have h2 := card_exposed_add_pairs hv hM
  rw [numMatchedPairs_eq hs]
  omega

end

end Blossom

namespace Blossom

/-! ## The contract of the constructor -/

section
variable {g : Graph} {n : Nat}

/-- The constructor returns the same state for every fuel from some bound on; the state
    satisfies the invariant of the main loop and every exposed vertex is stuck. -/
theorem construct_final (hv : g.Valid) (junk : Nat → Node) :
    ∃ k m, (∀ fuel, k ≤ fuel → Matching.construct fuel g junk = .ok m) ∧
      MInv g g.m_adjacencyList.length m ∧
      ∀ x, InR g.m_adjacencyList.length x → m.partner x = -1 →
        Stuck g g.m_adjacencyList.length m.partner x := by
  obtain ⟨k, m, e, inv, hst⟩ := construct_spec hv rfl junk
  exact ⟨k, m, fun fuel hf => construct_mono e hf, inv, hst⟩

theorem getMatchedVertex_of_inv {m : Matching} (inv : MInv g n m) {v w : Vertex} :
    m.getMatchedVertex v = .ok w ↔ InR n v ∧ m.partner v = w := by
  rw [getMatchedVertex_eq_ok, inv.sized.mv]

theorem altChain_tail1 {R S : Int → Int → Prop} {x : Int} {l : List Int}
    (h : AltChain R S (x :: l)) : AltChain S R l := by
  cases l with
  | nil => exact altChain_nil
  | cons y r => exact (altChain_cons_cons.mp h).2

/-- The edge between the elements `i` and `i + 1` of a chain. -/
theorem altChain_index : ∀ (i : Nat) (R S : Int → Int → Prop) (p : List Int) (a b : Int),
    AltChain R S p → p[i]? = some a → p[i + 1]? = some b →
      (i % 2 = 0 → R a b) ∧ (i % 2 = 1 → S a b)
  | 0, R, S, p, a, b, h, ha, hb => by
    cases p with
    | nil => simp at ha
    | cons x l =>
      cases l with
      | nil => simp at hb
      | cons y r =>
        simp only [List.getElem?_cons_zero, Option.some.injEq] at ha
        simp only [zero_add, List.getElem?_cons_succ, List.getElem?_cons_zero,
          Option.some.injEq] at hb
        subst ha hb
        exact ⟨fun _ => (altChain_cons_cons.mp h).1, fun h0 => by simp at h0⟩
  | i + 1, R, S, p, a, b, h, ha, hb => by
    cases p with
    | nil => simp at ha
    | cons x l =>
      simp only [List.getElem?_cons_succ] at ha hb
      have ih := altChain_index i S R l a b (altChain_tail1 h) ha hb
      exact ⟨fun h0 => ih.2 (by omega), fun h1 => ih.1 (by omega)⟩

theorem mem_endpoints_map (pt : Vertex → Vertex) (L : List Vertex) (x : Vertex) :
    x ∈ endpoints (L.map fun v => (v, pt v)) ↔ ∃ u ∈ L, x = u ∨ x = pt u := by
  unfold endpoints
  simp only [List.mem_flatMap, List.mem_map, List.mem_cons, List.mem_singleton,
    List.not_mem_nil, or_false]
  constructor
  · rintro ⟨e, ⟨u, hu, rfl⟩, h⟩
    exact ⟨u, hu, h⟩
  · rintro ⟨u, hu, h⟩
    exact ⟨_, ⟨u, hu, rfl⟩, h⟩

theorem nodup_endpoints (pt : Vertex → Vertex) : ∀ (L : List Vertex), L.Nodup →
    (∀ v ∈ L, pt v ∉ L) → (∀ u ∈ L, ∀ v ∈ L, pt u = pt v → u = v) →
    (endpoints (L.map fun v => (v, pt v))).Nodup
  | [], _, _, _ => by simp [endpoints]
  | v :: L, hnd, hoff, hinj => by
    have ih := nodup_endpoints pt L (List.nodup_cons.mp hnd).2
      (fun u hu h => hoff u (by simp [hu]) (by simp [h]))
      (fun u hu w hw => hinj u (by simp [hu]) w (by simp [hw]))
    have hcons : endpoints ((v :: L).map fun v => (v, pt v)) =
        v :: pt v :: endpoints (L.map fun v => (v, pt v)) := by
      simp [endpoints]
    rw [hcons]
    refine List.nodup_cons.mpr ⟨?_, List.nodup_cons.mpr ⟨?_, ih⟩⟩
    · intro h
      rcases List.mem_cons.mp h with e | h
      · exact hoff v (by simp) (by rw [← e]; simp)
      · obtain ⟨u, hu, h | h⟩ := (mem_endpoints_map pt L v).mp h
        · exact (List.nodup_cons.mp hnd).1 (by rw [h]; exact hu)
        · exact hoff u (by simp [hu]) (by rw [← h]; simp)
    · intro h
      obtain ⟨u, hu, h | h⟩ := (mem_endpoints_map pt L (pt v)).mp h
      · exact hoff v (by simp) (by rw [h]; simp [hu])
      · have := hinj v (by simp) u (by simp [hu]) h
        exact (List.nodup_cons.mp hnd).1 (by rw [this]; exact hu)

/-- The matched pairs of a matching of the graph are pairwise disjoint edges. -/
theorem pairs_disjoint {m : Matching}
    (inv : MInv g g.m_adjacencyList.length m) : g.IsDisjointEdgeSet m.pairs := by
  have hmem : ∀ v, v ∈ ((List.range m.m_matchedVertex.length).map Int.ofNat).filter
      (fun v => v < m.partner v) →
      InR g.m_adjacencyList.length v ∧ v < m.partner v ∧ m.partner v ≠ -1 := by
    intro v h
    have h1 := List.mem_filter.mp h
    have hin : InR g.m_adjacencyList.length v := by
      have := h1.1
      rw [inv.sized.mv, ← List.mem_toFinset, vertexList_toFinset, mem_vertexSet] at this
      exact this
    have hlt : v < m.partner v := by simpa using h1.2
    refine ⟨hin, hlt, ?_⟩
    intro e
    rw [e] at hlt
    exact absurd (lt_of_le_of_lt hin.1 hlt) (by decide)
  constructor
  · intro e he
    unfold Matching.pairs at he
    obtain ⟨v, hvm, rfl⟩ := List.mem_map.mp he
    obtain ⟨hin, _, hne⟩ := hmem v hvm
    exact ⟨hin, inv.pm.adj v hin hne⟩
  · unfold Matching.pairs
    refine nodup_endpoints m.partner _ ((vertexList_nodup _).filter _) ?_ ?_
    · intro v hvm h
      obtain ⟨hin, hlt, hne⟩ := hmem v hvm
      obtain ⟨_, hlt2, _⟩ := hmem _ h
      rw [inv.pm.symm v hin hne] at hlt2
      exact lt_asymm hlt hlt2
    · intro u hu v hvm h
      obtain ⟨hin, _, hne⟩ := hmem u hu
      obtain ⟨hin2, _, hne2⟩ := hmem v hvm
      rw [← inv.pm.symm u hin hne, h, inv.pm.symm v hin2 hne2]

theorem mem_pairs {m : Matching} (inv : MInv g g.m_adjacencyList.length m) {e : Vertex × Vertex}
    (he : e ∈ m.pairs) :
    InR g.m_adjacencyList.length e.1 ∧ e.2 = m.partner e.1 ∧ m.partner e.1 ≠ -1 := by
  unfold Matching.pairs at he
  obtain ⟨v, hvm, rfl⟩ := List.mem_map.mp he
  have h1 := List.mem_filter.mp hvm
  have hin : InR g.m_adjacencyList.length v := by
    have := h1.1
    rw [inv.sized.mv, ← List.mem_toFinset, vertexList_toFinset, mem_vertexSet] at this
    exact this
  have hlt : v < m.partner v := by simpa using h1.2
  refine ⟨hin, rfl, ?_⟩
  intro e
  rw [e] at hlt
  exact absurd (lt_of_le_of_lt hin.1 hlt) (by decide)

/-- In a state that satisfies the invariant of the main loop the matched pairs are mutual
    and are edges of the graph. -/
theorem pairsOk_of_inv {m : Matching} (inv : MInv g g.m_adjacencyList.length m) :
    pairsOk g m = true := by
  unfold pairsOk
  rw [List.all_eq_true]
  intro e he
  obtain ⟨hin, h2, hne⟩ := mem_pairs inv he
  rw [decide_eq_true_eq, h2]
  exact ⟨inv.pm.adj e.1 hin hne, inv.pm.symm e.1 hin hne⟩

/-- On a graph that has a list of pairwise disjoint edges missing at most one vertex, the
    constructor returns a matching with exactly that many pairs. -/
theorem construct_count (hv : g.Valid) (junk : Nat → Node) (es : List (Vertex × Vertex))
    (hes : g.IsDisjointEdgeSet es) (ht : g.m_adjacencyList.length < 2 * es.length + 2) :
    ∃ k, ∀ fuel, k ≤ fuel → ∃ m, Matching.construct fuel g junk = .ok m ∧
      m.numMatchedPairs = es.length ∧
      m.exposed.length + 2 * es.length = g.m_adjacencyList.length ∧ pairsOk g m = true ∧
      ∀ es', g.IsDisjointEdgeSet es' → es'.length ≤ m.numMatchedPairs := by
  obtain ⟨k, m, e, inv, hst⟩ := construct_final hv junk
  have hno : ∀ p : Path, ¬ IsAugPath g g.m_adjacencyList.length m.partner p :=
    fun p => no_augPath_of_stuck hv inv.pm hst p
  have hmax := maximum_of_no_augPath hv rfl inv.sized.mv inv.pm hno
  have h1 := hmax es hes
  have h2 := card_exposed_add_pairs hv inv.pm
  rw [← exposed_length inv.sized.mv, ← numMatchedPairs_eq inv.sized.mv] at h2
  refine ⟨k, fun fuel hf => ⟨m, e fuel hf, by omega, by omega, pairsOk_of_inv inv, hmax⟩⟩

end

theorem pathGraph4_valid : pathGraph4.Valid := Graph.valid_of_validB (by decide)

theorem isolatedGraph_valid : isolatedGraph.Valid := Graph.valid_of_validB (by decide)

theorem triangle_valid : triangle.Valid := Graph.valid_of_validB (by decide)

theorem cycle5_valid : cycle5.Valid := Graph.valid_of_validB (by decide)

/-! ## Properties of the constructor and of the search -/

/-- C1. For every valid graph, whatever the uninitialised fields of the nodes hold, the
    constructor returns (for every fuel from some bound on),
    and the matching it returns has no augmenting path: there is no list of distinct
    vertices with at least two elements, whose first and last vertex are exposed and whose
    consecutive vertices are joined by edges that are alternately unmatched and matched.
    The matching is maximum: no list of pairwise disjoint edges of the graph has more edges
    than the matching has pairs. -/
theorem construct_maximum_matching (g : Graph) (hv : g.Valid) (junk : Nat → Node) :
    ∃ k, ∀ fuel, k ≤ fuel → ∃ m, Matching.construct fuel g junk = .ok m ∧
      (∀ p : Path, ¬ m.IsAugmentingPath g p) ∧
      ∀ es : List (Vertex × Vertex), g.IsDisjointEdgeSet es →
        es.length ≤ m.numMatchedPairs := by
  obtain ⟨k, m, e, inv, hst⟩ := construct_final hv junk
  have hno : ∀ p : Path, ¬ IsAugPath g g.m_adjacencyList.length m.partner p :=
    fun p => no_augPath_of_stuck hv inv.pm hst p
  exact ⟨k, fun fuel hf => ⟨m, e fuel hf, hno,
    fun es hes => maximum_of_no_augPath hv rfl inv.sized.mv inv.pm hno es hes⟩⟩

theorem construct_maximum_matching_witness :
    ∃ k, ∀ fuel, k ≤ fuel → ∃ m, Matching.construct fuel cycle5 noJunk = .ok m ∧
      (∀ p : Path, ¬ m.IsAugmentingPath cycle5 p) ∧
      ∀ es : List (Vertex × Vertex), cycle5.IsDisjointEdgeSet es →
        es.length ≤ m.numMatchedPairs :=
  construct_maximum_matching cycle5 cycle5_valid noJunk

/-- C2. For every valid graph the constructor returns a state in which, whenever
    `getMatchedVertex(v) = w` with `w != -1`, also `getMatchedVertex(w) = v`; and no vertex is
    the partner of two different vertices. -/
theorem construct_partner_involution (g : Graph) (hv : g.Valid) (junk : Nat → Node) :
    ∃ k, ∀ fuel, k ≤ fuel → ∃ m, Matching.construct fuel g junk = .ok m ∧
      (∀ v w, m.getMatchedVertex v = .ok w → w ≠ -1 → m.getMatchedVertex w = .ok v) ∧
      (∀ u v w, m.getMatchedVertex u = .ok w → m.getMatchedVertex v = .ok w → w ≠ -1 →
        u = v) := by
  obtain ⟨k, m, e, inv, _⟩ := construct_final hv junk
  refine ⟨k, fun fuel hf => ⟨m, e fuel hf, ?_, ?_⟩⟩
  · intro v w h hw
    obtain ⟨hin, hp⟩ := (getMatchedVertex_of_inv inv).mp h
    have hne : m.partner v ≠ -1 := by rw [hp]; exact hw
    have h1 := inv.pm.inR v hin hne
    have h2 := inv.pm.symm v hin hne
    rw [hp] at h1 h2
    exact (getMatchedVertex_of_inv inv).mpr ⟨h1, h2⟩
  · intro u v w hu hv' hw
    obtain ⟨hin1, hp1⟩ := (getMatchedVertex_of_inv inv).mp hu
    obtain ⟨hin2, hp2⟩ := (getMatchedVertex_of_inv inv).mp hv'
    have h1 := inv.pm.symm u hin1 (by rw [hp1]; exact hw)
    have h2 := inv.pm.symm v hin2 (by rw [hp2]; exact hw)
    rw [hp1] at h1
    rw [hp2] at h2
    rw [← h1, h2]

theorem construct_partner_involution_witness :
    ∃ k, ∀ fuel, k ≤ fuel → ∃ m, Matching.construct fuel sampleGraph noJunk = .ok m ∧
      (∀ v w, m.getMatchedVertex v = .ok w → w ≠ -1 → m.getMatchedVertex w = .ok v) ∧
      (∀ u v w, m.getMatchedVertex u = .ok w → m.getMatchedVertex v = .ok w → w ≠ -1 →
        u = v) :=
  construct_partner_involution sampleGraph sampleGraph_valid noJunk

/-- C3. For every valid graph the constructor returns a state in which, whenever
    `getMatchedVertex(v) = w` with `w != -1`, the vertex `w` lies in `[0, N)`, differs from `v`
    and occurs in `adjacency[v]`; the matched pairs are pairwise disjoint edges of the
    graph. -/
theorem construct_pairs_are_edges (g : Graph) (hv : g.Valid) (junk : Nat → Node) :
    ∃ k, ∀ fuel, k ≤ fuel → ∃ m, Matching.construct fuel g junk = .ok m ∧
      (∀ v w, m.getMatchedVertex v = .ok w → w ≠ -1 →
        InR g.m_adjacencyList.length w ∧ w ≠ v ∧
        ∃ adj, vget g.m_adjacencyList v = .ok adj ∧ w ∈ adj) ∧
      g.IsDisjointEdgeSet m.pairs := by
  obtain ⟨k, m, e, inv, _⟩ := construct_final hv junk
  refine ⟨k, fun fuel hf => ⟨m, e fuel hf, ?_, pairs_disjoint inv⟩⟩
  intro v w h hw
  obtain ⟨hin, hp⟩ := (getMatchedVertex_of_inv inv).mp h
  have hne : m.partner v ≠ -1 := by rw [hp]; exact hw
  have h1 := inv.pm.inR v hin hne
  have h2 := inv.pm.adj v hin hne
  rw [hp] at h1 h2
  refine ⟨h1, ?_, _, vget_of_inR [] hin, ?_⟩
  · intro e'
    rw [e'] at h2
    exact hv.noLoop v h2
  · unfold lget
    rw [if_pos hin.1]
    exact h2.2

theorem construct_pairs_are_edges_witness :
    ∃ k, ∀ fuel, k ≤ fuel → ∃ m, Matching.construct fuel triangle noJunk = .ok m ∧
      (∀ v w, m.getMatchedVertex v = .ok w → w ≠ -1 →
        InR triangle.m_adjacencyList.length w ∧ w ≠ v ∧
        ∃ adj, vget triangle.m_adjacencyList v = .ok adj ∧ w ∈ adj) ∧
      triangle.IsDisjointEdgeSet m.pairs :=
  construct_pairs_are_edges triangle triangle_valid noJunk

/-- C4. For every valid graph the constructor terminates: it returns for every fuel from
    some bound on, where every loop and every recursion of the program consumes fuel.  In
    every state at the head of the main loop and for every exposed root, the call
    `findAugmentingPath(root, path)` returns with an empty queue, and when it returns `true`
    the call `augment(path)` that follows leaves fewer exposed vertices than before. -/
theorem construct_terminates (g : Graph) (hv : g.Valid) (junk : Nat → Node) :
    (∃ k, ∀ fuel, k ≤ fuel → ∃ m, Matching.construct fuel g junk = .ok m) ∧
    ∀ (wl : List Vertex) (path : Path) (m : Matching), MainState g wl path m →
      ∀ root, m.getMatchedVertex root = .ok (-1) →
        ∃ k, ∀ fuel, k ≤ fuel →
          ∃ r, Matching.findAugmentingPath fuel g m root path = .ok r ∧
            r.2.2.m_queue = [] ∧
            (r.1 = true → ∃ m2, Matching.augment r.2.1 r.2.2 = .ok m2 ∧
              m2.exposed.length < m.exposed.length) := by
  constructor
  · obtain ⟨k, m, e, _, _⟩ := construct_final hv junk
    exact ⟨k, fun fuel hf => ⟨m, e fuel hf⟩⟩
  · intro wl path m hs root hroot
    obtain ⟨inv, hnil, _⟩ := hs.inv hv rfl
    obtain ⟨hin, hexp⟩ := (getMatchedVertex_of_inv inv).mp hroot
    obtain ⟨k, r, e, out⟩ := findAugmentingPath_spec hv rfl inv hin hexp path
    refine ⟨k, fun fuel hf => ⟨r, findAugmentingPath_mono e hf, out.q, ?_⟩⟩
    intro ht
    rw [hnil] at out
    obtain ⟨haug, _, _, m2, ea, inv2, hp2⟩ := search_found hv out inv ht
    refine ⟨m2, ea, ?_⟩
    rw [exposed_length inv2.sized.mv, exposed_length inv.sized.mv, hp2]
    have := exposedSet_flip inv.pm haug
    omega

theorem construct_terminates_witness :
    (∃ k, ∀ fuel, k ≤ fuel → ∃ m, Matching.construct fuel pathGraph4 noJunk = .ok m) ∧
    ∀ (wl : List Vertex) (path : Path) (m : Matching), MainState pathGraph4 wl path m →
      ∀ root, m.getMatchedVertex root = .ok (-1) →
        ∃ k, ∀ fuel, k ≤ fuel →
          ∃ r, Matching.findAugmentingPath fuel pathGraph4 m root path = .ok r ∧
            r.2.2.m_queue = [] ∧
            (r.1 = true → ∃ m2, Matching.augment r.2.1 r.2.2 = .ok m2 ∧
              m2.exposed.length < m.exposed.length) :=
  construct_terminates pathGraph4 pathGraph4_valid noJunk

/-- C5. On the 28-vertex graph of `main` the constructor returns, whatever the
    uninitialised fields of the nodes hold, a matching with 14 matched pairs, all mutual and
    edges of the graph, and no exposed vertex; no list of pairwise disjoint edges of the graph
    has more edges than that.  The greedy pass alone leaves exactly the vertices 20 and 26
    exposed and puts them on the worklist. -/
theorem sampleGraph_maximum (junk : Nat → Node) :
    (∃ k, ∀ fuel, k ≤ fuel → ∃ m, Matching.construct fuel sampleGraph junk = .ok m ∧
      m.numMatchedPairs = 14 ∧ m.exposed = [] ∧ pairsOk sampleGraph m = true ∧
      ∀ es, sampleGraph.IsDisjointEdgeSet es → es.length ≤ m.numMatchedPairs) ∧
    ∃ mg, Matching.greedy sampleGraph junk = .ok ([20, 26], mg) ∧ mg.exposed = [20, 26] := by
  constructor
  · have hes : sampleGraph.IsDisjointEdgeSet sampleMatching := by decide!
    obtain ⟨k, h⟩ := construct_count sampleGraph_valid junk sampleMatching hes (by decide)
    refine ⟨k, fun fuel hf => ?_⟩
    obtain ⟨m, e, h1, h2, h3, h4⟩ := h fuel hf
    have h14 : sampleMatching.length = 14 := rfl
    have h28 : sampleGraph.m_adjacencyList.length = 28 := rfl
    rw [h14] at h1 h2
    rw [h28] at h2
    exact ⟨m, e, h1, List.length_eq_zero.mp (by omega), h3, h4⟩
  · have hg : (match Matching.greedy sampleGraph noJunk with
        | .ok (l, mg) => decide (l = [20, 26]) && decide (mg.exposed = [20, 26])
        | .error _ => false) = true := by decide!
    split at hg
    · rename_i l mg hgr
      simp only [Bool.and_eq_true, decide_eq_true_eq] at hg
      have := greedyLoop_tree (Matching.init sampleGraph junk).m_tree _ _ _ _ hgr
      refine ⟨{ mg with m_tree := (Matching.init sampleGraph junk).m_tree }, ?_, hg.2⟩
      rw [← hg.1]
      exact this
    · exact absurd hg (by simp)

theorem sampleGraph_maximum_witness :
    (∃ k, ∀ fuel, k ≤ fuel → ∃ m, Matching.construct fuel sampleGraph noJunk = .ok m ∧
      m.numMatchedPairs = 14 ∧ m.exposed = [] ∧ pairsOk sampleGraph m = true ∧
      ∀ es, sampleGraph.IsDisjointEdgeSet es → es.length ≤ m.numMatchedPairs) ∧
    ∃ mg, Matching.greedy sampleGraph noJunk = .ok ([20, 26], mg) ∧ mg.exposed = [20, 26] :=
  sampleGraph_maximum noJunk

/-- C6. On the 5-cycle `0-1-2-3-4-0`, in every order of the neighbours inside each adjacency
    list and whatever the uninitialised fields of the nodes hold, the constructor returns a
    matching with exactly two matched pairs and exactly one exposed vertex; the pairs are
    mutual and are edges. -/
theorem cycle5_two_pairs (g : Graph) (hg : SameNeighbours g cycle5) (junk : Nat → Node) :
    ∃ k, ∀ fuel, k ≤ fuel → ∃ m, Matching.construct fuel g junk = .ok m ∧
      m.numMatchedPairs = 2 ∧ m.exposed.length = 1 ∧ pairsOk g m = true := by
  obtain ⟨l0, l1, l2, l3, l4, rfl, h0, h1, h2, h3, h4⟩ := sameNeighbours_cycle5 hg
  have key : Graph.validB ⟨[l0, l1, l2, l3, l4]⟩ = true ∧
      Graph.IsDisjointEdgeSet ⟨[l0, l1, l2, l3, l4]⟩ [(0, 1), (2, 3)] := by
    rcases h0 with rfl | rfl <;> rcases h1 with rfl | rfl <;> rcases h2 with rfl | rfl <;>
      rcases h3 with rfl | rfl <;> rcases h4 with rfl | rfl <;> decide
  obtain ⟨k, h⟩ := construct_count (Graph.valid_of_validB key.1) junk _ key.2
    (by simp)
  refine ⟨k, fun fuel hf => ?_⟩
  obtain ⟨m, e, c1, c2, c3, _⟩ := h fuel hf
  simp only [List.length_cons, List.length_nil] at c1 c2
  exact ⟨m, e, c1, by omega, c3⟩

theorem cycle5_two_pairs_witness :
    ∃ k, ∀ fuel, k ≤ fuel → ∃ m, Matching.construct fuel cycle5 noJunk = .ok m ∧
      m.numMatchedPairs = 2 ∧ m.exposed.length = 1 ∧ pairsOk cycle5 m = true :=
  cycle5_two_pairs cycle5 (List.forall₂_same.mpr fun _ _ => List.Perm.refl _) noJunk

/-- C7. On the triangle `0-1, 1-2, 2-0`, in every order of the neighbours inside each
    adjacency list and whatever the uninitialised fields of the nodes hold, the constructor
    returns a matching with exactly one matched pair and exactly one exposed vertex; the pair
    is mutual and an edge. -/
theorem triangle_one_pair (g : Graph) (hg : SameNeighbours g triangle) (junk : Nat → Node) :
    ∃ k, ∀ fuel, k ≤ fuel → ∃ m, Matching.construct fuel g junk = .ok m ∧
      m.numMatchedPairs = 1 ∧ m.exposed.length = 1 ∧ pairsOk g m = true := by
  obtain ⟨l0, l1, l2, rfl, h0, h1, h2⟩ := sameNeighbours_triangle hg
  have key : Graph.validB ⟨[l0, l1, l2]⟩ = true ∧
      Graph.IsDisjointEdgeSet ⟨[l0, l1, l2]⟩ [(0, 1)] := by
    rcases h0 with rfl | rfl <;> rcases h1 with rfl | rfl <;> rcases h2 with rfl | rfl <;> decide
  obtain ⟨k, h⟩ := construct_count (Graph.valid_of_validB key.1) junk _ key.2
    (by simp)
  refine ⟨k, fun fuel hf => ?_⟩
  obtain ⟨m, e, c1, c2, c3, _⟩ := h fuel hf
  simp only [List.length_cons, List.length_nil] at c1 c2
  exact ⟨m, e, c1, by omega, c3⟩

theorem triangle_one_pair_witness :
    ∃ k, ∀ fuel, k ≤ fuel → ∃ m, Matching.construct fuel triangle noJunk = .ok m ∧
      m.numMatchedPairs = 1 ∧ m.exposed.length = 1 ∧ pairsOk triangle m = true :=
  triangle_one_pair triangle (List.forall₂_same.mpr fun _ _ => List.Perm.refl _) noJunk

/-- C8. For every valid graph the constructor returns a state in which every vertex whose
    adjacency list is empty has `getMatchedVertex(v) = -1`. -/
theorem construct_isolated_unmatched (g : Graph) (hv : g.Valid) (junk : Nat → Node) :
    ∃ k, ∀ fuel, k ≤ fuel → ∃ m, Matching.construct fuel g junk = .ok m ∧
      ∀ v, vget g.m_adjacencyList v = .ok [] → m.getMatchedVertex v = .ok (-1) := by
  obtain ⟨k, m, e, inv, _⟩ := construct_final hv junk
  refine ⟨k, fun fuel hf => ⟨m, e fuel hf, ?_⟩⟩
  intro v hadj
  obtain ⟨hin, hl⟩ := (vget_eq_ok []).mp hadj
  refine (getMatchedVertex_of_inv inv).mpr ⟨hin, ?_⟩
  by_contra hne
  have h := (inv.pm.adj v hin hne).2
  unfold lget at hl
  rw [if_pos hin.1] at hl
  rw [hl] at h
  simp at h

theorem construct_isolated_unmatched_witness :
    ∃ k, ∀ fuel, k ≤ fuel → ∃ m, Matching.construct fuel isolatedGraph noJunk = .ok m ∧
      ∀ v, vget isolatedGraph.m_adjacencyList v = .ok [] → m.getMatchedVertex v = .ok (-1) :=
  construct_isolated_unmatched isolatedGraph isolatedGraph_valid noJunk

/-- C9. For every valid graph, every state at the head of the main loop and every exposed
    root: when `findAugmentingPath(root, path)` is called with `path` empty and returns
    `true`, the path is an augmenting path of the current matching.  It has an even number of
    vertices, at least two, all distinct; its first vertex is exposed and differs from the
    root, its last vertex is the root, consecutive vertices are adjacent, and the vertices at
    the positions `2i + 1` and `2i + 2` are matched to each other.  The search has not
    changed the matching. -/
theorem findAugmentingPath_sound (g : Graph) (hv : g.Valid) (wl : List Vertex) (path : Path)
    (m : Matching) (hs : MainState g wl path m) (root : Vertex)
    (hroot : m.getMatchedVertex root = .ok (-1)) (k : Nat) (p : Path) (m1 : Matching)
    (h : Matching.findAugmentingPath k g m root [] = .ok (true, p, m1)) :
    m.IsAugmentingPath g p ∧ p.length % 2 = 0 ∧ 2 ≤ p.length ∧ p.Nodup ∧
      (∃ w, p.head? = some w ∧ m.getMatchedVertex w = .ok (-1) ∧ w ≠ root) ∧
      p.getLast? = some root ∧
      (∀ i a b, p[i]? = some a → p[i + 1]? = some b → g.Adj a b) ∧
      (∀ i a b, p[2 * i + 1]? = some a → p[2 * i + 2]? = some b →
        m.getMatchedVertex a = .ok b ∧ m.getMatchedVertex b = .ok a) ∧
      m1.m_matchedVertex = m.m_matchedVertex := by
  obtain ⟨inv, _, _⟩ := hs.inv hv rfl
  obtain ⟨hin, hexp⟩ := (getMatchedVertex_of_inv inv).mp hroot
  have out := search_out hv rfl inv hin hexp h
  obtain ⟨haug, hlast, ⟨w, p', hp, hw⟩, _⟩ := search_found hv out inv rfl
  have haug' : IsAugPath g g.m_adjacencyList.length m.partner p := haug
  have hlast' : p.getLast? = some root := hlast
  have hp' : p = w :: p' := hp
  have hmemIdx : ∀ (i : Nat) (a : Int), p[i]? = some a → a ∈ p := by
    intro i a hi
    obtain ⟨hlt, rfl⟩ := List.getElem?_eq_some.mp hi
    exact List.getElem_mem hlt
  refine ⟨haug, (haug'.shape inv.pm).1, haug'.length_pos, haug'.nodup, ⟨w, ?_, ?_, hw⟩, hlast',
    ?_, ?_, out.mv⟩
  · rw [hp']; rfl
  · refine (getMatchedVertex_of_inv inv).mpr ⟨haug'.inRange w (by rw [hp']; simp), ?_⟩
    exact haug'.head_exposed w (by rw [hp']; rfl)
  · intro i a b ha hb
    have := altChain_index i _ _ p a b haug'.alt ha hb
    rcases Nat.mod_two_eq_zero_or_one i with h0 | h1
    · exact (this.1 h0).1
    · exact (this.2 h1).1
  · intro i a b ha hb
    have := (altChain_index (2 * i + 1) _ _ p a b haug'.alt ha hb).2 (by omega)
    have hab : m.partner a = b := this.2
    have hain := haug'.inRange a (hmemIdx _ a ha)
    have hbin := haug'.inRange b (hmemIdx _ b hb)
    have hs' := inv.pm.symm a hain (by rw [hab]; exact inR_ne_neg hbin)
    rw [hab] at hs'
    exact ⟨(getMatchedVertex_of_inv inv).mpr ⟨hain, hab⟩,
      (getMatchedVertex_of_inv inv).mpr ⟨hbin, hs'⟩⟩

theorem findAugmentingPath_sound_witness :
    pathGraph4Start.IsAugmentingPath pathGraph4 [3, 1, 0, 2] ∧
      [3, 1, 0, (2 : Vertex)].length % 2 = 0 ∧ 2 ≤ [3, 1, 0, (2 : Vertex)].length ∧
      [3, 1, 0, (2 : Vertex)].Nodup ∧
      (∃ w, [3, 1, 0, (2 : Vertex)].head? = some w ∧
        pathGraph4Start.getMatchedVertex w = .ok (-1) ∧ w ≠ 2) ∧
      [3, 1, 0, (2 : Vertex)].getLast? = some 2 ∧
      (∀ i a b, [3, 1, 0, (2 : Vertex)][i]? = some a → [3, 1, 0, (2 : Vertex)][i + 1]? = some b →
        pathGraph4.Adj a b) ∧
      (∀ i a b, [3, 1, 0, (2 : Vertex)][2 * i + 1]? = some a →
        [3, 1, 0, (2 : Vertex)][2 * i + 2]? = some b →
        pathGraph4Start.getMatchedVertex a = .ok b ∧
          pathGraph4Start.getMatchedVertex b = .ok a) ∧
      pathGraph4Found.m_matchedVertex = pathGraph4Start.m_matchedVertex :=
  findAugmentingPath_sound pathGraph4 pathGraph4_valid [2, 3] [] pathGraph4Start
    (@MainState.start pathGraph4 noJunk [2, 3] pathGraph4Start (by decide)) 2 (by decide) 3 [3, 1, 0, 2] pathGraph4Found (by decide)

/-- C10. For every valid graph, every state at the head of the main loop and every exposed
    root: when `findAugmentingPath(root, path)`, called with `path` empty, returns `true`, the
    call `augment(path)` succeeds and the number of matched pairs grows by exactly one.  The
    root and the first vertex of the path are matched afterwards, every vertex matched before
    is still matched, every vertex off the path keeps its partner, and the partner map is
    mutual. -/
theorem augment_adds_one_pair (g : Graph) (hv : g.Valid) (wl : List Vertex) (path : Path)
    (m : Matching) (hs : MainState g wl path m) (root : Vertex)
    (hroot : m.getMatchedVertex root = .ok (-1)) (k : Nat) (p : Path) (m1 : Matching)
    (h : Matching.findAugmentingPath k g m root [] = .ok (true, p, m1)) :
    ∃ m2, Matching.augment p m1 = .ok m2 ∧
      m2.numMatchedPairs = m.numMatchedPairs + 1 ∧
      (∃ w, m2.getMatchedVertex root = .ok w ∧ w ≠ -1) ∧
      (∃ a w, p.head? = some a ∧ m2.getMatchedVertex a = .ok w ∧ w ≠ -1) ∧
      (∀ v w, m.getMatchedVertex v = .ok w → w ≠ -1 →
        ∃ w2, m2.getMatchedVertex v = .ok w2 ∧ w2 ≠ -1) ∧
      (∀ v, v ∉ p → m2.getMatchedVertex v = m.getMatchedVertex v) ∧
      (∀ v w, m2.getMatchedVertex v = .ok w → w ≠ -1 → m2.getMatchedVertex w = .ok v) := by
  obtain ⟨inv, _, _⟩ := hs.inv hv rfl
  obtain ⟨hin, hexp⟩ := (getMatchedVertex_of_inv inv).mp hroot
  have out := search_out hv rfl inv hin hexp h
  obtain ⟨haug, hlast, ⟨a, p', hp, _⟩, m2, ea, inv2, hp0⟩ := search_found hv out inv rfl
  have hp2 : m2.partner = flipPath m.partner p := hp0
  have haug' : IsAugPath g g.m_adjacencyList.length m.partner p := haug
  have hlast' : p.getLast? = some root := hlast
  have hp' : p = a :: p' := hp
  have hrootp : root ∈ p := List.mem_of_mem_getLast? hlast'
  have hap : a ∈ p := by rw [hp']; simp
  refine ⟨m2, ea, ?_, ?_, ?_, ?_, ?_, ?_⟩
  · have h1 := card_exposed_add_pairs hv inv.pm
    have h2 := card_exposed_add_pairs hv inv2.pm
    have h3 := exposedSet_flip inv.pm haug'
    rw [hp2] at h2
    rw [numMatchedPairs_eq inv2.sized.mv, numMatchedPairs_eq inv.sized.mv, hp2]
    omega
  · refine ⟨_, (getMatchedVertex_of_inv inv2).mpr ⟨hin, rfl⟩, ?_⟩
    rw [hp2]
    exact (flipPath_on inv.pm haug' hrootp).1
  · refine ⟨a, _, by rw [hp']; rfl,
      (getMatchedVertex_of_inv inv2).mpr ⟨haug'.inRange a hap, rfl⟩, ?_⟩
    rw [hp2]
    exact (flipPath_on inv.pm haug' hap).1
  · intro v w hvw hw
    obtain ⟨hvin, hpv⟩ := (getMatchedVertex_of_inv inv).mp hvw
    refine ⟨_, (getMatchedVertex_of_inv inv2).mpr ⟨hvin, rfl⟩, ?_⟩
    rw [hp2]
    exact flipPath_covered inv.pm haug' (by rw [hpv]; exact hw)
  · intro v hvp
    unfold Matching.getMatchedVertex
    have e1 : m2.m_matchedVertex.length = m.m_matchedVertex.length := by
      rw [inv2.sized.mv, inv.sized.mv]
    by_cases hvin : InR g.m_adjacencyList.length v
    · have h1 : InR m2.m_matchedVertex.length v := by rw [inv2.sized.mv]; exact hvin
      have h2 : InR m.m_matchedVertex.length v := by rw [inv.sized.mv]; exact hvin
      rw [vget_of_inR (-1) h1, vget_of_inR (-1) h2, ← partner_eq_lget, ← partner_eq_lget, hp2,
        flipPath_off hvp]
    · have h1 : ∀ (l : List Vertex), l.length = g.m_adjacencyList.length →
          vget l v = .error .range := by
        intro l hl
        unfold vget
        split
        · rename_i h0
          have : ¬ v.toNat < l.length := by
            rw [hl]
            intro hlt
            exact hvin ⟨h0, by omega⟩
          rw [List.get?_eq_none.mpr (by omega)]
        · rfl
      rw [h1 _ inv2.sized.mv, h1 _ inv.sized.mv]
  · intro v w hvw hw
    obtain ⟨hvin, hpv⟩ := (getMatchedVertex_of_inv inv2).mp hvw
    have hne : m2.partner v ≠ -1 := by rw [hpv]; exact hw
    have h1 := inv2.pm.inR v hvin hne
    have h2 := inv2.pm.symm v hvin hne
    rw [hpv] at h1 h2
    exact (getMatchedVertex_of_inv inv2).mpr ⟨h1, h2⟩

theorem augment_adds_one_pair_witness :
    ∃ m2, Matching.augment [3, 1, 0, 2] pathGraph4Found = .ok m2 ∧
      m2.numMatchedPairs = pathGraph4Start.numMatchedPairs + 1 ∧
      (∃ w, m2.getMatchedVertex 2 = .ok w ∧ w ≠ -1) ∧
      (∃ a w, [3, 1, 0, (2 : Vertex)].head? = some a ∧ m2.getMatchedVertex a = .ok w ∧
        w ≠ -1) ∧
      (∀ v w, pathGraph4Start.getMatchedVertex v = .ok w → w ≠ -1 →
        ∃ w2, m2.getMatchedVertex v = .ok w2 ∧ w2 ≠ -1) ∧
      (∀ v, v ∉ [3, 1, 0, (2 : Vertex)] →
        m2.getMatchedVertex v = pathGraph4Start.getMatchedVertex v) ∧
      (∀ v w, m2.getMatchedVertex v = .ok w → w ≠ -1 → m2.getMatchedVertex w = .ok v) :=
  augment_adds_one_pair pathGraph4 pathGraph4_valid [2, 3] [] pathGraph4Start
    (@MainState.start pathGraph4 noJunk [2, 3] pathGraph4Start (by decide)) 2 (by decide) 3 [3, 1, 0, 2] pathGraph4Found (by decide)

end Blossom

namespace Blossom

/-! ## The bootstrap pass, vertex by vertex -/

section
variable {g : Graph} {n : Nat}

theorem mem_lget_of_adj {v w : Vertex} (h : g.Adj v w) : w ∈ lget g.m_adjacencyList [] v := by
  unfold lget
  rw [if_pos h.1]
  exact h.2

/-- The inner loop of the bootstrap pass stops at the first exposed neighbour. -/
theorem greedyScan_find {m : Matching} (hs : m.Sized n) {v : Vertex} (hvin : InR n v) :
    ∀ ws : List Vertex, (∀ w ∈ ws, InR n w) →
      Matching.greedyScan v ws m =
        match ws.find? (fun w => decide (lget m.m_matchedVertex (-1) w = -1)) with
        | some w => .ok (true, { m with m_matchedVertex := lset (lset m.m_matchedVertex v w) w v })
        | none => .ok (false, m)
  | [], _ => rfl
  | w :: ws, hws => by
    have hwin : InR n w := hws w (by simp)
    have hget : vget m.m_matchedVertex w = .ok (lget m.m_matchedVertex (-1) w) :=
      vget_of_inR (-1) (by rw [hs.mv]; exact hwin)
    have hv' : InR m.m_matchedVertex.length v := by rw [hs.mv]; exact hvin
    have hw' : InR (lset m.m_matchedVertex v w).length w := by
      rw [length_lset, hs.mv]; exact hwin
    by_cases hw : lget m.m_matchedVertex (-1) w = -1
    · have hf : (w :: ws).find? (fun w => decide (lget m.m_matchedVertex (-1) w = -1)) = some w := by
        simp [List.find?, hw]
      rw [hf]
      simp only [Matching.greedyScan, hget, Matching.match_, vset_of_inR w hv']
      simp [hw, bind, Except.bind, pure, Except.pure, vset_of_inR v hw']
    · have hf : (w :: ws).find? (fun w => decide (lget m.m_matchedVertex (-1) w = -1)) =
          ws.find? (fun w => decide (lget m.m_matchedVertex (-1) w = -1)) := by
        simp [List.find?, hw]
      rw [hf, ← greedyScan_find hs hvin ws (fun x hx => hws x (by simp [hx]))]
      simp only [Matching.greedyScan, hget]
      simp [hw, bind, Except.bind]

/-- The outer loop of the bootstrap pass computes the fold of `greedyVisit`. -/
theorem greedyLoop_eq_pass (hv : g.Valid) (hn : g.m_adjacencyList.length = n) :
    ∀ (vs um : List Vertex) (m : Matching), m.Sized n → (∀ v ∈ vs, InR n v) →
      Matching.greedyLoop g vs um m =
        .ok ((greedyPass g vs (um, m.m_matchedVertex)).1,
          { m with m_matchedVertex := (greedyPass g vs (um, m.m_matchedVertex)).2 })
  | [], um, m, _, _ => rfl
  | v :: vs, um, m, hs, hin => by
    have hvin := hin v (by simp)
    have hvs : ∀ x ∈ vs, InR n x := fun x hx => hin x (by simp [hx])
    have hget : vget m.m_matchedVertex v = .ok (lget m.m_matchedVertex (-1) v) :=
      vget_of_inR (-1) (by rw [hs.mv]; exact hvin)
    have hadj : vget g.m_adjacencyList v = .ok (lget g.m_adjacencyList [] v) :=
      vget_of_inR [] (by rw [hn]; exact hvin)
    have hws : ∀ w ∈ lget g.m_adjacencyList [] v, InR n w := fun w hw => by
      rw [← hn]; exact hv.inRange v w (adj_of_mem_lget g hvin.1 hw)
    have hpass : greedyPass g (v :: vs) (um, m.m_matchedVertex) =
        greedyPass g vs (greedyVisit g (um, m.m_matchedVertex) v) := rfl
    rw [hpass]
    by_cases hexp : lget m.m_matchedVertex (-1) v = -1
    · have hscan := greedyScan_find hs hvin (lget g.m_adjacencyList [] v) hws
      simp only [Matching.greedyLoop, hget, hadj]
      cases hf : (lget g.m_adjacencyList [] v).find?
          (fun w => decide (lget m.m_matchedVertex (-1) w = -1)) with
      | none =>
        have e : greedyVisit g (um, m.m_matchedVertex) v = (um ++ [v], m.m_matchedVertex) := by
          simp [greedyVisit, firstExposed, hexp, hf]
        rw [e]
        rw [hf] at hscan
        simp only [bind, Except.bind, hexp, if_true, Bool.not_false, hscan]
        exact greedyLoop_eq_pass hv hn vs (um ++ [v]) m hs hvs
      | some w =>
        have e : greedyVisit g (um, m.m_matchedVertex) v =
            (um, lset (lset m.m_matchedVertex v w) w v) := by
          simp [greedyVisit, firstExposed, hexp, hf]
        rw [e]
        rw [hf] at hscan
        simp only [bind, Except.bind, hexp, if_true, Bool.not_true, Bool.false_eq_true, if_false,
          hscan]
        have hs' : Matching.Sized
            { m with m_matchedVertex := lset (lset m.m_matchedVertex v w) w v } n :=
          ⟨by simp [length_lset, hs.mv], hs.tree, hs.br⟩
        exact greedyLoop_eq_pass hv hn vs um _ hs' hvs
    · have e : greedyVisit g (um, m.m_matchedVertex) v = (um, m.m_matchedVertex) := by
        simp [greedyVisit, hexp]
      rw [e]
      simp only [Matching.greedyLoop, hget, bind, Except.bind, hexp, if_false]
      exact greedyLoop_eq_pass hv hn vs um m hs hvs

theorem firstExposed_some {mv : List Vertex} {v w : Vertex} (hv0 : 0 ≤ v)
    (h : firstExposed g mv v = some w) :
    lget mv (-1) v = -1 ∧ lget mv (-1) w = -1 ∧ g.Adj v w := by
  unfold firstExposed at h
  split at h
  · rename_i hexp
    refine ⟨hexp, ?_, adj_of_mem_lget g hv0 (List.mem_of_find?_eq_some h)⟩
    have := List.find?_some h
    exact of_decide_eq_true this
  · cases h

theorem firstExposed_none {mv : List Vertex} {v : Vertex} (hexp : lget mv (-1) v = -1)
    (h : firstExposed g mv v = none) : ∀ w, g.Adj v w → lget mv (-1) w ≠ -1 := by
  unfold firstExposed at h
  rw [if_pos hexp, List.find?_eq_none] at h
  intro w hw
  have := h w (mem_lget_of_adj hw)
  simpa using this

/-- One visit of the bootstrap pass keeps matched vertices as they are and keeps every
    worklist vertex exposed with all its neighbours matched. -/
theorem greedyVisit_spec (hv : g.Valid) (hn : g.m_adjacencyList.length = n)
    {s : List Vertex × List Vertex} (hl : s.2.length = n) (hp : PushedOk g s) {v : Vertex}
    (hvin : InR n v) :
    (greedyVisit g s v).2.length = n ∧ PushedOk g (greedyVisit g s v) ∧
      (∀ x, lget s.2 (-1) x ≠ -1 →
        lget (greedyVisit g s v).2 (-1) x = lget s.2 (-1) x) ∧
      ((greedyVisit g s v).1 = s.1 ++ [v] ∨
        ((greedyVisit g s v).1 = s.1 ∧ lget (greedyVisit g s v).2 (-1) v ≠ -1)) := by
  by_cases hexp : lget s.2 (-1) v = -1
  · cases hf : firstExposed g s.2 v with
    | none =>
      have e : greedyVisit g s v = (s.1 ++ [v], s.2) := by
        simp [greedyVisit, hexp, hf]
      rw [e]
      refine ⟨hl, ?_, fun _ _ => rfl, Or.inl rfl⟩
      intro x hx
      rcases List.mem_append.mp hx with h | h
      · exact hp x h
      · have : x = v := by simpa using h
        rw [this]
        exact ⟨hexp, firstExposed_none hexp hf⟩
    | some w =>
      have e : greedyVisit g s v = (s.1, lset (lset s.2 v w) w v) := by
        simp [greedyVisit, hexp, hf]
      obtain ⟨_, hwe, hadj⟩ := firstExposed_some hvin.1 hf
      have hwin : InR n w := by rw [← hn]; exact hv.inRange v w hadj
      have hv' : InR s.2.length v := by rw [hl]; exact hvin
      have hw' : InR (lset s.2 v w).length w := by rw [length_lset, hl]; exact hwin
      have hvw : v ≠ w := fun e' => hv.noLoop v (by rw [← e'] at hadj; exact hadj)
      have val : ∀ x, lget (lset (lset s.2 v w) w v) (-1) x =
          if x = w then v else if x = v then w else lget s.2 (-1) x := by
        intro x
        rw [lget_lset (-1) v hw', lget_lset (-1) w hv']
      rw [e]
      refine ⟨by simp [length_lset, hl], ?_, ?_, Or.inr ⟨rfl, ?_⟩⟩
      · intro x hx
        obtain ⟨hxe, hxn⟩ := hp x hx
        have hxw : x ≠ w := fun e' => hxn v (by rw [e']; exact hv.symm v w hadj) hexp
        have hxv : x ≠ v := fun e' => hxn w (by rw [e']; exact hadj) hwe
        constructor
        · show lget (lset (lset s.2 v w) w v) (-1) x = -1
          rw [val, if_neg hxw, if_neg hxv]; exact hxe
        · intro y hy
          show lget (lset (lset s.2 v w) w v) (-1) y ≠ -1
          rw [val]
          split
          · exact inR_ne_neg hvin
          · split
            · exact inR_ne_neg hwin
            · exact hxn y hy
      · intro x hx
        show lget (lset (lset s.2 v w) w v) (-1) x = lget s.2 (-1) x
        rw [val, if_neg (fun e' => hx (by rw [e']; exact hwe)),
          if_neg (fun e' => hx (by rw [e']; exact hexp))]
      · show lget (lset (lset s.2 v w) w v) (-1) v ≠ -1
        rw [val, if_neg hvw, if_pos rfl]
        exact inR_ne_neg hwin
  · have e : greedyVisit g s v = s := by simp [greedyVisit, hexp]
    rw [e]
    exact ⟨hl, hp, fun _ _ => rfl, Or.inr ⟨rfl, hexp⟩⟩

/-- The bootstrap pass over `vs`: the worklist grows by exactly the vertices of `vs` that
    are exposed at the end, in the order of `vs`. -/
theorem greedyPass_spec (hv : g.Valid) (hn : g.m_adjacencyList.length = n) :
    ∀ (vs : List Vertex) (s : List Vertex × List Vertex), s.2.length = n → PushedOk g s →
      (∀ v ∈ vs, InR n v) →
      (greedyPass g vs s).2.length = n ∧ PushedOk g (greedyPass g vs s) ∧
        (∀ x, lget s.2 (-1) x ≠ -1 → lget (greedyPass g vs s).2 (-1) x = lget s.2 (-1) x) ∧
        (greedyPass g vs s).1 =
          s.1 ++ vs.filter (fun x => decide (lget (greedyPass g vs s).2 (-1) x = -1))
  | [], s, hl, hp, _ => ⟨hl, hp, fun _ _ => rfl, by simp [greedyPass]⟩
  | v :: vs, s, hl, hp, hin => by
    have hvin := hin v (by simp)
    obtain ⟨l1, p1, k1, c1⟩ := greedyVisit_spec hv hn hl hp hvin
    obtain ⟨l2, p2, k2, c2⟩ := greedyPass_spec hv hn vs (greedyVisit g s v) l1 p1
      (fun x hx => hin x (by simp [hx]))
    have hpass : greedyPass g (v :: vs) s = greedyPass g vs (greedyVisit g s v) := rfl
    rw [hpass]
    refine ⟨l2, p2, fun x hx => ?_, ?_⟩
    · rw [k2 x (by rw [k1 x hx]; exact hx), k1 x hx]
    · rw [c2]
      rcases c1 with c1 | ⟨c1, hm⟩
      · have hvm : v ∈ (greedyPass g vs (greedyVisit g s v)).1 := by
          rw [c2, c1]; simp
        have := (p2 v hvm).1
        rw [c1, List.filter_cons_of_pos (by simpa using this)]
        simp
      · have := k2 v hm
        rw [c1, List.filter_cons_of_neg (by rw [this]; simpa using hm)]

theorem pushedOk_init (g : Graph) (mv : List Vertex) : PushedOk g ([], mv) := by
  intro x hx
  simp at hx

theorem inR_of_adj {v w : Vertex} (h : g.Adj v w) : InR g.m_adjacencyList.length v := by
  refine ⟨h.1, ?_⟩
  by_contra hlt
  have hw := h.2
  rw [List.getD_eq_getElem?_getD, List.getElem?_eq_none (by omega)] at hw
  simp at hw

theorem vertices_pairwise (g : Graph) : g.vertices.Pairwise (· < ·) := by
  unfold Graph.vertices
  rw [List.pairwise_map]
  exact (List.pairwise_lt_range _).imp (fun h => Int.ofNat_lt.mpr h)

/-- The bootstrap pass up to any point of the vertex order, and from there to the end. -/
theorem greedy_split (hv : g.Valid) (junk : Nat → Node) (pre post : List Vertex)
    (hsplit : g.vertices = pre ++ post) :
    ∃ s1 s2 : List Vertex × List Vertex,
      s1 = greedyPass g pre ([], (Matching.init g junk).m_matchedVertex) ∧
      s2 = greedyPass g post s1 ∧
      Matching.greedyLoop g pre [] (Matching.init g junk) =
        .ok (s1.1, { Matching.init g junk with m_matchedVertex := s1.2 }) ∧
      Matching.greedyLoop g post s1.1 { Matching.init g junk with m_matchedVertex := s1.2 } =
        .ok (s2.1, { Matching.init g junk with m_matchedVertex := s2.2 }) ∧
      Matching.greedy g junk = .ok (s2.1, { Matching.init g junk with m_matchedVertex := s2.2 }) ∧
      s1.2.length = g.m_adjacencyList.length ∧ PushedOk g s1 ∧
      s2.2.length = g.m_adjacencyList.length ∧ PushedOk g s2 ∧
      (∀ x, lget s1.2 (-1) x ≠ -1 → lget s2.2 (-1) x = lget s1.2 (-1) x) ∧
      s2.1 = s1.1 ++ post.filter (fun x => decide (lget s2.2 (-1) x = -1)) ∧
      s1.1 = pre.filter (fun x => decide (lget s1.2 (-1) x = -1)) := by
  have hs0 := (init_minv g junk).sized
  have hin : ∀ x ∈ g.vertices, InR g.m_adjacencyList.length x := fun x hx => mem_vertices.mp hx
  have hpre : ∀ x ∈ pre, InR g.m_adjacencyList.length x := fun x hx =>
    hin x (by rw [hsplit]; simp [hx])
  have hpost : ∀ x ∈ post, InR g.m_adjacencyList.length x := fun x hx =>
    hin x (by rw [hsplit]; simp [hx])
  obtain ⟨l1, p1, _, c1⟩ := greedyPass_spec hv rfl pre
    ([], (Matching.init g junk).m_matchedVertex) hs0.mv (pushedOk_init g _) hpre
  obtain ⟨l2, p2, k2, c2⟩ := greedyPass_spec hv rfl post _ l1 p1 hpost
  have hs1 : Matching.Sized { Matching.init g junk with
      m_matchedVertex := (greedyPass g pre ([], (Matching.init g junk).m_matchedVertex)).2 }
      g.m_adjacencyList.length := ⟨l1, hs0.tree, hs0.br⟩
  have e1 := greedyLoop_eq_pass hv rfl pre [] (Matching.init g junk) hs0 hpre
  have e2 := greedyLoop_eq_pass hv rfl post
    (greedyPass g pre ([], (Matching.init g junk).m_matchedVertex)).1 _ hs1 hpost
  have e3 := greedyLoop_eq_pass hv rfl g.vertices [] (Matching.init g junk) hs0 hin
  have hcomp : greedyPass g g.vertices ([], (Matching.init g junk).m_matchedVertex) =
      greedyPass g post (greedyPass g pre ([], (Matching.init g junk).m_matchedVertex)) := by
    rw [hsplit]
    exact List.foldl_append _ _ _ _
  refine ⟨_, _, rfl, rfl, e1, e2, ?_, l1, p1, l2, p2, k2, c2, by simpa using c1⟩
  unfold Matching.greedy
  rw [e3, hcomp]

theorem greedyVisit_some (hv : g.Valid) (hn : g.m_adjacencyList.length = n)
    {s : List Vertex × List Vertex} (hl : s.2.length = n) {v w : Vertex} (hvin : InR n v)
    (hf : firstExposed g s.2 v = some w) :
    lget (greedyVisit g s v).2 (-1) v = w ∧ lget (greedyVisit g s v).2 (-1) w = v ∧
      InR n w := by
  obtain ⟨hexp, _, hadj⟩ := firstExposed_some hvin.1 hf
  have e : greedyVisit g s v = (s.1, lset (lset s.2 v w) w v) := by
    simp [greedyVisit, hexp, hf]
  have hwin : InR n w := by rw [← hn]; exact hv.inRange v w hadj
  have hv' : InR s.2.length v := by rw [hl]; exact hvin
  have hw' : InR (lset s.2 v w).length w := by rw [length_lset, hl]; exact hwin
  have hvw : v ≠ w := fun e' => hv.noLoop v (by rw [← e'] at hadj; exact hadj)
  rw [e]
  refine ⟨?_, ?_, hwin⟩
  · show lget (lset (lset s.2 v w) w v) (-1) v = w
    rw [lget_lset (-1) v hw', lget_lset (-1) w hv', if_neg hvw, if_pos rfl]
  · show lget (lset (lset s.2 v w) w v) (-1) w = v
    rw [lget_lset (-1) v hw', if_pos rfl]

theorem greedyVisit_none {s : List Vertex × List Vertex} {v : Vertex}
    (hexp : lget s.2 (-1) v = -1) (hf : firstExposed g s.2 v = none) :
    greedyVisit g s v = (s.1 ++ [v], s.2) := by
  simp [greedyVisit, hexp, hf]

/-- C12. For every valid graph the bootstrap pass returns a maximal matching: partners are
    vertices, mutual and adjacent, and no edge of the graph has both ends exposed.  At the
    visit of each vertex `v` in id order: when `v` is exposed and `w` is the first neighbour
    in its list that is exposed at that moment, `v` and `w` are partners at the end of the
    pass; when `v` is exposed and no neighbour is, `v` is exposed at the end of the pass and
    is on the worklist; when `v` is matched, it keeps its partner. -/
theorem greedy_maximal (g : Graph) (hv : g.Valid) (junk : Nat → Node) :
    ∃ wl m, Matching.greedy g junk = .ok (wl, m) ∧
      (∀ v, InR g.m_adjacencyList.length v → m.partner v ≠ -1 →
        InR g.m_adjacencyList.length (m.partner v) ∧ m.partner (m.partner v) = v ∧
          g.Adj v (m.partner v)) ∧
      (∀ v w, g.Adj v w → ¬ (m.partner v = -1 ∧ m.partner w = -1)) ∧
      ∀ pre v post, g.vertices = pre ++ v :: post →
        ∃ um m0, Matching.greedyLoop g pre [] (Matching.init g junk) = .ok (um, m0) ∧
          (∀ w, firstExposed g m0.m_matchedVertex v = some w →
            m.partner v = w ∧ m.partner w = v) ∧
          (m0.partner v = -1 → firstExposed g m0.m_matchedVertex v = none →
            m.partner v = -1 ∧ v ∈ wl) ∧
          (m0.partner v ≠ -1 → m.partner v = m0.partner v) := by
  obtain ⟨wl, m, e, inv, _⟩ := greedy_spec hv rfl junk
  obtain ⟨s1, s2, hs1, _, _, _, e', _, _, l2, p2, _, c2, _⟩ :=
    greedy_split hv junk [] g.vertices (by simp)
  have h0 : s1.1 = [] := by rw [hs1]; rfl
  rw [e] at e'
  have ewl : wl = s2.1 := congrArg Prod.fst (Except.ok.inj e')
  have em : m.m_matchedVertex = s2.2 := congrArg Matching.m_matchedVertex
    (congrArg Prod.snd (Except.ok.inj e'))
  refine ⟨wl, m, e, fun v hin hne => ⟨inv.pm.inR v hin hne, inv.pm.symm v hin hne,
    inv.pm.adj v hin hne⟩, ?_, ?_⟩
  · rintro v w hadj ⟨h1, h2⟩
    have hvin := inR_of_adj hadj
    have hmem : v ∈ s2.1 := by
      rw [c2, h0, List.nil_append]
      refine List.mem_filter.mpr ⟨mem_vertices.mpr hvin, ?_⟩
      rw [← em]
      exact decide_eq_true h1
    have := (p2 v hmem).2 w hadj
    rw [← em] at this
    exact this h2
  · intro pre v post hsplit
    obtain ⟨t1, t2, ht1, ht2, f1, _, f3, k1, q1, _, _, _, _, _⟩ :=
      greedy_split hv junk pre (v :: post) hsplit
    rw [e] at f3
    have em2 : m.m_matchedVertex = t2.2 := congrArg Matching.m_matchedVertex
      (congrArg Prod.snd (Except.ok.inj f3))
    have ewl2 : wl = t2.1 := congrArg Prod.fst (Except.ok.inj f3)
    have hvin : InR g.m_adjacencyList.length v :=
      mem_vertices.mp (by rw [hsplit]; simp)
    have hpost : ∀ x ∈ post, InR g.m_adjacencyList.length x := fun x hx =>
      mem_vertices.mp (by rw [hsplit]; simp [hx])
    obtain ⟨a1, a2, a3, _⟩ := greedyVisit_spec hv rfl k1 q1 hvin
    obtain ⟨_, b2, b3, b4⟩ := greedyPass_spec hv rfl post (greedyVisit g t1 v) a1 a2 hpost
    have ht2' : t2 = greedyPass g post (greedyVisit g t1 v) := ht2
    rw [← ht2'] at b2 b3 b4
    refine ⟨t1.1, _, f1, ?_, ?_, ?_⟩
    · intro w hf
      have hf' : firstExposed g t1.2 v = some w := hf
      obtain ⟨c1, c2', hwin⟩ := greedyVisit_some hv rfl k1 hvin hf'
      have d1 := b3 v (by rw [c1]; exact inR_ne_neg hwin)
      have d2 := b3 w (by rw [c2']; exact inR_ne_neg hvin)
      rw [c1] at d1
      rw [c2'] at d2
      simp only [partner_eq_lget, em2]
      exact ⟨d1, d2⟩
    · intro hexp hf
      have hexp' : lget t1.2 (-1) v = -1 := hexp
      have hf' : firstExposed g t1.2 v = none := hf
      have hmem : v ∈ t2.1 := by
        rw [b4, greedyVisit_none hexp' hf']
        simp
      refine ⟨?_, by rw [ewl2]; exact hmem⟩
      simp only [partner_eq_lget, em2]
      exact (b2 v hmem).1
    · intro hne
      have hne' : lget t1.2 (-1) v ≠ -1 := hne
      have := b3 v (by rw [a3 v hne']; exact hne')
      simp only [partner_eq_lget, em2]
      rw [this, a3 v hne']

theorem greedy_maximal_witness :
    ∃ wl m, Matching.greedy cycle5 noJunk = .ok (wl, m) ∧
      (∀ v, InR cycle5.m_adjacencyList.length v → m.partner v ≠ -1 →
        InR cycle5.m_adjacencyList.length (m.partner v) ∧ m.partner (m.partner v) = v ∧
          cycle5.Adj v (m.partner v)) ∧
      (∀ v w, cycle5.Adj v w → ¬ (m.partner v = -1 ∧ m.partner w = -1)) ∧
      ∀ pre v post, cycle5.vertices = pre ++ v :: post →
        ∃ um m0, Matching.greedyLoop cycle5 pre [] (Matching.init cycle5 noJunk) = .ok (um, m0) ∧
          (∀ w, firstExposed cycle5 m0.m_matchedVertex v = some w →
            m.partner v = w ∧ m.partner w = v) ∧
          (m0.partner v = -1 → firstExposed cycle5 m0.m_matchedVertex v = none →
            m.partner v = -1 ∧ v ∈ wl) ∧
          (m0.partner v ≠ -1 → m.partner v = m0.partner v) :=
  greedy_maximal cycle5 cycle5_valid noJunk

/-- C13. For every valid graph the worklist built by the bootstrap pass is the list of the
    vertices that are exposed at the end of the pass, in increasing id order and without
    repetition.  At every point of the pass the worklist built so far is an initial part of
    the final worklist, so that no vertex pushed to it is matched later in the pass, and no
    vertex left exposed is missing from it. -/
theorem greedy_worklist_exact (g : Graph) (hv : g.Valid) (junk : Nat → Node) :
    ∃ wl m, Matching.greedy g junk = .ok (wl, m) ∧ wl = m.exposed ∧
      wl.Pairwise (· < ·) ∧ wl.Nodup ∧
      (∀ x, x ∈ wl ↔ m.getMatchedVertex x = .ok (-1)) ∧
      ∀ pre post, g.vertices = pre ++ post →
        ∃ um m0, Matching.greedyLoop g pre [] (Matching.init g junk) = .ok (um, m0) ∧
          Matching.greedyLoop g post um m0 = .ok (wl, m) ∧ um <+: wl ∧
          ∀ x ∈ um, m0.partner x = -1 ∧ m.partner x = -1 := by
  obtain ⟨wl, m, e, inv, _⟩ := greedy_spec hv rfl junk
  obtain ⟨s1, s2, hs1, _, _, _, e', _, _, l2, p2, _, c2, _⟩ :=
    greedy_split hv junk [] g.vertices (by simp)
  have h0 : s1.1 = [] := by rw [hs1]; rfl
  rw [e] at e'
  have ewl : wl = s2.1 := congrArg Prod.fst (Except.ok.inj e')
  have em : m.m_matchedVertex = s2.2 := congrArg Matching.m_matchedVertex
    (congrArg Prod.snd (Except.ok.inj e'))
  have hexp : wl = m.exposed := by
    rw [ewl, c2, h0, List.nil_append]
    unfold Matching.exposed Graph.vertices
    rw [inv.sized.mv]
    simp only [partner_eq_lget, em]
  have hsorted : wl.Pairwise (· < ·) := by
    rw [ewl, c2, h0, List.nil_append]
    exact (vertices_pairwise g).sublist (List.filter_sublist _)
  refine ⟨wl, m, e, hexp, hsorted, hsorted.imp (fun h => ne_of_lt h), ?_, ?_⟩
  · intro x
    rw [getMatchedVertex_eq_ok, inv.sized.mv, ewl, c2, h0, List.nil_append, List.mem_filter,
      mem_vertices, partner_eq_lget, em]
    simp
  · intro pre post hsplit
    obtain ⟨t1, t2, _, _, f1, f2, f3, _, q1, _, q2, _, d2, _⟩ :=
      greedy_split hv junk pre post hsplit
    rw [e] at f3
    have h3 := Except.ok.inj f3
    rw [← h3] at f2
    have ewl2 : wl = t2.1 := congrArg Prod.fst h3
    have em2 : m.m_matchedVertex = t2.2 := congrArg Matching.m_matchedVertex
      (congrArg Prod.snd h3)
    refine ⟨t1.1, _, f1, f2, ?_, ?_⟩
    · rw [ewl2, d2]
      exact List.prefix_append _ _
    · intro x hx
      refine ⟨(q1 x hx).1, ?_⟩
      simp only [partner_eq_lget, em2]
      exact (q2 x (by rw [d2]; simp [hx])).1

theorem greedy_worklist_exact_witness :
    ∃ wl m, Matching.greedy triangle noJunk = .ok (wl, m) ∧ wl = m.exposed ∧
      wl.Pairwise (· < ·) ∧ wl.Nodup ∧
      (∀ x, x ∈ wl ↔ m.getMatchedVertex x = .ok (-1)) ∧
      ∀ pre post, triangle.vertices = pre ++ post →
        ∃ um m0, Matching.greedyLoop triangle pre [] (Matching.init triangle noJunk) =
            .ok (um, m0) ∧
          Matching.greedyLoop triangle post um m0 = .ok (wl, m) ∧ um <+: wl ∧
          ∀ x ∈ um, m0.partner x = -1 ∧ m.partner x = -1 :=
  greedy_worklist_exact triangle triangle_valid noJunk

end

end Blossom

namespace Blossom

/-! ## A root whose search has failed -/

section
variable {g : Graph} {n : Nat}

/-- An exposed stuck vertex lies on no augmenting path: it is still exposed and stuck after
    the path has been flipped. -/
theorem stuck_exposed_flip (hv : g.Valid) {pt : Vertex → Vertex} (hpm : IsPartnerMap g n pt)
    {r : Vertex} (hst : Stuck g n pt r) (hexp : pt r = -1) {p : Path}
    (hp : IsAugPath g n pt p) :
    flipPath pt p r = -1 ∧ Stuck g n (flipPath pt p) r := by
  have hnot : r ∉ p := by
    intro hrp
    obtain ⟨T, h1, h2, h3⟩ := hst
    refine h3 (flipPath pt p) (flipPath_partnerMap hv hpm hp) ?_
    intro x hx
    by_cases hxr : x = r
    · rw [hxr]; exact (flipPath_on hpm hp hrp).1
    · exact flipPath_covered hpm hp (h2 x hx hxr)
  refine ⟨by rw [flipPath_off hnot]; exact hexp, hst.mono fun x hx => flipPath_covered hpm hp hx⟩

/-- No run of the main loop matches a vertex that is exposed and stuck. -/
theorem mainLoop_keeps_stuck (hv : g.Valid) (hn : g.m_adjacencyList.length = n) {x : Vertex} :
    ∀ (wl : List Vertex) (m : Matching), MInv g n m → (∀ v ∈ wl, InR n v) →
      m.partner x = -1 → Stuck g n m.partner x →
      ∀ (k : Nat) (r : Path × Matching), Matching.mainLoop k g wl [] m = .ok r →
        r.2.partner x = -1 ∧ Stuck g n r.2.partner x ∧ MInv g n r.2
  | [], m, inv, _, hx, hst, k, r, h => by
    simp only [Matching.mainLoop] at h
    cases h
    exact ⟨hx, hst, inv⟩
  | v :: vs, m, inv, hin, hx, hst, k, r, h => by
    have hvin := hin v (by simp)
    have hvs : ∀ y ∈ vs, InR n y := fun y hy => hin y (by simp [hy])
    simp only [Matching.mainLoop, bind_eq_ok] at h
    obtain ⟨mv, hget, h⟩ := h
    split at h
    · rename_i hmv
      have hexp : m.partner v = -1 := by
        rw [← hmv]; exact ((vget_eq_ok (-1)).mp hget).2
      simp only [bind_eq_ok] at h
      obtain ⟨r1, e1, h⟩ := h
      have out := search_out hv hn inv hvin hexp e1
      split at h
      · rename_i hfound
        obtain ⟨haug, _, _, m2, ea, inv2, hp2⟩ := search_found hv out inv hfound
        simp only [bind_eq_ok] at h
        obtain ⟨m2', ea', h⟩ := h
        rw [ea] at ea'
        cases ea'
        obtain ⟨f1, f2⟩ := stuck_exposed_flip hv inv.pm hst hx haug
        exact mainLoop_keeps_stuck hv hn vs m2 inv2 hvs (by rw [hp2]; exact f1)
          (by rw [hp2]; exact f2) k r h
      · rename_i hfound
        have hfalse : r1.1 = false := by
          cases h' : r1.1
          · rfl
          · exact absurd h' hfound
        obtain ⟨hpath, inv2, hp2, _⟩ := search_fail hv out inv hfalse
        rw [hpath] at h
        exact mainLoop_keeps_stuck hv hn vs r1.2.2 inv2 hvs (by rw [hp2]; exact hx)
          (by rw [hp2]; exact hst) k r h
    · exact mainLoop_keeps_stuck hv hn vs m inv hvs hx hst k r h

/-- Every state at the head of the main loop lies on a run of the constructor: whatever the
    loop returns from there is what the constructor returns. -/
theorem MainState.completes {wl : List Vertex} {path : Path} {m : Matching}
    (h : MainState g wl path m) :
    ∃ junk : Nat → Node, ∀ (k : Nat) (r : Path × Matching),
      Matching.mainLoop k g wl path m = .ok r → ∃ k', Matching.construct k' g junk = .ok r.2 := by
  induction h with
  | @start junk wl m hg =>
    refine ⟨junk, fun k r hr => ⟨k, ?_⟩⟩
    simp only [Matching.construct, bind_eq_ok]
    exact ⟨_, hg, r, hr, rfl⟩
  | @skip v mv vs path m _ hget hne ih =>
    obtain ⟨junk, ih⟩ := ih
    refine ⟨junk, fun k r hr => ih k r ?_⟩
    simp only [Matching.mainLoop, bind_eq_ok]
    exact ⟨mv, hget, by rw [if_neg hne]; exact hr⟩
  | @found v vs path path1 m m1 m2 k0 _ hget hsearch haug ih =>
    obtain ⟨junk, ih⟩ := ih
    refine ⟨junk, fun k r hr => ih (max k0 k) r ?_⟩
    simp only [Matching.mainLoop, bind_eq_ok]
    refine ⟨-1, hget, ?_⟩
    rw [if_pos rfl]
    simp only [bind_eq_ok]
    refine ⟨_, findAugmentingPath_mono hsearch (le_max_left _ _), ?_⟩
    simp only [if_true, bind_eq_ok]
    exact ⟨m2, haug, mainLoop_mono hr (le_max_right _ _)⟩
  | @notFound v vs path path1 m m1 k0 _ hget hsearch ih =>
    obtain ⟨junk, ih⟩ := ih
    refine ⟨junk, fun k r hr => ih (max k0 k) r ?_⟩
    simp only [Matching.mainLoop, bind_eq_ok]
    refine ⟨-1, hget, ?_⟩
    rw [if_pos rfl]
    simp only [bind_eq_ok]
    refine ⟨_, findAugmentingPath_mono hsearch (le_max_left _ _), ?_⟩
    simp only [Bool.false_eq_true, if_false]
    exact mainLoop_mono hr (le_max_right _ _)

/-- C11. For every valid graph, every state at the head of the main loop and every worklist
    vertex `root` that is exposed there: when `findAugmentingPath(root)` returns `false`,
    `root` is exposed after every later part of the loop, whatever augmentations it makes,
    and the constructor, of whose run the state is a part, returns a matching with
    `getMatchedVertex(root) = -1`. -/
theorem failed_root_stays_exposed (g : Graph) (hv : g.Valid) (root : Vertex)
    (vs : List Vertex) (path : Path) (m : Matching) (hs : MainState g (root :: vs) path m)
    (hroot : m.getMatchedVertex root = .ok (-1)) (k : Nat) (path1 : Path) (m1 : Matching)
    (hf : Matching.findAugmentingPath k g m root path = .ok (false, path1, m1)) :
    (∀ (vs1 vs2 : List Vertex) (fuel : Nat) (r : Path × Matching), vs = vs1 ++ vs2 →
      Matching.mainLoop fuel g vs1 path1 m1 = .ok r → r.2.getMatchedVertex root = .ok (-1)) ∧
    ∃ (junk : Nat → Node) (k' : Nat), ∀ fuel, k' ≤ fuel →
      ∃ mfin, Matching.construct fuel g junk = .ok mfin ∧
        mfin.getMatchedVertex root = .ok (-1) := by
  obtain ⟨inv, hnil, hin⟩ := hs.inv hv rfl
  obtain ⟨hrin, hexp⟩ := (getMatchedVertex_of_inv inv).mp hroot
  have out := search_out hv rfl inv hrin hexp hf
  obtain ⟨hpath, inv1, hp1, hst⟩ := search_fail hv out inv rfl
  have hpath1 : path1 = [] := by rw [← hnil]; exact hpath
  have hx1 : m1.partner root = -1 := by
    have : m1.partner = m.partner := hp1
    rw [this]; exact hexp
  have hst1 : Stuck g g.m_adjacencyList.length m1.partner root := by
    have : m1.partner = m.partner := hp1
    rw [this]; exact hst
  have inv1' : MInv g g.m_adjacencyList.length m1 := inv1
  have hvs : ∀ y ∈ vs, InR g.m_adjacencyList.length y := fun y hy => hin y (by simp [hy])
  constructor
  · intro vs1 vs2 fuel r hsplit hr
    rw [hpath1] at hr
    obtain ⟨h1, _, inv2⟩ := mainLoop_keeps_stuck hv rfl vs1 m1 inv1'
      (fun y hy => hvs y (by rw [hsplit]; simp [hy])) hx1 hst1 fuel r hr
    exact (getMatchedVertex_of_inv inv2).mpr ⟨hrin, h1⟩
  · obtain ⟨k2, r, e2, _, _, _, _⟩ := mainLoop_spec hv rfl vs m1 inv1' hvs
    obtain ⟨h1, _, inv2⟩ := mainLoop_keeps_stuck hv rfl vs m1 inv1' hvs hx1 hst1 k2 r e2
    obtain ⟨junk, hc⟩ := (MainState.notFound hs ((getMatchedVertex_of_inv inv).mpr
      ⟨hrin, hexp⟩) hf).completes
    obtain ⟨k', e'⟩ := hc k2 r (by rw [hpath1]; exact e2)
    exact ⟨junk, k', fun fuel hfuel => ⟨r.2, construct_mono e' hfuel,
      (getMatchedVertex_of_inv inv2).mpr ⟨hrin, h1⟩⟩⟩

theorem failed_root_stays_exposed_witness :
    (∀ (vs1 vs2 : List Vertex) (fuel : Nat) (r : Path × Matching), [] = vs1 ++ vs2 →
      Matching.mainLoop fuel triangle vs1 [] triangleFailed = .ok r →
        r.2.getMatchedVertex 2 = .ok (-1)) ∧
    ∃ (junk : Nat → Node) (k' : Nat), ∀ fuel, k' ≤ fuel →
      ∃ mfin, Matching.construct fuel triangle junk = .ok mfin ∧
        mfin.getMatchedVertex 2 = .ok (-1) :=
  failed_root_stays_exposed triangle triangle_valid 2 [] [] triangleStart
    (@MainState.start triangle noJunk [2] triangleStart (by decide)) (by decide) 4 []
    triangleFailed (by decide)

end

end Blossom

namespace Blossom

/-! ## What a search leaves untouched -/

theorem find_mv : ∀ (k : Nat) (m : Matching) (x : Int) (r : Int × Matching),
    Matching.find k m x = .ok r → r.2.m_matchedVertex = m.m_matchedVertex
  | 0, _, _, _, h => by simp [Matching.find] at h
  | k + 1, m, x, r, h => by
    simp only [Matching.find, bind_eq_ok] at h
    obtain ⟨nx, _, h⟩ := h
    split at h
    · cases h; rfl
    · split at h
      · simp only [bind_eq_ok] at h
        obtain ⟨r1, e1, n1, _, t2, _, n2, _, h⟩ := h
        cases h
        exact find_mv k m _ r1 e1
      · cases h; rfl

theorem makeUnion_mv {k : Nat} {m m' : Matching} {x y : Int}
    (h : Matching.makeUnion k m x y = .ok m') : m'.m_matchedVertex = m.m_matchedVertex := by
  simp only [Matching.makeUnion, bind_eq_ok] at h
  obtain ⟨a, h1, b, h2, n, _, t, _, h⟩ := h
  cases h
  exact (find_mv _ _ _ _ h2).trans (find_mv _ _ _ _ h1)

theorem makeRepresentative_mv {k : Nat} {m m' : Matching} {x : Int}
    (h : Matching.makeRepresentative k m x = .ok m') :
    m'.m_matchedVertex = m.m_matchedVertex := by
  simp only [Matching.makeRepresentative, bind_eq_ok] at h
  obtain ⟨a, h1, n, _, t, _, n', _, t2, _, h⟩ := h
  cases h
  exact find_mv _ _ _ _ h1

theorem extendTree_mv {m m' : Matching} {v w : Vertex}
    (h : m.extendTree v w = .ok m') : m'.m_matchedVertex = m.m_matchedVertex := by
  simp only [Matching.extendTree, bind_eq_ok] at h
  obtain ⟨_, _, _, _, _, _, _, _, _, _, _, _, _, _, _, _, h⟩ := h
  cases h
  rfl

theorem findCommonAncestor_mv : ∀ (k : Nat) (m : Matching) (v w : Vertex)
    (r : Vertex × Matching), Matching.findCommonAncestor k m v w = .ok r →
      r.2.m_matchedVertex = m.m_matchedVertex
  | 0, _, _, _, _, h => by simp [Matching.findCommonAncestor] at h
  | k + 1, m, v, w, r, h => by
    simp only [Matching.findCommonAncestor] at h
    split at h
    · simp only [bind_eq_ok] at h
      obtain ⟨nv, _, nw, _, h⟩ := h
      split at h
      · exact findCommonAncestor_mv k m _ _ r h
      · exact findCommonAncestor_mv k m _ _ r h
    · exact find_mv _ _ _ _ h

theorem shrinkPathLoop_mv : ∀ (k : Nat) (m : Matching) (b v w u : Vertex) (m' : Matching),
    Matching.shrinkPathLoop k m b v w u = .ok m' → m'.m_matchedVertex = m.m_matchedVertex
  | 0, _, _, _, _, _, _, h => by simp [Matching.shrinkPathLoop] at h
  | k + 1, m, b, v, w, u, m', h => by
    simp only [Matching.shrinkPathLoop] at h
    split at h
    · simp only [bind_eq_ok] at h
      obtain ⟨m1, e1, h⟩ := h
      split at h
      · cases h
      · simp only [bind_eq_ok] at h
        obtain ⟨mu, _, h⟩ := h
        split at h
        · cases h
        · simp only [bind_eq_ok] at h
          obtain ⟨u1, _, m2, e2, m3, e3, br, _, nu, _, r6, e6, h⟩ := h
          have h6 := shrinkPathLoop_mv k r6.2 b v w r6.1 m' h
          have h5 := find_mv _ _ _ _ e6
          rw [h6, h5]
          exact (makeRepresentative_mv e3).trans ((makeUnion_mv e2).trans (makeUnion_mv e1))
    · cases h; rfl

theorem shrinkPath_mv {k : Nat} {m m' : Matching} {b v w : Vertex}
    (h : Matching.shrinkPath k m b v w = .ok m') : m'.m_matchedVertex = m.m_matchedVertex := by
  simp only [Matching.shrinkPath, bind_eq_ok] at h
  obtain ⟨r, e1, h⟩ := h
  exact (shrinkPathLoop_mv _ _ _ _ _ _ _ h).trans (find_mv _ _ _ _ e1)

theorem shrinkBlossom_mv {k : Nat} {m m' : Matching} {v w : Vertex}
    (h : Matching.shrinkBlossom k m v w = .ok m') : m'.m_matchedVertex = m.m_matchedVertex := by
  simp only [Matching.shrinkBlossom, bind_eq_ok] at h
  obtain ⟨r, e1, m2, e2, h⟩ := h
  exact (shrinkPath_mv h).trans ((shrinkPath_mv e2).trans (findCommonAncestor_mv _ _ _ _ _ e1))

/-- One call of `examineEdge` does not write `m_matchedVertex`, and writes the path only
    when it returns `true`. -/
theorem examineEdge_frame {k : Nat} {m : Matching} {root v w : Vertex} {path : Path}
    {r : Bool × Path × Matching} (h : Matching.examineEdge k m root v w path = .ok r) :
    r.2.2.m_matchedVertex = m.m_matchedVertex ∧ (r.1 = false → r.2.1 = path) := by
  simp only [Matching.examineEdge, bind_eq_ok] at h
  obtain ⟨a, h1, b, h2, h⟩ := h
  have h12 : b.2.m_matchedVertex = m.m_matchedVertex :=
    (find_mv _ _ _ _ h2).trans (find_mv _ _ _ _ h1)
  split at h
  · simp only [bind_eq_ok] at h
    obtain ⟨c, _, h⟩ := h
    split at h
    · simp only [bind_eq_ok] at h
      obtain ⟨d, _, h⟩ := h
      split at h
      · simp only [bind_eq_ok] at h
        obtain ⟨e, _, h⟩ := h
        cases h
        exact ⟨h12, fun hf => by simp at hf⟩
      · simp only [bind_eq_ok] at h
        obtain ⟨e, he, h⟩ := h
        cases h
        exact ⟨(extendTree_mv he).trans h12, fun _ => rfl⟩
    · split at h
      · simp only [bind_eq_ok] at h
        obtain ⟨e, he, h⟩ := h
        cases h
        exact ⟨(shrinkBlossom_mv he).trans h12, fun _ => rfl⟩
      · cases h
        exact ⟨h12, fun _ => rfl⟩
  · cases h
    exact ⟨h12, fun _ => rfl⟩

theorem examineEdges_frame {k : Nat} {root v : Vertex} : ∀ (ws : List Vertex) (m : Matching)
    (path : Path) (r : Bool × Path × Matching),
    Matching.examineEdges k root v ws m path = .ok r →
      r.2.2.m_matchedVertex = m.m_matchedVertex ∧ (r.1 = false → r.2.1 = path) ∧
        (r.1 = true → r.2.2.m_queue = [])
  | [], m, path, r, h => by
    simp only [Matching.examineEdges] at h
    cases h
    exact ⟨rfl, fun _ => rfl, fun hf => by simp at hf⟩
  | w :: ws, m, path, r, h => by
    simp only [Matching.examineEdges, bind_eq_ok] at h
    obtain ⟨r1, e1, h⟩ := h
    obtain ⟨f1, f2⟩ := examineEdge_frame e1
    split at h
    · cases h
      exact ⟨f1, fun hf => by simp at hf, fun _ => drainQueue_eq _⟩
    · rename_i hfound
      have hfalse : r1.1 = false := by
        cases h' : r1.1
        · rfl
        · exact absurd h' hfound
      obtain ⟨g1, g2, g3⟩ := examineEdges_frame ws r1.2.2 r1.2.1 r h
      exact ⟨g1.trans f1, fun hf => (g2 hf).trans (f2 hfalse), g3⟩

theorem searchLoop_frame {g : Graph} {root : Vertex} : ∀ (k : Nat) (m : Matching) (path : Path)
    (r : Bool × Path × Matching), Matching.searchLoop g root k m path = .ok r →
      r.2.2.m_matchedVertex = m.m_matchedVertex ∧ (r.1 = false → r.2.1 = path) ∧
        r.2.2.m_queue = []
  | 0, _, _, _, h => by simp [Matching.searchLoop] at h
  | k + 1, m, path, r, h => by
    simp only [Matching.searchLoop] at h
    split at h
    · rename_i hq
      cases h
      exact ⟨rfl, fun _ => rfl, hq⟩
    · simp only [bind_eq_ok] at h
      obtain ⟨adj, _, r1, e1, h⟩ := h
      obtain ⟨f1, f2, f3⟩ := examineEdges_frame _ _ _ _ e1
      split at h
      · rename_i hfound
        cases h
        exact ⟨f1, fun hf => by simp [hfound] at hf, f3 hfound⟩
      · rename_i hfound
        have hfalse : r1.1 = false := by
          cases h' : r1.1
          · rfl
          · exact absurd h' hfound
        obtain ⟨g1, g2, g3⟩ := searchLoop_frame k r1.2.2 r1.2.1 r h
        exact ⟨g1.trans f1, fun hf => (g2 hf).trans (f2 hfalse), g3⟩

/-- Whatever the state it is called in, `findAugmentingPath` returns with an empty queue and
    the same `m_matchedVertex`, and with the same path when it returns `false`. -/
theorem findAugmentingPath_frame {g : Graph} {k : Nat} {m : Matching} {root : Vertex}
    {path : Path} {r : Bool × Path × Matching}
    (h : Matching.findAugmentingPath k g m root path = .ok r) :
    r.2.2.m_matchedVertex = m.m_matchedVertex ∧ (r.1 = false → r.2.1 = path) ∧
      r.2.2.m_queue = [] := by
  simp only [Matching.findAugmentingPath, bind_eq_ok] at h
  obtain ⟨nd, _, t, _, h⟩ := h
  exact searchLoop_frame k
    { m with m_clearToken := m.m_clearToken + 1, m_tree := t, m_queue := m.m_queue ++ [root] }
    path r h

/-- With the root in range, `findAugmentingPath` runs its loop from `startSearch`. -/
theorem findAugmentingPath_eq_searchLoop {g : Graph} {n : Nat} {m : Matching} (hs : m.Sized n)
    {root : Vertex} (hr : InR n root) (k : Nat) (path : Path) :
    Matching.findAugmentingPath k g m root path =
      Matching.searchLoop g root k (m.startSearch root) path := by
  have hr' : InR m.m_tree.length root := by rw [hs.tree]; exact hr
  simp only [Matching.findAugmentingPath, vget_of_inR (⟨0, 0, 0, 0⟩ : Node) hr',
    vset_of_inR _ hr']
  rfl

/-- C20. A call of `findAugmentingPath` that starts with an empty queue returns with an
    empty queue, whether it returns `true` or `false`, and on a `false` return the path and
    `m_matchedVertex` are what they were.  At the head of the main loop of the constructor on
    a valid graph the queue and the path are empty; the search from an exposed worklist
    vertex returns, and it enters its loop with the queue `[root]`, so that it processes no
    vertex left over from an earlier search. -/
theorem search_starts_clean (g : Graph) (hv : g.Valid) (wl : List Vertex) (path : Path)
    (m : Matching) (hs : MainState g wl path m) :
    (∀ (k : Nat) (m0 : Matching) (root : Vertex) (path0 : Path) (r : Bool × Path × Matching),
      m0.m_queue = [] → Matching.findAugmentingPath k g m0 root path0 = .ok r →
        r.2.2.m_queue = [] ∧
          (r.1 = false → r.2.1 = path0 ∧ r.2.2.m_matchedVertex = m0.m_matchedVertex)) ∧
    m.m_queue = [] ∧ path = [] ∧
    ∀ root vs, wl = root :: vs → m.getMatchedVertex root = .ok (-1) →
      (m.startSearch root).m_queue = [root] ∧
      ∃ k, ∀ fuel, k ≤ fuel → ∃ r, Matching.findAugmentingPath fuel g m root path = .ok r ∧
        Matching.searchLoop g root fuel (m.startSearch root) path = .ok r ∧
        r.2.2.m_queue = [] ∧
        (r.1 = false → r.2.1 = [] ∧ r.2.2.m_matchedVertex = m.m_matchedVertex) := by
  obtain ⟨inv, hnil, hin⟩ := hs.inv hv rfl
  refine ⟨?_, inv.q, hnil, ?_⟩
  · intro k m0 root path0 r _ h
    obtain ⟨f1, f2, f3⟩ := findAugmentingPath_frame h
    exact ⟨f3, fun hf => ⟨f2 hf, f1⟩⟩
  · intro root vs _ hroot
    obtain ⟨hrin, hexp⟩ := (getMatchedVertex_of_inv inv).mp hroot
    refine ⟨?_, ?_⟩
    · show m.m_queue ++ [root] = [root]
      rw [inv.q]; rfl
    · obtain ⟨k, r, e, _⟩ := findAugmentingPath_spec hv rfl inv hrin hexp path
      refine ⟨k, fun fuel hfuel => ?_⟩
      have e' := findAugmentingPath_mono e hfuel
      obtain ⟨f1, f2, f3⟩ := findAugmentingPath_frame e'
      refine ⟨r, e', ?_, f3, fun hf => ⟨by rw [f2 hf, hnil], f1⟩⟩
      rw [← findAugmentingPath_eq_searchLoop inv.sized hrin]
      exact e'

theorem search_starts_clean_witness :
    (∀ (k : Nat) (m0 : Matching) (root : Vertex) (path0 : Path) (r : Bool × Path × Matching),
      m0.m_queue = [] → Matching.findAugmentingPath k triangle m0 root path0 = .ok r →
        r.2.2.m_queue = [] ∧
          (r.1 = false → r.2.1 = path0 ∧ r.2.2.m_matchedVertex = m0.m_matchedVertex)) ∧
    triangleStart.m_queue = [] ∧ ([] : Path) = [] ∧
    ∀ root vs, [2] = root :: vs → triangleStart.getMatchedVertex root = .ok (-1) →
      (triangleStart.startSearch root).m_queue = [root] ∧
      ∃ k, ∀ fuel, k ≤ fuel →
        ∃ r, Matching.findAugmentingPath fuel triangle triangleStart root [] = .ok r ∧
          Matching.searchLoop triangle root fuel (triangleStart.startSearch root) [] = .ok r ∧
          r.2.2.m_queue = [] ∧
          (r.1 = false → r.2.1 = [] ∧
            r.2.2.m_matchedVertex = triangleStart.m_matchedVertex) :=
  search_starts_clean triangle triangle_valid [2] [] triangleStart
    (@MainState.start triangle noJunk [2] triangleStart (by decide))

end Blossom

namespace Blossom

/-! ## The invariant holds in every state of a search -/

section
variable {g : Graph} {n : Nat} {root : Vertex}

theorem budget_any (V : View) (ρ : Int → Int) (q : List Int) :
    Budget n V ρ q (n + q.length) :=
  ⟨(Finset.range n).image Int.ofNat, fun x hx _ => mem_vertexSet.mpr hx,
    by rw [card_vertexSet]⟩

theorem examineEdge_unique {k k' : Nat} {m : Matching} {v w : Vertex} {path : Path}
    {r r' : Bool × Path × Matching} (h : Matching.examineEdge k m root v w path = .ok r)
    (h' : Matching.examineEdge k' m root v w path = .ok r') : r' = r := by
  have e1 := examineEdge_mono h (le_max_left k k')
  have e2 := examineEdge_mono h' (le_max_right k k')
  rw [e1] at e2
  cases e2
  rfl

/-- Every state of a search of the constructor on a valid graph satisfies the invariant. -/
theorem SearchState.searchInv (hv : g.Valid) (hn : g.m_adjacencyList.length = n)
    {cur : Option (Vertex × List Vertex)} {m : Matching} {path : Path}
    (h : SearchState g root cur m path) : SearchInv g n root cur m ∧ path = [] := by
  induction h with
  | @start vs path m hs hroot =>
    obtain ⟨inv, hnil, hin⟩ := hs.inv hv hn
    obtain ⟨hrin, hexp⟩ := (getMatchedVertex_of_inv inv).mp hroot
    obtain ⟨sinv, exp, _⟩ := startSearch_sinv inv hrin hexp
    exact ⟨⟨id, sinv, exp⟩, hnil⟩
  | @pop m path v q adj _ hq hadj ih =>
    obtain ⟨⟨ρ, sinv, exp⟩, hnil⟩ := ih
    obtain ⟨sinv', hvo⟩ := sinv.sinv_pop hq
    obtain ⟨hvin, hl⟩ := (vget_eq_ok []).mp hadj
    have exp0 : Explored g n m.view ρ m.m_queue root [] := exp
    rw [hq] at exp0
    refine ⟨⟨ρ, sinv', hvo, ?_, exp0.explored_pop hv ?_⟩, hnil⟩
    · intro w hw
      rw [← hl] at hw
      exact adj_of_mem_lget g hvin.1 hw
    · intro y hy
      rw [← hl]
      exact mem_lget_of_adj hy
  | @edge m m1 path path1 v w ws k _ hstep ih =>
    obtain ⟨⟨ρ, sinv, hvo, hadj, exp⟩, hnil⟩ := ih
    obtain ⟨k', r, e, out⟩ := examineEdge_spec hv hn sinv hvo (hadj w (by simp)) exp
      (budget_any m.view ρ m.m_queue) path
    have hr := examineEdge_unique hstep e
    subst hr
    obtain ⟨hp, ρ', sinv', hvo', exp', _⟩ := out.cont rfl
    have hp' : path1 = path := hp
    exact ⟨⟨ρ', sinv', hvo', fun x hx => hadj x (by simp [hx]), exp'⟩, by rw [hp', hnil]⟩
  | @next m path v _ ih =>
    obtain ⟨⟨ρ, sinv, _, _, exp⟩, hnil⟩ := ih
    exact ⟨⟨ρ, sinv, exp.cur_irrel⟩, hnil⟩

end

end Blossom

namespace Blossom

/-! ## The effect of `extendTree` on the fields -/

section
variable {n : Nat} {m : Matching}

/-- The state written by `extendTree(v, w)` when `u = partner[w]` differs from `w`. -/
theorem extendTree_eq (hs : m.Sized n) {v w u : Vertex} (hv : InR n v) (hw : InR n w)
    (hu : InR n u) (hmw : m.partner w = u) :
    m.extendTree v w = .ok
      { m with
        m_tree := lset (lset m.m_tree w
            ⟨m.depth v + 1 + m.depth v % 2, v, w, m.m_clearToken⟩) u
          ⟨(lget (lset m.m_tree w ⟨m.depth v + 1 + m.depth v % 2, v, w, m.m_clearToken⟩)
              ⟨0, 0, 0, 0⟩ w).m_depth + 1, w, u, m.m_clearToken⟩
        m_queue := m.m_queue ++ [u] } := by
  have hw1 : InR m.m_matchedVertex.length w := by rw [hs.mv]; exact hw
  have hv2 : InR m.m_tree.length v := by rw [hs.tree]; exact hv
  have hw2 : InR m.m_tree.length w := by rw [hs.tree]; exact hw
  have hu2 : InR m.m_tree.length u := by rw [hs.tree]; exact hu
  have hw3 : ∀ a : Node, InR (lset m.m_tree w a).length w := fun a => by
    rw [length_lset]; exact hw2
  have hu3 : ∀ a : Node, InR (lset m.m_tree w a).length u := fun a => by
    rw [length_lset]; exact hu2
  have e1 : vget m.m_matchedVertex w = .ok u := by
    rw [vget_of_inR (-1) hw1, ← partner_eq_lget, hmw]
  simp only [Matching.extendTree, bind_eq_ok]
  exact ⟨_, e1, _, vget_of_inR (⟨0, 0, 0, 0⟩ : Node) hv2, _,
    vget_of_inR (⟨0, 0, 0, 0⟩ : Node) hw2, _, vget_of_inR (⟨0, 0, 0, 0⟩ : Node) hu2, _,
    vset_of_inR _ hw2, _, vget_of_inR (⟨0, 0, 0, 0⟩ : Node) (hw3 _), _,
    vget_of_inR (⟨0, 0, 0, 0⟩ : Node) (hu3 _), _, vset_of_inR _ (hu3 _), rfl⟩

/-- On a vertex with another stamp `find` returns the vertex and leaves the state alone. -/
theorem find_stale {x : Vertex} (hx : InR m.m_tree.length x)
    (ht : m.token x ≠ m.m_clearToken) (k : Nat) : Matching.find (k + 1) m x = .ok (x, m) := by
  have ht' : (lget m.m_tree (⟨0, 0, 0, 0⟩ : Node) x).m_clearToken ≠ m.m_clearToken := ht
  simp only [Matching.find, vget_of_inR (⟨0, 0, 0, 0⟩ : Node) hx]
  simp [bind, Except.bind, ht', pure, Except.pure]

/-- On a vertex with the current stamp that points to itself `find` returns the vertex and
    leaves the state alone. -/
theorem find_root {x : Vertex} (hx : InR m.m_tree.length x)
    (ht : m.token x = m.m_clearToken) (hb : m.blossom x = x) (k : Nat) :
    Matching.find (k + 1) m x = .ok (x, m) := by
  have ht' : (lget m.m_tree (⟨0, 0, 0, 0⟩ : Node) x).m_clearToken = m.m_clearToken := ht
  have hb' : (lget m.m_tree (⟨0, 0, 0, 0⟩ : Node) x).m_blossom = x := hb
  simp only [Matching.find, vget_of_inR (⟨0, 0, 0, 0⟩ : Node) hx]
  simp [bind, Except.bind, ht', hb', pure, Except.pure]

/-- The fields written by `extendTree(v, w)` on a state whose vectors have `n` elements, when
    `v` and `w` are vertices and `u = partner[w]` is a vertex other than `w`.  The depths
    are those of the embedding, in which the sums are computed without overflow. -/
theorem extendTree_fields (m : Matching) (n : Nat) (hs : m.Sized n) (v w u : Vertex)
    (hv : InR n v) (hw : InR n w) (hu : m.getMatchedVertex w = .ok u) (hur : InR n u)
    (huw : u ≠ w) :
    ∃ m', m.extendTree v w = .ok m' ∧
      m'.depth w = (if m.depth v % 2 = 0 then m.depth v + 1 else m.depth v + 2) ∧
      m'.depth w % 2 = 1 ∧ m.depth v < m'.depth w ∧
      (∀ d : Int, d % 2 = 1 → m.depth v < d → m'.depth w ≤ d) ∧
      m'.depth u = m'.depth w + 1 ∧ m'.depth u % 2 = 0 ∧
      m'.parent w = v ∧ m'.parent u = w ∧
      m'.token w = m'.m_clearToken ∧ m'.token u = m'.m_clearToken ∧
      m'.blossom w = w ∧ m'.blossom u = u ∧ m'.Finds w w ∧ m'.Finds u u ∧
      m'.m_queue = m.m_queue ++ [u] ∧
      m'.m_clearToken = m.m_clearToken ∧ m'.m_matchedVertex = m.m_matchedVertex ∧
      m'.m_bridges = m.m_bridges ∧ ∀ x, x ≠ w → x ≠ u → m'.nodeAt x = m.nodeAt x := by
  have hmw : m.partner w = u := (getMatchedVertex_eq_ok.mp hu).2
  have hw2 : InR m.m_tree.length w := by rw [hs.tree]; exact hw
  have hu3 : ∀ a : Node, InR (lset m.m_tree w a).length u := fun a => by
    rw [length_lset, hs.tree]; exact hur
  refine ⟨_, extendTree_eq hs hv hw hur hmw, ?_⟩
  generalize hm' : ({ m with
        m_tree := lset (lset m.m_tree w
            ⟨m.depth v + 1 + m.depth v % 2, v, w, m.m_clearToken⟩) u
          ⟨(lget (lset m.m_tree w ⟨m.depth v + 1 + m.depth v % 2, v, w, m.m_clearToken⟩)
              ⟨0, 0, 0, 0⟩ w).m_depth + 1, w, u, m.m_clearToken⟩
        m_queue := m.m_queue ++ [u] } : Matching) = m'
  have hq : m'.m_queue = m.m_queue ++ [u] := by rw [← hm']
  have hc : m'.m_clearToken = m.m_clearToken := by rw [← hm']
  have hmv : m'.m_matchedVertex = m.m_matchedVertex := by rw [← hm']
  have hbr : m'.m_bridges = m.m_bridges := by rw [← hm']
  have hlen : m'.m_tree.length = n := by rw [← hm']; simp [length_lset, hs.tree]
  have hnode : ∀ x, m'.nodeAt x =
      if x = u then ⟨m.depth v + 1 + m.depth v % 2 + 1, w, u, m.m_clearToken⟩
      else if x = w then ⟨m.depth v + 1 + m.depth v % 2, v, w, m.m_clearToken⟩
      else m.nodeAt x := by
    intro x
    rw [← hm']
    show lget (lset (lset m.m_tree w _) u _) _ x = _
    rw [lget_lset _ _ (hu3 _), lget_lset _ _ hw2, lget_lset _ _ hw2, if_pos rfl]
    rfl
  have nw : m'.nodeAt w = ⟨m.depth v + 1 + m.depth v % 2, v, w, m.m_clearToken⟩ := by
    rw [hnode, if_neg (Ne.symm huw), if_pos rfl]
  have nu : m'.nodeAt u = ⟨m.depth v + 1 + m.depth v % 2 + 1, w, u, m.m_clearToken⟩ := by
    rw [hnode, if_pos rfl]
  have dw : m'.depth w = m.depth v + 1 + m.depth v % 2 := by
    show (m'.nodeAt w).m_depth = _; rw [nw]
  have du : m'.depth u = m.depth v + 1 + m.depth v % 2 + 1 := by
    show (m'.nodeAt u).m_depth = _; rw [nu]
  have tw : m'.token w = m'.m_clearToken := by
    show (m'.nodeAt w).m_clearToken = _; rw [nw, hc]
  have tu : m'.token u = m'.m_clearToken := by
    show (m'.nodeAt u).m_clearToken = _; rw [nu, hc]
  have bw : m'.blossom w = w := by show (m'.nodeAt w).m_blossom = _; rw [nw]
  have bu : m'.blossom u = u := by show (m'.nodeAt u).m_blossom = _; rw [nu]
  refine ⟨?_, ?_, ?_, ?_, ?_, ?_, ?_, ?_, tw, tu, bw, bu, ?_, ?_, hq, hc, hmv, hbr, ?_⟩
  · rw [dw]; split <;> omega
  · rw [dw]; omega
  · rw [dw]; omega
  · intro d h1 h2; rw [dw]; omega
  · rw [du, dw]
  · rw [du]; omega
  · show (m'.nodeAt w).m_parent = _; rw [nw]
  · show (m'.nodeAt u).m_parent = _; rw [nu]
  · exact ⟨1, m', find_root (by rw [hlen]; exact hw) tw bw 0⟩
  · exact ⟨1, m', find_root (by rw [hlen]; exact hur) tu bu 0⟩
  · intro x hxw hxu
    rw [hnode, if_neg hxu, if_neg hxw]

end

end Blossom

namespace Blossom

/-! ## The calls made by `examineEdge` during a search -/

section
variable {g : Graph} {n : Nat} {root : Vertex}

theorem find_unique {k k' : Nat} {m : Matching} {x : Vertex} {r r' : Vertex × Matching}
    (h : Matching.find k m x = .ok r) (h' : Matching.find k' m x = .ok r') : r' = r := by
  have e1 := find_mono h (le_max_left k k')
  have e2 := find_mono h' (le_max_right k k')
  rw [e1] at e2
  cases e2
  rfl

/-- In a state that agrees with `ρ`, whatever `find(x)` returns is `ρ x`, and the state it
    leaves agrees with `ρ` and differs only in the union-find pointers. -/
theorem find_of_uf {m m' : Matching} {ρ : Int → Int} (hs : m.Sized n) (hu : UF m n ρ)
    {x r : Vertex} (hx : InR n x) {k : Nat} (h : Matching.find k m x = .ok (r, m')) :
    r = ρ x ∧ SameButBlossom n m m' ∧ UF m' n ρ := by
  obtain ⟨k', m'', e, s, u⟩ := find_uf hs hu hx
  have := find_unique h e
  cases this
  exact ⟨rfl, s, u⟩

theorem find_inR {m m' : Matching} {x r : Vertex} {k : Nat}
    (h : Matching.find k m x = .ok (r, m')) : InR m.m_tree.length x := by
  cases k with
  | zero => simp [Matching.find] at h
  | succ k =>
    simp only [Matching.find, bind_eq_ok] at h
    obtain ⟨nx, h1, _⟩ := h
    exact ((vget_eq_ok (⟨0, 0, 0, 0⟩ : Node)).mp h1).1

/-- The state in which `examineEdge(v, w)` branches, after its two calls of `find`. -/
theorem call_site (hv : g.Valid) (hn : g.m_adjacencyList.length = n) {v w : Vertex}
    {ws : List Vertex} {m m1 m2 : Matching} {path : Path}
    (hs : SearchState g root (some (v, w :: ws)) m path) {k : Nat} {vBar wBar : Vertex}
    (h1 : Matching.find k m v = .ok (vBar, m1)) (h2 : Matching.find k m1 w = .ok (wBar, m2)) :
    ∃ ρ, SInv g n root m ρ ∧ SInv g n root m2 ρ ∧ SameButBlossom n m m2 ∧ vBar = ρ v ∧
      wBar = ρ w ∧ m2.view.Outer n ρ v ∧ g.Adj v w ∧ InR n w ∧
      Explored g n m2.view ρ m2.m_queue v (w :: ws) := by
  obtain ⟨⟨ρ, sinv, hvo, hadj, exp⟩, _⟩ := hs.searchInv hv hn
  have hadj' := hadj w (by simp)
  have hwI : InR n w := hn ▸ hv.inRange v w hadj'
  obtain ⟨e1, s1, u1⟩ := find_of_uf sinv.sized sinv.uf hvo.1.1 h1
  obtain ⟨e2, s2, u2⟩ := find_of_uf s1.sized u1 hwI h2
  have s12 := s1.same_trans s2
  refine ⟨ρ, sinv, sinv.of_same s12 u2, s12, e1, e2, ?_, hadj', hwI, ?_⟩
  · rw [s12.view]; exact hvo
  · rw [s12.view, s12.q]; exact exp

theorem Finds.of_uf {m : Matching} {ρ : Int → Int} (hs : m.Sized n) (hu : UF m n ρ)
    {x : Vertex} (hx : InR n x) : m.Finds x (ρ x) := by
  obtain ⟨k, m', e, _⟩ := find_uf hs hu hx
  exact ⟨k, m', e⟩

theorem Finds.eq_of_uf {m : Matching} {ρ : Int → Int} (hs : m.Sized n) (hu : UF m n ρ)
    {x r : Vertex} (h : m.Finds x r) : InR n x ∧ r = ρ x := by
  obtain ⟨k, m', e⟩ := h
  have hx : InR n x := by rw [← hs.tree]; exact find_inR e
  exact ⟨hx, (find_of_uf hs hu hx e).1⟩

/-- The situation in which `examineEdge(v, w)` calls `shrinkBlossom(v, w)`. -/
theorem shrink_site (hv : g.Valid) (hn : g.m_adjacencyList.length = n) {v w : Vertex}
    {ws : List Vertex} {m m1 m2 : Matching} {path : Path}
    (hs : SearchState g root (some (v, w :: ws)) m path) {k : Nat} {vBar wBar : Vertex}
    {nw : Node}
    (h1 : Matching.find k m v = .ok (vBar, m1)) (h2 : Matching.find k m1 w = .ok (wBar, m2))
    (hne : vBar ≠ wBar) (h3 : vget m2.m_tree wBar = .ok nw)
    (h4 : nw.m_clearToken = m2.m_clearToken) (h5 : nw.m_depth % 2 = 0) :
    ∃ ρ, SInv g n root m2 ρ ∧ m2.view.Outer n ρ v ∧ m2.view.Outer n ρ w ∧ g.Adj v w ∧
      ρ v ≠ ρ w := by
  obtain ⟨ρ, _, sinv2, _, e1, e2, hvo, hadj, hwI, _⟩ := call_site hv hn hs h1 h2
  have hnode : m2.nodeAt wBar = nw := ((vget_eq_ok (⟨0, 0, 0, 0⟩ : Node)).mp h3).2
  have htok : m2.token (ρ w) = m2.m_clearToken := by
    rw [← e2]; show (m2.nodeAt wBar).m_clearToken = _; rw [hnode, h4]
  have hdep : m2.depth (ρ w) % 2 = 0 := by
    rw [← e2]; show (m2.nodeAt wBar).m_depth % 2 = 0; rw [hnode, h5]
  have hb := sinv2.core.blossom
  have hwT : m2.view.InTree n w := hb.inTree_of_rho ⟨hb.rho_inR hwI, htok⟩
  exact ⟨ρ, sinv2, hvo, ⟨hwT, hdep⟩, hadj, by rw [← e1, ← e2]; exact hne⟩

/-- The situation in which `examineEdge(v, w)` calls `extendTree(v, w)`: the vectors have
    `n` elements, `v`, `w` and `u = partner[w]` are vertices, `u` differs from `w`, and the
    depth of `v` is not negative. -/
theorem extend_site (hv : g.Valid) (hn : g.m_adjacencyList.length = n) {v w u : Vertex}
    {ws : List Vertex} {m m1 m2 : Matching} {path : Path}
    (hs : SearchState g root (some (v, w :: ws)) m path) {k : Nat} {vBar wBar : Vertex}
    {nw : Node}
    (h1 : Matching.find k m v = .ok (vBar, m1)) (h2 : Matching.find k m1 w = .ok (wBar, m2))
    (h3 : vget m2.m_tree wBar = .ok nw) (h4 : nw.m_clearToken ≠ m2.m_clearToken)
    (h5 : vget m2.m_matchedVertex w = .ok u) (h6 : u ≠ -1) :
    m2.Sized n ∧ InR n v ∧ InR n w ∧ m2.getMatchedVertex w = .ok u ∧ InR n u ∧ u ≠ w ∧
      0 ≤ m2.depth v := by
  obtain ⟨ρ, _, sinv2, _, _, e2, hvo, hadj, hwI, _⟩ := call_site hv hn hs h1 h2
  have hnode : m2.nodeAt wBar = nw := ((vget_eq_ok (⟨0, 0, 0, 0⟩ : Node)).mp h3).2
  have htok : m2.token (ρ w) ≠ m2.m_clearToken := by
    rw [← e2]; show (m2.nodeAt wBar).m_clearToken ≠ _; rw [hnode]; exact h4
  have hwN : ¬ m2.view.InTree n w := fun hT => htok (sinv2.core.blossom.rho_in w hT).2
  have hpw : m2.partner w = u := ((vget_eq_ok (-1)).mp h5).2
  have pre : ExtPre g n root m2.view ρ m2.bridge m2.m_queue v w :=
    ⟨hv, sinv2.core, hvo, hadj, hwI, hwN, by
      show m2.partner w ≠ -1
      rw [hpw]; exact h6⟩
  have hu := pre.u_in
  have hne := pre.u_ne_w
  have hpw' : m2.view.partner w = u := hpw
  rw [hpw'] at hu hne
  exact ⟨sinv2.sized, hvo.1.1, hwI, h5, hu, hne, sinv2.core.tree.depth_nonneg v hvo.1⟩

theorem findCommonAncestor_unique {k k' : Nat} {m : Matching} {v w : Vertex}
    {r r' : Vertex × Matching} (h : Matching.findCommonAncestor k m v w = .ok r)
    (h' : Matching.findCommonAncestor k' m v w = .ok r') : r' = r := by
  have e1 := findCommonAncestor_mono h (le_max_left k k')
  have e2 := findCommonAncestor_mono h' (le_max_right k k')
  rw [e1] at e2
  cases e2
  rfl

/-- At a call of `shrinkBlossom(v, w)` the function `findCommonAncestor(v, w)` returns the
    base of the lowest common ancestor of `v` and `w`. -/
theorem lca_site {m2 : Matching} {ρ : Int → Int} {v w : Vertex}
    (sinv : SInv g n root m2 ρ) (hvo : m2.view.Outer n ρ v) (hwo : m2.view.Outer n ρ w) :
    ∃ k mb z, Matching.findCommonAncestor k m2 v w = .ok (ρ z, mb) ∧
      SameButBlossom n m2 mb ∧ UF mb n ρ ∧
      Anc m2.view n root v z ∧ Anc m2.view n root w z ∧
      ∀ y, Anc m2.view n root v y → Anc m2.view n root w y → Anc m2.view n root z y := by
  have hd1 := sinv.core.tree.depth_nonneg v hvo.1
  have hd2 := sinv.core.tree.depth_nonneg w hwo.1
  obtain ⟨k, mb, z, e, s, u, a1, a2, a3⟩ := findCommonAncestor_spec sinv.sized sinv.uf
    sinv.core.tree (m2.view.depth v + m2.view.depth w).toNat v w hvo.1 hwo.1
    (by rw [Int.toNat_of_nonneg (by omega)])
  exact ⟨k, mb, z, e, s, u, a1, a2, a3⟩

/-- C14. Whenever `examineEdge(v, w)` calls `shrinkBlossom(v, w)` during a search of the
    constructor on a valid graph, the call returns, and afterwards `find(v) = find(w) = b`
    for the vertex `b` returned by `findCommonAncestor(v, w)`; `b` is its own representative
    and has even depth; every vertex whose representative lay on the tree path from `v` or
    from `w` up to `b` has the representative `b`; and two vertices that had the same
    representative before the call have the same representative. -/
theorem shrinkBlossom_merges (g : Graph) (hv : g.Valid) (root v w : Vertex)
    (ws : List Vertex) (m : Matching) (path : Path)
    (hs : SearchState g root (some (v, w :: ws)) m path) (k : Nat) (vBar wBar : Vertex)
    (m1 m2 : Matching) (nw : Node)
    (h1 : Matching.find k m v = .ok (vBar, m1)) (h2 : Matching.find k m1 w = .ok (wBar, m2))
    (hne : vBar ≠ wBar) (h3 : vget m2.m_tree wBar = .ok nw)
    (h4 : nw.m_clearToken = m2.m_clearToken) (h5 : nw.m_depth % 2 = 0) :
    ∃ (K : Nat) (b : Vertex) (mb m3 : Matching),
      (∀ fuel, K ≤ fuel → Matching.findCommonAncestor fuel m2 v w = .ok (b, mb) ∧
        Matching.shrinkBlossom fuel m2 v w = .ok m3 ∧
        Matching.examineEdge fuel m root v w path = .ok (false, path, m3)) ∧
      m3.Finds v b ∧ m3.Finds w b ∧ m3.Finds b b ∧ m3.depth b % 2 = 0 ∧
      (∀ x r, m2.Finds x r →
        (Anc m2.view g.m_adjacencyList.length root v r ∧
            Anc m2.view g.m_adjacencyList.length root r b) ∨
          (Anc m2.view g.m_adjacencyList.length root w r ∧
            Anc m2.view g.m_adjacencyList.length root r b) → m3.Finds x b) ∧
      (∀ x y r, m2.Finds x r → m2.Finds y r → ∃ r', m3.Finds x r' ∧ m3.Finds y r') := by
  obtain ⟨ρ, sinv2, hvo, hwo, hadj, hne'⟩ := shrink_site hv rfl hs h1 h2 hne h3 h4 h5
  obtain ⟨k3, m3, z0, L, L', e3, pre, hs3, hv3, _, hu3, _, _⟩ :=
    shrinkBlossom_spec hv sinv2 hvo hwo hadj hne'
  obtain ⟨k4, mb, z, e4, _, _, a1, a2, a3⟩ := lca_site sinv2 hvo hwo
  have hz : z = z0 := sinv2.core.tree.anc_antisymm (a3 z0 pre.lca_v pre.lca_w)
    (pre.lca_min z a1 a2)
  rw [hz] at e4
  have hc2 := pre.coarse2
  have hb2 := hc2.new
  have ht := sinv2.core.tree
  have hvI : InR g.m_adjacencyList.length v := hvo.1.1
  have hwI : InR g.m_adjacencyList.length w := hwo.1.1
  have hbI : InR g.m_adjacencyList.length (ρ z0) := sinv2.core.blossom.rho_inR pre.lca_v.right.1
  have rb : m2.view.shrinkRho (m2.view.shrinkRho ρ (ρ z0) L) (ρ z0) L' (ρ z0) = ρ z0 := by
    have := hb2.rho_idem v
    rw [pre.rho2_v] at this
    exact this
  refine ⟨max (max k3 k4) k, ρ z0, mb, m3, ?_, ?_, ?_, ?_, ?_, ?_, ?_⟩
  · intro fuel hf
    have hk3 : k3 ≤ fuel := le_trans (le_trans (le_max_left _ _) (le_max_left _ _)) hf
    have hk4 : k4 ≤ fuel := le_trans (le_trans (le_max_right _ _) (le_max_left _ _)) hf
    have hk : k ≤ fuel := le_trans (le_max_right _ _) hf
    refine ⟨findCommonAncestor_mono e4 hk4, shrinkBlossom_mono e3 hk3, ?_⟩
    rw [@examineEdge_unfold m fuel root v w path _ _ _ _ (find_mono h1 hk) (find_mono h2 hk),
      if_pos hne]
    simp only [bind_eq_ok]
    refine ⟨nw, h3, ?_⟩
    rw [if_neg (not_not.mpr h4), if_pos h5]
    simp only [bind_eq_ok]
    exact ⟨m3, shrinkBlossom_mono e3 hk3, rfl⟩
  · have := Finds.of_uf hs3 hu3 hvI
    rw [pre.rho2_v] at this
    exact this
  · have := Finds.of_uf hs3 hu3 hwI
    rw [pre.rho2_w] at this
    exact this
  · have := Finds.of_uf hs3 hu3 hbI
    rw [rb] at this
    exact this
  · have : m3.depth (ρ z0) = m2.depth (ρ z0) := congrFun (congrArg View.depth hv3) (ρ z0)
    rw [this]
    exact pre.b_even
  · intro x r hx hr
    obtain ⟨hxI, rfl⟩ := Finds.eq_of_uf sinv2.sized sinv2.uf hx
    have := Finds.of_uf hs3 hu3 hxI
    have key : m2.view.shrinkRho (m2.view.shrinkRho ρ (ρ z0) L) (ρ z0) L' x = ρ z0 := by
      rw [← hc2.rho_rho x]
      rcases hr with ⟨r1, r2⟩ | ⟨r1, r2⟩
      · exact (hb2.between ht r1 (by rw [pre.rho2_v]; exact r2)).trans pre.rho2_v
      · exact (hb2.between ht r1 (by rw [pre.rho2_w]; exact r2)).trans pre.rho2_w
    rw [key] at this
    exact this
  · intro x y r hx hy
    obtain ⟨hxI, ex⟩ := Finds.eq_of_uf sinv2.sized sinv2.uf hx
    obtain ⟨hyI, ey⟩ := Finds.eq_of_uf sinv2.sized sinv2.uf hy
    refine ⟨_, Finds.of_uf hs3 hu3 hxI, ?_⟩
    have := Finds.of_uf hs3 hu3 hyI
    rw [← hc2.rho_rho y, ← ey, ex, hc2.rho_rho x] at this
    exact this

/-- The search from vertex 2 on the triangle reaches `triangleGrown` with the neighbour 0
    of the vertex 2 still to examine. -/
theorem triangle_searchState : SearchState triangle 2 (some (2, [0])) triangleGrown [] :=
  SearchState.edge
    (SearchState.pop
      (SearchState.start (@MainState.start triangle noJunk [2] triangleStart (by decide))
        (by decide))
      (rfl : (triangleStart.startSearch 2).m_queue = 2 :: [])
      (by decide : vget triangle.m_adjacencyList 2 = .ok [1, 0]))
    (by decide : Matching.examineEdge 1 { triangleStart.startSearch 2 with m_queue := [] }
      2 2 1 [] = .ok (false, [], triangleGrown))

theorem shrinkBlossom_merges_witness :
    ∃ (K : Nat) (b : Vertex) (mb m3 : Matching),
      (∀ fuel, K ≤ fuel → Matching.findCommonAncestor fuel triangleGrown 2 0 = .ok (b, mb) ∧
        Matching.shrinkBlossom fuel triangleGrown 2 0 = .ok m3 ∧
        Matching.examineEdge fuel triangleGrown 2 2 0 [] = .ok (false, [], m3)) ∧
      m3.Finds 2 b ∧ m3.Finds 0 b ∧ m3.Finds b b ∧ m3.depth b % 2 = 0 ∧
      (∀ x r, triangleGrown.Finds x r →
        (Anc triangleGrown.view triangle.m_adjacencyList.length 2 2 r ∧
            Anc triangleGrown.view triangle.m_adjacencyList.length 2 r b) ∨
          (Anc triangleGrown.view triangle.m_adjacencyList.length 2 0 r ∧
            Anc triangleGrown.view triangle.m_adjacencyList.length 2 r b) → m3.Finds x b) ∧
      (∀ x y r, triangleGrown.Finds x r → triangleGrown.Finds y r →
        ∃ r', m3.Finds x r' ∧ m3.Finds y r') :=
  shrinkBlossom_merges triangle triangle_valid 2 2 0 [] triangleGrown [] triangle_searchState
    1 2 0 triangleGrown triangleGrown ⟨2, 1, 0, 1⟩ (by decide) (by decide) (by decide)
    (by decide) (by decide) (by decide)

end

end Blossom

namespace Blossom

/-! ## A run with less fuel runs out of fuel or has the same result -/

theorem FuelLe.refl {α : Type} (r : Except Err α) : FuelLe r r := Or.inr rfl

theorem FuelLe.bind {α β : Type} {x x' : Except Err α} {f f' : α → Except Err β}
    (hx : FuelLe x x') (hf : ∀ a, FuelLe (f a) (f' a)) : FuelLe (x >>= f) (x' >>= f') := by
  rcases hx with hx | hx
  · left; rw [hx]; rfl
  · rw [hx]
    cases x' with
    | error e => right; rfl
    | ok a => exact hf a

theorem FuelLe.ite {α : Type} {c : Prop} [Decidable c] {a a' b b' : Except Err α}
    (h1 : c → FuelLe a a') (h2 : ¬ c → FuelLe b b') :
    FuelLe (if c then a else b) (if c then a' else b') := by
  by_cases hc : c
  · rw [if_pos hc, if_pos hc]; exact h1 hc
  · rw [if_neg hc, if_neg hc]; exact h2 hc

/-- A run that does not run out of fuel has the result of every run with more fuel. -/
theorem FuelLe.eq_ok {α : Type} {r : Except Err α} {a : α} (h : FuelLe r (.ok a)) :
    r = .error .fuel ∨ r = .ok a := h

theorem FuelLe.ne_error {α : Type} {r : Except Err α} {a : α} (h : FuelLe r (.ok a))
    {e : Err} (he : e ≠ .fuel) : r ≠ .error e := by
  rcases h with h | h
  · rw [h]; intro h'; cases h'; exact he rfl
  · rw [h]; intro h'; cases h'

theorem find_fuelLe : ∀ (k k' : Nat), k ≤ k' → ∀ (m : Matching) (x : Int),
    FuelLe (Matching.find k m x) (Matching.find k' m x)
  | 0, _, _, _, _ => Or.inl rfl
  | k + 1, 0, h, _, _ => absurd h (by omega)
  | k + 1, k' + 1, h, m, x => by
    simp only [Matching.find]
    refine FuelLe.bind (FuelLe.refl _) (fun nx => ?_)
    refine FuelLe.ite (fun _ => FuelLe.refl _) (fun _ => ?_)
    refine FuelLe.ite (fun _ => ?_) (fun _ => FuelLe.refl _)
    exact FuelLe.bind (find_fuelLe k k' (by omega) m _) (fun r => FuelLe.refl _)

theorem makeUnion_fuelLe {k k' : Nat} (h : k ≤ k') (m : Matching) (x y : Int) :
    FuelLe (Matching.makeUnion k m x y) (Matching.makeUnion k' m x y) := by
  simp only [Matching.makeUnion]
  refine FuelLe.bind (find_fuelLe k k' h m x) (fun r => ?_)
  exact FuelLe.bind (find_fuelLe k k' h _ y) (fun r => FuelLe.refl _)

theorem makeRepresentative_fuelLe {k k' : Nat} (h : k ≤ k') (m : Matching) (x : Int) :
    FuelLe (Matching.makeRepresentative k m x) (Matching.makeRepresentative k' m x) := by
  simp only [Matching.makeRepresentative]
  exact FuelLe.bind (find_fuelLe k k' h m x) (fun r => FuelLe.refl _)

theorem findPath_fuelLe : ∀ (k k' : Nat), k ≤ k' → ∀ (m : Matching) (s t : Vertex) (path : Path),
    FuelLe (Matching.findPath k m s t path) (Matching.findPath k' m s t path)
  | 0, _, _, _, _, _, _ => Or.inl rfl
  | k + 1, 0, h, _, _, _, _ => absurd h (by omega)
  | k + 1, k' + 1, h, m, s, t, path => by
    simp only [Matching.findPath]
    refine FuelLe.ite (fun _ => FuelLe.refl _) (fun _ => ?_)
    refine FuelLe.bind (FuelLe.refl _) (fun ns => ?_)
    refine FuelLe.ite (fun _ => ?_) (fun _ => ?_)
    · refine FuelLe.bind (FuelLe.refl _) (fun _ => ?_)
      refine FuelLe.bind (FuelLe.refl _) (fun _ => ?_)
      refine FuelLe.bind (FuelLe.refl _) (fun _ => ?_)
      exact findPath_fuelLe k k' (by omega) m _ _ _
    · refine FuelLe.bind (FuelLe.refl _) (fun br => ?_)
      refine FuelLe.bind (FuelLe.refl _) (fun _ => ?_)
      refine FuelLe.bind (findPath_fuelLe k k' (by omega) m _ _ _) (fun _ => ?_)
      exact findPath_fuelLe k k' (by omega) m _ _ _

theorem findCommonAncestor_fuelLe : ∀ (k k' : Nat), k ≤ k' → ∀ (m : Matching) (v w : Vertex),
    FuelLe (Matching.findCommonAncestor k m v w) (Matching.findCommonAncestor k' m v w)
  | 0, _, _, _, _, _ => Or.inl rfl
  | k + 1, 0, h, _, _, _ => absurd h (by omega)
  | k + 1, k' + 1, h, m, v, w => by
    simp only [Matching.findCommonAncestor]
    refine FuelLe.ite (fun _ => ?_) (fun _ => find_fuelLe _ _ h m v)
    refine FuelLe.bind (FuelLe.refl _) (fun nv => ?_)
    refine FuelLe.bind (FuelLe.refl _) (fun nw => ?_)
    refine FuelLe.ite (fun _ => ?_) (fun _ => ?_)
    · exact findCommonAncestor_fuelLe k k' (by omega) m _ _
    · exact findCommonAncestor_fuelLe k k' (by omega) m _ _

theorem shrinkPathLoop_fuelLe : ∀ (k k' : Nat), k ≤ k' →
    ∀ (m : Matching) (b v w u : Vertex),
      FuelLe (Matching.shrinkPathLoop k m b v w u) (Matching.shrinkPathLoop k' m b v w u)
  | 0, _, _, _, _, _, _, _ => Or.inl rfl
  | k + 1, 0, h, _, _, _, _, _ => absurd h (by omega)
  | k + 1, k' + 1, h, m, b, v, w, u => by
    simp only [Matching.shrinkPathLoop]
    refine FuelLe.ite (fun _ => ?_) (fun _ => FuelLe.refl _)
    refine FuelLe.bind (makeUnion_fuelLe h m b u) (fun m1 => ?_)
    refine FuelLe.ite (fun _ => FuelLe.refl _) (fun _ => ?_)
    refine FuelLe.bind (FuelLe.refl _) (fun mu => ?_)
    refine FuelLe.ite (fun _ => FuelLe.refl _) (fun _ => ?_)
    refine FuelLe.bind (FuelLe.refl _) (fun u1 => ?_)
    refine FuelLe.bind (makeUnion_fuelLe h m1 b u1) (fun m2 => ?_)
    refine FuelLe.bind (makeRepresentative_fuelLe h m2 b) (fun m3 => ?_)
    refine FuelLe.bind (FuelLe.refl _) (fun br => ?_)
    refine FuelLe.bind (FuelLe.refl _) (fun nu => ?_)
    refine FuelLe.bind (find_fuelLe _ _ h _ _) (fun r => ?_)
    exact shrinkPathLoop_fuelLe k k' (by omega) _ b v w _

theorem shrinkPath_fuelLe {k k' : Nat} (h : k ≤ k') (m : Matching) (b v w : Vertex) :
    FuelLe (Matching.shrinkPath k m b v w) (Matching.shrinkPath k' m b v w) := by
  simp only [Matching.shrinkPath]
  exact FuelLe.bind (find_fuelLe k k' h m v) (fun r => shrinkPathLoop_fuelLe k k' h _ b v w _)

theorem shrinkBlossom_fuelLe {k k' : Nat} (h : k ≤ k') (m : Matching) (v w : Vertex) :
    FuelLe (Matching.shrinkBlossom k m v w) (Matching.shrinkBlossom k' m v w) := by
  simp only [Matching.shrinkBlossom]
  refine FuelLe.bind (findCommonAncestor_fuelLe k k' h m v w) (fun r => ?_)
  exact FuelLe.bind (shrinkPath_fuelLe h _ _ v w) (fun m2 => shrinkPath_fuelLe h _ _ w v)

theorem examineEdge_fuelLe {k k' : Nat} (h : k ≤ k') (m : Matching) (root v w : Vertex)
    (path : Path) :
    FuelLe (Matching.examineEdge k m root v w path) (Matching.examineEdge k' m root v w path) := by
  simp only [Matching.examineEdge]
  refine FuelLe.bind (find_fuelLe k k' h m v) (fun r1 => ?_)
  refine FuelLe.bind (find_fuelLe k k' h _ w) (fun r2 => ?_)
  refine FuelLe.ite (fun _ => ?_) (fun _ => FuelLe.refl _)
  refine FuelLe.bind (FuelLe.refl _) (fun nw => ?_)
  refine FuelLe.ite (fun _ => ?_) (fun _ => ?_)
  · refine FuelLe.bind (FuelLe.refl _) (fun mw => ?_)
    refine FuelLe.ite (fun _ => ?_) (fun _ => FuelLe.refl _)
    refine FuelLe.bind ?_ (fun p => FuelLe.refl _)
    exact findPath_fuelLe k k' h _ _ _ _
  · refine FuelLe.ite (fun _ => ?_) (fun _ => FuelLe.refl _)
    exact FuelLe.bind (shrinkBlossom_fuelLe h _ v w) (fun m3 => FuelLe.refl _)

theorem examineEdges_fuelLe {k k' : Nat} (h : k ≤ k') (root v : Vertex) :
    ∀ (ws : List Vertex) (m : Matching) (path : Path),
      FuelLe (Matching.examineEdges k root v ws m path)
        (Matching.examineEdges k' root v ws m path)
  | [], _, _ => FuelLe.refl _
  | w :: ws, m, path => by
    simp only [Matching.examineEdges]
    refine FuelLe.bind (examineEdge_fuelLe h m root v w path) (fun r => ?_)
    refine FuelLe.ite (fun _ => FuelLe.refl _) (fun _ => ?_)
    exact examineEdges_fuelLe h root v ws _ _

theorem searchLoop_fuelLe (g : Graph) (root : Vertex) : ∀ (k k' : Nat), k ≤ k' →
    ∀ (m : Matching) (path : Path),
      FuelLe (Matching.searchLoop g root k m path) (Matching.searchLoop g root k' m path)
  | 0, _, _, _, _ => Or.inl rfl
  | k + 1, 0, h, _, _ => absurd h (by omega)
  | k + 1, k' + 1, h, m, path => by
    simp only [Matching.searchLoop]
    cases m.m_queue with
    | nil => exact FuelLe.refl _
    | cons v q =>
      refine FuelLe.bind (FuelLe.refl _) (fun adj => ?_)
      refine FuelLe.bind (examineEdges_fuelLe h root v adj _ path) (fun r => ?_)
      refine FuelLe.ite (fun _ => FuelLe.refl _) (fun _ => ?_)
      exact searchLoop_fuelLe g root k k' (by omega) _ _

theorem findAugmentingPath_fuelLe {k k' : Nat} (h : k ≤ k') (g : Graph) (m : Matching)
    (root : Vertex) (path : Path) :
    FuelLe (Matching.findAugmentingPath k g m root path)
      (Matching.findAugmentingPath k' g m root path) := by
  simp only [Matching.findAugmentingPath]
  refine FuelLe.bind (FuelLe.refl _) (fun nd => ?_)
  refine FuelLe.bind (FuelLe.refl _) (fun t => ?_)
  exact searchLoop_fuelLe g root k k' h _ _

theorem mainLoop_fuelLe {k k' : Nat} (h : k ≤ k') (g : Graph) :
    ∀ (wl : List Vertex) (path : Path) (m : Matching),
      FuelLe (Matching.mainLoop k g wl path m) (Matching.mainLoop k' g wl path m)
  | [], _, _ => FuelLe.refl _
  | v :: vs, path, m => by
    simp only [Matching.mainLoop]
    refine FuelLe.bind (FuelLe.refl _) (fun mv => ?_)
    refine FuelLe.ite (fun _ => ?_) (fun _ => mainLoop_fuelLe h g vs path m)
    refine FuelLe.bind (findAugmentingPath_fuelLe h g m v path) (fun r => ?_)
    refine FuelLe.ite (fun _ => ?_) (fun _ => mainLoop_fuelLe h g vs _ _)
    exact FuelLe.bind (FuelLe.refl _) (fun m2 => mainLoop_fuelLe h g vs [] m2)

/-- With less fuel the constructor runs out of fuel or returns the same state: no other
    error can come from the lack of fuel. -/
theorem construct_fuelLe {k k' : Nat} (h : k ≤ k') (g : Graph) (junk : Nat → Node) :
    FuelLe (Matching.construct k g junk) (Matching.construct k' g junk) := by
  simp only [Matching.construct]
  refine FuelLe.bind (FuelLe.refl _) (fun r => ?_)
  exact FuelLe.bind (mainLoop_fuelLe h g _ _ _) (fun r => FuelLe.refl _)

end Blossom

namespace Blossom

/-! ## The lowest common ancestor and the assertions of `shrinkPath` -/

/-- C15. Whenever `examineEdge(v, w)` calls `shrinkBlossom(v, w)` during a search of the
    constructor on a valid graph, `findCommonAncestor(v, w)` returns: for every fuel it
    returns the same result or runs out of fuel, so that it never reads `m_tree` out of
    range.  The vertex it returns is `find(z)` for the lowest common ancestor `z` of `v` and
    `w` in the tree of the search: `z` is an ancestor of both, and every common ancestor of
    `v` and `w` is an ancestor of `z`.  Only union-find pointers differ in the state it
    leaves. -/
theorem findCommonAncestor_lca (g : Graph) (hv : g.Valid) (root v w : Vertex)
    (ws : List Vertex) (m : Matching) (path : Path)
    (hs : SearchState g root (some (v, w :: ws)) m path) (k : Nat) (vBar wBar : Vertex)
    (m1 m2 : Matching) (nw : Node)
    (h1 : Matching.find k m v = .ok (vBar, m1)) (h2 : Matching.find k m1 w = .ok (wBar, m2))
    (hne : vBar ≠ wBar) (h3 : vget m2.m_tree wBar = .ok nw)
    (h4 : nw.m_clearToken = m2.m_clearToken) (h5 : nw.m_depth % 2 = 0) :
    ∃ (K : Nat) (z b : Vertex) (mb : Matching),
      (∀ fuel, K ≤ fuel → Matching.findCommonAncestor fuel m2 v w = .ok (b, mb)) ∧
      (∀ fuel, Matching.findCommonAncestor fuel m2 v w = .ok (b, mb) ∨
        Matching.findCommonAncestor fuel m2 v w = .error .fuel) ∧
      m2.Finds z b ∧
      Anc m2.view g.m_adjacencyList.length root v z ∧
      Anc m2.view g.m_adjacencyList.length root w z ∧
      (∀ y, Anc m2.view g.m_adjacencyList.length root v y →
        Anc m2.view g.m_adjacencyList.length root w y →
        Anc m2.view g.m_adjacencyList.length root z y) ∧
      SameButBlossom g.m_adjacencyList.length m2 mb := by
  obtain ⟨ρ, sinv2, hvo, hwo, _, _⟩ := shrink_site hv rfl hs h1 h2 hne h3 h4 h5
  obtain ⟨k4, mb, z, e4, same, _, a1, a2, a3⟩ := lca_site sinv2 hvo hwo
  refine ⟨k4, z, ρ z, mb, fun fuel hf => findCommonAncestor_mono e4 hf, ?_,
    Finds.of_uf sinv2.sized sinv2.uf a1.right.1, a1, a2, a3, same⟩
  intro fuel
  have := findCommonAncestor_fuelLe fuel (max fuel k4) (le_max_left _ _) m2 v w
  rw [findCommonAncestor_mono e4 (le_max_right fuel k4)] at this
  rcases this with h | h
  · exact Or.inr h
  · exact Or.inl h

theorem findCommonAncestor_lca_witness :
    ∃ (K : Nat) (z b : Vertex) (mb : Matching),
      (∀ fuel, K ≤ fuel → Matching.findCommonAncestor fuel triangleGrown 2 0 = .ok (b, mb)) ∧
      (∀ fuel, Matching.findCommonAncestor fuel triangleGrown 2 0 = .ok (b, mb) ∨
        Matching.findCommonAncestor fuel triangleGrown 2 0 = .error .fuel) ∧
      triangleGrown.Finds z b ∧
      Anc triangleGrown.view triangle.m_adjacencyList.length 2 2 z ∧
      Anc triangleGrown.view triangle.m_adjacencyList.length 2 0 z ∧
      (∀ y, Anc triangleGrown.view triangle.m_adjacencyList.length 2 2 y →
        Anc triangleGrown.view triangle.m_adjacencyList.length 2 0 y →
        Anc triangleGrown.view triangle.m_adjacencyList.length 2 z y) ∧
      SameButBlossom triangle.m_adjacencyList.length triangleGrown mb :=
  findCommonAncestor_lca triangle triangle_valid 2 2 0 [] triangleGrown []
    triangle_searchState 1 2 0 triangleGrown triangleGrown ⟨2, 1, 0, 1⟩ (by decide)
    (by decide) (by decide) (by decide) (by decide) (by decide)

/-- An iteration of the loop of `shrinkPath` that belongs to a run that returns: both
    assertions hold, and the rest of the loop is again a run that returns. -/
theorem shrinkPathLoop_iteration {fuel : Nat} {m m' : Matching} {b v w u : Vertex}
    (h : Matching.shrinkPathLoop fuel m b v w u = .ok m') (hub : u ≠ b) :
    u ≠ -1 ∧ (∃ mu, m.getMatchedVertex u = .ok mu ∧ mu ≠ -1) ∧
      ∃ (fuel' : Nat) (m6 : Matching) (u2 : Vertex), fuel = fuel' + 1 ∧
        Matching.shrinkPathLoop fuel' m6 b v w u2 = .ok m' := by
  cases fuel with
  | zero => simp [Matching.shrinkPathLoop] at h
  | succ k =>
    simp only [Matching.shrinkPathLoop, if_pos hub, bind_eq_ok] at h
    obtain ⟨m1, e1, h⟩ := h
    split at h
    · cases h
    · rename_i hu
      simp only [bind_eq_ok] at h
      obtain ⟨mu, emu, h⟩ := h
      split at h
      · cases h
      · rename_i hmu
        simp only [bind_eq_ok] at h
        obtain ⟨u1, _, m2, _, m3, _, br, _, nu, _, r6, _, h⟩ := h
        refine ⟨hu, ⟨mu, ?_, hmu⟩, k, r6.2, r6.1, rfl, h⟩
        unfold Matching.getMatchedVertex
        rw [← makeUnion_mv e1]
        exact emu

/-- C16. For every valid graph the two assertions in `shrinkPath` never fail during
    construction.  The constructor returns, and with less fuel it runs out of fuel: it never
    stops at an assertion.  Whenever `examineEdge(v, w)` calls `shrinkBlossom(v, w)` during a
    search, both calls of `shrinkPath` return, and with less fuel they run out of fuel.  In
    every iteration of the loop of a call of `shrinkPath` that returns, the current
    representative `u` differs from `-1` and is matched, and the rest of the loop returns. -/
theorem shrinkPath_assertions_hold (g : Graph) (hv : g.Valid) (junk : Nat → Node) :
    (∃ (K : Nat) (mfin : Matching), (∀ fuel, K ≤ fuel →
        Matching.construct fuel g junk = .ok mfin) ∧
      ∀ fuel, Matching.construct fuel g junk = .ok mfin ∨
        Matching.construct fuel g junk = .error .fuel) ∧
    (∀ (root v w : Vertex) (ws : List Vertex) (m : Matching) (path : Path) (k : Nat)
      (vBar wBar : Vertex) (m1 m2 : Matching) (nw : Node),
      SearchState g root (some (v, w :: ws)) m path →
      Matching.find k m v = .ok (vBar, m1) → Matching.find k m1 w = .ok (wBar, m2) →
      vBar ≠ wBar → vget m2.m_tree wBar = .ok nw → nw.m_clearToken = m2.m_clearToken →
      nw.m_depth % 2 = 0 →
      ∃ (K : Nat) (b : Vertex) (mb ma m3 : Matching),
        (∀ fuel, K ≤ fuel → Matching.findCommonAncestor fuel m2 v w = .ok (b, mb) ∧
          Matching.shrinkPath fuel mb b v w = .ok ma ∧
          Matching.shrinkPath fuel ma b w v = .ok m3) ∧
        ∀ fuel, (Matching.shrinkPath fuel mb b v w = .ok ma ∨
            Matching.shrinkPath fuel mb b v w = .error .fuel) ∧
          (Matching.shrinkPath fuel ma b w v = .ok m3 ∨
            Matching.shrinkPath fuel ma b w v = .error .fuel)) ∧
    (∀ (fuel : Nat) (m m' : Matching) (b v w u : Vertex),
      Matching.shrinkPathLoop fuel m b v w u = .ok m' → u ≠ b →
      u ≠ -1 ∧ (∃ mu, m.getMatchedVertex u = .ok mu ∧ mu ≠ -1) ∧
        ∃ (fuel' : Nat) (m6 : Matching) (u2 : Vertex), fuel = fuel' + 1 ∧
          Matching.shrinkPathLoop fuel' m6 b v w u2 = .ok m') := by
  refine ⟨?_, ?_, fun fuel m m' b v w u h hub => shrinkPathLoop_iteration h hub⟩
  · obtain ⟨K, mfin, e, _⟩ := construct_spec hv rfl junk
    refine ⟨K, mfin, fun fuel hf => construct_mono e hf, fun fuel => ?_⟩
    have := construct_fuelLe (le_max_left fuel K) g junk
    rw [construct_mono e (le_max_right fuel K)] at this
    rcases this with h | h
    · exact Or.inr h
    · exact Or.inl h
  · intro root v w ws m path k vBar wBar m1 m2 nw hs h1 h2 hne h3 h4 h5
    obtain ⟨ρ, sinv2, hvo, hwo, hadj, hne'⟩ := shrink_site hv rfl hs h1 h2 hne h3 h4 h5
    obtain ⟨k3, m3, z0, L, L', e3, _⟩ := shrinkBlossom_spec hv sinv2 hvo hwo hadj hne'
    simp only [Matching.shrinkBlossom, bind_eq_ok] at e3
    obtain ⟨r, e4, ma, e5, e6⟩ := e3
    refine ⟨k3, r.1, r.2, ma, m3, fun fuel hf => ⟨findCommonAncestor_mono e4 hf,
      shrinkPath_mono e5 hf, shrinkPath_mono e6 hf⟩, fun fuel => ⟨?_, ?_⟩⟩
    · have := shrinkPath_fuelLe (le_max_left fuel k3) r.2 r.1 v w
      rw [shrinkPath_mono e5 (le_max_right fuel k3)] at this
      rcases this with h | h
      · exact Or.inr h
      · exact Or.inl h
    · have := shrinkPath_fuelLe (le_max_left fuel k3) ma r.1 w v
      rw [shrinkPath_mono e6 (le_max_right fuel k3)] at this
      rcases this with h | h
      · exact Or.inr h
      · exact Or.inl h

theorem shrinkPath_assertions_hold_witness :
    (∃ (K : Nat) (mfin : Matching), (∀ fuel, K ≤ fuel →
        Matching.construct fuel triangle noJunk = .ok mfin) ∧
      ∀ fuel, Matching.construct fuel triangle noJunk = .ok mfin ∨
        Matching.construct fuel triangle noJunk = .error .fuel) ∧
    (∀ (root v w : Vertex) (ws : List Vertex) (m : Matching) (path : Path) (k : Nat)
      (vBar wBar : Vertex) (m1 m2 : Matching) (nw : Node),
      SearchState triangle root (some (v, w :: ws)) m path →
      Matching.find k m v = .ok (vBar, m1) → Matching.find k m1 w = .ok (wBar, m2) →
      vBar ≠ wBar → vget m2.m_tree wBar = .ok nw → nw.m_clearToken = m2.m_clearToken →
      nw.m_depth % 2 = 0 →
      ∃ (K : Nat) (b : Vertex) (mb ma m3 : Matching),
        (∀ fuel, K ≤ fuel → Matching.findCommonAncestor fuel m2 v w = .ok (b, mb) ∧
          Matching.shrinkPath fuel mb b v w = .ok ma ∧
          Matching.shrinkPath fuel ma b w v = .ok m3) ∧
        ∀ fuel, (Matching.shrinkPath fuel mb b v w = .ok ma ∨
            Matching.shrinkPath fuel mb b v w = .error .fuel) ∧
          (Matching.shrinkPath fuel ma b w v = .ok m3 ∨
            Matching.shrinkPath fuel ma b w v = .error .fuel)) ∧
    (∀ (fuel : Nat) (m m' : Matching) (b v w u : Vertex),
      Matching.shrinkPathLoop fuel m b v w u = .ok m' → u ≠ b →
      u ≠ -1 ∧ (∃ mu, m.getMatchedVertex u = .ok mu ∧ mu ≠ -1) ∧
        ∃ (fuel' : Nat) (m6 : Matching) (u2 : Vertex), fuel = fuel' + 1 ∧
          Matching.shrinkPathLoop fuel' m6 b v w u2 = .ok m') :=
  shrinkPath_assertions_hold triangle triangle_valid noJunk

end Blossom

namespace Blossom

/-! ## The properties of `find` during a search -/

section
variable {n : Nat}

theorem makeUnion_unique {k k' : Nat} {m : Matching} {x y : Vertex} {r r' : Matching}
    (h : Matching.makeUnion k m x y = .ok r) (h' : Matching.makeUnion k' m x y = .ok r') :
    r' = r := by
  have e1 := makeUnion_mono h (le_max_left k k')
  have e2 := makeUnion_mono h' (le_max_right k k')
  rw [e1] at e2
  cases e2
  rfl

theorem makeRepresentative_unique {k k' : Nat} {m : Matching} {x : Vertex} {r r' : Matching}
    (h : Matching.makeRepresentative k m x = .ok r)
    (h' : Matching.makeRepresentative k' m x = .ok r') : r' = r := by
  have e1 := makeRepresentative_mono h (le_max_left k k')
  have e2 := makeRepresentative_mono h' (le_max_right k k')
  rw [e1] at e2
  cases e2
  rfl

theorem UFOk.after_find {m m' : Matching} (h : UFOk n m) {x r : Vertex} {k : Nat}
    (hf : Matching.find k m x = .ok (r, m')) : UFOk n m' := by
  obtain ⟨hs, ρ, hu, hc⟩ := h
  have hx : InR n x := by rw [← hs.tree]; exact find_inR hf
  obtain ⟨_, same, hu'⟩ := find_of_uf hs hu hx hf
  refine ⟨same.sized, ρ, hu', fun z hz ht => ?_⟩
  rw [same.token, same.c] at *
  exact hc z hz ht

theorem UFOk.after_union {m m' : Matching} (h : UFOk n m) {x y : Vertex} {k : Nat}
    (hy : m.token y = m.m_clearToken) (hx : m.token x = m.m_clearToken)
    (hf : Matching.makeUnion k m x y = .ok m') : UFOk n m' := by
  obtain ⟨hs, ρ, hu, hc⟩ := h
  have hf' := hf
  simp only [Matching.makeUnion, bind_eq_ok] at hf'
  obtain ⟨r1, e1, r2, e2, _⟩ := hf'
  have hxI : InR n x := by rw [← hs.tree]; exact find_inR e1
  obtain ⟨_, same1, _⟩ := find_of_uf hs hu hxI e1
  have hyI : InR n y := by rw [← same1.sized.tree]; exact find_inR e2
  obtain ⟨k', m'', e, same, hu'⟩ := makeUnion_spec hs hu hxI hyI (hc x hxI hx)
  have := makeUnion_unique hf e
  subst this
  refine ⟨same.sized, _, hu', fun z hz ht => ?_⟩
  rw [same.token, same.c] at *
  show m.token (if ρ z = ρ x then ρ y else ρ z) = _
  split
  · exact hc y hyI hy
  · exact hc z hz ht

theorem UFOk.after_repr {m m' : Matching} (h : UFOk n m) {x : Vertex} {k : Nat}
    (hx : m.token x = m.m_clearToken)
    (hf : Matching.makeRepresentative k m x = .ok m') : UFOk n m' := by
  obtain ⟨hs, ρ, hu, hc⟩ := h
  have hf' := hf
  simp only [Matching.makeRepresentative, bind_eq_ok] at hf'
  obtain ⟨r1, e1, _⟩ := hf'
  have hxI : InR n x := by rw [← hs.tree]; exact find_inR e1
  obtain ⟨k', m'', e, same, hu'⟩ := makeRepresentative_spec hs hu hxI hx (hc x hxI hx)
  have := makeRepresentative_unique hf e
  subst this
  refine ⟨same.sized, _, hu', fun z hz ht => ?_⟩
  rw [same.token, same.c] at *
  show m.token (if ρ z = ρ x then x else ρ z) = _
  split
  · exact hx
  · exact hc z hz ht

/-- The union-find structure stays well formed along the steps of a search. -/
theorem AfterUF.ok {m0 m : Matching} (h : AfterUF m0 m) (h0 : UFOk n m0) : UFOk n m := by
  induction h with
  | refl => exact h0
  | find _ hf ih => exact ih.after_find hf
  | union _ hx hy hf ih => exact ih.after_union hy hx hf
  | repr _ hx hf ih => exact ih.after_repr hx hf
  | @other m m' _ ht hc hmv hbr ih =>
    obtain ⟨hs, ρ, hu, hcl⟩ := ih
    refine ⟨⟨by rw [hmv, hs.mv], by rw [ht, hs.tree], by rw [hbr, hs.br]⟩, ρ,
      UF.uf_of_tree_eq ht hc hu, fun z hz hz' => ?_⟩
    rw [token_eq_of_tree ht, hc] at *
    exact hcl z hz hz'

theorem SearchState.ufOk {g : Graph} {root : Vertex} (hv : g.Valid)
    (hn : g.m_adjacencyList.length = n) {cur : Option (Vertex × List Vertex)} {m : Matching}
    {path : Path} (h : SearchState g root cur m path) : UFOk n m := by
  obtain ⟨⟨ρ, sinv, _⟩, _⟩ := h.searchInv hv hn
  exact ⟨sinv.sized, ρ, sinv.uf, fun x hx ht => (sinv.core.blossom.rho_in x ⟨hx, ht⟩).2⟩

/-- C17. In every state reached during a search of the constructor on a valid graph, also
    between the union-find operations of `examineEdge` and `shrinkBlossom`, and for every
    vertex `x`: when the stamp of `x` differs from the current token, `find(x)` returns `x`
    and leaves the state as it is; otherwise it returns a vertex `r` that carries the current
    token and points to itself, `find(r)` returns `r` and changes nothing, and `find(y)`
    returns the same vertex before and after the call, for every `y`. -/
theorem find_properties (g : Graph) (hv : g.Valid) (root : Vertex)
    (cur : Option (Vertex × List Vertex)) (m0 : Matching) (path : Path)
    (hs : SearchState g root cur m0 path) (m : Matching) (hm : AfterUF m0 m) (x : Vertex)
    (hx : InR g.m_adjacencyList.length x) :
    (m.token x ≠ m.m_clearToken → ∀ k, Matching.find (k + 1) m x = .ok (x, m)) ∧
    (m.token x = m.m_clearToken →
      ∃ (K : Nat) (r : Vertex) (m' : Matching),
        (∀ fuel, K ≤ fuel → Matching.find fuel m x = .ok (r, m')) ∧
        m'.token r = m'.m_clearToken ∧ m'.blossom r = r ∧
        (∀ k, Matching.find (k + 1) m' r = .ok (r, m')) ∧
        (∀ y ry, m'.Finds y ry ↔ m.Finds y ry)) := by
  obtain ⟨hsz, ρ, hu, hc⟩ := hm.ok (hs.ufOk hv rfl)
  have hx' : InR m.m_tree.length x := by rw [hsz.tree]; exact hx
  refine ⟨fun ht k => find_stale hx' ht k, fun ht => ?_⟩
  obtain ⟨K, m', e, same, hu'⟩ := find_uf hsz hu hx
  have hr : InR g.m_adjacencyList.length (ρ x) := hu.inR hx
  have htr : m'.token (ρ x) = m'.m_clearToken := by
    rw [same.token, same.c]; exact hc x hx ht
  have hbr : m'.blossom (ρ x) = ρ x := hu'.root_ptr hx htr
  refine ⟨K, ρ x, m', fun fuel hf => find_mono e hf, htr, hbr,
    fun k => find_root (by rw [same.sized.tree]; exact hr) htr hbr k, fun y ry => ?_⟩
  constructor
  · intro h
    obtain ⟨hy, rfl⟩ := Finds.eq_of_uf same.sized hu' h
    exact Finds.of_uf hsz hu hy
  · intro h
    obtain ⟨hy, rfl⟩ := Finds.eq_of_uf hsz hu h
    exact Finds.of_uf same.sized hu' hy

/-- The search from vertex 2 on the triangle reaches `triangleShrunk`. -/
theorem triangle_shrunkState : SearchState triangle 2 (some (2, [])) triangleShrunk [] :=
  SearchState.edge triangle_searchState
    (by decide : Matching.examineEdge 4 triangleGrown 2 2 0 [] = .ok (false, [], triangleShrunk))

theorem find_properties_witness :
    (triangleShrunk.token 0 ≠ triangleShrunk.m_clearToken →
      ∀ k, Matching.find (k + 1) triangleShrunk 0 = .ok (0, triangleShrunk)) ∧
    (triangleShrunk.token 0 = triangleShrunk.m_clearToken →
      ∃ (K : Nat) (r : Vertex) (m' : Matching),
        (∀ fuel, K ≤ fuel → Matching.find fuel triangleShrunk 0 = .ok (r, m')) ∧
        m'.token r = m'.m_clearToken ∧ m'.blossom r = r ∧
        (∀ k, Matching.find (k + 1) m' r = .ok (r, m')) ∧
        (∀ y ry, m'.Finds y ry ↔ triangleShrunk.Finds y ry)) :=
  find_properties triangle triangle_valid 2 (some (2, [])) triangleShrunk []
    triangle_shrunkState triangleShrunk AfterUF.refl 0 (by decide)

end

end Blossom

namespace Blossom

/-! ## Stamps -/

section
variable {n : Nat}

/-- The union-find operations do not write stamps. -/
theorem AfterUF.stamps {m0 m : Matching} (h : AfterUF m0 m) (h0 : UFOk n m0) :
    (∀ x, m.token x = m0.token x) ∧ m.m_clearToken = m0.m_clearToken := by
  induction h with
  | refl => exact ⟨fun _ => rfl, rfl⟩
  | @find m m' x r k hm hf ih =>
    have ok := hm.ok h0
    obtain ⟨hs, ρ, hu, _⟩ := ok
    have hx : InR n x := by rw [← hs.tree]; exact find_inR hf
    obtain ⟨_, same, _⟩ := find_of_uf hs hu hx hf
    exact ⟨fun z => (same.token z).trans (ih.1 z), same.c.trans ih.2⟩
  | @union m m' x y k hm hx hy hf ih =>
    obtain ⟨hs, ρ, hu, hc⟩ := hm.ok h0
    have hf' := hf
    simp only [Matching.makeUnion, bind_eq_ok] at hf'
    obtain ⟨r1, e1, r2, e2, _⟩ := hf'
    have hxI : InR n x := by rw [← hs.tree]; exact find_inR e1
    obtain ⟨_, same1, _⟩ := find_of_uf hs hu hxI e1
    have hyI : InR n y := by rw [← same1.sized.tree]; exact find_inR e2
    obtain ⟨k', m'', e, same, _⟩ := makeUnion_spec hs hu hxI hyI (hc x hxI hx)
    have := makeUnion_unique hf e
    subst this
    exact ⟨fun z => (same.token z).trans (ih.1 z), same.c.trans ih.2⟩
  | @repr m m' x k hm hx hf ih =>
    obtain ⟨hs, ρ, hu, hc⟩ := hm.ok h0
    have hf' := hf
    simp only [Matching.makeRepresentative, bind_eq_ok] at hf'
    obtain ⟨r1, e1, _⟩ := hf'
    have hxI : InR n x := by rw [← hs.tree]; exact find_inR e1
    obtain ⟨k', m'', e, same, _⟩ := makeRepresentative_spec hs hu hxI hx (hc x hxI hx)
    have := makeRepresentative_unique hf e
    subst this
    exact ⟨fun z => (same.token z).trans (ih.1 z), same.c.trans ih.2⟩
  | @other m m' _ ht hc _ _ ih =>
    exact ⟨fun z => (token_eq_of_tree ht z).trans (ih.1 z), hc.trans ih.2⟩

/-- The state in which a search enters its loop, seen through the stamps: when no stamp
    exceeds the token, the root is the only vertex with the new stamp, and `find` is the
    identity. -/
theorem startSearch_seen {m : Matching} (hl : m.m_tree.length = n)
    (htok : ∀ x, m.token x ≤ m.m_clearToken) {root : Vertex} (hr : InR n root) :
    (∀ x, (m.startSearch root).token x = (m.startSearch root).m_clearToken ↔ x = root) ∧
    (∀ x, (m.startSearch root).seen x = if x = root then some (0, -1, root) else none) ∧
    (∀ x, InR n x → ∀ k,
      Matching.find (k + 1) (m.startSearch root) x = .ok (x, m.startSearch root)) := by
  have hnode : ∀ x, (m.startSearch root).nodeAt x =
      if x = root then ⟨0, -1, root, m.m_clearToken + 1⟩ else m.nodeAt x := by
    intro x
    show lget (lset m.m_tree root _) _ x = _
    rw [lget_lset _ _ (by rw [hl]; exact hr)]
    rfl
  have hc : (m.startSearch root).m_clearToken = m.m_clearToken + 1 := rfl
  have htk : ∀ x, (m.startSearch root).token x = (m.startSearch root).m_clearToken ↔
      x = root := by
    intro x
    show ((m.startSearch root).nodeAt x).m_clearToken = _ ↔ _
    rw [hnode, hc]
    constructor
    · intro h
      by_contra hne
      rw [if_neg hne] at h
      have := htok x
      have h' : m.token x = m.m_clearToken + 1 := h
      omega
    · intro h
      rw [if_pos h]
  have hlen : (m.startSearch root).m_tree.length = n := by
    show (lset m.m_tree root _).length = n
    rw [length_lset, hl]
  refine ⟨htk, ?_, ?_⟩
  · intro x
    unfold Matching.seen
    by_cases hx : x = root
    · rw [if_pos ((htk x).mpr hx), if_pos hx]
      show some (((m.startSearch root).nodeAt x).m_depth, ((m.startSearch root).nodeAt x).m_parent,
        ((m.startSearch root).nodeAt x).m_blossom) = _
      rw [hnode, if_pos hx]
    · rw [if_neg (fun h => hx ((htk x).mp h)), if_neg hx]
  · intro x hx k
    by_cases hxr : x = root
    · refine find_root (by rw [hlen]; exact hx) ((htk x).mpr hxr) ?_ k
      show ((m.startSearch root).nodeAt x).m_blossom = x
      rw [hnode, if_pos hxr, hxr]
    · exact find_stale (by rw [hlen]; exact hx) (fun h => hxr ((htk x).mp h)) k


theorem resetNodes_token (m : Matching) (x : Vertex) : m.resetNodes.token x = m.token x := by
  show (lget (m.m_tree.map fun nd : Node => (⟨0, 0, 0, nd.m_clearToken⟩ : Node))
    ⟨0, 0, 0, 0⟩ x).m_clearToken = (lget m.m_tree ⟨0, 0, 0, 0⟩ x).m_clearToken
  unfold lget
  split
  · rw [List.getD_eq_getElem?_getD, List.getD_eq_getElem?_getD, List.getElem?_map]
    cases m.m_tree[x.toNat]? <;> rfl
  · rfl

/-- C18. At every point of construction on a valid graph, at the head of the main loop and
    in every state of a search, no vertex carries a stamp greater than `m_clearToken`.  So
    immediately after `findAugmentingPath` has incremented `m_clearToken` and initialised the
    root, the root is the only vertex with the current stamp and `find(x) = x` for every
    vertex `x`; and what the search sees of the nodes in that state is the same whatever
    depth, parent and blossom the vertices hold from earlier searches, in particular the same
    as in the state in which they have been reset for all vertices. -/
theorem stamps_never_ahead (g : Graph) (hv : g.Valid) :
    (∀ (wl : List Vertex) (path : Path) (m : Matching), MainState g wl path m →
      ∀ x, m.token x ≤ m.m_clearToken) ∧
    (∀ (root : Vertex) (cur : Option (Vertex × List Vertex)) (m0 m : Matching) (path : Path),
      SearchState g root cur m0 path → AfterUF m0 m → ∀ x, m.token x ≤ m.m_clearToken) ∧
    (∀ (root : Vertex) (vs : List Vertex) (path : Path) (m : Matching),
      MainState g (root :: vs) path m →
      (∀ fuel, Matching.findAugmentingPath fuel g m root path =
        Matching.searchLoop g root fuel (m.startSearch root) path) ∧
      (∀ x, (m.startSearch root).token x = (m.startSearch root).m_clearToken ↔ x = root) ∧
      (∀ x, InR g.m_adjacencyList.length x → ∀ k,
        Matching.find (k + 1) (m.startSearch root) x = .ok (x, m.startSearch root)) ∧
      ∀ m' : Matching, m'.m_clearToken = m.m_clearToken →
        m'.m_tree.length = m.m_tree.length → (∀ x, m'.token x = m.token x) →
        (∀ x, (m'.startSearch root).seen x = (m.startSearch root).seen x) ∧
        (∀ x, InR g.m_adjacencyList.length x → ∀ k,
          Matching.find (k + 1) (m'.startSearch root) x = .ok (x, m'.startSearch root))) ∧
    (∀ (root : Vertex) (vs : List Vertex) (path : Path) (m : Matching),
      MainState g (root :: vs) path m →
      ∀ x, (m.resetNodes.startSearch root).seen x = (m.startSearch root).seen x) := by
  refine ⟨?_, ?_, ?_, ?_⟩
  · intro wl path m hs
    exact (hs.inv hv rfl).1.tok_le
  · intro root cur m0 m path hs hm x
    obtain ⟨⟨ρ, sinv, _⟩, _⟩ := hs.searchInv hv rfl
    obtain ⟨h1, h2⟩ := hm.stamps (hs.ufOk hv rfl)
    rw [h1, h2]
    exact sinv.tok_le x
  · intro root vs path m hs
    obtain ⟨inv, _, hin⟩ := hs.inv hv rfl
    have hr := hin root (by simp)
    obtain ⟨a1, a2, a3⟩ := startSearch_seen inv.sized.tree inv.tok_le hr
    refine ⟨fun fuel => findAugmentingPath_eq_searchLoop inv.sized hr fuel path, a1, a3, ?_⟩
    intro m' hc hl ht
    obtain ⟨_, b2, b3⟩ := @startSearch_seen g.m_adjacencyList.length m' (hl.trans inv.sized.tree)
      (fun x => by rw [ht, hc]; exact inv.tok_le x) root hr
    exact ⟨fun x => by rw [a2, b2], b3⟩
  · intro root vs path m hs x
    obtain ⟨inv, _, hin⟩ := hs.inv hv rfl
    have hr := hin root (by simp)
    obtain ⟨_, a2, _⟩ := startSearch_seen inv.sized.tree inv.tok_le hr
    obtain ⟨_, b2, _⟩ := @startSearch_seen g.m_adjacencyList.length m.resetNodes
      (by show (m.m_tree.map _).length = _; rw [List.length_map]; exact inv.sized.tree)
      (fun y => by rw [resetNodes_token]; exact inv.tok_le y) root hr
    rw [a2, b2]

theorem stamps_never_ahead_witness :
    (∀ (wl : List Vertex) (path : Path) (m : Matching), MainState triangle wl path m →
      ∀ x, m.token x ≤ m.m_clearToken) ∧
    (∀ (root : Vertex) (cur : Option (Vertex × List Vertex)) (m0 m : Matching) (path : Path),
      SearchState triangle root cur m0 path → AfterUF m0 m →
        ∀ x, m.token x ≤ m.m_clearToken) ∧
    (∀ (root : Vertex) (vs : List Vertex) (path : Path) (m : Matching),
      MainState triangle (root :: vs) path m →
      (∀ fuel, Matching.findAugmentingPath fuel triangle m root path =
        Matching.searchLoop triangle root fuel (m.startSearch root) path) ∧
      (∀ x, (m.startSearch root).token x = (m.startSearch root).m_clearToken ↔ x = root) ∧
      (∀ x, InR triangle.m_adjacencyList.length x → ∀ k,
        Matching.find (k + 1) (m.startSearch root) x = .ok (x, m.startSearch root)) ∧
      ∀ m' : Matching, m'.m_clearToken = m.m_clearToken →
        m'.m_tree.length = m.m_tree.length → (∀ x, m'.token x = m.token x) →
        (∀ x, (m'.startSearch root).seen x = (m.startSearch root).seen x) ∧
        (∀ x, InR triangle.m_adjacencyList.length x → ∀ k,
          Matching.find (k + 1) (m'.startSearch root) x = .ok (x, m'.startSearch root))) ∧
    (∀ (root : Vertex) (vs : List Vertex) (path : Path) (m : Matching),
      MainState triangle (root :: vs) path m →
      ∀ x, (m.resetNodes.startSearch root).seen x = (m.startSearch root).seen x) :=
  stamps_never_ahead triangle triangle_valid

end

end Blossom

namespace Blossom

/-! ## The depths stored during a search -/

section
variable {g : Graph} {n : Nat} {root : Vertex}

/-- A depth stored in the tree is at most twice the number of vertices. -/
theorem DepthBound.le {V : View} (h : DepthBound n V) {x : Int} (hx : V.InTree n x) :
    V.depth x ≤ 2 * (n : Int) := by
  obtain ⟨S, h1, h2⟩ := h
  have hsub : S ⊆ (Finset.range n).image Int.ofNat := fun y hy =>
    mem_vertexSet.mpr (h1 y hy).1
  have hc := Finset.card_le_card hsub
  rw [card_vertexSet] at hc
  have := h2 x hx
  have hc' : (S.card : Int) ≤ (n : Int) := by exact_mod_cast hc
  omega

/-- A call of `extendTree` keeps the depths bounded: the tree gets two new vertices, and
    their depths are at most three more than a depth of the tree. -/
theorem DepthBound.extend {V : View} {ρ : Int → Int} {br : Int → Int × Int} {q : List Int}
    {v w : Int} (pre : ExtPre g n root V ρ br q v w) (h : DepthBound n V) :
    DepthBound n (V.extend v w) := by
  obtain ⟨S, h1, h2⟩ := h
  have hu : V.partner w ∉ S := fun hm => pre.u_new (h1 _ hm)
  have hw : w ∉ insert (V.partner w) S := by
    intro hm
    rcases Finset.mem_insert.mp hm with e | hm
    · exact pre.u_ne_w e.symm
    · exact pre.w_new (h1 _ hm)
  have hcard : ((insert w (insert (V.partner w) S)).card : Int) = (S.card : Int) + 2 := by
    rw [Finset.card_insert_of_not_mem hw, Finset.card_insert_of_not_mem hu]
    push_cast
    ring
  have hdv := h2 v pre.outer.1
  refine ⟨insert w (insert (V.partner w) S), ?_, ?_⟩
  · intro x hx
    rcases Finset.mem_insert.mp hx with e | hx
    · exact (pre.inTree_iff x).mpr (Or.inr (Or.inr e))
    · rcases Finset.mem_insert.mp hx with e | hx
      · exact (pre.inTree_iff x).mpr (Or.inr (Or.inl e))
      · exact pre.inTree_old (h1 x hx)
  · intro x hx
    rw [hcard]
    rcases (pre.inTree_iff x).mp hx with hold | e | e
    · rw [(pre.old_fields hold).1]
      have := h2 x hold
      omega
    · rw [e, pre.depth_u]
      omega
    · rw [e, pre.depth_w]
      omega

/-- The situation of `extendTree(v, w)` at the place where `examineEdge(v, w)` calls it. -/
theorem extend_pre (hv : g.Valid) (hn : g.m_adjacencyList.length = n) {v w u : Vertex}
    {ws : List Vertex} {m m1 m2 : Matching} {path : Path}
    (hs : SearchState g root (some (v, w :: ws)) m path) {k : Nat} {vBar wBar : Vertex}
    {nw : Node}
    (h1 : Matching.find k m v = .ok (vBar, m1)) (h2 : Matching.find k m1 w = .ok (wBar, m2))
    (h3 : vget m2.m_tree wBar = .ok nw) (h4 : nw.m_clearToken ≠ m2.m_clearToken)
    (h5 : vget m2.m_matchedVertex w = .ok u) (h6 : u ≠ -1) :
    ∃ ρ, SInv g n root m2 ρ ∧ ExtPre g n root m2.view ρ m2.bridge m2.m_queue v w ∧
      m2.view = m.view ∧ m2.partner w = u := by
  obtain ⟨ρ, _, sinv2, s12, _, e2, hvo, hadj, hwI, _⟩ := call_site hv hn hs h1 h2
  have hnode : m2.nodeAt wBar = nw := ((vget_eq_ok (⟨0, 0, 0, 0⟩ : Node)).mp h3).2
  have htok : m2.token (ρ w) ≠ m2.m_clearToken := by
    rw [← e2]; show (m2.nodeAt wBar).m_clearToken ≠ _; rw [hnode]; exact h4
  have hwN : ¬ m2.view.InTree n w := fun hT => htok (sinv2.core.blossom.rho_in w hT).2
  have hpw : m2.partner w = u := ((vget_eq_ok (-1)).mp h5).2
  exact ⟨ρ, sinv2, ⟨hv, sinv2.core, hvo, hadj, hwI, hwN, by
    show m2.partner w ≠ -1
    rw [hpw]; exact h6⟩, s12.view, hpw⟩

/-- A call of `examineEdge` that returns `false` leaves the tree as it is or extends it by
    `extendTree(v, w)`. -/
theorem examineEdge_view (hv : g.Valid) (hn : g.m_adjacencyList.length = n) {v w : Vertex}
    {ws : List Vertex} {m m1 : Matching} {path path1 : Path} {k : Nat}
    (hs : SearchState g root (some (v, w :: ws)) m path)
    (hstep : Matching.examineEdge k m root v w path = .ok (false, path1, m1)) :
    m1.view = m.view ∨
      ∃ (ρ : Int → Int) (br : Int → Int × Int) (q : List Int),
        ExtPre g n root m.view ρ br q v w ∧ m1.view = m.view.extend v w := by
  have hstep' := hstep
  simp only [Matching.examineEdge, bind_eq_ok] at hstep'
  obtain ⟨⟨a, ma⟩, h1, ⟨b, mb⟩, h2, h⟩ := hstep'
  obtain ⟨ρ, _, sinv2, s12, _, _, _, _, _, _⟩ := call_site hv hn hs h1 h2
  split at h
  · rename_i hne
    simp only [bind_eq_ok] at h
    obtain ⟨nw, h3, h⟩ := h
    split at h
    · rename_i h4
      simp only [bind_eq_ok] at h
      obtain ⟨u, h5, h⟩ := h
      split at h
      · simp only [bind_eq_ok] at h
        obtain ⟨p, _, h⟩ := h
        cases h
      · rename_i h6
        simp only [bind_eq_ok] at h
        obtain ⟨m3, e3, h⟩ := h
        cases h
        obtain ⟨ρ', sinv', pre, hview, _⟩ := extend_pre hv hn hs h1 h2 h3 h4 h5 h6
        obtain ⟨m3', e3', _, hv3, _⟩ := extendTree_spec (v := v) sinv'.sized sinv'.uf
          pre.outer.1.1 pre.w_in pre.u_in (fun e => pre.w_new ⟨pre.w_in, e⟩)
          (fun e => pre.u_new ⟨pre.u_in, e⟩) pre.u_ne_w
        rw [e3] at e3'
        cases e3'
        right
        refine ⟨ρ', mb.bridge, mb.m_queue, ?_, ?_⟩
        · have hview' : mb.view = m.view := hview
          rw [← hview']; exact pre
        · have hview' : mb.view = m.view := hview
          rw [hv3, hview']
    · split at h
      · rename_i h4 h5
        simp only [bind_eq_ok] at h
        obtain ⟨m3, e3, h⟩ := h
        cases h
        obtain ⟨ρ', sinv', hvo, hwo, hadj, hne'⟩ :=
          shrink_site hv hn hs h1 h2 hne h3 (not_not.mp h4) h5
        obtain ⟨k3, m3', _, _, _, e3', _, _, hv3, _⟩ :=
          shrinkBlossom_spec hv sinv' hvo hwo hadj hne'
        have f1 := shrinkBlossom_mono e3 (le_max_left k k3)
        have f2 := shrinkBlossom_mono e3' (le_max_right k k3)
        rw [f1] at f2
        cases f2
        left
        exact hv3.trans s12.view
      · cases h
        left
        exact s12.view
  · cases h
    left
    exact s12.view

/-- In every state of a search of the constructor on a valid graph the depths stored in
    the tree are bounded by the size of the tree. -/
theorem SearchState.depthBound (hv : g.Valid) (hn : g.m_adjacencyList.length = n)
    {cur : Option (Vertex × List Vertex)} {m : Matching} {path : Path}
    (h : SearchState g root cur m path) : DepthBound n m.view := by
  induction h with
  | @start vs path m hs hroot =>
    obtain ⟨inv, _, hin⟩ := hs.inv hv hn
    have hr := hin root (by simp)
    obtain ⟨a1, _, _⟩ := startSearch_seen inv.sized.tree inv.tok_le hr
    have hnode := startSearch_node inv.sized hr
    refine ⟨{root}, ?_, ?_⟩
    · intro x hx
      rw [Finset.mem_singleton] at hx
      exact ⟨hx ▸ hr, (a1 x).mpr hx⟩
    · intro x hx
      have hxr : x = root := (a1 x).mp hx.2
      have hd : (m.startSearch root).view.depth x = 0 := by
        show ((m.startSearch root).nodeAt x).m_depth = 0
        rw [hnode, if_pos hxr]
      rw [hd]
      simp
  | pop _ _ _ ih => exact ih
  | @edge m m1 path path1 v w ws k hs hstep ih =>
    rcases examineEdge_view hv hn hs hstep with e | ⟨ρ, br, q, pre, e⟩
    · rw [e]; exact ih
    · rw [e]; exact ih.extend pre
  | next _ ih => exact ih

/-- C19. For every call `extendTree(v, w)` that `examineEdge(v, w)` makes during a search of
    the constructor on a valid graph with `N` vertices, with `u = partner[w]`: `v`, `w` and
    `u` are vertices, `u` differs from `w`, and `0 <= depth[v] <= 2 N`.  The call returns,
    and afterwards `depth[w]` is `depth[v] + 1` when `depth[v]` is even and `depth[v] + 2`
    when it is odd, which is the least odd integer greater than `depth[v]`;
    `depth[u] = depth[w] + 1` is even; both are at most `2 N`, so that no sum of the call
    leaves the range of `int` when `2 N` is in it; `parent[w] = v` and `parent[u] = w`; `w`
    and `u` carry the current token, point to themselves and are returned by `find`; `u` has
    been appended to the queue; the other nodes, the token and the matching are unchanged. -/
theorem extendTree_effect (g : Graph) (hv : g.Valid) (root v w : Vertex) (ws : List Vertex)
    (m : Matching) (path : Path) (hs : SearchState g root (some (v, w :: ws)) m path)
    (k : Nat) (vBar wBar : Vertex) (m1 m2 : Matching) (nw : Node) (u : Vertex)
    (h1 : Matching.find k m v = .ok (vBar, m1)) (h2 : Matching.find k m1 w = .ok (wBar, m2))
    (hne : vBar ≠ wBar) (h3 : vget m2.m_tree wBar = .ok nw)
    (h4 : nw.m_clearToken ≠ m2.m_clearToken) (h5 : vget m2.m_matchedVertex w = .ok u)
    (h6 : u ≠ -1) :
    InR g.m_adjacencyList.length v ∧ InR g.m_adjacencyList.length w ∧
    InR g.m_adjacencyList.length u ∧ u ≠ w ∧
    0 ≤ m2.depth v ∧ m2.depth v ≤ 2 * (g.m_adjacencyList.length : Int) ∧
    ∃ m', m2.extendTree v w = .ok m' ∧
      Matching.examineEdge k m root v w path = .ok (false, path, m') ∧
      m'.depth w = (if m2.depth v % 2 = 0 then m2.depth v + 1 else m2.depth v + 2) ∧
      m'.depth w % 2 = 1 ∧ m2.depth v < m'.depth w ∧
      (∀ d : Int, d % 2 = 1 → m2.depth v < d → m'.depth w ≤ d) ∧
      m'.depth u = m'.depth w + 1 ∧ m'.depth u % 2 = 0 ∧
      m'.depth w ≤ 2 * (g.m_adjacencyList.length : Int) ∧
      m'.depth u ≤ 2 * (g.m_adjacencyList.length : Int) ∧
      m'.parent w = v ∧ m'.parent u = w ∧
      m'.token w = m'.m_clearToken ∧ m'.token u = m'.m_clearToken ∧
      m'.blossom w = w ∧ m'.blossom u = u ∧ m'.Finds w w ∧ m'.Finds u u ∧
      m'.m_queue = m2.m_queue ++ [u] ∧
      m'.m_clearToken = m2.m_clearToken ∧ m'.m_matchedVertex = m2.m_matchedVertex ∧
      m'.m_bridges = m2.m_bridges ∧ ∀ x, x ≠ w → x ≠ u → m'.nodeAt x = m2.nodeAt x := by
  obtain ⟨hsz, hvI, hwI, hmu, huI, huw, hd⟩ := extend_site hv rfl hs h1 h2 h3 h4 h5 h6
  obtain ⟨_, _, _, s12, _, _, hvo, _, _, _⟩ := call_site hv rfl hs h1 h2
  have hdb : m2.depth v ≤ 2 * (g.m_adjacencyList.length : Int) := by
    have := (hs.depthBound hv rfl).le (x := v) (by rw [← s12.view]; exact hvo.1)
    have e : m.view.depth v = m2.depth v := (congrFun (congrArg View.depth s12.view) v).symm
    rw [e] at this
    exact this
  obtain ⟨m', e, c1, c2, c3, c4, c5, c6, c7, c8, c9, c10, c11, c12, c13, c14, c15, c16, c17,
    c18, c19⟩ := extendTree_fields m2 g.m_adjacencyList.length hsz v w u hvI hwI hmu huI huw
  have hstep : Matching.examineEdge k m root v w path = .ok (false, path, m') := by
    rw [@examineEdge_unfold m k root v w path _ _ _ _ h1 h2, if_pos hne]
    simp only [bind_eq_ok]
    refine ⟨nw, h3, ?_⟩
    rw [if_pos h4]
    simp only [bind_eq_ok]
    refine ⟨u, h5, ?_⟩
    rw [if_neg h6]
    simp only [bind_eq_ok]
    exact ⟨m', e, rfl⟩
  have hdb' := (SearchState.edge hs hstep).depthBound hv rfl
  have hw' : m'.view.InTree g.m_adjacencyList.length w := ⟨hwI, c9⟩
  have hu' : m'.view.InTree g.m_adjacencyList.length u := ⟨huI, c10⟩
  exact ⟨hvI, hwI, huI, huw, hd, hdb, m', e, hstep, c1, c2, c3, c4, c5, c6, hdb'.le hw',
    hdb'.le hu', c7, c8, c9, c10, c11, c12, c13, c14, c15, c16, c17, c18, c19⟩

/-- The search from vertex 2 on the triangle takes the root from the queue. -/
theorem triangle_poppedState : SearchState triangle 2 (some (2, [1, 0])) trianglePopped [] :=
  SearchState.pop
    (SearchState.start (@MainState.start triangle noJunk [2] triangleStart (by decide))
      (by decide))
    (rfl : (triangleStart.startSearch 2).m_queue = 2 :: [])
    (by decide : vget triangle.m_adjacencyList 2 = .ok [1, 0])

theorem extendTree_effect_witness :
    InR triangle.m_adjacencyList.length 2 ∧ InR triangle.m_adjacencyList.length 1 ∧
    InR triangle.m_adjacencyList.length 0 ∧ (0 : Vertex) ≠ 1 ∧
    0 ≤ trianglePopped.depth 2 ∧
    trianglePopped.depth 2 ≤ 2 * (triangle.m_adjacencyList.length : Int) ∧
    ∃ m', trianglePopped.extendTree 2 1 = .ok m' ∧
      Matching.examineEdge 1 trianglePopped 2 2 1 [] = .ok (false, [], m') ∧
      m'.depth 1 = (if trianglePopped.depth 2 % 2 = 0 then trianglePopped.depth 2 + 1
        else trianglePopped.depth 2 + 2) ∧
      m'.depth 1 % 2 = 1 ∧ trianglePopped.depth 2 < m'.depth 1 ∧
      (∀ d : Int, d % 2 = 1 → trianglePopped.depth 2 < d → m'.depth 1 ≤ d) ∧
      m'.depth 0 = m'.depth 1 + 1 ∧ m'.depth 0 % 2 = 0 ∧
      m'.depth 1 ≤ 2 * (triangle.m_adjacencyList.length : Int) ∧
      m'.depth 0 ≤ 2 * (triangle.m_adjacencyList.length : Int) ∧
      m'.parent 1 = 2 ∧ m'.parent 0 = 1 ∧
      m'.token 1 = m'.m_clearToken ∧ m'.token 0 = m'.m_clearToken ∧
      m'.blossom 1 = 1 ∧ m'.blossom 0 = 0 ∧ m'.Finds 1 1 ∧ m'.Finds 0 0 ∧
      m'.m_queue = trianglePopped.m_queue ++ [0] ∧
      m'.m_clearToken = trianglePopped.m_clearToken ∧
      m'.m_matchedVertex = trianglePopped.m_matchedVertex ∧
      m'.m_bridges = trianglePopped.m_bridges ∧
      ∀ x, x ≠ 1 → x ≠ 0 → m'.nodeAt x = trianglePopped.nodeAt x :=
  extendTree_effect triangle triangle_valid 2 2 1 [0] trianglePopped [] triangle_poppedState
    1 2 1 trianglePopped trianglePopped ⟨0, 0, 0, 0⟩ 0 (by decide) (by decide) (by decide)
    (by decide) (by decide) (by decide) (by decide)

end

end Blossom
